import Mathlib

/-!
# oscit: the `Value` variant and the object tree

Shallow embedding of the two revisions of `oscit::Value` found in the repository, and of the
methods of `oscit::Object`:

* `Oscit`     : `src/include/oscit/value.h` (Empty/Any variants, shared reference-counted payloads);
* `Oscit.Old` : `src/oscit/value.h` (default Nil, every copy is a deep copy);
* `Oscit`     : `src/src/object.cpp` (children, reparenting, enumeration, batch calls,
  destruction), after the two revisions of `Value`.

A `Value` is the pair of its `type_` field and its anonymous union.  Payloads that the C++
code reaches through a pointer live in an explicit heap; an operation that would dereference
a pointer that is not backed by a live object of the right class yields `none`.
-/

namespace Oscit

/-- The scalar payload (`Real` is a `double` in the source); the code below only stores and
copies it, so it is kept as an uninterpreted number. -/
abbrev Real := Int

/-- Error codes (`ErrorCode`, declared in `oscit/error.h`). -/
abbrev ErrorCode := Nat

/-- Identifier of a type tag (`typedef uint TypeTagID`). -/
abbrev TypeTagID := Nat

/-- Heap addresses. -/
abbrev Addr := Nat

/-- The `ValueType` enumeration as used by `src/include/oscit/value.h`. -/
inductive ValueType
  | EMPTY_VALUE
  | NIL_VALUE
  | REAL_VALUE
  | STRING_VALUE
  | LIST_VALUE
  | ERROR_VALUE
  | HASH_VALUE
  | MATRIX_VALUE
  | ANY_VALUE
  deriving DecidableEq, Repr

open ValueType

/-- Modelled from the spec: `Matrix` (`oscit/matrix.h`), an opaque numeric buffer
(rows, cols, element kind). -/
structure Matrix where
  rows : Nat
  cols : Nat
  kind : Int
  data : List Real
  deriving DecidableEq, Repr

/-- The anonymous union of `Value`: either never written, or last written through the
scalar member `r`, or last written through one of the pointer members
(`string_`, `list_`, `error_`, `hash_`, `matrix_`; `none` is `NULL`). -/
inductive Slot
  | undef
  | real (r : Real)
  | ptr (p : Option Addr)
  deriving DecidableEq, Repr

/-- The class `Value`: the private field `type_` and the public union. -/
structure Value where
  type_ : ValueType
  u : Slot
  deriving DecidableEq, Repr

/-- The union read through its scalar member `r`. -/
def Value.r (v : Value) : Real :=
  match v.u with
  | Slot.real x => x
  | _ => 0

/-- The union read through one of its pointer members.  `Slot.undef` and `Slot.real` stand
for bits that are the address of no live object: a union whose bits are the address `p`,
whatever wrote them, is `Slot.ptr (some p)`. -/
def Value.ptr_ (v : Value) : Option Addr :=
  match v.u with
  | Slot.ptr p => p
  | _ => none

/-- Objects that a `Value` points to. -/
inductive Obj
  | string (s : String)
  | list (values : List Value)
  | error (code : ErrorCode) (message : String)
  | hash (entries : List (String × Value))
  | matrix (m : Matrix)
  deriving DecidableEq, Repr

/-- A heap object with the counter of `ReferenceCounted`. -/
structure Cell where
  ref_count : Nat
  obj : Obj
  deriving DecidableEq, Repr

/-- The heap: the address of an object is its index; a freed address holds `none` and is
never handed out again. -/
abbrev Heap := List (Option Cell)

/-- The live object at address `p`, if any. -/
def Heap.cell (h : Heap) (p : Addr) : Option Cell :=
  (h[p]?).join

/-- The operator `new`: a fresh address holding `o`, with a reference count of one. -/
def Heap.alloc (h : Heap) (o : Obj) : Addr × Heap :=
  (h.length, h ++ [some ⟨1, o⟩])

/-- Overwrite the object at `p`. -/
def Heap.write (h : Heap) (p : Addr) (c : Cell) : Heap :=
  h.set p (some c)

/-- The operator `delete`. -/
def Heap.free (h : Heap) (p : Addr) : Heap :=
  h.set p none

/-! ## Type tags -/

/-- `Value::is_empty` and its siblings. -/
def Value.is_empty (v : Value) : Bool := v.type_ == EMPTY_VALUE
def Value.is_nil (v : Value) : Bool := v.type_ == NIL_VALUE
def Value.is_real (v : Value) : Bool := v.type_ == REAL_VALUE
def Value.is_string (v : Value) : Bool := v.type_ == STRING_VALUE
def Value.is_list (v : Value) : Bool := v.type_ == LIST_VALUE
def Value.is_error (v : Value) : Bool := v.type_ == ERROR_VALUE
def Value.is_hash (v : Value) : Bool := v.type_ == HASH_VALUE
def Value.is_matrix (v : Value) : Bool := v.type_ == MATRIX_VALUE
def Value.is_any (v : Value) : Bool := v.type_ == ANY_VALUE

/-- Modelled from the spec: `List::type_tag` (`oscit/list.h` is not part of the sources).
"A List's tag is the concatenation of its elements' tags"; `elem_tag` is `Value::type_tag`
on the elements. -/
def List_type_tag (elem_tag : Value → Option String) (values : List Value) : Option String :=
  (values.mapM elem_tag).map String.join

/-- Modelled from the spec: `List::type_id` (`oscit/list.h` is not part of the sources).
"`type_id()` is a hash of the tag"; `H` is the hash of `oscit/thash.h`. -/
def List_type_id (H : String → TypeTagID) (elem_tag : Value → Option String)
    (values : List Value) : Option TypeTagID :=
  (List_type_tag elem_tag values).map H

/-- `Value::type_tag`.  The fuel bounds the nesting depth of Lists that is followed through
the heap; `none` is a dangling `list_` or exhausted fuel. -/
def Value.type_tag : Nat → Heap → Value → Option String
  | fuel, h, v =>
    match v.type_ with
    | REAL_VALUE => some "f"
    | ERROR_VALUE => some "s"
    | STRING_VALUE => some "s"
    | HASH_VALUE => some "H"
    | MATRIX_VALUE => some "M"
    | NIL_VALUE => some "N"
    | LIST_VALUE =>
      match fuel with
      | 0 => none
      | n + 1 =>
        match v.ptr_.bind h.cell with
        | some ⟨_, Obj.list values⟩ => List_type_tag (Value.type_tag n h) values
        | _ => none
    | ANY_VALUE => some "*"
    | EMPTY_VALUE => some ""

/-- `Value::type_id`, with the hash `H` of `oscit/thash.h` as a parameter.  The `switch` has no
case for `HASH_VALUE` and `MATRIX_VALUE`: they reach `default`. -/
def Value.type_id (H : String → TypeTagID) : Nat → Heap → Value → Option TypeTagID
  | fuel, h, v =>
    match v.type_ with
    | REAL_VALUE => some (H "f")
    | ERROR_VALUE => some (H "s")
    | STRING_VALUE => some (H "s")
    | NIL_VALUE => some (H "N")
    | LIST_VALUE =>
      match fuel with
      | 0 => none
      | n + 1 =>
        match v.ptr_.bind h.cell with
        | some ⟨_, Obj.list values⟩ => List_type_id H (Value.type_tag n h) values
        | _ => none
    | ANY_VALUE => some (H "*")
    | EMPTY_VALUE => some (H "")
    | _ => some (H "")

/-! ## Reference counting and the operations of `Value` -/

/-- Modelled from the spec: `ReferenceCounted::acquire` (`oscit/reference_counted.h` is not part
of the sources): "clone increments". -/
def acquire (h : Heap) (p : Option Addr) : Option Heap :=
  match p with
  | none => none
  | some a =>
    match h.cell a with
    | none => none
    | some c => some (h.write a { c with ref_count := c.ref_count + 1 })

/-- Modelled from the spec: `ReferenceCounted::release` (`oscit/reference_counted.h` is not part
of the sources): "drop decrements and frees at zero".  What the destructor of a freed List or
Hash does to the Values it holds is code of `List` and `THash` and is left out: the payloads
of these Values keep their counts. -/
def release (h : Heap) (a : Addr) : Option Heap :=
  match h.cell a with
  | none => none
  | some c =>
    if c.ref_count ≤ 1 then some (h.free a)
    else some (h.write a { c with ref_count := c.ref_count - 1 })

/-- `Value::clear` (private): release or delete the payload and reset the pointer. -/
def Value.clear (h : Heap) (v : Value) : Option (Value × Heap) :=
  match v.type_ with
  | LIST_VALUE | STRING_VALUE | ERROR_VALUE | HASH_VALUE =>
    match v.ptr_ with
    | none => some ({ v with u := Slot.ptr none }, h)
    | some p => (release h p).map fun h1 => ({ v with u := Slot.ptr none }, h1)
  | MATRIX_VALUE =>
    match v.ptr_ with
    | none => some ({ v with u := Slot.ptr none }, h)
    | some p =>
      match h.cell p with
      | none => none
      | some _ => some ({ v with u := Slot.ptr none }, h.free p)
  | _ => some (v, h)

/-- `Value::set_type_without_default`. -/
def Value.set_type_without_default (h : Heap) (v : Value) (type : ValueType) :
    Option (Value × Heap) :=
  (v.clear h).map fun (v1, h1) => ({ v1 with type_ := type }, h1)

/-- Modelled from the spec: the default `Error` built by `new Error` (`oscit/error.h` is not
part of the sources); the code and message it carries are not fixed by the spec. -/
def Error_default : Obj := Obj.error 0 ""

/-- Modelled from the spec: the default `Matrix` built by `new Matrix`. -/
def Matrix_default : Matrix := ⟨0, 0, 0, []⟩

/-- `Value::set_default`: initialise the union for the current `type_`. -/
def Value.set_default (h : Heap) (v : Value) : Value × Heap :=
  match v.type_ with
  | REAL_VALUE => ({ v with u := Slot.real 0 }, h)
  | STRING_VALUE =>
    let (p, h1) := h.alloc (Obj.string "")
    ({ v with u := Slot.ptr (some p) }, h1)
  | LIST_VALUE =>
    let (p, h1) := h.alloc (Obj.list [])
    ({ v with u := Slot.ptr (some p) }, h1)
  | ERROR_VALUE =>
    let (p, h1) := h.alloc Error_default
    ({ v with u := Slot.ptr (some p) }, h1)
  | HASH_VALUE =>
    let (p, h1) := h.alloc (Obj.hash [])
    ({ v with u := Slot.ptr (some p) }, h1)
  | MATRIX_VALUE =>
    let (p, h1) := h.alloc (Obj.matrix Matrix_default)
    ({ v with u := Slot.ptr (some p) }, h1)
  | _ => (v, h)

/-- `Value::set_type`. -/
def Value.set_type (h : Heap) (v : Value) (type : ValueType) : Option (Value × Heap) :=
  (v.set_type_without_default h type).map fun (v1, h1) => v1.set_default h1

/-- `Value::set_nil`. -/
def Value.set_nil (h : Heap) (v : Value) : Option (Value × Heap) :=
  v.set_type_without_default h NIL_VALUE

/-- `Value::set_any`. -/
def Value.set_any (h : Heap) (v : Value) : Option (Value × Heap) :=
  v.set_type_without_default h ANY_VALUE

/-- `Value::set(Real)`. -/
def Value.set_real (h : Heap) (v : Value) (real : Real) : Option (Value × Heap) :=
  (v.set_type_without_default h REAL_VALUE).map fun (v1, h1) =>
    ({ v1 with u := Slot.real real }, h1)

/-- `Value::set(const Matrix *)` with `set_matrix`: the argument is dereferenced by
`new Matrix(*matrix)` after the receiver has been cleared. -/
def Value.set_matrix_ptr (h : Heap) (v : Value) (matrix : Option Addr) :
    Option (Value × Heap) :=
  match v.set_type_without_default h MATRIX_VALUE with
  | none => none
  | some (v1, h1) =>
    match matrix.bind h1.cell with
    | some ⟨_, Obj.matrix m⟩ =>
      let (p, h2) := h1.alloc (Obj.matrix m)
      some ({ v1 with u := Slot.ptr (some p) }, h2)
    | _ => none

/-- The four private overloads `Value::share(const String *)`, `share(const Error *)`,
`share(const List *)` and `share(const Hash *)`; they differ only in the `type` they set. -/
def Value.share (h : Heap) (v : Value) (type : ValueType) (payload : Option Addr) :
    Option (Value × Heap) :=
  if v.ptr_ = payload then some (v, h)
  else
    match v.set_type_without_default h type with
    | none => none
    | some (v1, h1) =>
      (acquire h1 payload).map fun h2 => ({ v1 with u := Slot.ptr payload }, h2)

/-- `Value::operator=`. -/
def Value.assign (h : Heap) (v other : Value) : Option (Value × Heap) :=
  match other.type_ with
  | REAL_VALUE => v.set_real h other.r
  | STRING_VALUE => v.share h STRING_VALUE other.ptr_
  | LIST_VALUE => v.share h LIST_VALUE other.ptr_
  | ERROR_VALUE => v.share h ERROR_VALUE other.ptr_
  | HASH_VALUE => v.share h HASH_VALUE other.ptr_
  | MATRIX_VALUE => v.set_matrix_ptr h other.ptr_
  | ANY_VALUE => v.set_any h
  | EMPTY_VALUE => v.set_nil h
  | NIL_VALUE => v.set_nil h

/-- `Value::set(const Value &)`. -/
def Value.set (h : Heap) (v other : Value) : Option (Value × Heap) :=
  v.assign h other

/-- The default constructor `Value()`: the union is left unwritten; here the storage holds
no address of a live object (see `Value.new_on`). -/
def Value.new : Value := ⟨EMPTY_VALUE, Slot.undef⟩

/-- The constructor `Value(Real)`. -/
def Value.of_real (real : Real) : Value := ⟨REAL_VALUE, Slot.real real⟩

/-- The copy constructor `Value(const Value &)`, in storage whose union holds no address of a
live object (see `Value.copy_on`). -/
def Value.copy (h : Heap) (value : Value) : Option (Value × Heap) :=
  Value.new.assign h value

/-- The default constructor `Value()` in storage whose union holds `bits`: the constructor
writes `type_` only (`Value() : type_(EMPTY_VALUE) {}`), and the union keeps what the storage
held.  Bits that are the address `p` when they are read through a pointer member are
`Slot.ptr (some p)`, whatever wrote them. -/
def Value.new_on (bits : Slot) : Value := ⟨EMPTY_VALUE, bits⟩

/-- The copy constructor `Value(const Value &value) : type_(EMPTY_VALUE) { *this = value; }`
in storage whose union holds `bits`. -/
def Value.copy_on (bits : Slot) (h : Heap) (value : Value) : Option (Value × Heap) :=
  (Value.new_on bits).assign h value

/-- The statement `return value;` of a method that returns a `Value` by value, where `value`
is a local or a temporary of the method: the result is built by the copy constructor, in
storage whose union holds `bits`, and `value` is destroyed. -/
def Value.return_on (bits : Slot) (h : Heap) (value : Value) : Option (Value × Heap) :=
  match Value.copy_on bits h value with
  | none => none
  | some (res, h1) => (value.clear h1).map fun r => (res, r.2)

/-! ## Strings, errors and hashes -/

/-- `Value::str`: the string behind `string_`. -/
def Value.str (h : Heap) (v : Value) : Option String :=
  match v.ptr_.bind h.cell with
  | some ⟨_, Obj.string s⟩ => some s
  | _ => none

/-- `Value::append`: in place, on the payload of an Error or of a String; any other Value is
left alone.  `String::append` is that of `std::string`.  Modelled from the spec:
`Error::append` (`oscit/error.h` is not part of the sources) extends the message. -/
def Value.append (h : Heap) (v : Value) (str : String) : Option Heap :=
  if v.is_error then
    match v.ptr_ with
    | none => none
    | some p =>
      match h.cell p with
      | some ⟨n, Obj.error code message⟩ => some (h.write p ⟨n, Obj.error code (message ++ str)⟩)
      | _ => none
  else if v.is_string then
    match v.ptr_ with
    | none => none
    | some p =>
      match h.cell p with
      | some ⟨n, Obj.string s⟩ => some (h.write p ⟨n, Obj.string (s ++ str)⟩)
      | _ => none
  else some h

/-- Replace the value of `key`, keeping its place, or append `key` as the last entry. -/
def entries_set {α : Type} (entries : List (String × α)) (key : String) (val : α) :
    List (String × α) :=
  match entries with
  | [] => [(key, val)]
  | (k, x) :: rest =>
    if k = key then (k, val) :: rest else (k, x) :: entries_set rest key val

/-- Modelled from the spec: `THash<std::string, Value>::set` (`oscit/thash.h` is not part of
the sources), on a "key-unique, insertion-ordered" map.  The element kept by the table is a
copy of the argument made by the copy constructor of `Value`; an element that is replaced is
dropped without its payload being released (as in `release`). -/
def THash_set (h : Heap) (hash : Option Addr) (key : String) (val : Value) : Option Heap :=
  match Value.copy h val with
  | none => none
  | some (c, h1) =>
    match hash with
    | none => none
    | some p =>
      match h1.cell p with
      | some ⟨n, Obj.hash entries⟩ => some (h1.write p ⟨n, Obj.hash (entries_set entries key c)⟩)
      | _ => none

/-- Modelled from the spec: `THash<std::string, Value>::set` as in `THash_set`, where the
union of the storage in which the table builds its copy of the argument holds `bits`. -/
def THash_set_on (bits : Slot) (h : Heap) (hash : Option Addr) (key : String) (val : Value) :
    Option Heap :=
  match Value.copy_on bits h val with
  | none => none
  | some (c, h1) =>
    match hash with
    | none => none
    | some p =>
      match h1.cell p with
      | some ⟨n, Obj.hash entries⟩ => some (h1.write p ⟨n, Obj.hash (entries_set entries key c)⟩)
      | _ => none

/-- Modelled from the spec: `THash<std::string, Value>::get` (`oscit/thash.h` is not part of
the sources): when the key is present the element is assigned to `*retval` and the result is
`true`, otherwise `*retval` is left alone and the result is `false`. -/
def THash_get (h : Heap) (hash : Option Addr) (key : String) (retval : Value) :
    Option (Bool × Value × Heap) :=
  match hash.bind h.cell with
  | some ⟨_, Obj.hash entries⟩ =>
    match entries.lookup key with
    | none => some (false, retval, h)
    | some x => (retval.assign h x).map fun (r, h1) => (true, r, h1)
  | _ => none

/-- `Value::set(const std::string &key, const Value &val)`, for a `val` that is another
object than the receiver and is not held by its payload (see `Value.set_key_self_on`), the
table building its copy as in `THash_set`. -/
def Value.set_key (h : Heap) (v : Value) (key : String) (val : Value) :
    Option (Value × Heap) :=
  match (if v.is_hash then some (v, h) else v.set_type h HASH_VALUE) with
  | none => none
  | some (v1, h1) => (THash_set h1 v1.ptr_ key val).map fun h2 => (v1, h2)

/-- `Value::set(const std::string &key, const Value &val)`, for a `val` that is another
object than the receiver and is not held by its payload; the union of the storage in which
the table builds its copy holds `bits`. -/
def Value.set_key_on (bits : Slot) (h : Heap) (v : Value) (key : String) (val : Value) :
    Option (Value × Heap) :=
  match (if v.is_hash then some (v, h) else v.set_type h HASH_VALUE) with
  | none => none
  | some (v1, h1) => (THash_set_on bits h1 v1.ptr_ key val).map fun h2 => (v1, h2)

/-- `Value::get(const std::string &key, Value *retval)`. -/
def Value.get (h : Heap) (v : Value) (key : String) (retval : Value) :
    Option (Bool × Value × Heap) :=
  if !v.is_hash then some (false, retval, h)
  else THash_get h v.ptr_ key retval

/-! ## Well-formed Values -/

/-- The variant whose pointer member refers to an object of this class. -/
def Obj.type : Obj → ValueType
  | Obj.string _ => STRING_VALUE
  | Obj.list _ => LIST_VALUE
  | Obj.error _ _ => ERROR_VALUE
  | Obj.hash _ => HASH_VALUE
  | Obj.matrix _ => MATRIX_VALUE

/-- A Value is valid in a heap when the union agrees with `type_`: a String, List, Error,
Hash or Matrix points to a live object of its class, and any other Value holds no pointer. -/
def Value.valid (h : Heap) (v : Value) : Bool :=
  match v.type_ with
  | STRING_VALUE | LIST_VALUE | ERROR_VALUE | HASH_VALUE | MATRIX_VALUE =>
    match v.ptr_.bind h.cell with
    | some c => c.obj.type == v.type_
    | none => false
  | _ => v.ptr_ == none

/-- The variants without a payload behind a pointer. -/
def no_payload (t : ValueType) : Prop :=
  t = EMPTY_VALUE ∨ t = NIL_VALUE ∨ t = REAL_VALUE ∨ t = ANY_VALUE

/-- A String, List, Error or Hash. -/
def shareable (t : ValueType) : Prop :=
  t = STRING_VALUE ∨ t = LIST_VALUE ∨ t = ERROR_VALUE ∨ t = HASH_VALUE

/-- What `clear()` needs of a Value: the pointer of a String, List, Error, Hash or Matrix is
`NULL` or the address of a live object of its class; the union of any other Value is not
looked at. -/
def Value.clearable (h : Heap) (v : Value) : Bool :=
  match v.type_ with
  | STRING_VALUE | LIST_VALUE | ERROR_VALUE | HASH_VALUE | MATRIX_VALUE =>
    match v.ptr_ with
    | none => true
    | some p =>
      match h.cell p with
      | some c => c.obj.type == v.type_
      | none => false
  | _ => true

/-- Modelled from the spec: the global `gNilValue` (declared `extern`, defined outside the
sources), "a sentinel Nil". -/
def gNilValue : Value := ⟨NIL_VALUE, Slot.undef⟩

/-- Modelled from the spec: the keys of the global `gEmptyHash` (declared `extern`, defined
outside the sources), a Hash without entries. -/
def gEmptyHash_keys : List String := []

/-- `Value::operator[](const std::string &key)`: the local `res` is returned by value, and so
is `gNilValue`; here the local `res` stands for the result, in storage whose union holds no
address of a live object (see `Value.at_key_on`). -/
def Value.at_key (h : Heap) (v : Value) (key : String) : Option (Value × Heap) :=
  if !v.is_hash then Value.copy h gNilValue
  else
    match v.get h key Value.new with
    | none => none
    | some (true, res, h1) => some (res, h1)
    | some (false, _, h1) => Value.copy h1 gNilValue

/-- `Value::begin`: an iterator is the list of the keys still to be visited.  Modelled from
the spec: `THash::begin` (`oscit/thash.h` is not part of the sources) starts at the first key
in insertion order. -/
def Value.begin (h : Heap) (v : Value) : Option (List String) :=
  if v.is_hash then
    match v.ptr_.bind h.cell with
    | some ⟨_, Obj.hash entries⟩ => some (entries.map Prod.fst)
    | _ => none
  else some gEmptyHash_keys

/-- `Value::end`: the iterator with nothing left to visit. -/
def Value.end_ (h : Heap) (v : Value) : Option (List String) :=
  if v.is_hash then
    match v.ptr_.bind h.cell with
    | some ⟨_, Obj.hash _⟩ => some []
    | _ => none
  else some []

/-- `Value::size`.  Modelled from the spec: `List::size` (`oscit/list.h` is not part of the
sources) is the number of elements. -/
def Value.size (h : Heap) (v : Value) : Option Nat :=
  if v.type_ = LIST_VALUE then
    match v.ptr_.bind h.cell with
    | some ⟨_, Obj.list values⟩ => some values.length
    | _ => none
  else some 0

/-- Modelled from the spec: `List::operator[]` (`oscit/list.h` is not part of the sources):
the element at `pos`, and the sentinel Nil when `pos` is out of range. -/
def List_at (values : List Value) (pos : Nat) : Value :=
  (values[pos]?).getD gNilValue

/-- `Value::operator[](size_t pos)` and `Value::value_at`: `*((*list_)[pos])`, with no test
of `type_`; `none` is the dereference of a `list_` that does not point to a List. -/
def Value.at_pos (h : Heap) (v : Value) (pos : Nat) : Option Value :=
  match v.ptr_.bind h.cell with
  | some ⟨_, Obj.list values⟩ => some (List_at values pos)
  | _ => none

/-- `Value::error_code`.  Modelled from the spec: `Error::code` (`oscit/error.h` is not part
of the sources). -/
def Value.error_code (h : Heap) (v : Value) : Option ErrorCode :=
  match v.ptr_.bind h.cell with
  | some ⟨_, Obj.error code _⟩ => some code
  | _ => none

/-- `Value::error_message`.  Modelled from the spec: `Error::message` (`oscit/error.h` is not
part of the sources). -/
def Value.error_message (h : Heap) (v : Value) : Option String :=
  match v.ptr_.bind h.cell with
  | some ⟨_, Obj.error _ message⟩ => some message
  | _ => none

/-- `Value::type_from_char`.  The tag characters are those of the enumeration `ValueTypeTag`
('N', 'f', 's', 'H', 'M'); modelled from the spec: `ANY_TYPE_TAG` is '*'. -/
def type_from_char (c : Char) : ValueType :=
  if c = 'f' then REAL_VALUE
  else if c = 's' then STRING_VALUE
  else if c = 'H' then HASH_VALUE
  else if c = 'M' then MATRIX_VALUE
  else if c = '*' then ANY_VALUE
  else if c = 'N' then NIL_VALUE
  else EMPTY_VALUE

/-- The constructor `Value(char type_char)`. -/
def Value.of_char (h : Heap) (type_char : Char) : Option (Value × Heap) :=
  Value.new.set_type h (type_from_char type_char)

/-- Modelled from the spec: `List::set_type_tag` (`oscit/list.h` is not part of the sources):
"fixed arity, each slot default-initialized per its tag". -/
def List_set_type_tag (h : Heap) : List Char → Option (List Value × Heap)
  | [] => some ([], h)
  | c :: rest =>
    match Value.of_char h c with
    | none => none
    | some (e, h1) =>
      match List_set_type_tag h1 rest with
      | none => none
      | some (es, h2) => some (e :: es, h2)

/-- `Value::set_type_tag`; the pointer into the tag that the source returns is left out.
`type_tag[0]` of the empty string is its terminating NUL. -/
def Value.set_type_tag (h : Heap) (v : Value) (type_tag : String) : Option (Value × Heap) :=
  if type_tag.data.length > 1 then
    match v.set_type_without_default h LIST_VALUE with
    | none => none
    | some (v1, h1) =>
      let (p, h2) := h1.alloc (Obj.list [])
      match List_set_type_tag h2 type_tag.data with
      | none => none
      | some (values, h3) =>
        some ({ v1 with u := Slot.ptr (some p) }, h3.write p ⟨1, Obj.list values⟩)
  else v.set_type h (type_from_char (type_tag.data.headD (Char.ofNat 0)))

/-- The constructor `Value(TypeTag type_tag)`. -/
def Value.of_type_tag (h : Heap) (type_tag : String) : Option (Value × Heap) :=
  Value.new.set_type_tag h type_tag

/-- A sequence of keyed sets `v.set(k1, x1); v.set(k2, x2); ...` on one Value. -/
def Value.set_keys (h : Heap) (v : Value) : List (String × Value) → Option (Value × Heap)
  | [] => some (v, h)
  | (key, val) :: rest =>
    match v.set_key h key val with
    | none => none
    | some (v1, h1) => Value.set_keys h1 v1 rest

/-- The keys of a table after a key is set: a new key comes last. -/
def keys_insert (keys : List String) (key : String) : List String :=
  if key ∈ keys then keys else keys ++ [key]

/-! ## Same variant and content -/

/-- The object behind the pointer of a Value. -/
def Value.payload (h : Heap) (v : Value) : Option Obj :=
  (v.ptr_.bind h.cell).map Cell.obj

/-- The Value `a`, read in the heap `g`, has the same variant and content as the Value `b`,
read in the heap `h`: the same `type_`, the same scalar for a Real, and the same object
behind the pointer for a String, List, Error, Hash or Matrix. -/
def Value.alike (g : Heap) (a : Value) (h : Heap) (b : Value) : Prop :=
  a.type_ = b.type_ ∧ (a.type_ = REAL_VALUE → a.r = b.r) ∧
  (¬ no_payload a.type_ → a.payload g = b.payload h ∧ (a.payload g).isSome = true)

end Oscit

/-! # The earlier revision of `Value` (`src/oscit/value.h`)

Every copy is a deep copy: a payload is owned by exactly one Value, and the Values held by a
List or a Hash own theirs in turn.  A payload is therefore stored in the heap together with
everything below it, as a tree. -/

namespace Oscit.Old

/-- The `ValueType` enumeration of `src/oscit/value.h`. -/
inductive ValueType
  | NIL_VALUE
  | REAL_VALUE
  | STRING_VALUE
  | ERROR_VALUE
  | LIST_VALUE
  | HASH_VALUE
  | MATRIX_VALUE
  deriving DecidableEq, Repr

/-- The content of a Value together with the Values it holds. -/
inductive Tree
  | nil
  | real (r : Real)
  | string (s : String)
  | error (code : ErrorCode) (message : String)
  | list (values : List Tree)
  | hash (entries : List (String × Tree))
  | matrix (m : Matrix)

/-- The variant of a content. -/
def Tree.type : Tree → ValueType
  | Tree.nil => ValueType.NIL_VALUE
  | Tree.real _ => ValueType.REAL_VALUE
  | Tree.string _ => ValueType.STRING_VALUE
  | Tree.error _ _ => ValueType.ERROR_VALUE
  | Tree.list _ => ValueType.LIST_VALUE
  | Tree.hash _ => ValueType.HASH_VALUE
  | Tree.matrix _ => ValueType.MATRIX_VALUE

/-- The class `Value`: the private field `type_` and the public union (`r`, or one of the
pointers `s`, `list_`, `error_`, `hash_`, `matrix_`). -/
structure Value where
  type_ : ValueType
  u : Slot
  deriving DecidableEq, Repr

/-- The union read through its scalar member `r`. -/
def Value.r (v : Value) : Real :=
  match v.u with
  | Slot.real x => x
  | _ => 0

/-- The union read through one of its pointer members. -/
def Value.ptr_ (v : Value) : Option Addr :=
  match v.u with
  | Slot.ptr p => p
  | _ => none

/-- The heap: the address of a payload is its index; a freed address holds `none` and is
never handed out again. -/
abbrev Heap := List (Option Tree)

/-- The live payload at address `p`, if any. -/
def Heap.cell (h : Heap) (p : Addr) : Option Tree :=
  (h[p]?).join

/-- The operators `new` and `malloc`: a fresh address holding `t`. -/
def Heap.alloc (h : Heap) (t : Tree) : Addr × Heap :=
  (h.length, h ++ [some t])

/-- Overwrite the payload at `p`. -/
def Heap.write (h : Heap) (p : Addr) (t : Tree) : Heap :=
  h.set p (some t)

/-- The operators `delete` and `free`. -/
def Heap.free (h : Heap) (p : Addr) : Heap :=
  h.set p none

/-- `Value::is_nil` and its siblings. -/
def Value.is_nil (v : Value) : Bool := v.type_ == ValueType.NIL_VALUE
def Value.is_real (v : Value) : Bool := v.type_ == ValueType.REAL_VALUE
def Value.is_string (v : Value) : Bool := v.type_ == ValueType.STRING_VALUE
def Value.is_list (v : Value) : Bool := v.type_ == ValueType.LIST_VALUE
def Value.is_error (v : Value) : Bool := v.type_ == ValueType.ERROR_VALUE
def Value.is_hash (v : Value) : Bool := v.type_ == ValueType.HASH_VALUE
def Value.is_matrix (v : Value) : Bool := v.type_ == ValueType.MATRIX_VALUE

/-- The default constructor `Value()`. -/
def Value.new : Value := ⟨ValueType.NIL_VALUE, Slot.undef⟩

/-- The constructor `Value(Real)`. -/
def Value.of_real (real : Real) : Value := ⟨ValueType.REAL_VALUE, Slot.real real⟩

/-- `Value::clear`: delete the payload and reset the pointer. -/
def Value.clear (h : Heap) (v : Value) : Option (Value × Heap) :=
  match v.type_ with
  | ValueType.LIST_VALUE | ValueType.STRING_VALUE | ValueType.ERROR_VALUE
  | ValueType.HASH_VALUE | ValueType.MATRIX_VALUE =>
    match v.ptr_ with
    | none => some ({ v with u := Slot.ptr none }, h)
    | some p =>
      match h.cell p with
      | none => none
      | some _ => some ({ v with u := Slot.ptr none }, h.free p)
  | _ => some (v, h)

/-- `Value::set_type_without_default`. -/
def Value.set_type_without_default (h : Heap) (v : Value) (type : ValueType) :
    Option (Value × Heap) :=
  (v.clear h).map fun (v1, h1) => ({ v1 with type_ := type }, h1)

/-- `Value::set_default`.  Modelled from the spec: the default `Error` and the default
`Matrix` (`oscit/error.h` and `oscit/matrix.h` are not part of the sources). -/
def Value.set_default (h : Heap) (v : Value) : Value × Heap :=
  match v.type_ with
  | ValueType.REAL_VALUE => ({ v with u := Slot.real 0 }, h)
  | ValueType.STRING_VALUE =>
    let (p, h1) := h.alloc (Tree.string "")
    ({ v with u := Slot.ptr (some p) }, h1)
  | ValueType.LIST_VALUE =>
    let (p, h1) := h.alloc (Tree.list [])
    ({ v with u := Slot.ptr (some p) }, h1)
  | ValueType.ERROR_VALUE =>
    let (p, h1) := h.alloc (Tree.error 0 "")
    ({ v with u := Slot.ptr (some p) }, h1)
  | ValueType.HASH_VALUE =>
    let (p, h1) := h.alloc (Tree.hash [])
    ({ v with u := Slot.ptr (some p) }, h1)
  | ValueType.MATRIX_VALUE =>
    let (p, h1) := h.alloc (Tree.matrix Matrix_default)
    ({ v with u := Slot.ptr (some p) }, h1)
  | _ => (v, h)

/-- `Value::set_type`. -/
def Value.set_type (h : Heap) (v : Value) (type : ValueType) : Option (Value × Heap) :=
  (v.set_type_without_default h type).map fun (v1, h1) => v1.set_default h1

/-- `Value::set()`: change the value to nil. -/
def Value.set_nil (h : Heap) (v : Value) : Option (Value × Heap) :=
  v.set_type_without_default h ValueType.NIL_VALUE

/-- `Value::set(Real)`. -/
def Value.set_real (h : Heap) (v : Value) (real : Real) : Option (Value × Heap) :=
  (v.set_type_without_default h ValueType.REAL_VALUE).map fun (v1, h1) =>
    ({ v1 with u := Slot.real real }, h1)

/-- The overloads `Value::set(const char *)`, `set(const List *)`, `set(const Error *)`,
`set(const Hash *)` and `set(const Matrix *)`: each is `set_type_without_default(type)`
followed by `set_string`, `set_list`, `set_error`, `set_hash` or `set_matrix`, which store a
new copy of the object behind the argument.  Modelled from the spec: the copy constructors of
`List`, `Error`, `THash` and `Matrix` (not part of the sources) copy what the object holds. -/
def Value.set_ptr (h : Heap) (v : Value) (type : ValueType) (payload : Option Addr) :
    Option (Value × Heap) :=
  match v.set_type_without_default h type with
  | none => none
  | some (v1, h1) =>
    match payload.bind h1.cell with
    | none => none
    | some t =>
      if t.type = type then
        let (q, h2) := h1.alloc t
        some ({ v1 with u := Slot.ptr (some q) }, h2)
      else none

/-- `Value::operator=`. -/
def Value.assign (h : Heap) (v other : Value) : Option (Value × Heap) :=
  match other.type_ with
  | ValueType.REAL_VALUE => v.set_real h other.r
  | ValueType.STRING_VALUE => v.set_ptr h ValueType.STRING_VALUE other.ptr_
  | ValueType.LIST_VALUE => v.set_ptr h ValueType.LIST_VALUE other.ptr_
  | ValueType.ERROR_VALUE => v.set_ptr h ValueType.ERROR_VALUE other.ptr_
  | ValueType.HASH_VALUE => v.set_ptr h ValueType.HASH_VALUE other.ptr_
  | ValueType.MATRIX_VALUE => v.set_ptr h ValueType.MATRIX_VALUE other.ptr_
  | _ => v.set_nil h

/-- The copy constructor `Value(const Value &)`. -/
def Value.copy (h : Heap) (value : Value) : Option (Value × Heap) :=
  Value.new.assign h value

/-- The content of a Value: what a copy of it holds. -/
def Value.content (h : Heap) (v : Value) : Option Tree :=
  match v.type_ with
  | ValueType.NIL_VALUE => some Tree.nil
  | ValueType.REAL_VALUE => some (Tree.real v.r)
  | _ =>
    match v.ptr_.bind h.cell with
    | none => none
    | some t => if t.type = v.type_ then some t else none

/-- `Value::operator=` with a Value held by a container as its argument. -/
def Value.assign_tree (h : Heap) (v : Value) (other : Tree) : Option (Value × Heap) :=
  match other with
  | Tree.nil => v.set_nil h
  | Tree.real x => v.set_real h x
  | t =>
    match v.set_type_without_default h t.type with
    | none => none
    | some (v1, h1) =>
      let (q, h2) := h1.alloc t
      some ({ v1 with u := Slot.ptr (some q) }, h2)

/-- Modelled from the spec: `THash<std::string, Value>::set` (`oscit/thash.h` is not part of
the sources), on a "key-unique, insertion-ordered" map; the table keeps a copy of the
argument. -/
def THash_set (h : Heap) (hash : Option Addr) (key : String) (val : Value) : Option Heap :=
  match val.content h, hash with
  | some t, some p =>
    match h.cell p with
    | some (Tree.hash entries) => some (h.write p (Tree.hash (entries_set entries key t)))
    | _ => none
  | _, _ => none

/-- Modelled from the spec: `THash<std::string, Value>::get` (`oscit/thash.h` is not part of
the sources): when the key is present the element is assigned to `*retval` and the result is
`true`, otherwise `*retval` is left alone and the result is `false`. -/
def THash_get (h : Heap) (hash : Option Addr) (key : String) (retval : Value) :
    Option (Bool × Value × Heap) :=
  match hash.bind h.cell with
  | some (Tree.hash entries) =>
    match entries.lookup key with
    | none => some (false, retval, h)
    | some t => (retval.assign_tree h t).map fun (r, h1) => (true, r, h1)
  | _ => none

/-- `Value::set(const std::string &key, const Value &val)`. -/
def Value.set_key (h : Heap) (v : Value) (key : String) (val : Value) :
    Option (Value × Heap) :=
  match (if v.is_hash then some (v, h) else v.set_type h ValueType.HASH_VALUE) with
  | none => none
  | some (v1, h1) => (THash_set h1 v1.ptr_ key val).map fun h2 => (v1, h2)

/-- `Value::get(const std::string &key, Value *retval)`. -/
def Value.get (h : Heap) (v : Value) (key : String) (retval : Value) :
    Option (Bool × Value × Heap) :=
  if !v.is_hash then some (false, retval, h)
  else THash_get h v.ptr_ key retval

/-- A Value is valid in a heap when the union agrees with `type_`: a String, List, Error,
Hash or Matrix points to a live payload of its variant, and a Nil or a Real holds no
pointer. -/
def Value.valid (h : Heap) (v : Value) : Bool :=
  match v.type_ with
  | ValueType.NIL_VALUE | ValueType.REAL_VALUE => v.ptr_ == none
  | _ =>
    match v.ptr_.bind h.cell with
    | some t => t.type == v.type_
    | none => false

/-! ## Lists of the earlier revision -/

/-- Modelled from the spec: `List::push_back` (`oscit/list.h` is not part of the sources) on an
"ordered sequence of Value"; the List keeps a copy of the argument, which is represented by
its content, as is the temporary `Value(val)` of the caller. -/
def List_push_back (h : Heap) (list : Option Addr) (val : Value) : Option Heap :=
  match val.content h, list with
  | some t, some p =>
    match h.cell p with
    | some (Tree.list values) => some (h.write p (Tree.list (values ++ [t])))
    | _ => none
  | _, _ => none

/-- Modelled from the spec: `List::push_front` (`oscit/list.h` is not part of the sources). -/
def List_push_front (h : Heap) (list : Option Addr) (val : Value) : Option Heap :=
  match val.content h, list with
  | some t, some p =>
    match h.cell p with
    | some (Tree.list values) => some (h.write p (Tree.list (t :: values)))
    | _ => none
  | _, _ => none

/-- `Value::push_back(const Value &)`.  The fuel bounds the depth of the call
`push_back(tmp)`; the local `tmp` is destroyed when its block is left. -/
def Value.push_back : Nat → Heap → Value → Value → Option (Value × Heap)
  | fuel, h, v, val =>
    if v.is_nil then v.assign h val
    else
      let promoted : Option (Value × Heap) :=
        if !v.is_list then
          match Value.copy h v with
          | none => none
          | some (tmp, h1) =>
            match v.set_type h1 ValueType.LIST_VALUE with
            | none => none
            | some (v1, h2) =>
              let pushed : Option (Value × Heap) :=
                if !tmp.is_nil then
                  match fuel with
                  | 0 => none
                  | n + 1 => Value.push_back n h2 v1 tmp
                else some (v1, h2)
              match pushed with
              | none => none
              | some (v2, h3) => (tmp.clear h3).map fun (_, h4) => (v2, h4)
        else some (v, h)
      match promoted with
      | none => none
      | some (v3, h5) => (List_push_back h5 v3.ptr_ val).map fun h6 => (v3, h6)

/-- `Value::push_front(const Value &)`; the fuel is that of the call `push_back(tmp)`. -/
def Value.push_front (fuel : Nat) (h : Heap) (v val : Value) : Option (Value × Heap) :=
  if v.is_nil then v.assign h val
  else
    let promoted : Option (Value × Heap) :=
      if !v.is_list then
        match Value.copy h v with
        | none => none
        | some (tmp, h1) =>
          match v.set_type h1 ValueType.LIST_VALUE with
          | none => none
          | some (v1, h2) =>
            let pushed : Option (Value × Heap) :=
              if !tmp.is_nil then Value.push_back fuel h2 v1 tmp else some (v1, h2)
            match pushed with
            | none => none
            | some (v2, h3) => (tmp.clear h3).map fun (_, h4) => (v2, h4)
      else some (v, h)
    match promoted with
    | none => none
    | some (v3, h5) => (List_push_front h5 v3.ptr_ val).map fun h6 => (v3, h6)

/-- `Value::size`.  Modelled from the spec: `List::size` (`oscit/list.h` is not part of the
sources) is the number of elements. -/
def Value.size (h : Heap) (v : Value) : Option Nat :=
  if v.type_ = ValueType.LIST_VALUE then
    match v.ptr_.bind h.cell with
    | some (Tree.list values) => some values.length
    | _ => none
  else some 0

/-- `Value::operator[](size_t pos)`: `(*list_)[pos]`, with no test of `type_`.  Modelled from
the spec: `List::operator[]` (`oscit/list.h` is not part of the sources) is the element at
`pos`, and the sentinel Nil when `pos` is out of range. -/
def Value.at_pos (h : Heap) (v : Value) (pos : Nat) : Option Tree :=
  match v.ptr_.bind h.cell with
  | some (Tree.list values) => some ((values[pos]?).getD Tree.nil)
  | _ => none

end Oscit.Old

/-! # The object tree (`src/src/object.cpp`)

Shallow embedding of the methods of `oscit::Object` defined in `src/src/object.cpp`.  An
object is identified by its address; the objects live in an explicit store, and a method that
would dereference a pointer to an object that is not alive yields `none`.  A method is a
function on the store; the lock scopes of `register_child` and `unregister_child`
(`ScopedWrite`) are given as the steps `ChildOp.scopes`.
-/

namespace Oscit

open ValueType

/-- The address of an `Object`. -/
abbrev ObjectId := Nat

/-- Modelled from the spec: the class `Object` (`oscit/object.h` is not part of the sources),
reduced to the fields that `src/src/object.cpp` reads and writes.  `children_` is the
`THash<std::string, Object*>` (a key-unique, insertion-ordered table), `children_vector_` the
`std::vector<Object*>`, `aliases_` the `std::list<Alias*>`, `ref_count_` the counter of
`ReferenceCounted`.  A `Root` is an `Object` that also owns `objects_`, the index of the
objects by url, and an `Alias` is an `Object` that also holds `original_`. -/
structure Object where
  name_ : String
  url_ : String
  parent_ : Option ObjectId
  root_ : Option ObjectId
  context_ : Option Nat
  keep_last_ : Bool
  children_ : List (String × ObjectId)
  children_vector_ : List ObjectId
  aliases_ : List ObjectId
  type_ : Value
  ref_count_ : Nat
  objects_ : List (String × ObjectId)
  original_ : Option ObjectId
  deriving DecidableEq, Repr

/-- The store: the address of an object is its index; a deleted object leaves `none`. -/
abbrev World := List (Option Object)

/-- The live object at `id`, if any. -/
def World.get (w : World) (id : ObjectId) : Option Object :=
  (w[id]?).join

/-- Write the fields of the object at `id`; `none` when no object is alive there. -/
def World.update (w : World) (id : ObjectId) (f : Object → Object) : Option World :=
  match w.get id with
  | none => none
  | some o => some (w.set id (some (f o)))

/-- The operator `delete` on the storage of the object at `id`. -/
def World.free (w : World) (id : ObjectId) : World :=
  w.set id none

/-! ## Children -/

/-- Modelled from the spec: `THash<std::string, Object*>::remove_element` (`oscit/thash.h` is
not part of the sources): the keys that point to `element` are removed, the other entries keep
their order. -/
def THash_remove_element (entries : List (String × ObjectId)) (element : ObjectId) :
    List (String × ObjectId) :=
  entries.filter fun e => e.2 != element

/-- Modelled from the spec: the keys of a `THash` in the order of `begin()` ... `end()`
(`oscit/thash.h` is not part of the sources): insertion order. -/
def THash_keys (entries : List (String × ObjectId)) : List String :=
  entries.map Prod.fst

/-- `Object::unregister_child`: `children_.remove_element(object)`, then the loop that erases
the first occurrence of `object` in `children_vector_`. -/
def Object.unregister_child (w : World) (self object : ObjectId) : Option World :=
  match w.update self fun o =>
      { o with children_ := THash_remove_element o.children_ object } with
  | none => none
  | some w1 =>
    w1.update self fun o => { o with children_vector_ := o.children_vector_.erase object }

/-- Modelled from the spec: `Object::find_next_name` (`oscit/object.h` is not part of the
sources): the object "deterministically derives an alternate name"; the derivation `next` is a
parameter. -/
def Object.find_next_name (next : String → String) (w : World) (object : ObjectId) :
    Option World :=
  w.update object fun o => { o with name_ := next o.name_ }

/-- The loop `while (children_.get(object->name_, &child)) object->find_next_name();` of
`register_child`; the fuel bounds the number of iterations, `none` is exhausted fuel or a
dangling pointer. -/
def Object.get_valid_name (next : String → String) :
    Nat → World → ObjectId → ObjectId → Option World
  | 0, _, _, _ => none
  | fuel + 1, w, self, object =>
    match w.get self, w.get object with
    | some p, some o =>
      match p.children_.lookup o.name_ with
      | some _ =>
        match Object.find_next_name next w object with
        | none => none
        | some w1 => Object.get_valid_name next fuel w1 self object
      | none => some w
    | _, _ => none

/-- The loop of `register_child` that inserts `object` before the first `keep_last_` child;
when no child has `keep_last_` the loop ends without inserting. -/
def Object.insert_before_keep_last (w : World) (object : ObjectId) :
    List ObjectId → Option (List ObjectId)
  | [] => some []
  | c :: rest =>
    match w.get c with
    | none => none
    | some co =>
      if co.keep_last_ then some (object :: c :: rest)
      else (Object.insert_before_keep_last w object rest).map fun l => c :: l

/-- The test `object->keep_last_ || sz == 0 || !children_vector_[sz-1]->keep_last_` of
`register_child`, evaluated from left to right. -/
def Object.goes_last (w : World) (object : ObjectId) (vector : List ObjectId) : Option Bool :=
  match w.get object with
  | none => none
  | some o =>
    if o.keep_last_ then some true
    else if vector.length = 0 then some true
    else ((vector[vector.length - 1]?).bind w.get).map fun last => !last.keep_last_

/-- `Object::register_child`. -/
def Object.register_child (next : String → String) (fuel : Nat) (w : World)
    (self object : ObjectId) : Option World :=
  match Object.unregister_child w self object with
  | none => none
  | some w1 =>
    match Object.get_valid_name next fuel w1 self object with
    | none => none
    | some w2 =>
      match w2.get object with
      | none => none
      | some o =>
        match w2.update self fun p =>
            { p with children_ := entries_set p.children_ o.name_ object } with
        | none => none
        | some w3 =>
          match w3.get self with
          | none => none
          | some p =>
            match Object.goes_last w3 object p.children_vector_ with
            | none => none
            | some true =>
              w3.update self fun p =>
                { p with children_vector_ := p.children_vector_ ++ [object] }
            | some false =>
              match Object.insert_before_keep_last w3 object p.children_vector_ with
              | none => none
              | some vector => w3.update self fun p => { p with children_vector_ := vector }

/-- `Object::get_child(size_t index, ObjectHandle *handle)`: the object that the handle holds
when the result is `true`, `some none` when the result is `false`. -/
def Object.get_child_at (w : World) (self : ObjectId) (index : Nat) :
    Option (Option ObjectId) :=
  (w.get self).map fun o =>
    if index ≥ o.children_vector_.length then none else o.children_vector_[index]?

/-! ## Root, url and parent -/

/-- Modelled from the spec: `Root::register_object` (`oscit/root.h` is not part of the
sources): the root "owns a flat path→Object index populated/depopulated as nodes
attach/detach"; the object is entered under its url. -/
def Root_register_object (w : World) (root obj : ObjectId) : Option World :=
  match w.get obj with
  | none => none
  | some o => w.update root fun r => { r with objects_ := entries_set r.objects_ o.url_ obj }

/-- Modelled from the spec: `Root::unregister_object` (`oscit/root.h` is not part of the
sources): the object is removed from the index. -/
def Root_unregister_object (w : World) (root obj : ObjectId) : Option World :=
  w.update root fun r => { r with objects_ := THash_remove_element r.objects_ obj }

/-- `Object::set_root`. -/
def Object.set_root (w : World) (self : ObjectId) (root : Option ObjectId) : Option World :=
  match w.get self with
  | none => none
  | some o =>
    match (match o.root_ with
      | some r => Root_unregister_object w r self
      | none => some w) with
    | none => none
    | some w1 =>
      match w1.update self fun o => { o with root_ := root } with
      | none => none
      | some w2 =>
        match root with
        | some r => Root_register_object w2 r self
        | none => some w2

/-- Modelled from the spec: `Object::set_context` (`oscit/object.h` is not part of the
sources): the reference to the context is stored. -/
def Object.set_context (w : World) (self : ObjectId) (context : Option Nat) : Option World :=
  w.update self fun o => { o with context_ := context }

/-- The part of `Object::moved` that comes before the loop over the children: the url, the
root and the context of the object itself. -/
def Object.moved_self (w : World) (self : ObjectId) : Option World :=
  match w.get self with
  | none => none
  | some o =>
    match o.parent_ with
    | some parent =>
      match w.get parent with
      | none => none
      | some p =>
        match w.update self fun o => { o with url_ := p.url_ ++ "/" ++ o.name_ } with
        | none => none
        | some w1 =>
          match w1.get parent with
          | none => none
          | some p1 =>
            match Object.set_root w1 self p1.root_ with
            | none => none
            | some w2 =>
              match w2.get parent with
              | none => none
              | some p2 => Object.set_context w2 self p2.context_
    | none =>
      if o.root_ = some self then w.update self fun o => { o with url_ := "" }
      else
        match w.update self fun o => { o with url_ := o.name_ } with
        | none => none
        | some w1 => Object.set_root w1 self none

/-- `Object::moved`.  The fuel bounds the depth of the recursion through the children; the
loop runs over the keys of `children_` as they are when it starts (`moved` does not write any
`children_`). -/
def Object.moved : Nat → World → ObjectId → Option World
  | 0, _, _ => none
  | fuel + 1, w, self =>
    match Object.moved_self w self with
    | none => none
    | some w3 =>
      match w3.get self with
      | none => none
      | some o3 =>
        (THash_keys o3.children_).foldlM
          (fun wi key =>
            match o3.children_.lookup key with
            | some child => Object.moved fuel wi child
            | none => some wi)
          w3

/-- `Object::set_parent`.  Modelled from the spec: the hook `adopted()` (`oscit/object.h` is
not part of the sources) does nothing in the class `Object`. -/
def Object.set_parent (next : String → String) (fuel : Nat) (w : World) (self : ObjectId)
    (parent : Option ObjectId) : Option World :=
  match w.get self with
  | none => none
  | some o =>
    match (match o.parent_ with
      | some q => Object.unregister_child w q self
      | none => some w) with
    | none => none
    | some w1 =>
      match w1.update self fun o => { o with parent_ := parent } with
      | none => none
      | some w2 =>
        match (match parent with
          | some p => Object.register_child next fuel w2 p self
          | none => some w2) with
        | none => none
        | some w3 => Object.moved fuel w3 self

/-! ## Destruction -/

/-- `Object::register_alias`. -/
def Object.register_alias (w : World) (self alias_ : ObjectId) : Option World :=
  w.update self fun o => { o with aliases_ := o.aliases_ ++ [alias_] }

/-- `Object::unregister_alias`: `std::list::remove` erases every occurrence. -/
def Object.unregister_alias (w : World) (self alias_ : ObjectId) : Option World :=
  w.update self fun o => { o with aliases_ := o.aliases_.filter fun a => a != alias_ }

/-- Modelled from the spec: `Alias::unlink_original` (`oscit/alias.h` is not part of the
sources): the alias "nulls its forwarding reference". -/
def Alias_unlink_original (w : World) (alias_ : ObjectId) : Option World :=
  w.update alias_ fun a => { a with original_ := none }

/-- Modelled from the spec: `ReferenceCounted::release` on an `Object`
(`oscit/reference_counted.h` is not part of the sources): "drop decrements and frees at zero";
`delete_object` is the destructor followed by the deallocation. -/
def Object.release (delete_object : World → ObjectId → Option World) (w : World)
    (self : ObjectId) : Option World :=
  match w.get self with
  | none => none
  | some o =>
    if o.ref_count_ ≤ 1 then delete_object w self
    else w.update self fun o => { o with ref_count_ := o.ref_count_ - 1 }

/-- `Object::clear`, with the deletion of an object as a parameter; the loop runs over the
keys of `children_` as they are when it starts, and reads `children_` and `root_` again at
each step.  The method ends with `children_.clear()`; it does not write `children_vector_`. -/
def Object.clear_with (delete_object : World → ObjectId → Option World) (w : World)
    (self : ObjectId) : Option World :=
  match w.get self with
  | none => none
  | some o =>
    match (THash_keys o.children_).foldlM
        (fun wi key =>
          match wi.get self with
          | none => none
          | some oi =>
            match oi.children_.lookup key with
            | none => some wi
            | some child =>
              match wi.update child fun c => { c with parent_ := none } with
              | none => none
              | some w1 =>
                match (match oi.root_ with
                  | some r => Root_unregister_object w1 r child
                  | none => some w1) with
                | none => none
                | some w2 => Object.release delete_object w2 child)
        w with
    | none => none
    | some w3 => w3.update self fun o => { o with children_ := [] }

/-- `Object::~Object` followed by the deallocation of the object (`delete`).  The fuel bounds
the depth of the recursion through `clear` and through the aliases.  Modelled from the spec:
the destructor of `Alias` (`oscit/alias.h` is not part of the sources) has nothing to
unregister once `unlink_original` has run, so that `delete *it` is the destructor of
`Object` on the alias. -/
def Object.delete_ (next : String → String) : Nat → World → ObjectId → Option World
  | 0, _, _ => none
  | fuel + 1, w, self =>
    match w.get self with
    | none => none
    | some o =>
      match Object.set_parent next fuel w self none with
      | none => none
      | some w1 =>
        match Object.set_root w1 self none with
        | none => none
        | some w2 =>
          match o.aliases_.foldlM
              (fun wi alias_ =>
                match Alias_unlink_original wi alias_ with
                | none => none
                | some wj => Object.delete_ next fuel wj alias_)
              w2 with
          | none => none
          | some w3 =>
            match Object.clear_with (Object.delete_ next fuel) w3 self with
            | none => none
            | some w4 =>
              match w4.get self with
              | none => none
              | some _ => some (w4.free self)

/-- `Object::clear`. -/
def Object.clear (next : String → String) (fuel : Nat) (w : World) (self : ObjectId) :
    Option World :=
  Object.clear_with (Object.delete_ next fuel) w self

/-! ## States of the tree -/

/-- Modelled from the spec: the constructor `Object(name)` (`oscit/object.h` is not part of
the sources): a detached node without children, whose url is its bare name and whose
meta-type is Nil ("unknown"). -/
def Object.new (name : String) : Object :=
  { name_ := name, url_ := name, parent_ := none, root_ := none, context_ := none,
    keep_last_ := false, children_ := [], children_vector_ := [], aliases_ := [],
    type_ := gNilValue, ref_count_ := 1, objects_ := [], original_ := none }

/-- An object without the fields that `register_child` and `unregister_child` write (the
name of the object, the table and the vector of its parent). -/
def Object.without_children (o : Object) : Object :=
  { o with name_ := "", children_ := [], children_vector_ := [] }

/-- An object without the fields that `moved` writes (url, root and context of the object,
index of the root). -/
def Object.without_url (o : Object) : Object :=
  { o with url_ := "", root_ := none, context_ := none, objects_ := [] }

/-- The fields of an object that `moved` computes: url, root and context. -/
def Object.url_root (o : Object) : String × Option ObjectId × Option Nat :=
  (o.url_, o.root_, o.context_)

/-- The objects below the children of the keys `keys` of the node `self`, where `below` lists
the objects of the subtree of a child: every key leads to a child that is alive, has `self`
as its parent and the key as its name. -/
def Object.below_keys (below : ObjectId → Option (List ObjectId)) (w : World)
    (self : ObjectId) (children : List (String × ObjectId)) :
    List String → Option (List ObjectId)
  | [] => some []
  | key :: rest =>
    match children.lookup key with
    | none => Object.below_keys below w self children rest
    | some child =>
      match w.get child with
      | none => none
      | some c =>
        if c.parent_ = some self ∧ c.name_ = key then
          match below child, Object.below_keys below w self children rest with
          | some l, some ls => some (l ++ ls)
          | _, _ => none
        else none

/-- The objects of the subtree of `self`, the node first, when that subtree is made of live
objects linked by `children_` and `parent_` and its depth is below the fuel; `none`
otherwise. -/
def Object.subtree : Nat → World → ObjectId → Option (List ObjectId)
  | 0, _, _ => none
  | fuel + 1, w, self =>
    match w.get self with
    | none => none
    | some o =>
      (Object.below_keys (Object.subtree fuel w) w self o.children_
        (THash_keys o.children_)).map fun l => self :: l

/-- The store `w1` differs from `w` at most in the fields that `moved` writes. -/
def World.same_but_url (w w1 : World) : Prop :=
  ∀ j, (World.get w1 j).map Object.without_url = (w.get j).map Object.without_url

/-- Every `root_` of the store points to a live object. -/
def World.roots_alive (w : World) : Prop :=
  ∀ j x r, w.get j = some x → x.root_ = some r → ∃ ro, w.get r = some ro

/-- The object `m` has a parent among `inside`, and its url, root and context are those that
`moved` derives from that parent: `parent_url + "/" + name`, the root and the context of the
parent. -/
def Object.url_follows (w : World) (inside : List ObjectId) (m : ObjectId) : Prop :=
  ∃ om par opar, w.get m = some om ∧ om.parent_ = some par ∧ par ∈ inside ∧
    w.get par = some opar ∧
    om.url_root = (opar.url_ ++ "/" ++ om.name_, opar.root_, opar.context_)

/-- Every `root_` points to a live object. -/
def World.roots_ok (w : World) : Bool :=
  w.all fun slot =>
    match slot with
    | none => true
    | some o =>
      match o.root_ with
      | none => true
      | some r => (w.get r).isSome

/-- In every table `children_` the keys are distinct, and every entry leads to a live object
that has the key as its name and the owner of the table as its parent. -/
def World.children_ok (w : World) : Bool :=
  (List.range w.length).all fun p =>
    match w.get p with
    | none => true
    | some po =>
      decide (THash_keys po.children_).Nodup &&
      po.children_.all fun e =>
        match w.get e.2 with
        | none => false
        | some c => c.name_ == e.1 && c.parent_ == some p

/-- In every table `children_` the keys are distinct, and every entry leads to a live object
that has the key as its name. -/
def World.names_ok (w : World) : Bool :=
  w.all fun slot =>
    match slot with
    | none => true
    | some po =>
      decide (THash_keys po.children_).Nodup &&
      po.children_.all fun e =>
        match w.get e.2 with
        | none => false
        | some c => c.name_ == e.1

/-- The object reached from `self` through the children of the names `path`
(`get_child(name, ...)` at each step). -/
def Object.child_at_path (w : World) : ObjectId → List String → Option ObjectId
  | self, [] => some self
  | self, name :: rest =>
    match w.get self with
    | none => none
    | some o =>
      match o.children_.lookup name with
      | none => none
      | some child => Object.child_at_path w child rest

/-- The flag `keep_last_` of the object at `c` (`false` when no object is alive there). -/
def Object.keeps_last (w : World) (c : ObjectId) : Bool :=
  match w.get c with
  | some o => o.keep_last_
  | none => false

/-- The ordering rule of the enumeration vector: no child with `keep_last_` precedes a child
without it. -/
def Object.keep_last_rule (w : World) (vector : List ObjectId) : Prop :=
  vector.Pairwise fun c d => Object.keeps_last w c = true → Object.keeps_last w d = true

/-- A call `self->register_child(object)` or `self->unregister_child(object)`. -/
inductive ChildOp
  | register_child (object : ObjectId)
  | unregister_child (object : ObjectId)
  deriving DecidableEq, Repr

/-- A sequence of calls of `register_child` and `unregister_child` on the node `self`. -/
def Object.run_child_ops (next : String → String) (fuel : Nat) (self : ObjectId) :
    World → List ChildOp → Option World
  | w, [] => some w
  | w, ChildOp.register_child object :: rest =>
    match Object.register_child next fuel w self object with
    | none => none
    | some w1 => Object.run_child_ops next fuel self w1 rest
  | w, ChildOp.unregister_child object :: rest =>
    match Object.unregister_child w self object with
    | none => none
    | some w1 => Object.run_child_ops next fuel self w1 rest

/-! ## Lock scopes -/

/-- The constructors `Value(const char *)` and `Value(const std::string &)`. -/
def Value.of_string (h : Heap) (string : String) : Value × Heap :=
  let (p, h1) := h.alloc (Obj.string string)
  (⟨STRING_VALUE, Slot.ptr (some p)⟩, h1)

/-- Modelled from the spec: the error codes `INTERNAL_SERVER_ERROR` and `NOT_FOUND_ERROR`
(`oscit/error.h` is not part of the sources), the kinds "internal" and "not found"; the
numbers are those of HTTP. -/
def INTERNAL_SERVER_ERROR : ErrorCode := 500

/-- Modelled from the spec: see `INTERNAL_SERVER_ERROR`. -/
def NOT_FOUND_ERROR : ErrorCode := 404

/-- Modelled from the spec: `ErrorValue(code, message)` (the class is not part of the
sources), a Value built by the constructor `Value(ErrorCode, const char *)`. -/
def ErrorValue (h : Heap) (code : ErrorCode) (message : String) : Value × Heap :=
  let (p, h1) := h.alloc (Obj.error code message)
  (⟨ERROR_VALUE, Slot.ptr (some p)⟩, h1)

/-- Modelled from the spec: `ListValue()` (the class is not part of the sources), a List
Value without elements. -/
def ListValue (h : Heap) : Value × Heap :=
  let (p, h1) := h.alloc (Obj.list [])
  (⟨LIST_VALUE, Slot.ptr (some p)⟩, h1)

/-- Modelled from the spec: `List::push_back` (`oscit/list.h` is not part of the sources): the
List "owns its elements"; it keeps at its end a copy of the argument made by the copy
constructor of `Value`, in storage whose union holds `bits`. -/
def List_push_back_on (bits : Slot) (h : Heap) (list : Option Addr) (val : Value) :
    Option Heap :=
  match Value.copy_on bits h val with
  | none => none
  | some (c, h1) =>
    match list with
    | none => none
    | some p =>
      match h1.cell p with
      | some ⟨n, Obj.list values⟩ => some (h1.write p ⟨n, Obj.list (values ++ [c])⟩)
      | _ => none

/-- Modelled from the spec: `Value::push_back(const Value &)`, which
`src/include/oscit/value.h` only declares.  On a List the element is appended; the other
receivers follow the definition of the earlier revision (`src/oscit/value.h`): a Nil receiver
becomes a copy of the argument, any other receiver becomes a List that holds its previous
value (unless that is Nil) followed by the argument.  The unions of the storage of the local
`tmp`, of the element built for `tmp` and of the element built for `val` hold `bits 0`,
`bits 1` and `bits 2`. -/
def Value.push_back_on (bits : Nat → Slot) (h : Heap) (v val : Value) :
    Option (Value × Heap) :=
  if v.is_nil then v.set h val
  else
    match (if v.is_list then some (v, h)
      else
        match Value.copy_on (bits 0) h v with
        | none => none
        | some (tmp, h1) =>
          match v.set_type h1 LIST_VALUE with
          | none => none
          | some (v1, h2) =>
            match (if tmp.is_nil then some h2
              else List_push_back_on (bits 1) h2 v1.ptr_ tmp) with
            | none => none
            | some h3 => (tmp.clear h3).map fun r => (v1, r.2)) with
    | none => none
    | some (v2, h4) => (List_push_back_on (bits 2) h4 v2.ptr_ val).map fun h5 => (v2, h5)

/-- The template `Value::push_back(const T &elem)` on a string: `push_back(Value(elem))`,
after which the temporary Value is destroyed; `bits` is the storage of `Value.push_back_on`. -/
def Value.push_back_string_on (bits : Nat → Slot) (h : Heap) (v : Value) (elem : String) :
    Option (Value × Heap) :=
  let (tmp, h1) := Value.of_string h elem
  match v.push_back_on bits h1 tmp with
  | none => none
  | some (v1, h2) => (tmp.clear h2).map fun r => (v1, r.2)

/-- `Object::list`.  The statement `return list;` builds the result, a `const Value`, from
the local `ListValue list` with the copy constructor of `Value`, in storage whose union
holds `ret`, and then destroys `list`; `elem i` gives the storage used by the `push_back`
for the child at the index `i` of `children_vector_`. -/
def Object.list_on (ret : Slot) (elem : Nat → Nat → Slot) (w : World) (h : Heap)
    (self : ObjectId) : Option (Value × Heap) :=
  match w.get self with
  | none => none
  | some o =>
    match o.children_vector_.enum.foldlM
      (fun (acc : Value × Heap) (ic : Nat × ObjectId) =>
        match w.get ic.2 with
        | none => none
        | some obj =>
          if obj.children_.isEmpty then
            acc.1.push_back_string_on (elem ic.1) acc.2 obj.name_
          else acc.1.push_back_string_on (elem ic.1) acc.2 (obj.name_ ++ "/"))
      (ListValue h) with
    | none => none
    | some (list, h1) => Value.return_on ret h1 list

/-- Modelled from the spec: `List::set_value_at` (`oscit/list.h` is not part of the sources):
the element at `pos` is assigned the argument; a `pos` out of range changes nothing. -/
def List_set_value_at (h : Heap) (list : Option Addr) (pos : Nat) (val : Value) :
    Option Heap :=
  match list with
  | none => none
  | some p =>
    match h.cell p with
    | some ⟨_, Obj.list values⟩ =>
      match values[pos]? with
      | none => some h
      | some e =>
        match e.assign h val with
        | none => none
        | some (e1, h1) =>
          match h1.cell p with
          | some ⟨n1, Obj.list values1⟩ => some (h1.write p ⟨n1, Obj.list (values1.set pos e1)⟩)
          | _ => none
    | _ => none

/-- `Value::set_value_at`. -/
def Value.set_value_at (h : Heap) (v : Value) (pos : Nat) (val : Value) : Option Heap :=
  if !v.is_list then some h
  else List_set_value_at h v.ptr_ pos val

/-- `Object::type_with_current_value`.  `trigger` is the virtual method of the node, `H` the
hash of the type tags and the fuel bounds the nesting of Lists followed by `type_tag` and
`type_id`.  A Value that is returned is a copy of a local or of a temporary, which is then
destroyed: the local or temporary itself stands for that copy; the other locals (`type`,
`current`) are destroyed on return.  Every copy is built in storage whose union holds no
address of a live object (see `Object.type_with_current_value_on`). -/
def Object.type_with_current_value (H : String → TypeTagID) (fuel : Nat)
    (trigger : Heap → Value → Option (Value × Heap)) (w : World) (h : Heap)
    (self : ObjectId) : Option (Value × Heap) :=
  match w.get self with
  | none => none
  | some o =>
    match Value.copy h o.type_ with
    | none => none
    | some (type, h1) =>
      if type.is_string then some (type, h1)
      else if !type.is_list then
        match type.type_tag fuel h1 with
        | none => none
        | some tag =>
          let (error, h2) := ErrorValue h1 INTERNAL_SERVER_ERROR
            "Invalid meta type. Should be a list (found '"
          match error.append h2 tag with
          | none => none
          | some h3 =>
            match error.append h3 "')." with
            | none => none
            | some h4 => (type.clear h4).map fun r => (error, r.2)
      else
        match type.at_pos h1 0 with
        | none => none
        | some sample =>
          if !sample.is_any && !sample.is_nil then
            match trigger h1 gNilValue with
            | none => none
            | some (current, h2) =>
              if current.is_nil then (current.clear h2).map fun r => (type, r.2)
              else
                match type.at_pos h2 0 with
                | none => none
                | some sample2 =>
                  match current.type_id H fuel h2, sample2.type_id H fuel h2 with
                  | some id_current, some id_sample =>
                    if id_current ≠ id_sample then
                      match sample2.type_tag fuel h2, current.type_tag fuel h2 with
                      | some tag_sample, some tag_current =>
                        let (error, h3) := ErrorValue h2 INTERNAL_SERVER_ERROR
                          "Current value type not matching meta type (expected '"
                        match error.append h3 tag_sample with
                        | none => none
                        | some h4 =>
                          match error.append h4 "' found '" with
                          | none => none
                          | some h5 =>
                            match error.append h5 tag_current with
                            | none => none
                            | some h6 =>
                              match error.append h6 "')." with
                              | none => none
                              | some h7 =>
                                match current.clear h7 with
                                | none => none
                                | some (_, h8) => (type.clear h8).map fun r => (error, r.2)
                      | _, _ => none
                    else
                      match type.set_value_at h2 0 current with
                      | none => none
                      | some h3 => (current.clear h3).map fun r => (type, r.2)
                  | _, _ => none
          else some (type, h1)

/-- `Object::type_with_current_value`, as in `Object.type_with_current_value`, where the
union of the storage of the local `type` holds `type_bits` and that of the storage of the
result holds `ret_bits`.  The local `type` is built by the copy constructor
(`Value type = type_;`), and so is the result at each `return`, after which the temporary
`ErrorValue` and the locals (`current`, then `type`) are destroyed.  `current` is the Value
that `trigger` returns. -/
def Object.type_with_current_value_on (type_bits ret_bits : Slot) (H : String → TypeTagID)
    (fuel : Nat) (trigger : Heap → Value → Option (Value × Heap)) (w : World) (h : Heap)
    (self : ObjectId) : Option (Value × Heap) :=
  match w.get self with
  | none => none
  | some o =>
    match Value.copy_on type_bits h o.type_ with
    | none => none
    | some (type, h1) =>
      if type.is_string then Value.return_on ret_bits h1 type
      else if !type.is_list then
        match type.type_tag fuel h1 with
        | none => none
        | some tag =>
          let (error, h2) := ErrorValue h1 INTERNAL_SERVER_ERROR
            "Invalid meta type. Should be a list (found '"
          match error.append h2 tag with
          | none => none
          | some h3 =>
            match error.append h3 "')." with
            | none => none
            | some h4 =>
              match Value.return_on ret_bits h4 error with
              | none => none
              | some (res, h5) => (type.clear h5).map fun r => (res, r.2)
      else
        match type.at_pos h1 0 with
        | none => none
        | some sample =>
          if !sample.is_any && !sample.is_nil then
            match trigger h1 gNilValue with
            | none => none
            | some (current, h2) =>
              if current.is_nil then
                match current.clear h2 with
                | none => none
                | some (_, h3) => Value.return_on ret_bits h3 type
              else
                match type.at_pos h2 0 with
                | none => none
                | some sample2 =>
                  match current.type_id H fuel h2, sample2.type_id H fuel h2 with
                  | some id_current, some id_sample =>
                    if id_current ≠ id_sample then
                      match sample2.type_tag fuel h2, current.type_tag fuel h2 with
                      | some tag_sample, some tag_current =>
                        let (error, h3) := ErrorValue h2 INTERNAL_SERVER_ERROR
                          "Current value type not matching meta type (expected '"
                        match error.append h3 tag_sample with
                        | none => none
                        | some h4 =>
                          match error.append h4 "' found '" with
                          | none => none
                          | some h5 =>
                            match error.append h5 tag_current with
                            | none => none
                            | some h6 =>
                              match error.append h6 "')." with
                              | none => none
                              | some h7 =>
                                match Value.return_on ret_bits h7 error with
                                | none => none
                                | some (res, h8) =>
                                  match current.clear h8 with
                                  | none => none
                                  | some (_, h9) => (type.clear h9).map fun r => (res, r.2)
                      | _, _ => none
                    else
                      match type.set_value_at h2 0 current with
                      | none => none
                      | some h3 =>
                        match current.clear h3 with
                        | none => none
                        | some (_, h4) => Value.return_on ret_bits h4 type
                  | _, _ => none
          else Value.return_on ret_bits h1 type

/-! ## Batch calls -/

/-- One turn of the loop of `Object::from_hash`, on the key `key`.  Modelled from the spec:
`Root::call(handle, val, NULL)` (`oscit/root.h` is not part of the sources) "invokes
`trigger(value)`" on the target of the handle; it is the parameter `call`, which works on the
heap of the Values and leaves the tree alone.  The loop runs over the keys of `val` as they
are when it starts; the state of the loop is the local `param`, `*result` and the heap, and
`o` is the node.  `none` is the dereference of a null `root_` or of a dangling pointer.  The
temporaries (the Value that `call` returns, the `ErrorValue`) are destroyed after the
statement that uses them, the local `param` on return.  `elem key` is what the union of the
storage holds in which the table of `*result` builds the element for `key`. -/
def Object.from_hash_turn (elem : String → Slot)
    (call : Heap → ObjectId → Value → Option (Value × Heap))
    (o : Object) (val : Value) (st : Value × Value × Heap) (key : String) :
    Option (Value × Value × Heap) :=
  match (match o.children_.lookup key with
    | some child =>
      match val.get st.2.2 key st.1 with
      | none => none
      | some (found, param, h1) => some (if found then some child else none, param, h1)
    | none => some (none, st.1, st.2.2)) with
  | none => none
  | some (some child, param, h1) =>
    match o.root_ with
    | none => none
    | some _ =>
      match call h1 child param with
      | none => none
      | some (ret, h2) =>
        match st.2.1.set_key_on (elem key) h2 key ret with
        | none => none
        | some (result1, h3) =>
          (ret.clear h3).map fun (r : Value × Heap) => (param, result1, r.2)
  | some (none, param, h1) =>
    match st.2.1.set_key_on (elem key) (ErrorValue h1 NOT_FOUND_ERROR key).2 key
        (ErrorValue h1 NOT_FOUND_ERROR key).1 with
    | none => none
    | some (result1, h3) =>
      ((ErrorValue h1 NOT_FOUND_ERROR key).1.clear h3).map fun (r : Value × Heap) =>
        (param, result1, r.2)

/-- `Object::from_hash`: the loop of `from_hash_turn` over the keys of `val`, from a `param`
built by the default constructor (`Value param;`) in storage whose union holds
`param_bits`. -/
def Object.from_hash (param_bits : Slot) (elem : String → Slot)
    (call : Heap → ObjectId → Value → Option (Value × Heap)) (w : World)
    (h : Heap) (self : ObjectId) (val result : Value) : Option (Value × Heap) :=
  match w.get self, val.end_ h, val.begin h with
  | some o, some _, some keys =>
    match keys.foldlM (Object.from_hash_turn elem call o val)
        (Value.new_on param_bits, result, h) with
    | none => none
    | some (param, result1, h1) =>
      (param.clear h1).map fun (r : Value × Heap) => (result1, r.2)
  | _, _, _ => none

/-- One turn of the loop of `Object::set_all_ok`, with `call` as in `from_hash`.  The state
holds, next to `param`, `all_ok` and the heap, the list of the calls that were made, in
order: the child that was called and whether the Value it returned is an Error. -/
def Object.set_all_ok_turn (call : Heap → ObjectId → Value → Option (Value × Heap))
    (o : Object) (val : Value) (st : Value × Bool × List (ObjectId × Bool) × Heap)
    (key : String) : Option (Value × Bool × List (ObjectId × Bool) × Heap) :=
  match (match o.children_.lookup key with
    | some child =>
      match val.get st.2.2.2 key st.1 with
      | none => none
      | some (found, param, h1) => some (if found then some child else none, param, h1)
    | none => some (none, st.1, st.2.2.2)) with
  | none => none
  | some (some child, param, h1) =>
    match o.root_ with
    | none => none
    | some _ =>
      match call h1 child param with
      | none => none
      | some (ret, h2) =>
        (ret.clear h2).map fun (r : Value × Heap) =>
          (param, !ret.is_error && st.2.1, st.2.2.1 ++ [(child, ret.is_error)], r.2)
  | some (none, param, h1) => some (param, false, st.2.2.1, h1)

/-- `Object::set_all_ok`: the loop of `set_all_ok_turn` over the keys of `val`, from
`all_ok = true` and a `param` built by the default constructor (`Value param;`) in storage
whose union holds `param_bits`. -/
def Object.set_all_ok (param_bits : Slot)
    (call : Heap → ObjectId → Value → Option (Value × Heap)) (w : World)
    (h : Heap) (self : ObjectId) (val : Value) :
    Option (Bool × List (ObjectId × Bool) × Heap) :=
  match w.get self, val.end_ h, val.begin h with
  | some o, some _, some keys =>
    match keys.foldlM (Object.set_all_ok_turn call o val)
        (Value.new_on param_bits, true, [], h) with
    | none => none
    | some (param, all_ok, calls, h1) =>
      (param.clear h1).map fun (r : Value × Heap) => (all_ok, calls, r.2)
  | _, _, _ => none

/-- `Object::insert_in_hash`.  `trigger` is the virtual method of each node, the fuel bounds
the depth of the recursion through the children.  The local `obj_hash` of the loop is built
by the default constructor and destroyed at the end of each turn; the Value that `trigger`
returns is a temporary.  Modelled from the spec: `Object::name` (`oscit/object.h` is not part
of the sources) is the name of the node. -/
def Object.insert_in_hash (trigger : ObjectId → Heap → Value → Option (Value × Heap)) :
    Nat → World → Heap → ObjectId → Value → Option (Value × Heap)
  | 0, _, _, _, _ => none
  | fuel + 1, w, h, self, result =>
    match w.get self with
    | none => none
    | some o =>
      if o.children_vector_.length > 0 then
        o.children_vector_.foldlM
          (fun (acc : Value × Heap) child =>
            match w.get child with
            | none => none
            | some obj =>
              match Object.insert_in_hash trigger fuel w acc.2 child Value.new with
              | none => none
              | some (obj_hash, h1) =>
                match (if !obj_hash.is_nil then acc.1.set_key h1 obj.name_ obj_hash
                  else some (acc.1, h1)) with
                | none => none
                | some (result1, h2) => (obj_hash.clear h2).map fun (r : Value × Heap) => (result1, r.2))
          (result, h)
      else
        match trigger self h gNilValue with
        | none => none
        | some (ret, h1) =>
          match result.assign h1 ret with
          | none => none
          | some (result1, h2) => (ret.clear h2).map fun (r : Value × Heap) => (result1, r.2)

/-! ## Heaps that keep their objects -/

/-- Every live object of the heap is referred to at least once. -/
def Heap.counted (g : Heap) : Prop :=
  ∀ q c, g.cell q = some c → 1 ≤ c.ref_count

/-- The heap `g1` still holds every object of `g`, unchanged except for the object at `p`,
which keeps its class, and referred to at least as often. -/
def Heap.grows_but (p : Option Addr) (g g1 : Heap) : Prop :=
  ∀ q c0, g.cell q = some c0 →
    ∃ c1, g1.cell q = some c1 ∧ c0.ref_count ≤ c1.ref_count ∧
      c1.obj.type = c0.obj.type ∧ (p ≠ some q → c1.obj = c0.obj)

/-- The heap `g1` still holds every object of `g`, unchanged and referred to at least as
often. -/
def Heap.grows (g g1 : Heap) : Prop :=
  Heap.grows_but none g g1

/-- The reference of the Value to its payload is counted next to another one: the payload of
a String, List, Error or Hash is referred to at least twice. -/
def Value.held (g : Heap) (v : Value) : Prop :=
  v.type_ ≠ MATRIX_VALUE → ∀ q c, v.ptr_ = some q → g.cell q = some c → 2 ≤ c.ref_count

/-- The heap `g` still holds every object of `h`, unchanged. -/
def Heap.keeps (h g : Heap) : Prop :=
  ∀ q c0, h.cell q = some c0 → ∃ n, g.cell q = some ⟨n, c0.obj⟩

/-- What the loops of `from_hash` and `set_all_ok` keep true of the heap `g` and of the local
`param`, when they started on the heap `h`: every object is referred to, the objects of `h`
are still there, `param` is valid, its reference is counted, and its Matrix is none of the
objects of `h`. -/
def Object.batch_inv (h g : Heap) (param : Value) : Prop :=
  Heap.counted g ∧ Heap.keeps h g ∧ param.valid g = true ∧ Value.held g param ∧
  (param.type_ = MATRIX_VALUE → ∀ q, param.ptr_ = some q → h.cell q = none)

/-- A call made by one of the loops: the key and the child it names, the heap and the
parameter of the call, the Value that it returned and the heap it left. -/
structure BatchCall where
  key : String
  child : ObjectId
  before : Heap
  param : Value
  ret : Value
  after : Heap

/-- The call `t` is a call of `call` on the child of `o` named by the key, with the Value of
the entries under this key as they were in the heap `h` (Nil for an Empty one). -/
def BatchCall.ok (call : Heap → ObjectId → Value → Option (Value × Heap)) (o : Object)
    (entries : List (String × Value)) (h : Heap) (t : BatchCall) : Prop :=
  o.children_.lookup t.key = some t.child ∧
  call t.before t.child t.param = some (t.ret, t.after) ∧
  ∃ s, entries.lookup t.key = some s ∧
    t.param.type_ = (if s.type_ = EMPTY_VALUE then NIL_VALUE else s.type_) ∧
    (s.type_ ≠ EMPTY_VALUE → Value.alike t.before t.param h s)

/-- What `from_hash` and `set_all_ok` expect of a call on a child: on a heap whose objects
are all referred to and with a valid parameter, it returns a valid Value; it keeps the objects
of the heap and their references; a Matrix that it returns is new, and a reference that it
returns to another object of the heap has been counted. -/
def Object.call_ok (call : Heap → ObjectId → Value → Option (Value × Heap))
    (child : ObjectId) : Prop :=
  ∀ (g : Heap) (param : Value), Heap.counted g → param.valid g = true →
    ∃ ret g1, call g child param = some (ret, g1) ∧ ret.valid g1 = true ∧
      Heap.counted g1 ∧ Heap.grows g g1 ∧
      (ret.type_ = MATRIX_VALUE → ∀ q, ret.ptr_ = some q → g.cell q = none) ∧
      (ret.type_ ≠ MATRIX_VALUE → ∀ q c0 c1, ret.ptr_ = some q → g.cell q = some c0 →
        g1.cell q = some c1 → c0.ref_count + 1 ≤ c1.ref_count)

/-- The Value `v`, read in the heap `ga`, is what `from_hash` enters under `key`: without
a child of this name the `ErrorValue` of `NOT_FOUND_ERROR` and the key, and else what a call
on the child returned. -/
def Object.answer (call : Heap → ObjectId → Value → Option (Value × Heap)) (o : Object)
    (entries : List (String × Value)) (h : Heap) (key : String) (ga : Heap) (v : Value) :
    Prop :=
  (o.children_.lookup key = none ∧ ∃ gb, ErrorValue gb NOT_FOUND_ERROR key = (v, ga)) ∨
  (∃ t : BatchCall, BatchCall.ok call o entries h t ∧ t.key = key ∧ t.ret = v ∧
    t.after = ga)

/-- The Value `x`, an element of the table at `pr` read in the heap `g`, answers for the
Value `v` read in the heap `ga`: it is valid, it has the variant of `v` (Nil for an Empty
one) and, unless it refers to the table itself, the content of `v`. -/
def Object.entry_of (pr : Addr) (g : Heap) (x : Value) (ga : Heap) (v : Value) : Prop :=
  x.valid g = true ∧
  x.type_ = (if v.type_ = EMPTY_VALUE then NIL_VALUE else v.type_) ∧
  (v.type_ ≠ EMPTY_VALUE → x.ptr_ ≠ some pr → Value.alike g x ga v)

/-- What the loop of `from_hash` keeps true of `*result` after the keys `done`, when it
started on the heap `h` with a Nil `*result`: nothing has been written yet, or `*result` is a
Hash whose table is none of the objects of `h` and holds, under the keys `done` in order, an
element for a Value that `src` allows for the key; a Matrix held by the table is not the
Matrix of `param`. -/
def Object.result_inv (src : String → Heap → Value → Prop) (h g : Heap)
    (param result : Value) (done : List String) : Prop :=
  (done = [] ∧ result.type_ = NIL_VALUE) ∨
  (∃ pr nr rentries, result = ⟨HASH_VALUE, Slot.ptr (some pr)⟩ ∧ h.cell pr = none ∧
    g.cell pr = some ⟨nr, Obj.hash rentries⟩ ∧ rentries.map Prod.fst = done ∧
    (∀ e ∈ rentries, ∃ ga v, src e.1 ga v ∧ Object.entry_of pr g e.2 ga v) ∧
    (param.type_ = MATRIX_VALUE → ∀ e ∈ rentries, e.2.type_ = MATRIX_VALUE →
      e.2.ptr_ ≠ param.ptr_))

/-! ## The operations of `Value` -/

/-- The name of an object, its table of children and its vector of children. -/
def Object.kids (o : Object) : String × List (String × ObjectId) × List ObjectId :=
  (o.name_, o.children_, o.children_vector_)

/-- From the store `w` to the store `w1` the tables and vectors of children have only lost
entries, and only entries of objects that are deleted in `w1` or listed in `d`: every object
of `w1` was an object of `w`, and unless it is listed in `d` it has the same name, a table
and a vector that are what is left of those it had, in the same order, and what is missing
from them points to an object that is listed in `d` or deleted. -/
def World.prunes (d : List ObjectId) (w w1 : World) : Prop :=
  ∀ x o1, w1.get x = some o1 → ∃ o, w.get x = some o ∧
    (x ∈ d ∨
      (o1.name_ = o.name_ ∧ o1.children_.Sublist o.children_ ∧
        o1.children_vector_.Sublist o.children_vector_ ∧
        (∀ e ∈ o.children_, e ∉ o1.children_ → e.2 ∈ d ∨ w1.get e.2 = none) ∧
        (∀ c ∈ o.children_vector_, c ∉ o1.children_vector_ → c ∈ d ∨ w1.get c = none)))

/-- An object without the index `objects_` that a root keeps. -/
def Object.core (o : Object) : Object :=
  { o with objects_ := [] }

/-- An object without the index `objects_` and without its table and vector of children. -/
def Object.shell (o : Object) : Object :=
  { o with objects_ := [], children_ := [], children_vector_ := [] }

/-- The deletion `del` returns on every tree of depth at most `n` that is made of live
objects without aliases, whose objects below the top are held by their parent alone, whose
parent is alive and outside the tree, in a store where every `root_` points to a live object
outside the tree.  It deletes the objects of the tree; every other object keeps all its
fields but the index, the table and the vector, and every other object but the parent of the
top keeps all its fields but the index. -/
def Object.deletes_trees (del : World → ObjectId → Option World) (n : Nat) : Prop :=
  ∀ (w : World) (x : ObjectId) (ox : Object) (nodes : List ObjectId),
    w.get x = some ox → Object.subtree n w x = some nodes → nodes.Nodup →
    ox.aliases_ = [] →
    (∀ m ∈ nodes, m ≠ x → ∃ om, w.get m = some om ∧ om.aliases_ = [] ∧ om.ref_count_ ≤ 1) →
    (∀ j oj r, w.get j = some oj → oj.root_ = some r → r ∉ nodes ∧ ∃ ro, w.get r = some ro) →
    (∀ q, ox.parent_ = some q → q ∉ nodes ∧ ∃ qo, w.get q = some qo) →
    ∃ w5, del w x = some w5 ∧ (∀ j ∈ nodes, World.get w5 j = none) ∧
      (∀ j, j ∉ nodes → (World.get w5 j).map Object.shell = (w.get j).map Object.shell) ∧
      (∀ j, j ∉ nodes → ox.parent_ ≠ some j →
        (World.get w5 j).map Object.core = (w.get j).map Object.core)

/-- The parent `parent`, if any, is alive and is not one of `d`. -/
def World.parent_outside (w : World) (d : List ObjectId) (parent : Option ObjectId) : Bool :=
  match parent with
  | none => true
  | some q => (w.get q).isSome && decide (q ∉ d)

/-- Every `root_` of the store points to a live object that is not one of `d`. -/
def World.roots_outside (w : World) (d : List ObjectId) : Bool :=
  w.all fun slot =>
    match slot with
    | none => true
    | some o =>
      match o.root_ with
      | none => true
      | some r => (w.get r).isSome && decide (r ∉ d)

/-- The objects that the destruction of `self` deletes, when `Object.destructible` holds: the
objects of the subtree of `self`, the object first, then its aliases. -/
def Object.doomed (fuel : Nat) (w : World) (self : ObjectId) : List ObjectId :=
  match w.get self, Object.subtree fuel w self with
  | some o, some nodes => nodes ++ o.aliases_
  | _, _ => []

/-- The object `self` is the top of a tree of live objects of depth at most `fuel`, linked by
`children_` and `parent_`; the objects below it have no aliases and are held by their parent
alone (`ref_count_` at most 1); its aliases are live objects without children and without
aliases; no object is listed twice among the objects of the tree and the aliases; the parent
of `self` and the parents of its aliases are alive and are neither in the tree nor among the
aliases, and so is every `root_` of the store. -/
def Object.destructible (fuel : Nat) (w : World) (self : ObjectId) : Bool :=
  match w.get self, Object.subtree fuel w self with
  | some o, some nodes =>
    decide (nodes ++ o.aliases_).Nodup &&
    w.roots_outside (nodes ++ o.aliases_) &&
    w.parent_outside (nodes ++ o.aliases_) o.parent_ &&
    (nodes.tail.all fun m =>
      match w.get m with
      | none => false
      | some om => om.aliases_.isEmpty && decide (om.ref_count_ ≤ 1)) &&
    (o.aliases_.all fun a =>
      match w.get a with
      | none => false
      | some oa => oa.children_.isEmpty && oa.aliases_.isEmpty &&
          w.parent_outside (nodes ++ o.aliases_) oa.parent_)
  | _, _ => false

/-- The object `x` has no parent, and the index of `r` does not hold it. -/
def Object.off_index (w : World) (x r : ObjectId) : Prop :=
  (∀ o, w.get x = some o → o.parent_ = none) ∧
  ∀ ro, w.get r = some ro → ∀ e ∈ ro.objects_, e.2 ≠ x

/-- The object `x` has no parent, and either `r` is still its root or the index of `r` does
not hold it. -/
def Object.leaves_index (w : World) (x r : ObjectId) : Prop :=
  (∀ o, w.get x = some o → o.parent_ = none) ∧
  ((∃ o, w.get x = some o ∧ o.root_ = some r) ∨
    ∀ ro, w.get r = some ro → ∀ e ∈ ro.objects_, e.2 ≠ x)

end Oscit

/-! # Theorems -/

namespace Oscit

open ValueType

/-! ## The heap -/

theorem Heap.cell_lt {h : Heap} {p : Addr} {c : Cell} (hc : h.cell p = some c) :
    p < h.length := by
  by_contra hlt
  have hnone : h[p]? = none := List.getElem?_eq_none (Nat.le_of_not_lt hlt)
  simp [Heap.cell, hnone] at hc

theorem Heap.cell_write (h : Heap) (p q : Addr) (c : Cell) :
    (h.write p c).cell q
      = if p = q then (if p < h.length then some c else none) else h.cell q := by
  unfold Heap.cell Heap.write
  rw [List.getElem?_set]
  by_cases hpq : p = q
  · subst hpq
    by_cases hlt : p < h.length <;> simp [hlt]
  · simp [hpq]

theorem Heap.cell_free (h : Heap) (p q : Addr) :
    (h.free p).cell q = if p = q then none else h.cell q := by
  unfold Heap.cell Heap.free
  rw [List.getElem?_set]
  by_cases hpq : p = q
  · by_cases hlt : p < h.length <;> simp [hpq, hlt]
  · simp [hpq]

theorem Heap.cell_alloc (h : Heap) (o : Obj) (q : Nat) :
    (h.alloc o).2.cell q = if q = h.length then some ⟨1, o⟩ else h.cell q := by
  unfold Heap.cell Heap.alloc
  simp only
  rw [List.getElem?_append]
  by_cases hq : q = h.length
  · simp [hq]
  · by_cases hlt : q < h.length
    · simp [hq, hlt]
    · have h1 : h[q]? = none := List.getElem?_eq_none (Nat.le_of_not_lt hlt)
      have h2 : 1 ≤ q - List.length h := by omega
      have h3 : ([some (⟨1, o⟩ : Cell)] : List (Option Cell))[q - List.length h]? = none :=
        List.getElem?_eq_none (by simpa using h2)
      simp [hq, hlt, h1, h3]

theorem Heap.length_write (h : Heap) (p : Addr) (c : Cell) :
    (h.write p c).length = h.length := by
  simp [Heap.write]

theorem Heap.length_free (h : Heap) (p : Addr) : (h.free p).length = h.length := by
  simp [Heap.free]

/-! ## Valid Values -/

theorem Value.valid_cases {h : Heap} {v : Value} (hv : v.valid h = true) :
    (no_payload v.type_ ∧ v.ptr_ = none) ∨
    (∃ p c, v.u = Slot.ptr (some p) ∧ h.cell p = some c ∧ c.obj.type = v.type_) := by
  obtain ⟨t, u⟩ := v
  have owning : (match (Value.mk t u).ptr_.bind h.cell with
      | some c => c.obj.type == t
      | none => false) = true →
      ∃ p c, u = Slot.ptr (some p) ∧ h.cell p = some c ∧ c.obj.type = t := by
    intro hm
    cases u with
    | undef => simp [Value.ptr_] at hm
    | real x => simp [Value.ptr_] at hm
    | ptr q =>
      cases q with
      | none => simp [Value.ptr_] at hm
      | some p =>
        cases hc : h.cell p with
        | none => simp [Value.ptr_, hc] at hm
        | some c =>
          simp [Value.ptr_, hc] at hm
          exact ⟨p, c, rfl, hc, hm⟩
  cases t
  case EMPTY_VALUE => left; exact ⟨Or.inl rfl, by simpa [Value.valid] using hv⟩
  case NIL_VALUE => left; exact ⟨Or.inr (Or.inl rfl), by simpa [Value.valid] using hv⟩
  case REAL_VALUE => left; exact ⟨Or.inr (Or.inr (Or.inl rfl)), by simpa [Value.valid] using hv⟩
  case ANY_VALUE => left; exact ⟨Or.inr (Or.inr (Or.inr rfl)), by simpa [Value.valid] using hv⟩
  all_goals (right; exact owning (by simpa [Value.valid] using hv))

theorem Value.clear_valid {h : Heap} {w : Value} (hw : w.valid h = true) :
    ∃ w0 h0, w.clear h = some (w0, h0) ∧ w0.type_ = w.type_ ∧ w0.ptr_ = none ∧
      h0.length = h.length ∧ ∀ q, w.ptr_ ≠ some q → h0.cell q = h.cell q := by
  rcases Value.valid_cases hw with ⟨hn, hp⟩ | ⟨p, c, hu, hc, ht⟩
  · refine ⟨w, h, ?_, rfl, hp, rfl, fun _ _ => rfl⟩
    obtain ⟨t, u⟩ := w
    rcases hn with hn | hn | hn | hn <;> simp only at hn <;> subst hn <;> rfl
  · obtain ⟨t, u⟩ := w
    simp only at hu ht
    subst hu
    have frame_free : ∀ q, (Value.mk t (Slot.ptr (some p))).ptr_ ≠ some q →
        (h.free p).cell q = h.cell q := by
      intro q hq
      have hpq : p ≠ q := fun e => hq (by simp [Value.ptr_, e])
      simp [Heap.cell_free, hpq]
    have frame_write : ∀ c1 q, (Value.mk t (Slot.ptr (some p))).ptr_ ≠ some q →
        (h.write p c1).cell q = h.cell q := by
      intro c1 q hq
      have hpq : p ≠ q := fun e => hq (by simp [Value.ptr_, e])
      simp [Heap.cell_write, hpq]
    have counted : t = STRING_VALUE ∨ t = LIST_VALUE ∨ t = ERROR_VALUE ∨ t = HASH_VALUE →
        ∃ w0 h0, (Value.mk t (Slot.ptr (some p))).clear h = some (w0, h0) ∧ w0.type_ = t ∧
          w0.ptr_ = none ∧ h0.length = h.length ∧
          ∀ q, (Value.mk t (Slot.ptr (some p))).ptr_ ≠ some q → h0.cell q = h.cell q := by
      intro hcases
      by_cases hcount : c.ref_count ≤ 1
      · refine ⟨⟨t, Slot.ptr none⟩, h.free p, ?_, rfl, rfl, Heap.length_free h p, frame_free⟩
        rcases hcases with e | e | e | e <;> subst e <;>
          simp [Value.clear, Value.ptr_, release, hc, hcount]
      · refine ⟨⟨t, Slot.ptr none⟩, h.write p { c with ref_count := c.ref_count - 1 }, ?_,
          rfl, rfl, Heap.length_write h p _, frame_write _⟩
        rcases hcases with e | e | e | e <;> subst e <;>
          simp [Value.clear, Value.ptr_, release, hc, hcount]
    cases hobj : c.obj with
    | string s => exact counted (Or.inl (by rw [← ht, hobj]; rfl))
    | list l => exact counted (Or.inr (Or.inl (by rw [← ht, hobj]; rfl)))
    | error e m => exact counted (Or.inr (Or.inr (Or.inl (by rw [← ht, hobj]; rfl))))
    | hash e => exact counted (Or.inr (Or.inr (Or.inr (by rw [← ht, hobj]; rfl))))
    | matrix m =>
      have e : t = MATRIX_VALUE := by rw [← ht, hobj]; rfl
      subst e
      refine ⟨⟨MATRIX_VALUE, Slot.ptr none⟩, h.free p, ?_, rfl, rfl, Heap.length_free h p,
        frame_free⟩
      simp [Value.clear, Value.ptr_, hc]

theorem Value.set_type_without_default_valid {h : Heap} {w : Value} (hw : w.valid h = true)
    (type : ValueType) :
    ∃ w0 h0, w.clear h = some (w0, h0) ∧
      w.set_type_without_default h type = some (⟨type, w0.u⟩, h0) ∧ w0.ptr_ = none ∧
      h0.length = h.length ∧ ∀ q, w.ptr_ ≠ some q → h0.cell q = h.cell q := by
  obtain ⟨w0, h0, hclear, -, hptr, hlen, hframe⟩ := Value.clear_valid hw
  refine ⟨w0, h0, hclear, ?_, hptr, hlen, hframe⟩
  simp [Value.set_type_without_default, hclear]

theorem Value.share_same {h : Heap} {w : Value} (hw : w.valid h = true) {p : Addr} {c : Cell}
    (hc : h.cell p = some c) (type : ValueType) (ht : c.obj.type = type)
    (hp : w.ptr_ = some p) :
    w.share h type (some p) = some (w, h) ∧ w = ⟨type, Slot.ptr (some p)⟩ := by
  refine ⟨by simp [Value.share, hp], ?_⟩
  rcases Value.valid_cases hw with ⟨-, hnone⟩ | ⟨q, c1, hu, hc1, ht1⟩
  · rw [hnone] at hp
    cases hp
  · obtain ⟨t, u⟩ := w
    simp only at hu ht1
    subst hu
    have hq : q = p := by simpa [Value.ptr_] using hp
    subst hq
    rw [hc] at hc1
    cases hc1
    rw [← ht, ht1]

theorem Value.share_other {h : Heap} {w : Value} (hw : w.valid h = true) {p : Addr} {c : Cell}
    (hc : h.cell p = some c) (type : ValueType) (hp : w.ptr_ ≠ some p) :
    ∃ w0 h0, w.clear h = some (w0, h0) ∧ h0.cell p = some c ∧
      w.share h type (some p)
        = some (⟨type, Slot.ptr (some p)⟩, h0.write p ⟨c.ref_count + 1, c.obj⟩) := by
  obtain ⟨w0, h0, hclear, hset, -, -, hframe⟩ := Value.set_type_without_default_valid hw type
  have hc0 : h0.cell p = some c := by rw [hframe p hp, hc]
  refine ⟨w0, h0, hclear, hc0, ?_⟩
  simp [Value.share, hp, hset, acquire, hc0]

theorem Value.set_matrix_ptr_valid {h : Heap} {w : Value} (hw : w.valid h = true) {p : Addr}
    {n : Nat} {m : Matrix} (hc : h.cell p = some ⟨n, Obj.matrix m⟩) (hp : w.ptr_ ≠ some p) :
    ∃ w0 h0, w.clear h = some (w0, h0) ∧ h0.cell p = some ⟨n, Obj.matrix m⟩ ∧
      h0.length = h.length ∧
      w.set_matrix_ptr h (some p)
        = some (⟨MATRIX_VALUE, Slot.ptr (some h0.length)⟩, (h0.alloc (Obj.matrix m)).2) := by
  obtain ⟨w0, h0, hclear, hset, -, hlen, hframe⟩ :=
    Value.set_type_without_default_valid hw MATRIX_VALUE
  have hc0 : h0.cell p = some ⟨n, Obj.matrix m⟩ := by rw [hframe p hp, hc]
  refine ⟨w0, h0, hclear, hc0, hlen, ?_⟩
  simp [Value.set_matrix_ptr, hset, hc0, Heap.alloc]

/-- What `operator=` returns on valid operands: the variant of the result. -/
theorem Value.assign_type {h : Heap} {w v : Value} (hw : w.valid h = true)
    (hv : v.valid h = true) (hown : v.type_ = MATRIX_VALUE → w.ptr_ ≠ v.ptr_) :
    ∃ w1 h1, w.assign h v = some (w1, h1) ∧
      w1.type_ = (if v.type_ = EMPTY_VALUE then NIL_VALUE else v.type_) := by
  have plain : ∀ type : ValueType, ∃ w1 h1,
      w.set_type_without_default h type = some (w1, h1) ∧ w1.type_ = type := by
    intro type
    obtain ⟨w0, h0, -, hset, -⟩ := Value.set_type_without_default_valid hw type
    exact ⟨_, _, hset, rfl⟩
  rcases Value.valid_cases hv with ⟨hn, -⟩ | ⟨p, c, hu, hc, ht⟩
  · obtain ⟨t, u⟩ := v
    rcases hn with e | e | e | e <;> simp only at e <;> subst e
    · obtain ⟨w1, h1, h1eq, h1t⟩ := plain NIL_VALUE
      exact ⟨w1, h1, by simpa [Value.assign, Value.set_nil] using h1eq, by simpa using h1t⟩
    · obtain ⟨w1, h1, h1eq, h1t⟩ := plain NIL_VALUE
      exact ⟨w1, h1, by simpa [Value.assign, Value.set_nil] using h1eq, by simpa using h1t⟩
    · obtain ⟨w1, h1, h1eq, -⟩ := plain REAL_VALUE
      refine ⟨{ w1 with u := Slot.real (Value.mk REAL_VALUE u).r }, h1, ?_, ?_⟩
      · simp [Value.assign, Value.set_real, h1eq]
      · obtain ⟨w0, h0, -, hset, -⟩ := Value.set_type_without_default_valid hw REAL_VALUE
        rw [hset] at h1eq
        cases h1eq
        simp
    · obtain ⟨w1, h1, h1eq, h1t⟩ := plain ANY_VALUE
      exact ⟨w1, h1, by simpa [Value.assign, Value.set_any] using h1eq, by simpa using h1t⟩
  · obtain ⟨t, u⟩ := v
    simp only at hu ht hown
    subst hu
    have shared : ∃ w1 h1, w.share h t (some p) = some (w1, h1) ∧ w1.type_ = t := by
      by_cases hp : w.ptr_ = some p
      · obtain ⟨hs, hwt⟩ := Value.share_same hw hc t ht hp
        exact ⟨w, h, hs, by rw [hwt]⟩
      · obtain ⟨w0, h0, -, -, hs⟩ := Value.share_other hw hc t hp
        exact ⟨_, _, hs, rfl⟩
    obtain ⟨n, o⟩ := c
    simp only at ht
    cases o <;> simp only [Obj.type] at ht <;> subst ht
    case matrix m =>
      have hp : w.ptr_ ≠ some p := by simpa [Value.ptr_] using hown rfl
      obtain ⟨w0, h0, -, -, -, hs⟩ := Value.set_matrix_ptr_valid hw hc hp
      exact ⟨_, _, by simpa [Value.assign, Value.ptr_] using hs, by simp⟩
    all_goals
      obtain ⟨w1, h1, hs, hwt⟩ := shared
      exact ⟨w1, h1, by simpa [Value.assign, Value.ptr_] using hs, by simpa using hwt⟩

/-- What the copy constructor returns on a valid Value: the copy, and a heap in which every
live object is still live with the same content. -/
theorem Value.copy_valid {g : Heap} {x : Value} (hx : x.valid g = true) :
    ∃ c g1, Value.copy g x = some (c, g1) ∧
      c.type_ = (if x.type_ = EMPTY_VALUE then NIL_VALUE else x.type_) ∧
      (x.type_ = REAL_VALUE → c.r = x.r) ∧
      (x.type_ ≠ MATRIX_VALUE → c.ptr_ = x.ptr_) ∧
      (x.type_ = MATRIX_VALUE → ∃ p n m, x.ptr_ = some p ∧ g.cell p = some ⟨n, Obj.matrix m⟩ ∧
        c.ptr_ = some g.length ∧ g1.cell g.length = some ⟨1, Obj.matrix m⟩) ∧
      (∀ q c0, g.cell q = some c0 →
        ∃ n, g1.cell q = some ⟨n, c0.obj⟩ ∧ (x.ptr_ ≠ some q → n = c0.ref_count)) := by
  have keep : ∀ q c0, g.cell q = some c0 →
      ∃ n, g.cell q = some ⟨n, c0.obj⟩ ∧ (x.ptr_ ≠ some q → n = c0.ref_count) :=
    fun q c0 hq => ⟨c0.ref_count, hq, fun _ => rfl⟩
  have hnew : Value.new.valid g = true := rfl
  have hclear : Value.new.clear g = some (Value.new, g) := rfl
  rcases Value.valid_cases hx with ⟨hn, hnone⟩ | ⟨p, c, hu, hc, ht⟩
  · obtain ⟨t, u⟩ := x
    rcases hn with e | e | e | e <;> simp only at e <;> subst e
    · exact ⟨⟨NIL_VALUE, Slot.undef⟩, g, rfl, rfl, by simp, fun _ => hnone.symm, by simp, keep⟩
    · exact ⟨⟨NIL_VALUE, Slot.undef⟩, g, rfl, rfl, by simp, fun _ => hnone.symm, by simp, keep⟩
    · exact ⟨⟨REAL_VALUE, Slot.real (Value.mk REAL_VALUE u).r⟩, g, rfl, rfl, fun _ => rfl,
        fun _ => hnone.symm, by simp, keep⟩
    · exact ⟨⟨ANY_VALUE, Slot.undef⟩, g, rfl, rfl, by simp, fun _ => hnone.symm, by simp, keep⟩
  · obtain ⟨t, u⟩ := x
    simp only at hu ht
    subst hu
    have hnp : Value.new.ptr_ ≠ some p := by simp [Value.new, Value.ptr_]
    obtain ⟨n, o⟩ := c
    simp only at ht
    have shared : t ≠ MATRIX_VALUE → t ≠ EMPTY_VALUE → t ≠ REAL_VALUE →
        Value.copy g ⟨t, Slot.ptr (some p)⟩ = Value.new.share g t (some p) →
        ∃ c g1, Value.copy g ⟨t, Slot.ptr (some p)⟩ = some (c, g1) ∧
          c.type_ = (if t = EMPTY_VALUE then NIL_VALUE else t) ∧
          (t = REAL_VALUE → c.r = (Value.mk t (Slot.ptr (some p))).r) ∧
          (t ≠ MATRIX_VALUE → c.ptr_ = (Value.mk t (Slot.ptr (some p))).ptr_) ∧
          (t = MATRIX_VALUE → ∃ p1 n1 m, (Value.mk t (Slot.ptr (some p))).ptr_ = some p1 ∧
            g.cell p1 = some ⟨n1, Obj.matrix m⟩ ∧
            c.ptr_ = some g.length ∧ g1.cell g.length = some ⟨1, Obj.matrix m⟩) ∧
          (∀ q c0, g.cell q = some c0 → ∃ n1, g1.cell q = some ⟨n1, c0.obj⟩ ∧
            ((Value.mk t (Slot.ptr (some p))).ptr_ ≠ some q → n1 = c0.ref_count)) := by
      intro hm he hr hcopy
      obtain ⟨w0, h0, hcl, -, hs⟩ := Value.share_other hnew hc t hnp
      rw [hclear] at hcl
      cases hcl
      refine ⟨⟨t, Slot.ptr (some p)⟩, _, by rw [hcopy, hs], by simp [he],
        fun e => absurd e hr, fun _ => rfl, fun e => absurd e hm, ?_⟩
      intro q c0 hq
      by_cases hpq : p = q
      · subst hpq
        rw [hc] at hq
        cases hq
        exact ⟨n + 1, by simp [Heap.cell_write, Heap.cell_lt hc], fun hne => absurd rfl hne⟩
      · exact ⟨c0.ref_count, by simp [Heap.cell_write, hpq, hq], fun _ => rfl⟩
    cases o with
    | matrix m =>
      simp only [Obj.type] at ht
      subst ht
      obtain ⟨w0, h0, hcl, -, -, hs⟩ := Value.set_matrix_ptr_valid hnew hc hnp
      rw [hclear] at hcl
      cases hcl
      refine ⟨⟨MATRIX_VALUE, Slot.ptr (some (List.length g))⟩, (Heap.alloc g (Obj.matrix m)).2,
        hs, rfl, by simp, by simp, fun _ => ⟨p, n, m, rfl, hc, rfl, by simp [Heap.cell_alloc]⟩,
        ?_⟩
      intro q c0 hq
      have hne : q ≠ List.length g := Nat.ne_of_lt (Heap.cell_lt hq)
      exact ⟨c0.ref_count, by rw [Heap.cell_alloc, if_neg hne, hq], fun _ => rfl⟩
    | string s0 =>
      simp only [Obj.type] at ht
      subst ht
      exact shared (by decide) (by decide) (by decide) rfl
    | list l0 =>
      simp only [Obj.type] at ht
      subst ht
      exact shared (by decide) (by decide) (by decide) rfl
    | error e0 m0 =>
      simp only [Obj.type] at ht
      subst ht
      exact shared (by decide) (by decide) (by decide) rfl
    | hash e0 =>
      simp only [Obj.type] at ht
      subst ht
      exact shared (by decide) (by decide) (by decide) rfl

/-- Validity only depends on the classes of the live objects. -/
theorem Value.valid_of_kept {g g1 : Heap} {x : Value}
    (hkeep : ∀ q c0, g.cell q = some c0 → ∃ n, g1.cell q = some ⟨n, c0.obj⟩)
    (hx : x.valid g = true) : x.valid g1 = true := by
  rcases Value.valid_cases hx with ⟨hn, hnone⟩ | ⟨p, c, hu, hc, ht⟩
  · obtain ⟨t, u⟩ := x
    rcases hn with e | e | e | e <;> simp only at e <;> subst e <;>
      simpa [Value.valid] using hnone
  · obtain ⟨t, u⟩ := x
    simp only at hu ht
    subst hu
    obtain ⟨n, hq⟩ := hkeep p c hc
    obtain ⟨n0, o⟩ := c
    simp only at ht hq
    cases o <;> simp only [Obj.type] at ht <;> subst ht <;>
      simp [Value.valid, Value.ptr_, hq, Obj.type]

theorem Value.set_type_valid {h : Heap} {w : Value} (hw : w.valid h = true)
    (type : ValueType) :
    ∃ w0 h0, w.clear h = some (w0, h0) ∧
      w.set_type h type = some (Value.set_default h0 ⟨type, w0.u⟩) ∧
      h0.length = h.length ∧ ∀ q, w.ptr_ ≠ some q → h0.cell q = h.cell q := by
  obtain ⟨w0, h0, hclear, hset, -, hlen, hframe⟩ :=
    Value.set_type_without_default_valid hw type
  exact ⟨w0, h0, hclear, by simp [Value.set_type, hset], hlen, hframe⟩

theorem Value.set_default_type (h : Heap) (type : ValueType) (u : Slot) :
    (Value.set_default h ⟨type, u⟩).1.type_ = type := by
  cases type <;> rfl

/-! ## Entries of a Hash -/

theorem lookup_entries_set_self {α : Type} (entries : List (String × α)) (key : String)
    (val : α) : (entries_set entries key val).lookup key = some val := by
  induction entries with
  | nil => simp [entries_set, List.lookup]
  | cons e rest ih =>
    obtain ⟨k, x⟩ := e
    by_cases hk : k = key
    · simp [entries_set, hk, List.lookup]
    · have hk2 : (key == k) = false := by
        simpa using fun e : key = k => hk e.symm
      simp [entries_set, hk, List.lookup, hk2, ih]

theorem lookup_entries_set_ne {α : Type} (entries : List (String × α)) (key other : String)
    (val : α) (hne : other ≠ key) :
    (entries_set entries key val).lookup other = entries.lookup other := by
  induction entries with
  | nil =>
    have hk2 : (other == key) = false := by simpa using hne
    simp [entries_set, List.lookup, hk2]
  | cons e rest ih =>
    obtain ⟨k, x⟩ := e
    by_cases hk : k = key
    · subst hk
      have hk2 : (other == k) = false := by simpa using hne
      simp [entries_set, List.lookup, hk2]
    · by_cases ho : other = k
      · simp [entries_set, hk, List.lookup, ho]
      · have hk2 : (other == k) = false := by simpa using ho
        simp [entries_set, hk, List.lookup, hk2, ih]

theorem keys_entries_set {α : Type} (entries : List (String × α)) (key : String) (val : α) :
    (entries_set entries key val).map Prod.fst
      = if key ∈ entries.map Prod.fst then entries.map Prod.fst
        else entries.map Prod.fst ++ [key] := by
  induction entries with
  | nil => simp [entries_set]
  | cons e rest ih =>
    obtain ⟨k, x⟩ := e
    by_cases hk : k = key
    · simp [entries_set, hk]
    · have hk2 : ¬ key = k := fun e => hk e.symm
      by_cases hm : key ∈ rest.map Prod.fst
      · rw [if_pos hm] at ih
        have hm2 : key ∈ ((k, x) :: rest).map Prod.fst := by
          simp only [List.map_cons, List.mem_cons]
          exact Or.inr hm
        rw [if_pos hm2]
        simp [entries_set, hk, ih]
      · rw [if_neg hm] at ih
        have hm2 : ¬ key ∈ ((k, x) :: rest).map Prod.fst := by
          simp only [List.map_cons, List.mem_cons, not_or]
          exact ⟨hk2, hm⟩
        rw [if_neg hm2]
        simp [entries_set, hk, ih]

/-! ## Same variant and content -/

theorem Value.valid_intro {g : Heap} {v : Value} {p : Addr} {c : Cell}
    (hu : v.u = Slot.ptr (some p)) (hc : g.cell p = some c) (ht : c.obj.type = v.type_) :
    v.valid g = true := by
  obtain ⟨t, u⟩ := v
  simp only at hu ht
  subst hu
  obtain ⟨n, o⟩ := c
  simp only at ht
  cases o <;> simp only [Obj.type] at ht <;> subst ht <;>
    simp [Value.valid, Value.ptr_, hc, Obj.type]

theorem Value.payload_of_cell {g : Heap} {v : Value} {p : Addr} {c : Cell}
    (hp : v.ptr_ = some p) (hc : g.cell p = some c) : v.payload g = some c.obj := by
  simp [Value.payload, hp, hc]

theorem Value.alike_trans {g h k : Heap} {a b c : Value} (hab : Value.alike g a h b)
    (hbc : Value.alike h b k c) : Value.alike g a k c := by
  obtain ⟨ht, hr, hp⟩ := hab
  obtain ⟨ht2, hr2, hp2⟩ := hbc
  refine ⟨ht.trans ht2, fun e => (hr e).trans (hr2 (ht ▸ e)), fun e => ?_⟩
  obtain ⟨h1, h2⟩ := hp e
  obtain ⟨h3, -⟩ := hp2 (ht ▸ e)
  exact ⟨h1.trans h3, h2⟩

/-- A Value is alike itself in two heaps that hold the same object behind its pointer. -/
theorem Value.alike_of_kept {g g1 : Heap} {x : Value} (hx : x.valid g = true)
    (hkeep : ∀ q c0, x.ptr_ = some q → g.cell q = some c0 →
      ∃ n, g1.cell q = some ⟨n, c0.obj⟩) : Value.alike g1 x g x := by
  refine ⟨rfl, fun _ => rfl, fun hn => ?_⟩
  rcases Value.valid_cases hx with ⟨hnp, -⟩ | ⟨p, c, hu, hc, -⟩
  · exact absurd hnp hn
  · have hp : x.ptr_ = some p := by simp [Value.ptr_, hu]
    obtain ⟨n, hq⟩ := hkeep p c hp hc
    rw [Value.payload_of_cell hp hq, Value.payload_of_cell hp hc]
    exact ⟨rfl, rfl⟩

theorem Value.clear_frame {g h0 : Heap} {w w0 : Value} (hw : w.valid g = true)
    (hclear : w.clear g = some (w0, h0)) :
    w0.ptr_ = none ∧ h0.length = g.length ∧ ∀ q, w.ptr_ ≠ some q → h0.cell q = g.cell q := by
  obtain ⟨w1, h1, hc1, -, hptr, hlen, hframe⟩ := Value.clear_valid hw
  rw [hclear] at hc1
  cases hc1
  exact ⟨hptr, hlen, hframe⟩

/-- What `operator=` returns on valid operands: a valid Value with the variant and content
of the argument (Nil for an Empty argument), in a heap that keeps every object but the
previous payload of the receiver. -/
theorem Value.assign_alike {g : Heap} {w s : Value} (hw : w.valid g = true)
    (hs : s.valid g = true) (hown : s.type_ = MATRIX_VALUE → w.ptr_ ≠ s.ptr_) :
    ∃ r g1, w.assign g s = some (r, g1) ∧ r.valid g1 = true ∧
      r.type_ = (if s.type_ = EMPTY_VALUE then NIL_VALUE else s.type_) ∧
      (s.type_ ≠ EMPTY_VALUE → Value.alike g1 r g s) ∧
      (s.type_ ≠ MATRIX_VALUE → r.ptr_ = s.ptr_) ∧
      (∀ q c0, g.cell q = some c0 → (w.ptr_ ≠ some q ∨ s.ptr_ = some q) →
        ∃ n, g1.cell q = some ⟨n, c0.obj⟩) := by
  have plain : ∀ type : ValueType, ∃ w0 h0, w.clear g = some (w0, h0) ∧
      w.set_type_without_default g type = some (⟨type, w0.u⟩, h0) ∧
      (Value.mk type w0.u).ptr_ = none ∧
      ∀ q c0, g.cell q = some c0 → w.ptr_ ≠ some q → ∃ n, h0.cell q = some ⟨n, c0.obj⟩ := by
    intro type
    obtain ⟨w0, h0, hclear, hset, hptr, -, hframe⟩ :=
      Value.set_type_without_default_valid hw type
    refine ⟨w0, h0, hclear, hset, ?_, ?_⟩
    · simpa [Value.ptr_] using hptr
    · intro q c0 hq hne
      exact ⟨c0.ref_count, by rw [hframe q hne, hq]⟩
  rcases Value.valid_cases hs with ⟨hn, hnone⟩ | ⟨p, c, hu, hc, ht⟩
  · have keep_of : ∀ h0 : Heap,
        (∀ q c0, g.cell q = some c0 → w.ptr_ ≠ some q → ∃ n, h0.cell q = some ⟨n, c0.obj⟩) →
        ∀ q c0, g.cell q = some c0 → (w.ptr_ ≠ some q ∨ s.ptr_ = some q) →
          ∃ n, h0.cell q = some ⟨n, c0.obj⟩ := by
      intro h0 hk q c0 hq hor
      rcases hor with hne | he
      · exact hk q c0 hq hne
      · rw [hnone] at he
        cases he
    obtain ⟨t, u⟩ := s
    rcases hn with e | e | e | e <;> simp only at e <;> subst e
    · obtain ⟨w0, h0, -, hset, hp0, hk⟩ := plain NIL_VALUE
      refine ⟨⟨NIL_VALUE, w0.u⟩, h0, by simpa [Value.assign, Value.set_nil] using hset, ?_,
        rfl, ?_, ?_, keep_of h0 hk⟩
      · simpa [Value.valid] using hp0
      · intro hne
        exact absurd rfl hne
      · intro _
        rw [hp0, hnone]
    · obtain ⟨w0, h0, -, hset, hp0, hk⟩ := plain NIL_VALUE
      refine ⟨⟨NIL_VALUE, w0.u⟩, h0, by simpa [Value.assign, Value.set_nil] using hset, ?_,
        rfl, ?_, ?_, keep_of h0 hk⟩
      · simpa [Value.valid] using hp0
      · intro _
        exact ⟨rfl, fun e => (by cases e), fun hnp => absurd (Or.inr (Or.inl rfl)) hnp⟩
      · intro _
        rw [hp0, hnone]
    · obtain ⟨w0, h0, -, hset, -, hk⟩ := plain REAL_VALUE
      refine ⟨⟨REAL_VALUE, Slot.real (Value.mk REAL_VALUE u).r⟩, h0, ?_, rfl, rfl, ?_, ?_,
        keep_of h0 hk⟩
      · simp [Value.assign, Value.set_real, hset]
      · intro _
        exact ⟨rfl, fun _ => rfl, fun hnp => absurd (Or.inr (Or.inr (Or.inl rfl))) hnp⟩
      · intro _
        rw [hnone]
        rfl
    · obtain ⟨w0, h0, -, hset, hp0, hk⟩ := plain ANY_VALUE
      refine ⟨⟨ANY_VALUE, w0.u⟩, h0, by simpa [Value.assign, Value.set_any] using hset, ?_,
        rfl, ?_, ?_, keep_of h0 hk⟩
      · simpa [Value.valid] using hp0
      · intro _
        exact ⟨rfl, fun e => (by cases e), fun hnp => absurd (Or.inr (Or.inr (Or.inr rfl))) hnp⟩
      · intro _
        rw [hp0, hnone]
  · obtain ⟨t, u⟩ := s
    simp only at hu ht hown
    subst hu
    have hsp : (Value.mk t (Slot.ptr (some p))).ptr_ = some p := rfl
    have hpay : (Value.mk t (Slot.ptr (some p))).payload g = some c.obj :=
      Value.payload_of_cell hsp hc
    have hne_empty : t ≠ EMPTY_VALUE := by
      intro e
      rw [e] at ht
      cases hobj : c.obj <;> rw [hobj] at ht <;> cases ht
    have shared : Value.assign g w ⟨t, Slot.ptr (some p)⟩ = w.share g t (some p) →
        t ≠ MATRIX_VALUE →
        ∃ r g1, w.assign g ⟨t, Slot.ptr (some p)⟩ = some (r, g1) ∧ r.valid g1 = true ∧
          r.type_ = (if t = EMPTY_VALUE then NIL_VALUE else t) ∧
          (t ≠ EMPTY_VALUE → Value.alike g1 r g ⟨t, Slot.ptr (some p)⟩) ∧
          (t ≠ MATRIX_VALUE → r.ptr_ = some p) ∧
          (∀ q c0, g.cell q = some c0 → (w.ptr_ ≠ some q ∨ some p = some q) →
            ∃ n, g1.cell q = some ⟨n, c0.obj⟩) := by
      intro hassign hnm
      by_cases hwp : w.ptr_ = some p
      · obtain ⟨hsh, hwt⟩ := Value.share_same hw hc t ht hwp
        refine ⟨⟨t, Slot.ptr (some p)⟩, g, by rw [hassign, hsh, ← hwt], hs, by simp [hne_empty],
          fun _ => Value.alike_of_kept hs (fun q c0 _ hq => ⟨c0.ref_count, hq⟩), fun _ => rfl,
          fun q c0 hq _ => ⟨c0.ref_count, hq⟩⟩
      · obtain ⟨w0, h0, hclear, hc0, hsh⟩ := Value.share_other hw hc t hwp
        obtain ⟨-, -, hframe⟩ := Value.clear_frame hw hclear
        have hcell : (h0.write p ⟨c.ref_count + 1, c.obj⟩).cell p
            = some ⟨c.ref_count + 1, c.obj⟩ := by
          simp [Heap.cell_write, Heap.cell_lt hc0]
        refine ⟨⟨t, Slot.ptr (some p)⟩, _, by rw [hassign, hsh],
          Value.valid_intro rfl hcell ht, by simp [hne_empty], fun _ => ⟨rfl, fun _ => rfl,
            fun _ => ?_⟩, fun _ => rfl, ?_⟩
        · rw [Value.payload_of_cell hsp hcell, hpay]
          exact ⟨rfl, rfl⟩
        · intro q c0 hq hor
          by_cases hpq : p = q
          · subst hpq
            rw [hc] at hq
            cases hq
            exact ⟨_, hcell⟩
          · have hwq : w.ptr_ ≠ some q := by
              rcases hor with h1 | h1
              · exact h1
              · exact absurd (Option.some.inj h1) hpq
            exact ⟨c0.ref_count, by rw [Heap.cell_write, if_neg hpq, hframe q hwq, hq]⟩
    obtain ⟨n, o⟩ := c
    simp only at ht hpay
    cases o with
    | matrix m =>
      simp only [Obj.type] at ht
      subst ht
      have hwp : w.ptr_ ≠ some p := hown rfl
      obtain ⟨w0, h0, hclear, hc0, hlen, hsm⟩ := Value.set_matrix_ptr_valid hw hc hwp
      obtain ⟨-, -, hframe⟩ := Value.clear_frame hw hclear
      have hcell : (h0.alloc (Obj.matrix m)).2.cell (List.length h0)
          = some ⟨1, Obj.matrix m⟩ := by
        simp [Heap.cell_alloc]
      refine ⟨⟨MATRIX_VALUE, Slot.ptr (some (List.length h0))⟩, _, hsm,
        Value.valid_intro rfl hcell rfl, rfl, fun _ => ⟨rfl, fun e => (by cases e),
          fun _ => ?_⟩, fun e => absurd rfl e, ?_⟩
      · have hrp : (Value.mk MATRIX_VALUE (Slot.ptr (some (List.length h0)))).ptr_
            = some (List.length h0) := rfl
        rw [Value.payload_of_cell hrp hcell, hpay]
        exact ⟨rfl, rfl⟩
      · intro q c0 hq hor
        have hwq : w.ptr_ ≠ some q := by
          rcases hor with h1 | h1
          · exact h1
          · have : p = q := by simpa [Value.ptr_] using h1
            exact this ▸ hwp
        have hq0 : h0.cell q = some c0 := by rw [hframe q hwq, hq]
        have hne : q ≠ List.length h0 := Nat.ne_of_lt (Heap.cell_lt hq0)
        exact ⟨c0.ref_count, by rw [Heap.cell_alloc, if_neg hne, hq0]⟩
    | string s0 =>
      simp only [Obj.type] at ht
      subst ht
      exact shared rfl (by decide)
    | list l0 =>
      simp only [Obj.type] at ht
      subst ht
      exact shared rfl (by decide)
    | error e0 m0 =>
      simp only [Obj.type] at ht
      subst ht
      exact shared rfl (by decide)
    | hash e0 =>
      simp only [Obj.type] at ht
      subst ht
      exact shared rfl (by decide)

/-- Validity only depends on the classes of the live objects. -/
theorem Value.valid_of_same_class {g g1 : Heap} {x : Value}
    (hkeep : ∀ q c0, g.cell q = some c0 →
      ∃ c1, g1.cell q = some c1 ∧ c1.obj.type = c0.obj.type)
    (hx : x.valid g = true) : x.valid g1 = true := by
  rcases Value.valid_cases hx with ⟨hn, hnone⟩ | ⟨p, c, hu, hc, ht⟩
  · obtain ⟨t, u⟩ := x
    rcases hn with e | e | e | e <;> simp only at e <;> subst e <;>
      simpa [Value.valid] using hnone
  · obtain ⟨c1, hc1, ht1⟩ := hkeep p c hc
    exact Value.valid_intro hu hc1 (ht1.trans ht)

theorem Value.get_found {g : Heap} {v res s : Value} {p : Addr} {n : Nat}
    {entries : List (String × Value)} {key : String} (hv : v.is_hash = true)
    (hp : v.ptr_ = some p) (hc : g.cell p = some ⟨n, Obj.hash entries⟩)
    (hl : entries.lookup key = some s) (hs : s.valid g = true) (hres : res.valid g = true)
    (hown : s.type_ = MATRIX_VALUE → res.ptr_ ≠ s.ptr_) :
    ∃ r g1, v.get g key res = some (true, r, g1) ∧ r.valid g1 = true ∧
      r.type_ = (if s.type_ = EMPTY_VALUE then NIL_VALUE else s.type_) ∧
      (s.type_ ≠ EMPTY_VALUE → Value.alike g1 r g s) := by
  obtain ⟨r, g1, ha, hrv, hrt, hal, -, -⟩ := Value.assign_alike hres hs hown
  refine ⟨r, g1, ?_, hrv, hrt, hal⟩
  simp [Value.get, hv, THash_get, hp, hc, hl, ha]

/-- What `THash::set` does to a live table: the table at `p` gets the copy `c` of `x` under
`key`, `c` has the variant and content of `x` (Nil for an Empty `x`), and every other object
is kept. -/
theorem Value.hash_set_spec {g : Heap} {x : Value} {p : Addr} {n : Nat}
    {entries : List (String × Value)} (key : String)
    (hc : g.cell p = some ⟨n, Obj.hash entries⟩) (hx : x.valid g = true) :
    ∃ c n1 g2, THash_set g (some p) key x = some g2 ∧
      g2.cell p = some ⟨n1, Obj.hash (entries_set entries key c)⟩ ∧
      c.valid g2 = true ∧ x.valid g2 = true ∧
      c.type_ = (if x.type_ = EMPTY_VALUE then NIL_VALUE else x.type_) ∧
      (x.type_ ≠ EMPTY_VALUE → Value.alike g2 c g2 x) ∧
      (∀ q c0, g.cell q = some c0 → q ≠ p → ∃ n2, g2.cell q = some ⟨n2, c0.obj⟩) ∧
      (∀ q c0, g.cell q = some c0 → ∃ c1, g2.cell q = some c1 ∧ c1.obj.type = c0.obj.type) := by
  have hnew : Value.new.valid g = true := rfl
  have hown : x.type_ = MATRIX_VALUE → Value.new.ptr_ ≠ x.ptr_ := by
    intro e
    rcases Value.valid_cases hx with ⟨hn, -⟩ | ⟨q, c0, hu, -, -⟩
    · rcases hn with e1 | e1 | e1 | e1 <;> rw [e1] at e <;> cases e
    · simp [Value.ptr_, Value.new, hu]
  obtain ⟨c, g1, hcopy, hcv, hct, hal, hcp, hkeep⟩ := Value.assign_alike hnew hx hown
  have hkeep1 : ∀ q c0, g.cell q = some c0 → ∃ n2, g1.cell q = some ⟨n2, c0.obj⟩ :=
    fun q c0 hq => hkeep q c0 hq (Or.inl (by simp [Value.new, Value.ptr_]))
  obtain ⟨n1, hp1⟩ := hkeep1 p _ hc
  simp only at hp1
  have hlt : p < g1.length := Heap.cell_lt hp1
  have hcell2 : (g1.write p ⟨n1, Obj.hash (entries_set entries key c)⟩).cell p
      = some ⟨n1, Obj.hash (entries_set entries key c)⟩ := by
    simp [Heap.cell_write, hlt]
  have hother : ∀ q, q ≠ p →
      (g1.write p ⟨n1, Obj.hash (entries_set entries key c)⟩).cell q = g1.cell q := by
    intro q hq
    have hpq : p ≠ q := fun e => hq e.symm
    rw [Heap.cell_write, if_neg hpq]
  have hclass1 : ∀ q c0, g1.cell q = some c0 →
      ∃ c1, (g1.write p ⟨n1, Obj.hash (entries_set entries key c)⟩).cell q = some c1 ∧
        c1.obj.type = c0.obj.type := by
    intro q c0 hq
    by_cases hqp : q = p
    · subst hqp
      rw [hp1] at hq
      cases hq
      exact ⟨_, hcell2, rfl⟩
    · exact ⟨c0, by rw [hother q hqp, hq], rfl⟩
  have hxv1 : x.valid g1 = true :=
    Value.valid_of_same_class (fun q c0 hq => by
      obtain ⟨n2, h2⟩ := hkeep1 q c0 hq
      exact ⟨_, h2, rfl⟩) hx
  refine ⟨c, n1, g1.write p ⟨n1, Obj.hash (entries_set entries key c)⟩, ?_, hcell2,
    Value.valid_of_same_class hclass1 hcv, Value.valid_of_same_class hclass1 hxv1, hct, ?_, ?_, ?_⟩
  · have hcopy2 : Value.copy g x = some (c, g1) := hcopy
    simp [THash_set, hcopy2, hp1]
  · intro hne
    obtain ⟨ht, hr, hpay⟩ := hal hne
    refine ⟨ht, hr, fun hnp => ?_⟩
    obtain ⟨hpe, hsome⟩ := hpay hnp
    by_cases hm : x.type_ = MATRIX_VALUE
    · -- a Matrix: the copy and the original are two objects, none of them the table
      have hx2 : ∀ y : Value, ∀ gy : Heap, y.type_ = MATRIX_VALUE → y.valid gy = true
          → gy.cell p = some ⟨n1, Obj.hash entries⟩ ∨ gy.cell p = some ⟨n, Obj.hash entries⟩
          → y.ptr_ ≠ some p := by
        intro y gy hy hyv hcellp hyp
        rcases Value.valid_cases hyv with ⟨hn, -⟩ | ⟨q, c0, hu, hq, htq⟩
        · rcases hn with e1 | e1 | e1 | e1 <;> rw [e1] at hy <;> cases hy
        · have : q = p := by simpa [Value.ptr_, hu] using hyp
          subst this
          rcases hcellp with e | e <;> rw [e] at hq <;> cases hq <;>
            · rw [hy] at htq
              cases htq
      have hcne : c.ptr_ ≠ some p := hx2 c g1 (ht.trans hm) hcv (Or.inl hp1)
      have hxne : x.ptr_ ≠ some p := hx2 x g hm hx (Or.inr hc)
      have pay_same : ∀ y : Value, y.ptr_ ≠ some p →
          y.payload (g1.write p ⟨n1, Obj.hash (entries_set entries key c)⟩) = y.payload g1 := by
        intro y hy
        unfold Value.payload
        cases hyp : y.ptr_ with
        | none => rfl
        | some q =>
          have hqp : q ≠ p := fun e => hy (by rw [hyp, e])
          simp [hother q hqp]
      have hxpay : x.payload g1 = x.payload g := by
        rcases Value.valid_cases hx with ⟨hn, -⟩ | ⟨q, c0, hu, hq, -⟩
        · rcases hn with e1 | e1 | e1 | e1 <;> rw [e1] at hm <;> cases hm
        · have hxp : x.ptr_ = some q := by simp [Value.ptr_, hu]
          obtain ⟨n2, h2⟩ := hkeep1 q c0 hq
          rw [Value.payload_of_cell hxp h2, Value.payload_of_cell hxp hq]
      rw [pay_same c hcne, pay_same x hxne, hxpay]
      exact ⟨hpe, hsome⟩
    · -- a shared payload: the copy is the same handle
      have hptr : c.ptr_ = x.ptr_ := hcp hm
      have hsame : ∀ gy : Heap, c.payload gy = x.payload gy := by
        intro gy
        unfold Value.payload
        rw [hptr]
      refine ⟨hsame _, ?_⟩
      rw [hsame]
      have hxv2 := Value.valid_of_same_class hclass1 hxv1
      rcases Value.valid_cases hxv2 with ⟨hn, -⟩ | ⟨q, c0, hu, hq, -⟩
      · exact absurd (ht ▸ hn) hnp
      · have hxp : x.ptr_ = some q := by simp [Value.ptr_, hu]
        rw [Value.payload_of_cell hxp hq]
        rfl
  · intro q c0 hq hqp
    obtain ⟨n2, h2⟩ := hkeep1 q c0 hq
    exact ⟨n2, by rw [hother q hqp, h2]⟩
  · intro q c0 hq
    obtain ⟨n2, h2⟩ := hkeep1 q c0 hq
    obtain ⟨c1, hc1, ht1⟩ := hclass1 q _ h2
    exact ⟨c1, hc1, ht1⟩

theorem Value.get_after_set {g2 : Heap} {v1 x c res : Value} {p : Addr} {n1 : Nat}
    {entries : List (String × Value)} {key : String} (hv : v1.is_hash = true)
    (hp : v1.ptr_ = some p)
    (hcell : g2.cell p = some ⟨n1, Obj.hash (entries_set entries key c)⟩)
    (hcv : c.valid g2 = true)
    (hct : c.type_ = (if x.type_ = EMPTY_VALUE then NIL_VALUE else x.type_))
    (hal : x.type_ ≠ EMPTY_VALUE → Value.alike g2 c g2 x)
    (hres : res.valid g2 = true) (hown : c.type_ = MATRIX_VALUE → res.ptr_ ≠ c.ptr_) :
    ∃ r g3, v1.get g2 key res = some (true, r, g3) ∧
      r.type_ = (if x.type_ = EMPTY_VALUE then NIL_VALUE else x.type_) ∧
      (x.type_ ≠ EMPTY_VALUE → Value.alike g3 r g2 x) := by
  obtain ⟨r, g3, hget, -, hrt, hral⟩ :=
    Value.get_found hv hp hcell (lookup_entries_set_self entries key c) hcv hres hown
  have hcne : c.type_ ≠ EMPTY_VALUE := by
    rw [hct]
    by_cases he : x.type_ = EMPTY_VALUE
    · simp [he]
    · simp [he]
  refine ⟨r, g3, hget, ?_, ?_⟩
  · rw [hrt, if_neg hcne, hct]
  · intro hne
    exact Value.alike_trans (hral hcne) (hal hne)

theorem Value.at_key_after_set {g2 : Heap} {v1 x c : Value} {p : Addr} {n1 : Nat}
    {entries : List (String × Value)} {key : String} (hv : v1.is_hash = true)
    (hp : v1.ptr_ = some p)
    (hcell : g2.cell p = some ⟨n1, Obj.hash (entries_set entries key c)⟩)
    (hcv : c.valid g2 = true)
    (hct : c.type_ = (if x.type_ = EMPTY_VALUE then NIL_VALUE else x.type_))
    (hal : x.type_ ≠ EMPTY_VALUE → Value.alike g2 c g2 x) :
    ∃ r g3, v1.at_key g2 key = some (r, g3) ∧
      r.type_ = (if x.type_ = EMPTY_VALUE then NIL_VALUE else x.type_) ∧
      (x.type_ ≠ EMPTY_VALUE → Value.alike g3 r g2 x) := by
  have hown : c.type_ = MATRIX_VALUE → Value.new.ptr_ ≠ c.ptr_ := by
    intro e
    rcases Value.valid_cases hcv with ⟨hn, -⟩ | ⟨q, c0, hu, -, -⟩
    · rcases hn with e1 | e1 | e1 | e1 <;> rw [e1] at e <;> cases e
    · simp [Value.ptr_, Value.new, hu]
  obtain ⟨r, g3, hget, hrt, hral⟩ :=
    Value.get_after_set hv hp hcell hcv hct hal (rfl : Value.new.valid g2 = true) hown
  exact ⟨r, g3, by simp [Value.at_key, hv, hget], hrt, hral⟩

/-- Keys inserted one after the other are distinct, are the keys that were inserted, and come
in the order of their first insertion. -/
theorem keys_insert_foldl (keys : List String) :
    ∀ acc before : List String,
      (acc.Nodup ∧ (∀ k, k ∈ acc ↔ k ∈ before) ∧
        acc.Pairwise (fun a b => before.indexOf a < before.indexOf b)) →
      ((keys.foldl keys_insert acc).Nodup ∧
        (∀ k, k ∈ keys.foldl keys_insert acc ↔ k ∈ before ++ keys) ∧
        (keys.foldl keys_insert acc).Pairwise
          (fun a b => (before ++ keys).indexOf a < (before ++ keys).indexOf b)) := by
  induction keys with
  | nil =>
    intro acc before hinv
    simpa using hinv
  | cons key rest ih =>
    intro acc before hinv
    obtain ⟨hnd, hmem, hpw⟩ := hinv
    have hstep : (keys_insert acc key).Nodup ∧
        (∀ k, k ∈ keys_insert acc key ↔ k ∈ before ++ [key]) ∧
        (keys_insert acc key).Pairwise
          (fun a b => (before ++ [key]).indexOf a < (before ++ [key]).indexOf b) := by
      have hpw2 : acc.Pairwise
          (fun a b => (before ++ [key]).indexOf a < (before ++ [key]).indexOf b) := by
        refine List.Pairwise.imp_of_mem ?_ hpw
        intro a b ha hb hab
        rw [List.indexOf_append_of_mem ((hmem a).1 ha),
          List.indexOf_append_of_mem ((hmem b).1 hb)]
        exact hab
      by_cases hk : key ∈ acc
      · have hkb : key ∈ before := (hmem key).1 hk
        simp only [keys_insert, if_pos hk]
        refine ⟨hnd, fun k => ?_, hpw2⟩
        rw [hmem k]
        simp only [List.mem_append, List.mem_singleton]
        constructor
        · exact fun h1 => Or.inl h1
        · rintro (h1 | h1)
          · exact h1
          · exact h1 ▸ hkb
      · have hkb : key ∉ before := fun h1 => hk ((hmem key).2 h1)
        simp only [keys_insert, if_neg hk]
        refine ⟨?_, fun k => ?_, ?_⟩
        · rw [List.nodup_append]
          refine ⟨hnd, List.nodup_singleton key, ?_⟩
          intro a ha hb
          rw [List.mem_singleton] at hb
          exact hk (hb ▸ ha)
        · simp only [List.mem_append, List.mem_singleton, hmem k]
        · rw [List.pairwise_append]
          refine ⟨hpw2, List.pairwise_singleton _ _, ?_⟩
          intro a ha b hb
          rw [List.mem_singleton] at hb
          subst hb
          rw [List.indexOf_append_of_mem ((hmem a).1 ha),
            List.indexOf_append_of_not_mem hkb, List.indexOf_cons_self]
          have := List.indexOf_lt_length.2 ((hmem a).1 ha)
          omega
    have := ih (keys_insert acc key) (before ++ [key]) hstep
    simpa [List.foldl_cons, List.append_assoc] using this

theorem mem_entries_set {α : Type} {entries : List (String × α)} {key : String} {val : α}
    {e : String × α} (he : e ∈ entries_set entries key val) : e ∈ entries ∨ e.2 = val := by
  induction entries with
  | nil =>
    simp only [entries_set, List.mem_singleton] at he
    exact Or.inr (by rw [he])
  | cons e0 rest ih =>
    obtain ⟨k, x⟩ := e0
    by_cases hk : k = key
    · simp only [entries_set, if_pos hk, List.mem_cons] at he
      rcases he with h1 | h1
      · exact Or.inr (by rw [h1])
      · exact Or.inl (List.mem_cons_of_mem _ h1)
    · simp only [entries_set, if_neg hk, List.mem_cons] at he
      rcases he with h1 | h1
      · exact Or.inl (by rw [h1]; exact List.mem_cons_self _ _)
      · rcases ih h1 with h2 | h2
        · exact Or.inl (List.mem_cons_of_mem _ h2)
        · exact Or.inr h2

theorem lookup_of_mem_keys {α : Type} {entries : List (String × α)} {key : String}
    (hk : key ∈ entries.map Prod.fst) : ∃ s, entries.lookup key = some s ∧ (key, s) ∈ entries := by
  induction entries with
  | nil => simp at hk
  | cons e0 rest ih =>
    obtain ⟨k, x⟩ := e0
    by_cases hkk : key = k
    · subst hkk
      exact ⟨x, by simp [List.lookup], List.mem_cons_self _ _⟩
    · have hk2 : key ∈ rest.map Prod.fst := by
        simp only [List.map_cons, List.mem_cons] at hk
        rcases hk with h1 | h1
        · exact absurd h1 hkk
        · exact h1
      obtain ⟨s, hs, hmem⟩ := ih hk2
      have hb : (key == k) = false := by simpa using hkk
      exact ⟨s, by simp [List.lookup, hb, hs], List.mem_cons_of_mem _ hmem⟩

/-- A sequence of keyed sets on a Hash with valid entries: the Hash stays in place, its
entries stay valid and its keys are those inserted, in insertion order. -/
theorem Value.set_keys_hash (kvs : List (String × Value)) :
    ∀ (g : Heap) (v1 : Value) (p : Addr) (n : Nat) (entries : List (String × Value)),
      v1.is_hash = true → v1.ptr_ = some p → g.cell p = some ⟨n, Obj.hash entries⟩ →
      (∀ e ∈ entries, e.2.valid g = true) → (∀ kx ∈ kvs, kx.2.valid g = true) →
      ∃ hN nN entriesN, v1.set_keys g kvs = some (v1, hN) ∧
        hN.cell p = some ⟨nN, Obj.hash entriesN⟩ ∧
        entriesN.map Prod.fst = (kvs.map Prod.fst).foldl keys_insert (entries.map Prod.fst) ∧
        (∀ e ∈ entriesN, e.2.valid hN = true) := by
  induction kvs with
  | nil =>
    intro g v1 p n entries _ _ hc hE _
    exact ⟨g, n, entries, rfl, hc, rfl, hE⟩
  | cons kx rest ih =>
    intro g v1 p n entries hv hp hc hE hxs
    obtain ⟨key, x⟩ := kx
    have hx : x.valid g = true := hxs (key, x) (List.mem_cons_self _ _)
    obtain ⟨c, n1, g2, hset, hcell, hcv, -, -, -, -, hclass⟩ := Value.hash_set_spec key hc hx
    have hE2 : ∀ e ∈ entries_set entries key c, e.2.valid g2 = true := by
      intro e he
      rcases mem_entries_set he with h1 | h1
      · exact Value.valid_of_same_class hclass (hE e h1)
      · rw [h1]
        exact hcv
    have hxs2 : ∀ kx ∈ rest, kx.2.valid g2 = true :=
      fun kx hkx => Value.valid_of_same_class hclass (hxs kx (List.mem_cons_of_mem _ hkx))
    obtain ⟨hN, nN, entriesN, hsets, hcellN, hkeys, hEN⟩ :=
      ih g2 v1 p n1 (entries_set entries key c) hv hp hcell hE2 hxs2
    refine ⟨hN, nN, entriesN, ?_, hcellN, ?_, hEN⟩
    · have hsk : v1.set_key g key x = some (v1, g2) := by
        simp [Value.set_key, hv, hp, hset]
      simp [Value.set_keys, hsk, hsets]
    · rw [hkeys, keys_entries_set]
      rfl

/-! ## Lists built from a type tag -/

theorem Heap.cell_append (g extra : Heap) (q : Nat) (hq : q < List.length g) :
    Heap.cell (g ++ extra) q = g.cell q := by
  unfold Heap.cell
  rw [List.getElem?_append_left hq]

theorem string_join_singletons (t : List Char) :
    String.join (t.map String.singleton) = String.mk t := by
  have gen : ∀ (l : List Char) (acc : String),
      List.foldl (fun r s => r ++ s) acc (l.map String.singleton) = acc ++ String.mk l := by
    intro l
    induction l with
    | nil =>
      intro acc
      simp only [List.map_nil, List.foldl_nil]
      exact (String.append_empty acc).symm
    | cons c rest ih =>
      intro acc
      simp only [List.map_cons, List.foldl_cons]
      rw [ih, String.append_assoc]
      rfl
  have := gen t ""
  simpa [String.join] using this

theorem mapM_type_tag_of_chars (fuel : Nat) (g : Heap) (t : List Char)
    (halpha : ∀ c ∈ t, c ∈ ['f', 's', 'H', 'M', 'N', '*']) :
    ∀ values : List Value, values.map Value.type_ = t.map type_from_char →
      values.mapM (Value.type_tag fuel g) = some (t.map String.singleton) := by
  induction t with
  | nil =>
    intro values hmap
    have : values = [] := by simpa using hmap
    subst this
    rfl
  | cons c rest ih =>
    intro values hmap
    cases values with
    | nil => simp at hmap
    | cons e es =>
      simp only [List.map_cons, List.cons.injEq] at hmap
      obtain ⟨he, hes⟩ := hmap
      have hrest := ih (fun c1 hc1 => halpha c1 (List.mem_cons_of_mem _ hc1)) es hes
      have hc := halpha c (List.mem_cons_self _ _)
      have htag : Value.type_tag fuel g e = some (String.singleton c) := by
        obtain ⟨ty, u⟩ := e
        simp only at he
        subst he
        simp only [List.mem_cons, List.mem_singleton, List.not_mem_nil, or_false] at hc
        rcases hc with e1 | e1 | e1 | e1 | e1 | e1 <;> subst e1 <;> cases fuel <;> rfl
      rw [List.mapM_cons, htag, hrest]
      rfl

/-- What `List::set_type_tag` builds: one element per character, of the variant the character
denotes, with a default payload that lies behind the objects of the initial heap. -/
theorem List_set_type_tag_spec (t : List Char) :
    ∀ g : Heap, (∀ c ∈ t, c ∈ ['f', 's', 'H', 'M', 'N', '*']) →
      ∃ values extra, List_set_type_tag g t = some (values, g ++ extra) ∧
        values.map Value.type_ = t.map type_from_char ∧
        ∀ e ∈ values, (e.type_ = REAL_VALUE → e.u = Slot.real 0) ∧
          (e.type_ = STRING_VALUE → ∃ q, List.length g ≤ q ∧ e.u = Slot.ptr (some q) ∧
            Heap.cell (g ++ extra) q = some ⟨1, Obj.string ""⟩) ∧
          (e.type_ = HASH_VALUE → ∃ q, List.length g ≤ q ∧ e.u = Slot.ptr (some q) ∧
            Heap.cell (g ++ extra) q = some ⟨1, Obj.hash []⟩) := by
  induction t with
  | nil =>
    intro g _
    exact ⟨[], [], by simp [List_set_type_tag], rfl, fun e he => by cases he⟩
  | cons c rest ih =>
    intro g halpha
    have hc := halpha c (List.mem_cons_self _ _)
    have hrest : ∀ c1 ∈ rest, c1 ∈ ['f', 's', 'H', 'M', 'N', '*'] :=
      fun c1 hc1 => halpha c1 (List.mem_cons_of_mem _ hc1)
    -- the first element and the objects it adds to the heap
    have first : ∃ e ext, Value.of_char g c = some (e, g ++ ext) ∧
        e.type_ = type_from_char c ∧ (e.type_ = REAL_VALUE → e.u = Slot.real 0) ∧
        (e.type_ = STRING_VALUE → e.u = Slot.ptr (some (List.length g)) ∧
          ext = [some ⟨1, Obj.string ""⟩]) ∧
        (e.type_ = HASH_VALUE → e.u = Slot.ptr (some (List.length g)) ∧
          ext = [some ⟨1, Obj.hash []⟩]) := by
      simp only [List.mem_cons, List.mem_singleton, List.not_mem_nil, or_false] at hc
      rcases hc with e1 | e1 | e1 | e1 | e1 | e1 <;> subst e1
      · exact ⟨⟨REAL_VALUE, Slot.real 0⟩, [], by simp [Value.of_char]; rfl, rfl,
          fun _ => rfl, fun e => (by cases e), fun e => (by cases e)⟩
      · exact ⟨⟨STRING_VALUE, Slot.ptr (some (List.length g))⟩, [some ⟨1, Obj.string ""⟩], rfl,
          rfl, fun e => (by cases e), fun _ => ⟨rfl, rfl⟩, fun e => (by cases e)⟩
      · exact ⟨⟨HASH_VALUE, Slot.ptr (some (List.length g))⟩, [some ⟨1, Obj.hash []⟩], rfl,
          rfl, fun e => (by cases e), fun e => (by cases e), fun _ => ⟨rfl, rfl⟩⟩
      · exact ⟨⟨MATRIX_VALUE, Slot.ptr (some (List.length g))⟩,
          [some ⟨1, Obj.matrix Matrix_default⟩], rfl, rfl, fun e => (by cases e),
          fun e => (by cases e), fun e => (by cases e)⟩
      · exact ⟨⟨NIL_VALUE, Slot.undef⟩, [], by simp [Value.of_char]; rfl, rfl,
          fun e => (by cases e), fun e => (by cases e), fun e => (by cases e)⟩
      · exact ⟨⟨ANY_VALUE, Slot.undef⟩, [], by simp [Value.of_char]; rfl, rfl,
          fun e => (by cases e), fun e => (by cases e), fun e => (by cases e)⟩
    obtain ⟨e, ext, hfirst, het, her, hes, heh⟩ := first
    obtain ⟨values, extra, hvals, hmap, hdef⟩ := ih (g ++ ext) hrest
    have hcell0 : ∀ o : Obj, ext = [some ⟨1, o⟩] →
        Heap.cell (g ++ (ext ++ extra)) (List.length g) = some ⟨1, o⟩ := by
      intro o hext
      subst hext
      have h1 : Heap.cell ((g ++ [some ⟨1, o⟩]) ++ extra) (List.length g)
          = Heap.cell (g ++ [some ⟨1, o⟩]) (List.length g) :=
        Heap.cell_append _ _ _ (by simp)
      have h2 : Heap.cell (g ++ [some ⟨1, o⟩]) (List.length g) = some ⟨1, o⟩ := by
        have := Heap.cell_alloc g o (List.length g)
        simpa [Heap.alloc] using this
      rw [← List.append_assoc, h1, h2]
    refine ⟨e :: values, ext ++ extra, ?_, ?_, ?_⟩
    · simp [List_set_type_tag, hfirst, hvals, List.append_assoc]
    · simp [het, hmap]
    · intro e1 he1
      rcases List.mem_cons.1 he1 with h1 | h1
      · subst h1
        refine ⟨her, fun hs => ?_, fun hh => ?_⟩
        · obtain ⟨hu, hext⟩ := hes hs
          exact ⟨List.length g, Nat.le_refl _, hu, hcell0 _ hext⟩
        · obtain ⟨hu, hext⟩ := heh hh
          exact ⟨List.length g, Nat.le_refl _, hu, hcell0 _ hext⟩
      · obtain ⟨h2, h3, h4⟩ := hdef e1 h1
        have hle : List.length g ≤ List.length (g ++ ext) := by simp
        refine ⟨h2, fun hs => ?_, fun hh => ?_⟩
        · obtain ⟨q, hq, hu, hcq⟩ := h3 hs
          exact ⟨q, Nat.le_trans hle hq, hu, by rw [← List.append_assoc]; exact hcq⟩
        · obtain ⟨q, hq, hu, hcq⟩ := h4 hh
          exact ⟨q, Nat.le_trans hle hq, hu, by rw [← List.append_assoc]; exact hcq⟩

/-- C1: for a Value that is not a List, `type_tag` is "f" for Real, "s" for String and for
Error, "H" for Hash, "M" for Matrix, "N" for Nil and "*" for Any, whatever the union, the heap
and the fuel are. -/
theorem type_tag_non_list (fuel : Nat) (h : Heap) (u : Slot) :
    Value.type_tag fuel h ⟨REAL_VALUE, u⟩ = some "f" ∧
    Value.type_tag fuel h ⟨STRING_VALUE, u⟩ = some "s" ∧
    Value.type_tag fuel h ⟨ERROR_VALUE, u⟩ = some "s" ∧
    Value.type_tag fuel h ⟨HASH_VALUE, u⟩ = some "H" ∧
    Value.type_tag fuel h ⟨MATRIX_VALUE, u⟩ = some "M" ∧
    Value.type_tag fuel h ⟨NIL_VALUE, u⟩ = some "N" ∧
    Value.type_tag fuel h ⟨ANY_VALUE, u⟩ = some "*" := by
  refine ⟨?_, ?_, ?_, ?_, ?_, ?_, ?_⟩ <;> cases fuel <;> rfl

/-- C2 (failing input): a Hash and a Matrix have the type tags "H" and "M", but `type_id`
returns for both the hash of the empty string, the id of an Empty Value. -/
theorem type_id_hash_matrix (H : String → TypeTagID) (fuel : Nat) (h : Heap) (u : Slot) :
    Value.type_tag fuel h ⟨HASH_VALUE, u⟩ = some "H" ∧
    Value.type_id H fuel h ⟨HASH_VALUE, u⟩ = some (H "") ∧
    Value.type_tag fuel h ⟨MATRIX_VALUE, u⟩ = some "M" ∧
    Value.type_id H fuel h ⟨MATRIX_VALUE, u⟩ = some (H "") ∧
    Value.type_id H fuel h ⟨EMPTY_VALUE, u⟩ = some (H "") := by
  refine ⟨?_, ?_, ?_, ?_, ?_⟩ <;> cases fuel <;> rfl

/-- C3 (failing input): a Hash and a List holding one Hash have the same type tag "H", but
the type id of the first is the hash of "" and the type id of the second is the hash
of "H". -/
theorem type_id_differs_on_equal_tags (H : String → TypeTagID) :
    Value.type_tag 1 [some ⟨2, Obj.hash []⟩, some ⟨1, Obj.list [⟨HASH_VALUE, Slot.ptr (some 0)⟩]⟩]
        ⟨HASH_VALUE, Slot.ptr (some 0)⟩
      = Value.type_tag 1 [some ⟨2, Obj.hash []⟩, some ⟨1, Obj.list [⟨HASH_VALUE, Slot.ptr (some 0)⟩]⟩]
        ⟨LIST_VALUE, Slot.ptr (some 1)⟩ ∧
    Value.type_id H 1 [some ⟨2, Obj.hash []⟩, some ⟨1, Obj.list [⟨HASH_VALUE, Slot.ptr (some 0)⟩]⟩]
        ⟨HASH_VALUE, Slot.ptr (some 0)⟩ = some (H "") ∧
    Value.type_id H 1 [some ⟨2, Obj.hash []⟩, some ⟨1, Obj.list [⟨HASH_VALUE, Slot.ptr (some 0)⟩]⟩]
        ⟨LIST_VALUE, Slot.ptr (some 1)⟩ = some (H "H") := by
  refine ⟨?_, ?_, ?_⟩ <;> rfl

/-- C4: the type tag of a List Value is the concatenation, in element order, of the type
tags of its elements; a List holding a Real followed by a String has the type tag "fs". -/
theorem type_tag_list_concat (fuel : Nat) (h : Heap) (v : Value) (n : Nat)
    (values : List Value) (hl : v.type_ = LIST_VALUE)
    (hc : v.ptr_.bind h.cell = some ⟨n, Obj.list values⟩) :
    v.type_tag (fuel + 1) h = (values.mapM (Value.type_tag fuel h)).map String.join ∧
    (∀ a b : Value, values = [a, b] → a.type_ = REAL_VALUE → b.type_ = STRING_VALUE →
      v.type_tag (fuel + 1) h = some "fs") := by
  have key : v.type_tag (fuel + 1) h = (values.mapM (Value.type_tag fuel h)).map String.join := by
    obtain ⟨t, u⟩ := v
    simp only at hl
    subst hl
    simp only [Value.type_tag, hc, List_type_tag]
  refine ⟨key, ?_⟩
  intro a b hv ha hb
  obtain ⟨ta, ua⟩ := a
  obtain ⟨tb, ub⟩ := b
  simp only at ha hb
  subst ha hb hv
  rw [key]
  cases fuel <;> rfl

/-- C4, on the List [Real 1, String "x"]. -/
theorem type_tag_list_concat_witness :
    Value.type_tag 1
        [some ⟨1, Obj.string "x"⟩,
         some ⟨1, Obj.list [⟨REAL_VALUE, Slot.real 1⟩, ⟨STRING_VALUE, Slot.ptr (some 0)⟩]⟩]
        ⟨LIST_VALUE, Slot.ptr (some 1)⟩
      = some "fs" :=
  (type_tag_list_concat 0
    [some ⟨1, Obj.string "x"⟩,
     some ⟨1, Obj.list [⟨REAL_VALUE, Slot.real 1⟩, ⟨STRING_VALUE, Slot.ptr (some 0)⟩]⟩]
    ⟨LIST_VALUE, Slot.ptr (some 1)⟩ 1
    [⟨REAL_VALUE, Slot.real 1⟩, ⟨STRING_VALUE, Slot.ptr (some 0)⟩] rfl rfl).2
      ⟨REAL_VALUE, Slot.real 1⟩ ⟨STRING_VALUE, Slot.ptr (some 0)⟩ rfl rfl rfl

/-- C6: after `w = v` with `v` a Real of value `x`, followed by `v.set(y)` (or by the direct
write `v.r = y`), `w` is a Real of value `x`; the mutation of `v` leaves the heap as it was. -/
theorem real_copy_is_independent (h : Heap) (w : Value) (x y : Real)
    (hw : w.valid h = true) :
    ∃ w1 h1, w.assign h (Value.of_real x) = some (w1, h1) ∧
      (Value.of_real x).set_real h1 y = some (Value.of_real y, h1) ∧
      ({ Value.of_real x with u := Slot.real y } : Value).r = y ∧
      w1.is_real = true ∧ w1.r = x ∧ w1 = Value.of_real x := by
  obtain ⟨w0, h0, -, hset, -⟩ := Value.set_type_without_default_valid hw REAL_VALUE
  refine ⟨Value.of_real x, h0, ?_, ?_, rfl, rfl, rfl, rfl⟩
  · simp [Value.assign, Value.of_real, Value.set_real, hset, Value.r]
  · simp [Value.of_real, Value.set_real, Value.set_type_without_default, Value.clear]

/-- C6, on a Hash receiver that is assigned the Real 3 before the original becomes 7. -/
theorem real_copy_is_independent_witness :
    ∃ w1 h1, Value.assign [some ⟨1, Obj.hash []⟩] ⟨HASH_VALUE, Slot.ptr (some 0)⟩
        (Value.of_real 3) = some (w1, h1) ∧
      (Value.of_real 3).set_real h1 7 = some (Value.of_real 7, h1) ∧
      ({ Value.of_real 3 with u := Slot.real 7 } : Value).r = 7 ∧
      w1.is_real = true ∧ w1.r = 3 ∧ w1 = Value.of_real 3 :=
  real_copy_is_independent [some ⟨1, Obj.hash []⟩] ⟨HASH_VALUE, Slot.ptr (some 0)⟩ 3 7 rfl

/-- C12: a keyed lookup on a Value that is not a Hash, or on a Hash that does not hold the
key, returns false and leaves `res` alone, and `v[key]` is the Nil Value. -/
theorem keyed_lookup_reports_absence (h : Heap) (v : Value) (key : String) (res : Value) :
    gNilValue.is_nil = true ∧
    (v.is_hash = false →
      v.get h key res = some (false, res, h) ∧ v.at_key h key = some (gNilValue, h)) ∧
    (∀ p n entries, v.is_hash = true → v.ptr_ = some p →
      h.cell p = some ⟨n, Obj.hash entries⟩ → entries.lookup key = none →
      v.get h key res = some (false, res, h) ∧ v.at_key h key = some (gNilValue, h)) := by
  refine ⟨rfl, ?_, ?_⟩
  · intro hh
    constructor
    · simp [Value.get, hh]
    · simp only [Value.at_key, hh]
      rfl
  · intro p n entries hh hp hc hl
    have hget : ∀ r : Value, v.get h key r = some (false, r, h) := by
      intro r
      simp [Value.get, hh, THash_get, hp, hc, hl]
    refine ⟨hget res, ?_⟩
    simp only [Value.at_key, hh, hget Value.new]
    rfl

/-- C12, on a Real and on a Hash that holds the key "a" only. -/
theorem keyed_lookup_reports_absence_witness :
    Value.get [] (Value.of_real 1) "k" Value.new = some (false, Value.new, []) ∧
    Value.at_key [some ⟨1, Obj.hash [("a", Value.of_real 2)]⟩]
      ⟨HASH_VALUE, Slot.ptr (some 0)⟩ "k"
      = some (gNilValue, [some ⟨1, Obj.hash [("a", Value.of_real 2)]⟩]) :=
  ⟨((keyed_lookup_reports_absence [] (Value.of_real 1) "k" Value.new).2.1 rfl).1,
   ((keyed_lookup_reports_absence [some ⟨1, Obj.hash [("a", Value.of_real 2)]⟩]
      ⟨HASH_VALUE, Slot.ptr (some 0)⟩ "k" Value.new).2.2 0 1 [("a", Value.of_real 2)]
      rfl rfl rfl (by decide)).2⟩

/-- C14 (failing input): `v[pos]` on a Real, on a Nil and on a new Value dereferences a
`list_` that points to no List, whereas `size()` tests the variant and returns 0. -/
theorem positional_index_dereferences_non_list (h : Heap) (x : Real) (pos : Nat) :
    (Value.of_real x).at_pos h pos = none ∧ (Value.of_real x).size h = some 0 ∧
    gNilValue.at_pos h pos = none ∧ Value.new.at_pos h pos = none := by
  refine ⟨?_, ?_, ?_, ?_⟩ <;> rfl

/-- C19: for every Value exactly one of `is_empty`, `is_nil`, `is_real`, `is_string`,
`is_list`, `is_error`, `is_hash`, `is_matrix` and `is_any` is true. -/
theorem exactly_one_active_variant (v : Value) :
    [v.is_empty, v.is_nil, v.is_real, v.is_string, v.is_list, v.is_error, v.is_hash,
      v.is_matrix, v.is_any].count true = 1 := by
  obtain ⟨t, u⟩ := v
  cases t <;> rfl

/-- C17: for each of the characters f, s, H, M, N and *, the constructor from a `TypeTag`,
`set_type_tag` on a valid Value and the constructor from a `char` return a Value of the
variant the character denotes (Real, String, Hash, Matrix, Nil, Any), whose `type_tag()` is
the character again and for which that variant's `is_*` predicate, and no other, holds. -/
theorem one_char_type_tag_round_trip (fuel : Nat) (h : Heap) (v : Value) (c : Char)
    (hv : v.valid h = true) (hc : c ∈ ['f', 's', 'H', 'M', 'N', '*']) :
    (type_from_char 'f' = REAL_VALUE ∧ type_from_char 's' = STRING_VALUE ∧
      type_from_char 'H' = HASH_VALUE ∧ type_from_char 'M' = MATRIX_VALUE ∧
      type_from_char 'N' = NIL_VALUE ∧ type_from_char '*' = ANY_VALUE) ∧
    ∀ r : Option (Value × Heap),
      r = Value.of_type_tag h (String.singleton c) ∨
        r = v.set_type_tag h (String.singleton c) ∨ r = Value.of_char h c →
      ∃ v1 h1, r = some (v1, h1) ∧ v1.type_ = type_from_char c ∧
        v1.type_tag fuel h1 = some (String.singleton c) ∧
        [v1.is_empty, v1.is_nil, v1.is_real, v1.is_string, v1.is_list, v1.is_error,
          v1.is_hash, v1.is_matrix, v1.is_any]
          = [false, c == 'N', c == 'f', c == 's', false, false, c == 'H', c == 'M',
              c == '*'] := by
  refine ⟨⟨rfl, rfl, rfl, rfl, rfl, rfl⟩, ?_⟩
  have typed : ∀ w : Value, w.valid h = true →
      ∃ v1 h1, w.set_type h (type_from_char c) = some (v1, h1) ∧
        v1.type_ = type_from_char c := by
    intro w hw
    obtain ⟨w0, h0, -, hset, -, -⟩ := Value.set_type_valid hw (type_from_char c)
    exact ⟨_, _, hset, Value.set_default_type h0 _ _⟩
  have one : ∀ w : Value,
      w.set_type_tag h (String.singleton c) = w.set_type h (type_from_char c) := by
    intro w
    have hd : (String.singleton c).data = [c] := rfl
    simp [Value.set_type_tag, hd]
  have observed : ∀ v1 : Value, ∀ h1 : Heap, v1.type_ = type_from_char c →
      v1.type_tag fuel h1 = some (String.singleton c) ∧
      [v1.is_empty, v1.is_nil, v1.is_real, v1.is_string, v1.is_list, v1.is_error,
        v1.is_hash, v1.is_matrix, v1.is_any]
        = [false, c == 'N', c == 'f', c == 's', false, false, c == 'H', c == 'M',
            c == '*'] := by
    intro v1 h1 ht
    obtain ⟨t, u⟩ := v1
    simp only at ht
    subst ht
    simp only [List.mem_cons, List.mem_singleton, List.not_mem_nil, or_false] at hc
    rcases hc with e | e | e | e | e | e <;> subst e <;>
      exact ⟨by cases fuel <;> rfl, rfl⟩
  intro r hr
  rcases hr with e | e | e
  · obtain ⟨v1, h1, heq, ht⟩ := typed Value.new rfl
    refine ⟨v1, h1, ?_, ht, observed v1 h1 ht⟩
    rw [e, Value.of_type_tag, one, heq]
  · obtain ⟨v1, h1, heq, ht⟩ := typed v hv
    refine ⟨v1, h1, ?_, ht, observed v1 h1 ht⟩
    rw [e, one, heq]
  · obtain ⟨v1, h1, heq, ht⟩ := typed Value.new rfl
    refine ⟨v1, h1, ?_, ht, observed v1 h1 ht⟩
    rw [e, Value.of_char, heq]

/-- C17, on the tag "H": the Value is a Hash and nothing else. -/
theorem one_char_type_tag_round_trip_witness :
    ∃ v1 h1, Value.of_type_tag [] (String.singleton 'H') = some (v1, h1) ∧
      v1.type_ = type_from_char 'H' ∧
      v1.type_tag 0 h1 = some (String.singleton 'H') ∧
      [v1.is_empty, v1.is_nil, v1.is_real, v1.is_string, v1.is_list, v1.is_error,
        v1.is_hash, v1.is_matrix, v1.is_any]
        = [false, 'H' == 'N', 'H' == 'f', 'H' == 's', false, false, 'H' == 'H', 'H' == 'M',
            'H' == '*'] :=
  (one_char_type_tag_round_trip 0 [] Value.new 'H' rfl (by decide)).2 _ (Or.inl rfl)

/-- C13: `begin()` equals `end()` on a Value that is not a Hash.  On a Value without payload,
or on a Hash without entries, a sequence of keyed sets of valid Values yields a Value whose
iteration from `begin()` to `end()` visits distinct keys, namely the keys that were set, in
the order of their first insertion, and `get` returns true for each of them. -/
theorem hash_keys_in_insertion_order (h : Heap) (v : Value) (kvs : List (String × Value))
    (hstart : no_payload v.type_ ∨
      ∃ p n, v.is_hash = true ∧ v.ptr_ = some p ∧ h.cell p = some ⟨n, Obj.hash []⟩)
    (hxs : ∀ kx ∈ kvs, kx.2.valid h = true) :
    (∀ (w : Value) (g : Heap), w.is_hash = false → w.begin g = w.end_ g) ∧
    ∃ vN hN keys, v.set_keys h kvs = some (vN, hN) ∧
      vN.begin hN = some keys ∧ vN.end_ hN = some [] ∧
      keys.Nodup ∧ (∀ k, k ∈ keys ↔ k ∈ kvs.map Prod.fst) ∧
      keys.Pairwise (fun a b => (kvs.map Prod.fst).indexOf a < (kvs.map Prod.fst).indexOf b) ∧
      (∀ k ∈ keys, ∀ res : Value, res.valid hN = true → res.type_ ≠ MATRIX_VALUE →
        ∃ r h1, vN.get hN k res = some (true, r, h1)) := by
  have spec := keys_insert_foldl (kvs.map Prod.fst) [] []
    ⟨List.nodup_nil, fun _ => Iff.rfl, List.Pairwise.nil⟩
  simp only [List.nil_append] at spec
  obtain ⟨hnd, hmem, hpw⟩ := spec
  -- from a Hash without entries
  have from_hash : ∀ (g : Heap) (v1 : Value) (p : Addr) (n : Nat), v1.is_hash = true →
      v1.ptr_ = some p → g.cell p = some ⟨n, Obj.hash []⟩ →
      (∀ kx ∈ kvs, kx.2.valid g = true) →
      ∃ hN keys, v1.set_keys g kvs = some (v1, hN) ∧
        v1.begin hN = some keys ∧ v1.end_ hN = some [] ∧
        keys.Nodup ∧ (∀ k, k ∈ keys ↔ k ∈ kvs.map Prod.fst) ∧
        keys.Pairwise
          (fun a b => (kvs.map Prod.fst).indexOf a < (kvs.map Prod.fst).indexOf b) ∧
        (∀ k ∈ keys, ∀ res : Value, res.valid hN = true → res.type_ ≠ MATRIX_VALUE →
          ∃ r h1, v1.get hN k res = some (true, r, h1)) := by
    intro g v1 p n hv1 hp1 hc hxg
    obtain ⟨hN, nN, entriesN, hsets, hcellN, hkeys, hEN⟩ :=
      Value.set_keys_hash kvs g v1 p n [] hv1 hp1 hc (fun e he => by cases he) hxg
    simp only [List.map_nil] at hkeys
    refine ⟨hN, entriesN.map Prod.fst, hsets, by simp [Value.begin, hv1, hp1, hcellN],
      by simp [Value.end_, hv1, hp1, hcellN], hkeys ▸ hnd, hkeys ▸ hmem, hkeys ▸ hpw, ?_⟩
    intro k hk res hres hnm
    obtain ⟨s, hl, hs⟩ := lookup_of_mem_keys hk
    have hsv : s.valid hN = true := hEN (k, s) hs
    have hown : s.type_ = MATRIX_VALUE → res.ptr_ ≠ s.ptr_ := by
      intro hsm hptr
      rcases Value.valid_cases hsv with ⟨hn, -⟩ | ⟨q, c0, hu, hq, htq⟩
      · rcases hn with e | e | e | e <;> rw [e] at hsm <;> cases hsm
      · have hsp : s.ptr_ = some q := by simp [Value.ptr_, hu]
        rcases Value.valid_cases hres with ⟨-, hnone⟩ | ⟨q1, c1, hu1, hq1, htq1⟩
        · rw [hnone, hsp] at hptr
          cases hptr
        · have hrp : res.ptr_ = some q1 := by simp [Value.ptr_, hu1]
          rw [hrp, hsp] at hptr
          cases hptr
          rw [hq] at hq1
          cases hq1
          exact hnm (htq1.symm.trans (htq.trans hsm))
    obtain ⟨r, g1, hget, -⟩ := Value.get_found hv1 hp1 hcellN hl hsv hres hown
    exact ⟨r, g1, hget⟩
  refine ⟨fun w g hw => by simp [Value.begin, Value.end_, hw, gEmptyHash_keys], ?_⟩
  rcases hstart with hn | ⟨p, n, hh, hp, hc⟩
  · have hnh : v.is_hash = false := by
      rcases hn with e | e | e | e <;> simp [Value.is_hash, e]
    cases hk : kvs with
    | nil =>
      refine ⟨v, h, [], rfl, by simp [Value.begin, hnh, gEmptyHash_keys],
        by simp [Value.end_, hnh], List.nodup_nil, by simp, List.Pairwise.nil, ?_⟩
      intro k hk2
      cases hk2
    | cons kx rest =>
      obtain ⟨key, x⟩ := kx
      have hcell1 : (h.alloc (Obj.hash [])).2.cell (List.length h) = some ⟨1, Obj.hash []⟩ := by
        simp [Heap.cell_alloc]
      have hxg : ∀ kx ∈ kvs, kx.2.valid (h.alloc (Obj.hash [])).2 = true := by
        intro kx hkx
        refine Value.valid_of_kept ?_ (hxs kx hkx)
        intro q c0 hq
        have hne : q ≠ List.length h := Nat.ne_of_lt (Heap.cell_lt hq)
        exact ⟨c0.ref_count, by rw [Heap.cell_alloc, if_neg hne, hq]⟩
      obtain ⟨hN, keys, hsets, hrest⟩ := from_hash (h.alloc (Obj.hash [])).2
        ⟨HASH_VALUE, Slot.ptr (some (List.length h))⟩ (List.length h) 1 rfl rfl hcell1 hxg
      have hfirst : v.set_key h key x
          = Value.set_key (h.alloc (Obj.hash [])).2
              ⟨HASH_VALUE, Slot.ptr (some (List.length h))⟩ key x := by
        obtain ⟨t, u⟩ := v
        rcases hn with e | e | e | e <;> simp only at e <;> subst e <;> rfl
      rw [hk] at hsets hrest
      refine ⟨⟨HASH_VALUE, Slot.ptr (some (List.length h))⟩, hN, keys, ?_, hrest⟩
      rw [← hsets]
      simp only [Value.set_keys, hfirst]
  · obtain ⟨hN, keys, hsets, hrest⟩ := from_hash h v p n hh hp hc hxs
    exact ⟨v, hN, keys, hsets, hrest⟩

/-- C13, on the sets of "a", "c", "b" and "a" again on a new Value. -/
theorem hash_keys_in_insertion_order_witness :
    ∃ vN hN keys, Value.set_keys [] Value.new
        [("a", Value.of_real 1), ("c", Value.of_real 3), ("b", Value.of_real 2),
         ("a", Value.of_real 4)] = some (vN, hN) ∧
      vN.begin hN = some keys ∧ vN.end_ hN = some [] ∧
      keys.Nodup ∧
      (∀ k, k ∈ keys ↔ k ∈ List.map Prod.fst
        [("a", Value.of_real 1), ("c", Value.of_real 3), ("b", Value.of_real 2),
         ("a", Value.of_real 4)]) ∧
      keys.Pairwise (fun a b =>
        (List.map Prod.fst [("a", Value.of_real 1), ("c", Value.of_real 3),
          ("b", Value.of_real 2), ("a", Value.of_real 4)]).indexOf a
        < (List.map Prod.fst [("a", Value.of_real 1), ("c", Value.of_real 3),
          ("b", Value.of_real 2), ("a", Value.of_real 4)]).indexOf b) ∧
      (∀ k ∈ keys, ∀ res : Value, res.valid hN = true → res.type_ ≠ MATRIX_VALUE →
        ∃ r h1, vN.get hN k res = some (true, r, h1)) :=
  (hash_keys_in_insertion_order [] Value.new
    [("a", Value.of_real 1), ("c", Value.of_real 3), ("b", Value.of_real 2),
     ("a", Value.of_real 4)] (Or.inl (Or.inl rfl))
    (fun kx hkx => by
      simp only [List.mem_cons, List.mem_singleton, List.not_mem_nil, or_false] at hkx
      rcases hkx with e | e | e | e <;> rw [e] <;> rfl)).2

/-- C18: for a tag `t` of at least two characters among f, s, H, M, N and *, the
constructor from a `TypeTag` and `set_type_tag` on a valid Value return a List whose size is
the length of `t`, whose elements have, in order, the variants the characters denote, a Real
element being 0, a String element empty and a Hash element without entries, and whose
`type_tag()` is `t`. -/
theorem multi_char_type_tag_makes_list (fuel : Nat) (h : Heap) (v : Value) (t : List Char)
    (hv : v.valid h = true) (hlen : 2 ≤ t.length)
    (halpha : ∀ c ∈ t, c ∈ ['f', 's', 'H', 'M', 'N', '*']) :
    ∀ r : Option (Value × Heap),
      r = Value.of_type_tag h (String.mk t) ∨ r = v.set_type_tag h (String.mk t) →
      ∃ v1 h1 values, r = some (v1, h1) ∧ v1.is_list = true ∧
        v1.size h1 = some t.length ∧
        v1.ptr_.bind h1.cell = some ⟨1, Obj.list values⟩ ∧
        (∀ pos, v1.at_pos h1 pos = some (List_at values pos)) ∧
        values.map Value.type_ = t.map type_from_char ∧
        (∀ e ∈ values, (e.type_ = REAL_VALUE → e.r = 0) ∧
          (e.type_ = STRING_VALUE → e.str h1 = some "") ∧
          (e.type_ = HASH_VALUE → e.payload h1 = some (Obj.hash []))) ∧
        v1.type_tag (fuel + 1) h1 = some (String.mk t) := by
  have build : ∀ w : Value, w.valid h = true →
      ∃ v1 h1 values, w.set_type_tag h (String.mk t) = some (v1, h1) ∧ v1.is_list = true ∧
        v1.size h1 = some t.length ∧
        v1.ptr_.bind h1.cell = some ⟨1, Obj.list values⟩ ∧
        (∀ pos, v1.at_pos h1 pos = some (List_at values pos)) ∧
        values.map Value.type_ = t.map type_from_char ∧
        (∀ e ∈ values, (e.type_ = REAL_VALUE → e.r = 0) ∧
          (e.type_ = STRING_VALUE → e.str h1 = some "") ∧
          (e.type_ = HASH_VALUE → e.payload h1 = some (Obj.hash []))) ∧
        v1.type_tag (fuel + 1) h1 = some (String.mk t) := by
    intro w hw
    obtain ⟨w0, h0, -, hset, -, -, -⟩ := Value.set_type_without_default_valid hw LIST_VALUE
    obtain ⟨values, extra, hvals, hmap, hdef⟩ :=
      List_set_type_tag_spec t (h0.alloc (Obj.list [])).2 halpha
    have hlen2 : List.length (h0.alloc (Obj.list [])).2 = List.length h0 + 1 := by
      simp [Heap.alloc]
    have hp : List.length h0 < List.length ((h0.alloc (Obj.list [])).2 ++ extra) := by
      rw [List.length_append, hlen2]
      omega
    have hcellp : (Heap.write ((h0.alloc (Obj.list [])).2 ++ extra) (List.length h0)
        ⟨1, Obj.list values⟩).cell (List.length h0) = some ⟨1, Obj.list values⟩ := by
      rw [Heap.cell_write, if_pos rfl, if_pos hp]
    have hcellq : ∀ q, List.length (h0.alloc (Obj.list [])).2 ≤ q →
        (Heap.write ((h0.alloc (Obj.list [])).2 ++ extra) (List.length h0)
          ⟨1, Obj.list values⟩).cell q
        = Heap.cell ((h0.alloc (Obj.list [])).2 ++ extra) q := by
      intro q hq
      have hne : List.length h0 ≠ q := by
        rw [hlen2] at hq
        omega
      rw [Heap.cell_write, if_neg hne]
    have hlenv : values.length = t.length := by
      have := congrArg List.length hmap
      simpa using this
    have hbind : (Value.mk LIST_VALUE (Slot.ptr (some (List.length h0)))).ptr_.bind
        (Heap.write ((h0.alloc (Obj.list [])).2 ++ extra) (List.length h0)
          ⟨1, Obj.list values⟩).cell = some ⟨1, Obj.list values⟩ := by
      simpa [Value.ptr_] using hcellp
    refine ⟨⟨LIST_VALUE, Slot.ptr (some (List.length h0))⟩,
      Heap.write ((h0.alloc (Obj.list [])).2 ++ extra) (List.length h0) ⟨1, Obj.list values⟩,
      values, ?_, rfl, ?_, hbind, ?_, hmap, ?_, ?_⟩
    · have hd : 1 < t.length := hlen
      simp only [Heap.alloc] at hvals
      simp [Value.set_type_tag, hd, hset, Heap.alloc, hvals]
    · simp only [Value.size, if_true, hbind, hlenv]
    · intro pos
      simp only [Value.at_pos, hbind]
    · intro e he
      obtain ⟨h1, h2, h3⟩ := hdef e he
      refine ⟨fun hr => ?_, fun hs => ?_, fun hh => ?_⟩
      · simp [Value.r, h1 hr]
      · obtain ⟨q, hq, hu, hcq⟩ := h2 hs
        simp [Value.str, Value.ptr_, hu, hcellq q hq, hcq]
      · obtain ⟨q, hq, hu, hcq⟩ := h3 hh
        simp [Value.payload, Value.ptr_, hu, hcellq q hq, hcq]
    · have hm := mapM_type_tag_of_chars fuel
        (Heap.write ((h0.alloc (Obj.list [])).2 ++ extra) (List.length h0)
          ⟨1, Obj.list values⟩) t halpha values hmap
      simp only [Value.type_tag, hbind, List_type_tag, hm, Option.map_some',
        string_join_singletons]
  intro r hr
  rcases hr with e | e
  · obtain ⟨v1, h1, values, heq, hrest⟩ := build Value.new rfl
    exact ⟨v1, h1, values, by rw [e, Value.of_type_tag, heq], hrest⟩
  · obtain ⟨v1, h1, values, heq, hrest⟩ := build v hv
    exact ⟨v1, h1, values, by rw [e, heq], hrest⟩

/-- C18, on the tag "fs". -/
theorem multi_char_type_tag_makes_list_witness :
    ∃ v1 h1 values, Value.of_type_tag [] (String.mk ['f', 's']) = some (v1, h1) ∧
      v1.is_list = true ∧ v1.size h1 = some ['f', 's'].length ∧
      v1.ptr_.bind h1.cell = some ⟨1, Obj.list values⟩ ∧
      (∀ pos, v1.at_pos h1 pos = some (List_at values pos)) ∧
      values.map Value.type_ = ['f', 's'].map type_from_char ∧
      (∀ e ∈ values, (e.type_ = REAL_VALUE → e.r = 0) ∧
        (e.type_ = STRING_VALUE → e.str h1 = some "") ∧
        (e.type_ = HASH_VALUE → e.payload h1 = some (Obj.hash []))) ∧
      v1.type_tag 1 h1 = some (String.mk ['f', 's']) :=
  multi_char_type_tag_makes_list 0 [] Value.new ['f', 's'] rfl (by decide) (by decide) _
    (Or.inl rfl)

end Oscit

namespace Oscit.Old

/-! ## The heap of the earlier revision -/

theorem Heap.lt_of_cell {h : Heap} {p : Addr} {t : Tree} (hc : h.cell p = some t) :
    p < h.length := by
  by_contra hlt
  have hnone : h[p]? = none := List.getElem?_eq_none (Nat.le_of_not_lt hlt)
  simp [Heap.cell, hnone] at hc

theorem Heap.cell_after_write (h : Heap) (p q : Addr) (t : Tree) :
    (h.write p t).cell q
      = if p = q then (if p < h.length then some t else none) else h.cell q := by
  unfold Heap.cell Heap.write
  rw [List.getElem?_set]
  by_cases hpq : p = q
  · subst hpq
    by_cases hlt : p < h.length <;> simp [hlt]
  · simp [hpq]

theorem Heap.cell_after_free (h : Heap) (p q : Addr) :
    (h.free p).cell q = if p = q then none else h.cell q := by
  unfold Heap.cell Heap.free
  rw [List.getElem?_set]
  by_cases hpq : p = q
  · by_cases hlt : p < h.length <;> simp [hpq, hlt]
  · simp [hpq]

theorem Heap.cell_after_alloc (h : Heap) (t : Tree) (q : Nat) :
    (h.alloc t).2.cell q = if q = h.length then some t else h.cell q := by
  unfold Heap.cell Heap.alloc
  simp only
  rw [List.getElem?_append]
  by_cases hq : q = h.length
  · simp [hq]
  · by_cases hlt : q < h.length
    · simp [hq, hlt]
    · have h1 : h[q]? = none := List.getElem?_eq_none (Nat.le_of_not_lt hlt)
      have h2 : 1 ≤ q - List.length h := by omega
      have h3 : ([some t] : List (Option Tree))[q - List.length h]? = none :=
        List.getElem?_eq_none (by simpa using h2)
      simp [hq, hlt, h1, h3]

theorem Value.bind_cell_congr {g g1 : Heap} {x : Value}
    (hsame : ∀ q, x.ptr_ = some q → g1.cell q = g.cell q) :
    x.ptr_.bind g1.cell = x.ptr_.bind g.cell := by
  cases hp : x.ptr_ with
  | none => rfl
  | some q => simpa using hsame q hp

theorem Value.valid_congr {g g1 : Heap} {x : Value}
    (hsame : ∀ q, x.ptr_ = some q → g1.cell q = g.cell q) : x.valid g1 = x.valid g := by
  unfold Value.valid
  rw [Value.bind_cell_congr hsame]

theorem Value.content_congr {g g1 : Heap} {x : Value}
    (hsame : ∀ q, x.ptr_ = some q → g1.cell q = g.cell q) : x.content g1 = x.content g := by
  unfold Value.content
  rw [Value.bind_cell_congr hsame]

theorem Value.valid_split {h : Heap} {v : Value} (hv : v.valid h = true) :
    ((v.type_ = ValueType.NIL_VALUE ∨ v.type_ = ValueType.REAL_VALUE) ∧ v.ptr_ = none) ∨
    (∃ p t, v.u = Slot.ptr (some p) ∧ h.cell p = some t ∧ t.type = v.type_ ∧
      v.type_ ≠ ValueType.NIL_VALUE ∧ v.type_ ≠ ValueType.REAL_VALUE) := by
  obtain ⟨ty, u⟩ := v
  have owning : (match (Value.mk ty u).ptr_.bind h.cell with
      | some t => t.type == ty
      | none => false) = true →
      ∃ p t, u = Slot.ptr (some p) ∧ h.cell p = some t ∧ t.type = ty := by
    intro hm
    cases u with
    | undef => simp [Value.ptr_] at hm
    | real x => simp [Value.ptr_] at hm
    | ptr q =>
      cases q with
      | none => simp [Value.ptr_] at hm
      | some p =>
        cases hc : h.cell p with
        | none => simp [Value.ptr_, hc] at hm
        | some t =>
          simp [Value.ptr_, hc] at hm
          exact ⟨p, t, rfl, hc, hm⟩
  cases ty
  case NIL_VALUE => left; exact ⟨Or.inl rfl, by simpa [Value.valid] using hv⟩
  case REAL_VALUE => left; exact ⟨Or.inr rfl, by simpa [Value.valid] using hv⟩
  all_goals
    right
    obtain ⟨p, t, h1, h2, h3⟩ := owning (by simpa [Value.valid] using hv)
    exact ⟨p, t, h1, h2, h3, by simp, by simp⟩

theorem Value.clear_spec {h : Heap} {w : Value} (hw : w.valid h = true) :
    ∃ h0, w.clear h = some (⟨w.type_, if w.ptr_ = none then w.u else Slot.ptr none⟩, h0) ∧
      h0.length = h.length ∧ ∀ q, w.ptr_ ≠ some q → h0.cell q = h.cell q := by
  rcases Value.valid_split hw with ⟨hn, hp⟩ | ⟨p, t, hu, hc, ht, hn1, hn2⟩
  · refine ⟨h, ?_, rfl, fun _ _ => rfl⟩
    obtain ⟨ty, u⟩ := w
    rw [if_pos hp]
    rcases hn with e | e <;> simp only at e <;> subst e <;> rfl
  · obtain ⟨ty, u⟩ := w
    simp only at hu ht hn1 hn2
    subst hu
    refine ⟨h.free p, ?_, by simp [Heap.free], ?_⟩
    · cases ty <;> first
        | exact absurd rfl hn1
        | exact absurd rfl hn2
        | simp [Value.clear, Value.ptr_, hc]
    · intro q hq
      have hpq : p ≠ q := fun e => hq (by simp [Value.ptr_, e])
      simp [Heap.cell_after_free, hpq]

theorem Value.content_valid {g : Heap} {x : Value} (hx : x.valid g = true) :
    ∃ t, x.content g = some t := by
  rcases Value.valid_split hx with ⟨hn, -⟩ | ⟨p, t, hu, hc, ht, hn1, hn2⟩
  · obtain ⟨ty, u⟩ := x
    rcases hn with e | e <;> simp only at e <;> subst e
    · exact ⟨Tree.nil, rfl⟩
    · exact ⟨Tree.real (Value.mk ValueType.REAL_VALUE u).r, rfl⟩
  · obtain ⟨ty, u⟩ := x
    simp only at hu ht hn1 hn2
    subst hu
    refine ⟨t, ?_⟩
    cases ty <;> first
      | exact absurd rfl hn1
      | exact absurd rfl hn2
      | simp [Value.content, Value.ptr_, hc, ht]

/-- Assigning a held Value to `res`: the resulting Value only depends on `res`, on the held
Value and on the size of the heap, and its content is the held Value. -/
theorem Value.assign_tree_uniform (res : Value) (t : Tree) (n : Nat) :
    ∃ r, ∀ g : Heap, res.valid g = true → g.length = n →
      ∃ g1, res.assign_tree g t = some (r, g1) ∧ r.content g1 = some t := by
  have owning : ∀ t : Tree, t.type ≠ ValueType.NIL_VALUE → t.type ≠ ValueType.REAL_VALUE →
      (∀ g : Heap, res.assign_tree g t =
        match res.set_type_without_default g t.type with
        | none => none
        | some (v1, h1) => some ({ v1 with u := Slot.ptr (some h1.length) }, h1 ++ [some t])) →
      ∀ g : Heap, res.valid g = true → g.length = n →
        ∃ g1, res.assign_tree g t = some (⟨t.type, Slot.ptr (some n)⟩, g1) ∧
          (Value.mk t.type (Slot.ptr (some n))).content g1 = some t := by
    intro t hn1 hn2 hdef g hres hlen
    obtain ⟨h0, hclear, hlen0, -⟩ := Value.clear_spec hres
    refine ⟨h0 ++ [some t], ?_, ?_⟩
    · rw [hdef]
      simp [Value.set_type_without_default, hclear, hlen0, hlen]
    · have hcell : Heap.cell (h0 ++ [some t]) n = some t := by
        have := Heap.cell_after_alloc h0 t n
        simpa [Heap.alloc, hlen0, hlen] using this
      cases t <;> first
        | exact absurd rfl hn1
        | exact absurd rfl hn2
        | simp [Value.content, Value.ptr_, hcell, Tree.type]
  cases t with
  | nil =>
    refine ⟨⟨ValueType.NIL_VALUE, if res.ptr_ = none then res.u else Slot.ptr none⟩, ?_⟩
    intro g hres _
    obtain ⟨h0, hclear, -, -⟩ := Value.clear_spec hres
    exact ⟨h0, by simp [Value.assign_tree, Value.set_nil, Value.set_type_without_default,
      hclear], rfl⟩
  | real x =>
    refine ⟨⟨ValueType.REAL_VALUE, Slot.real x⟩, ?_⟩
    intro g hres _
    obtain ⟨h0, hclear, -, -⟩ := Value.clear_spec hres
    exact ⟨h0, by simp [Value.assign_tree, Value.set_real, Value.set_type_without_default,
      hclear], rfl⟩
  | string s0 => exact ⟨_, owning _ (by simp [Tree.type]) (by simp [Tree.type]) (fun _ => rfl)⟩
  | error c0 m0 => exact ⟨_, owning _ (by simp [Tree.type]) (by simp [Tree.type]) (fun _ => rfl)⟩
  | list l0 => exact ⟨_, owning _ (by simp [Tree.type]) (by simp [Tree.type]) (fun _ => rfl)⟩
  | hash e0 => exact ⟨_, owning _ (by simp [Tree.type]) (by simp [Tree.type]) (fun _ => rfl)⟩
  | matrix m0 => exact ⟨_, owning _ (by simp [Tree.type]) (by simp [Tree.type]) (fun _ => rfl)⟩

/-- C8: let `v` be a Hash with the entries `entries`, and `v2` the copy of `v` made by
assigning `v` to a valid Value `w` (copy construction is the case of a new `w`).  After
`v.set(key, x)`, which changes the payload of `v`, `v2.get(k, &res)` returns for every key `k`
what it returned before: the same presence, namely that of `k` in `entries`, and a result
with the same content, namely the one `entries` holds for `k`. -/
theorem hash_copy_is_independent (h : Heap) (w v : Value) (p : Addr)
    (entries : List (String × Tree)) (key : String) (x : Value)
    (hw : w.valid h = true) (hv : v.type_ = ValueType.HASH_VALUE)
    (hp : v.u = Slot.ptr (some p)) (hc : h.cell p = some (Tree.hash entries))
    (hwp : w.ptr_ ≠ some p) :
    ∃ v2 h1, w.assign h v = some (v2, h1) ∧ v2.is_hash = true ∧
      (x.valid h1 = true → ∃ h2 t, x.content h1 = some t ∧
        v.set_key h1 key x = some (v, h2) ∧
        h2.cell p = some (Tree.hash (entries_set entries key t)) ∧
        ∀ k res, res.valid h1 = true → res.ptr_ ≠ some p →
          ∃ r g1 g2, v2.get h1 k res = some ((entries.lookup k).isSome, r, g1) ∧
            v2.get h2 k res = some ((entries.lookup k).isSome, r, g2) ∧
            r.content g2 = r.content g1 ∧
            ∀ t1, entries.lookup k = some t1 → r.content g1 = some t1) := by
  obtain ⟨ty, u⟩ := v
  simp only at hv hp
  subst hv hp
  obtain ⟨h0, hclear, hlen0, hframe⟩ := Value.clear_spec hw
  have hc0 : h0.cell p = some (Tree.hash entries) := by rw [hframe p hwp, hc]
  have hpq : p ≠ List.length h0 := Nat.ne_of_lt (Heap.lt_of_cell hc0)
  have hcp1 : Heap.cell (h0 ++ [some (Tree.hash entries)]) p = some (Tree.hash entries) := by
    have := Heap.cell_after_alloc h0 (Tree.hash entries) p
    simpa [Heap.alloc, hpq, hc0] using this
  have hcq1 : Heap.cell (h0 ++ [some (Tree.hash entries)]) (List.length h0)
      = some (Tree.hash entries) := by
    have := Heap.cell_after_alloc h0 (Tree.hash entries) (List.length h0)
    simpa [Heap.alloc] using this
  refine ⟨⟨ValueType.HASH_VALUE, Slot.ptr (some (List.length h0))⟩,
    h0 ++ [some (Tree.hash entries)], ?_, rfl, ?_⟩
  · simp [Value.assign, Value.set_ptr, Value.set_type_without_default, hclear, Value.ptr_,
      hc0, Tree.type, Heap.alloc]
  intro hx
  obtain ⟨t, hcontent⟩ := Value.content_valid hx
  have hcp2 : (Heap.write (h0 ++ [some (Tree.hash entries)]) p
      (Tree.hash (entries_set entries key t))).cell p
      = some (Tree.hash (entries_set entries key t)) := by
    rw [Heap.cell_after_write, if_pos rfl, if_pos (Heap.lt_of_cell hcp1)]
  have hcq2 : (Heap.write (h0 ++ [some (Tree.hash entries)]) p
      (Tree.hash (entries_set entries key t))).cell (List.length h0)
      = some (Tree.hash entries) := by
    rw [Heap.cell_after_write, if_neg hpq, hcq1]
  refine ⟨Heap.write (h0 ++ [some (Tree.hash entries)]) p
    (Tree.hash (entries_set entries key t)), t, hcontent, ?_, hcp2, ?_⟩
  · simp [Value.set_key, Value.is_hash, THash_set, hcontent, Value.ptr_, hcp1]
  intro k res hres hresp
  have hsame : ∀ q, res.ptr_ = some q →
      (Heap.write (h0 ++ [some (Tree.hash entries)]) p
        (Tree.hash (entries_set entries key t))).cell q
      = Heap.cell (h0 ++ [some (Tree.hash entries)]) q := by
    intro q hq
    have hne : p ≠ q := fun e => hresp (by rw [hq, e])
    rw [Heap.cell_after_write, if_neg hne]
  cases hl : entries.lookup k with
  | none =>
    refine ⟨res, _, _, ?_, ?_, Value.content_congr hsame, fun t1 ht1 => by cases ht1⟩
    · simp [Value.get, Value.is_hash, THash_get, Value.ptr_, hcq1, hl]
    · simp [Value.get, Value.is_hash, THash_get, Value.ptr_, hcq2, hl]
  | some t1 =>
    obtain ⟨r, hr⟩ := Value.assign_tree_uniform res t1
      (List.length (h0 ++ [some (Tree.hash entries)]))
    obtain ⟨g1, hg1, hcont1⟩ := hr _ hres rfl
    obtain ⟨g2, hg2, hcont2⟩ := hr (Heap.write (h0 ++ [some (Tree.hash entries)]) p
      (Tree.hash (entries_set entries key t)))
      (by rw [Value.valid_congr hsame]; exact hres) (by simp [Heap.write])
    refine ⟨r, g1, g2, ?_, ?_, by rw [hcont1, hcont2], fun t2 ht2 => by
      cases ht2
      exact hcont1⟩
    · simp [Value.get, Value.is_hash, THash_get, Value.ptr_, hcq1, hl, hg1]
    · simp [Value.get, Value.is_hash, THash_get, Value.ptr_, hcq2, hl, hg2]

/-- C8, on the copy construction of a Hash holding "1" ↦ "one", before the original gets
"1" ↦ 7.  -/
theorem hash_copy_is_independent_witness :
    ∃ v2 h1, Value.copy [some (Tree.hash [("1", Tree.string "one")])]
        ⟨ValueType.HASH_VALUE, Slot.ptr (some 0)⟩ = some (v2, h1) ∧ v2.is_hash = true ∧
      ((Value.of_real 7).valid h1 = true → ∃ h2 t, (Value.of_real 7).content h1 = some t ∧
        Value.set_key h1 ⟨ValueType.HASH_VALUE, Slot.ptr (some 0)⟩ "1" (Value.of_real 7)
          = some (⟨ValueType.HASH_VALUE, Slot.ptr (some 0)⟩, h2) ∧
        h2.cell 0 = some (Tree.hash (entries_set [("1", Tree.string "one")] "1" t)) ∧
        ∀ k res, res.valid h1 = true → res.ptr_ ≠ some 0 →
          ∃ r g1 g2,
            v2.get h1 k res
              = some ((List.lookup k [("1", Tree.string "one")]).isSome, r, g1) ∧
            v2.get h2 k res
              = some ((List.lookup k [("1", Tree.string "one")]).isSome, r, g2) ∧
            r.content g2 = r.content g1 ∧
            ∀ t1, List.lookup k [("1", Tree.string "one")] = some t1 →
              r.content g1 = some t1) :=
  hash_copy_is_independent [some (Tree.hash [("1", Tree.string "one")])] Value.new
    ⟨ValueType.HASH_VALUE, Slot.ptr (some 0)⟩ 0 [("1", Tree.string "one")] "1"
    (Value.of_real 7) rfl rfl rfl rfl (by decide)

/-- C9 (as stated, refuted): in `src/include/oscit/value.h` a default-constructed Value is
not Nil. -/
theorem default_value_is_not_nil : Oscit.Value.new.is_nil = false := by
  rfl

/-- C9 (amended): a default-constructed Value is Nil in `src/oscit/value.h`; in
`src/include/oscit/value.h` it is Empty, and not Nil. -/
theorem default_value_is_nil_or_empty :
    Value.new.is_nil = true ∧
    Oscit.Value.new.is_empty = true ∧ Oscit.Value.new.is_nil = false := by
  refine ⟨?_, ?_, ?_⟩ <;> rfl

/-! ## Lists of the earlier revision -/

/-- `push_back` on a List appends the content of the argument. -/
theorem Value.push_back_appends (fuel : Nat) {h : Heap} {v e : Value} {p : Addr}
    {values : List Tree} {te : Tree} (hl : v.type_ = ValueType.LIST_VALUE)
    (hp : v.ptr_ = some p) (hc : h.cell p = some (Tree.list values))
    (he : e.content h = some te) :
    v.push_back fuel h e = some (v, h.write p (Tree.list (values ++ [te]))) ∧
    (h.write p (Tree.list (values ++ [te]))).cell p = some (Tree.list (values ++ [te])) := by
  constructor
  · rw [Value.push_back]
    simp [Value.is_nil, Value.is_list, hl, List_push_back, he, hp, hc]
  · rw [Heap.cell_after_write, if_pos rfl, if_pos (Heap.lt_of_cell hc)]

/-- `push_front` on a List puts the content of the argument first. -/
theorem Value.push_front_prepends (fuel : Nat) {h : Heap} {v e : Value} {p : Addr}
    {values : List Tree} {te : Tree} (hl : v.type_ = ValueType.LIST_VALUE)
    (hp : v.ptr_ = some p) (hc : h.cell p = some (Tree.list values))
    (he : e.content h = some te) :
    v.push_front fuel h e = some (v, h.write p (Tree.list (te :: values))) ∧
    (h.write p (Tree.list (te :: values))).cell p = some (Tree.list (te :: values)) := by
  constructor
  · simp [Value.push_front, Value.is_nil, Value.is_list, hl, List_push_front, he, hp, hc]
  · rw [Heap.cell_after_write, if_pos rfl, if_pos (Heap.lt_of_cell hc)]

theorem Heap.cell_append_one (h : Heap) (t : Tree) (q : Nat) :
    Heap.cell (h ++ [some t]) q = if q = List.length h then some t else h.cell q := by
  have := Heap.cell_after_alloc h t q
  simpa [Heap.alloc] using this

/-- `push_back` and `push_front` on a valid receiver `x` that is neither Nil nor a List, with
a valid argument `e` that holds another payload: the receiver becomes a List on a new
payload, which holds the previous content of `x` and the content of `e`. -/
theorem Value.push_promotes (fuel : Nat) {h : Heap} {x e : Value} (hx : x.valid h = true)
    (hn : x.type_ ≠ ValueType.NIL_VALUE) (hl : x.type_ ≠ ValueType.LIST_VALUE)
    (he : e.valid h = true) (hne : ∀ q, x.ptr_ = some q → e.ptr_ ≠ some q) :
    ∃ tx te p hB hF, x.content h = some tx ∧ e.content h = some te ∧
      x.push_back (fuel + 1) h e = some (⟨ValueType.LIST_VALUE, Slot.ptr (some p)⟩, hB) ∧
      hB.cell p = some (Tree.list [tx, te]) ∧
      x.push_front fuel h e = some (⟨ValueType.LIST_VALUE, Slot.ptr (some p)⟩, hF) ∧
      hF.cell p = some (Tree.list [te, tx]) := by
  obtain ⟨te, hte⟩ := Value.content_valid he
  have hebelow : ∀ q, e.ptr_ = some q → q < List.length h := by
    intro q hq
    rcases Value.valid_split he with ⟨-, hnone⟩ | ⟨q1, t1, hu, hc1, -⟩
    · rw [hnone] at hq
      cases hq
    · have : q1 = q := by simpa [Value.ptr_, hu] using hq
      exact this ▸ Heap.lt_of_cell hc1
  rcases Value.valid_split hx with ⟨hnr, hnone⟩ | ⟨q, tx, hu, hc, ht, -, hnreal⟩
  · -- a Real receiver
    obtain ⟨ty, u⟩ := x
    rcases hnr with e1 | e1 <;> simp only at e1 <;> subst e1
    · exact absurd rfl hn
    have hcopy : Value.copy h ⟨ValueType.REAL_VALUE, u⟩
        = some (⟨ValueType.REAL_VALUE, Slot.real (Value.mk ValueType.REAL_VALUE u).r⟩, h) := rfl
    have hst : Value.set_type h ⟨ValueType.REAL_VALUE, u⟩ ValueType.LIST_VALUE
        = some (⟨ValueType.LIST_VALUE, Slot.ptr (some (List.length h))⟩,
            h ++ [some (Tree.list [])]) := rfl
    have hcontx : Value.content h ⟨ValueType.REAL_VALUE, u⟩
        = some (Tree.real (Value.mk ValueType.REAL_VALUE u).r) := rfl
    generalize (Value.mk ValueType.REAL_VALUE u).r = r0 at hcopy hcontx
    have hcell2 : Heap.cell (h ++ [some (Tree.list [])]) (List.length h)
        = some (Tree.list []) := by
      rw [Heap.cell_append_one, if_pos rfl]
    have hnest : Value.push_back fuel (h ++ [some (Tree.list [])])
        ⟨ValueType.LIST_VALUE, Slot.ptr (some (List.length h))⟩
        ⟨ValueType.REAL_VALUE, Slot.real r0⟩
        = some (⟨ValueType.LIST_VALUE, Slot.ptr (some (List.length h))⟩,
            Heap.write (h ++ [some (Tree.list [])]) (List.length h)
              (Tree.list [Tree.real r0])) :=
      (Value.push_back_appends fuel
        (rfl : (Value.mk ValueType.LIST_VALUE (Slot.ptr (some (List.length h)))).type_
          = ValueType.LIST_VALUE)
        (rfl : (Value.mk ValueType.LIST_VALUE (Slot.ptr (some (List.length h)))).ptr_
          = some (List.length h)) hcell2
        (rfl : (Value.mk ValueType.REAL_VALUE (Slot.real r0)).content
          (h ++ [some (Tree.list [])]) = some (Tree.real r0))).1
    have hcell3 : (Heap.write (h ++ [some (Tree.list [])]) (List.length h)
        (Tree.list [Tree.real r0])).cell (List.length h) = some (Tree.list [Tree.real r0]) := by
      rw [Heap.cell_after_write, if_pos rfl, if_pos (Heap.lt_of_cell hcell2)]
    have hclr : Value.clear
        (Heap.write (h ++ [some (Tree.list [])]) (List.length h) (Tree.list [Tree.real r0]))
        ⟨ValueType.REAL_VALUE, Slot.real r0⟩
        = some (⟨ValueType.REAL_VALUE, Slot.real r0⟩,
            Heap.write (h ++ [some (Tree.list [])]) (List.length h)
              (Tree.list [Tree.real r0])) := rfl
    have hte5 : e.content (Heap.write (h ++ [some (Tree.list [])]) (List.length h)
        (Tree.list [Tree.real r0])) = some te := by
      rw [← hte]
      refine Value.content_congr ?_
      intro q1 hq1
      have hlt := hebelow q1 hq1
      have hne1 : List.length h ≠ q1 := Nat.ne_of_gt hlt
      have hne2 : q1 ≠ List.length h := Nat.ne_of_lt hlt
      rw [Heap.cell_after_write, if_neg hne1, Heap.cell_append_one, if_neg hne2]
    have hlt3 := Heap.lt_of_cell hcell3
    refine ⟨Tree.real r0, te, List.length h,
      Heap.write (Heap.write (h ++ [some (Tree.list [])]) (List.length h)
        (Tree.list [Tree.real r0])) (List.length h) (Tree.list [Tree.real r0, te]),
      Heap.write (Heap.write (h ++ [some (Tree.list [])]) (List.length h)
        (Tree.list [Tree.real r0])) (List.length h) (Tree.list [te, Tree.real r0]),
      hcontx, hte, ?_, ?_, ?_, ?_⟩
    · rw [Value.push_back]
      simp only [Value.is_nil, Value.is_list, hcopy, hst, hnest]
      simp [hclr, List_push_back, hte5, hcell3, Value.ptr_]
    · rw [Heap.cell_after_write, if_pos rfl, if_pos hlt3]
    · simp only [Value.push_front, Value.is_nil, Value.is_list, hcopy, hst, hnest]
      simp [hclr, List_push_front, hte5, hcell3, Value.ptr_]
    · rw [Heap.cell_after_write, if_pos rfl, if_pos hlt3]
  · -- a String, Error, Hash or Matrix receiver, with its payload `tx` at `q`
    obtain ⟨ty, u⟩ := x
    simp only at hu ht hn hl hnreal
    subst hu
    have hqe : ∀ q1, e.ptr_ = some q1 → q ≠ q1 := by
      intro q1 hq1 e1
      exact hne q rfl (by rw [hq1, e1])
    have hq_lt : q < List.length h := Heap.lt_of_cell hc
    have hq_ne : q ≠ List.length h := Nat.ne_of_lt hq_lt
    have hc1 : Heap.cell (h ++ [some tx]) q = some tx := by
      rw [Heap.cell_append_one, if_neg hq_ne, hc]
    have hc1t : Heap.cell (h ++ [some tx]) (List.length h) = some tx := by
      rw [Heap.cell_append_one, if_pos rfl]
    have hlenf : List.length (Heap.free (h ++ [some tx]) q) = List.length h + 1 := by
      simp [Heap.free]
    have hne_p : List.length h ≠ List.length (Heap.free (h ++ [some tx]) q) := by
      rw [hlenf]
      exact Nat.ne_of_lt (Nat.lt_succ_self _)
    have hc2p : Heap.cell (Heap.free (h ++ [some tx]) q ++ [some (Tree.list [])])
        (List.length h + 1) = some (Tree.list []) := by
      rw [Heap.cell_append_one, if_pos hlenf.symm]
    have hc2t : Heap.cell (Heap.free (h ++ [some tx]) q ++ [some (Tree.list [])])
        (List.length h) = some tx := by
      rw [Heap.cell_append_one, if_neg hne_p, Heap.cell_after_free, if_neg hq_ne, hc1t]
    have hp_ne : List.length h + 1 ≠ List.length h := Nat.succ_ne_self _
    have hc3p : (Heap.write (Heap.free (h ++ [some tx]) q ++ [some (Tree.list [])])
        (List.length h + 1) (Tree.list [tx])).cell (List.length h + 1)
        = some (Tree.list [tx]) := by
      rw [Heap.cell_after_write, if_pos rfl, if_pos (Heap.lt_of_cell hc2p)]
    have hc3t : (Heap.write (Heap.free (h ++ [some tx]) q ++ [some (Tree.list [])])
        (List.length h + 1) (Tree.list [tx])).cell (List.length h) = some tx := by
      rw [Heap.cell_after_write, if_neg hp_ne, hc2t]
    have hc4p : (Heap.free (Heap.write (Heap.free (h ++ [some tx]) q ++ [some (Tree.list [])])
        (List.length h + 1) (Tree.list [tx])) (List.length h)).cell (List.length h + 1)
        = some (Tree.list [tx]) := by
      rw [Heap.cell_after_free, if_neg (fun e1 => hp_ne e1.symm), hc3p]
    have hte4 : e.content (Heap.free (Heap.write
        (Heap.free (h ++ [some tx]) q ++ [some (Tree.list [])])
        (List.length h + 1) (Tree.list [tx])) (List.length h)) = some te := by
      rw [← hte]
      refine Value.content_congr ?_
      intro q1 hq1
      have hlt := hebelow q1 hq1
      have hne1 : List.length h ≠ q1 := Nat.ne_of_gt hlt
      have hne2 : q1 ≠ List.length h := Nat.ne_of_lt hlt
      have hne3 : List.length h + 1 ≠ q1 := Nat.ne_of_gt (Nat.lt_succ_of_lt hlt)
      have hne4 : q1 ≠ List.length (Heap.free (h ++ [some tx]) q) := by
        rw [hlenf]
        exact fun e1 => hne3 e1.symm
      rw [Heap.cell_after_free, if_neg hne1, Heap.cell_after_write, if_neg hne3,
        Heap.cell_append_one, if_neg hne4, Heap.cell_after_free, if_neg (hqe q1 hq1),
        Heap.cell_append_one, if_neg hne2]
    have hlt4 := Heap.lt_of_cell hc4p
    have hnest : ∀ tmp : Value, tmp.content
        (Heap.free (h ++ [some tx]) q ++ [some (Tree.list [])]) = some tx →
        Value.push_back fuel (Heap.free (h ++ [some tx]) q ++ [some (Tree.list [])])
          ⟨ValueType.LIST_VALUE, Slot.ptr (some (List.length h + 1))⟩ tmp
        = some (⟨ValueType.LIST_VALUE, Slot.ptr (some (List.length h + 1))⟩,
            Heap.write (Heap.free (h ++ [some tx]) q ++ [some (Tree.list [])])
              (List.length h + 1) (Tree.list [tx])) := by
      intro tmp htmp
      exact (Value.push_back_appends fuel
        (rfl : (Value.mk ValueType.LIST_VALUE (Slot.ptr (some (List.length h + 1)))).type_
          = ValueType.LIST_VALUE)
        (rfl : (Value.mk ValueType.LIST_VALUE (Slot.ptr (some (List.length h + 1)))).ptr_
          = some (List.length h + 1)) hc2p htmp).1
    have hcontx : Value.content h ⟨ty, Slot.ptr (some q)⟩ = some tx := by
      cases ty <;> first
        | exact absurd rfl hn
        | exact absurd rfl hnreal
        | simp [Value.content, Value.ptr_, hc, ht]
    have htmpc : Value.content (Heap.free (h ++ [some tx]) q ++ [some (Tree.list [])])
        ⟨ty, Slot.ptr (some (List.length h))⟩ = some tx := by
      cases ty <;> first
        | exact absurd rfl hn
        | exact absurd rfl hnreal
        | simp [Value.content, Value.ptr_, hc2t, ht]
    have htmp := hnest _ htmpc
    refine ⟨tx, te, List.length h + 1,
      Heap.write (Heap.free (Heap.write (Heap.free (h ++ [some tx]) q ++ [some (Tree.list [])])
        (List.length h + 1) (Tree.list [tx])) (List.length h)) (List.length h + 1)
        (Tree.list [tx, te]),
      Heap.write (Heap.free (Heap.write (Heap.free (h ++ [some tx]) q ++ [some (Tree.list [])])
        (List.length h + 1) (Tree.list [tx])) (List.length h)) (List.length h + 1)
        (Tree.list [te, tx]),
      hcontx, hte, ?_, ?_, ?_, ?_⟩
    · rw [Value.push_back]
      cases ty <;> first
        | exact absurd rfl hn
        | exact absurd rfl hnreal
        | exact absurd rfl hl
        | (simp [Value.is_nil, Value.is_list, Value.copy, Value.assign, Value.set_ptr,
             Value.set_type_without_default, Value.clear, Value.new, Value.ptr_, hc, ht,
             Heap.alloc, Value.set_type, Value.set_default, hc1, hlenf, htmp, hc3t,
             List_push_back, hte4, hc4p])
    · rw [Heap.cell_after_write, if_pos rfl, if_pos hlt4]
    · cases ty <;> first
        | exact absurd rfl hn
        | exact absurd rfl hnreal
        | exact absurd rfl hl
        | (simp [Value.push_front, Value.is_nil, Value.is_list, Value.copy, Value.assign,
             Value.set_ptr, Value.set_type_without_default, Value.clear, Value.new, Value.ptr_,
             hc, ht, Heap.alloc, Value.set_type, Value.set_default, hc1, hlenf, htmp, hc3t,
             List_push_front, hte4, hc4p])
    · rw [Heap.cell_after_write, if_pos rfl, if_pos hlt4]

/-- `operator=` on a Nil receiver: the receiver gets the variant and the content of the
argument, on a payload of its own, and the heap keeps its objects. -/
theorem Value.assign_to_nil {h : Heap} {l a : Value} (hl : l.type_ = ValueType.NIL_VALUE)
    (hlv : l.valid h = true) (ha : a.valid h = true) :
    ∃ l1 h1 ta, a.content h = some ta ∧ l.assign h a = some (l1, h1) ∧ l1.type_ = a.type_ ∧
      l1.valid h1 = true ∧ l1.content h1 = some ta ∧
      (∀ q, q < List.length h → h1.cell q = h.cell q) ∧
      (∀ q, l1.ptr_ = some q → ¬ q < List.length h) := by
  obtain ⟨tl, ul⟩ := l
  simp only at hl
  subst hl
  have hlp : (Value.mk ValueType.NIL_VALUE ul).ptr_ = none := by
    simpa [Value.valid] using hlv
  rcases Value.valid_split ha with ⟨hn, hnone⟩ | ⟨q, ta, hu, hc, ht, hn1, hn2⟩
  · obtain ⟨ty, u⟩ := a
    rcases hn with e1 | e1 <;> simp only at e1 <;> subst e1
    · refine ⟨⟨ValueType.NIL_VALUE, ul⟩, h, Tree.nil, rfl, rfl, rfl, hlv, rfl,
        fun _ _ => rfl, ?_⟩
      intro q hq
      rw [hlp] at hq
      cases hq
    · refine ⟨⟨ValueType.REAL_VALUE, Slot.real (Value.mk ValueType.REAL_VALUE u).r⟩, h,
        Tree.real (Value.mk ValueType.REAL_VALUE u).r, rfl, rfl, rfl, rfl, rfl,
        fun _ _ => rfl, ?_⟩
      intro q hq
      cases hq
  · obtain ⟨ty, u⟩ := a
    simp only at hu ht hn1 hn2
    subst hu
    have hcnew : Heap.cell (h ++ [some ta]) (List.length h) = some ta := by
      rw [Heap.cell_append_one, if_pos rfl]
    refine ⟨⟨ty, Slot.ptr (some (List.length h))⟩, h ++ [some ta], ta, ?_, ?_, rfl, ?_, ?_, ?_, ?_⟩
    · cases ty <;> first
        | exact absurd rfl hn1
        | exact absurd rfl hn2
        | simp [Value.content, Value.ptr_, hc, ht]
    · cases ty <;> first
        | exact absurd rfl hn1
        | exact absurd rfl hn2
        | simp [Value.assign, Value.set_ptr, Value.set_type_without_default, Value.clear,
            Value.ptr_, hc, ht, Heap.alloc]
    · cases ty <;> first
        | exact absurd rfl hn1
        | exact absurd rfl hn2
        | simp [Value.valid, Value.ptr_, hcnew, ht]
    · cases ty <;> first
        | exact absurd rfl hn1
        | exact absurd rfl hn2
        | simp [Value.content, Value.ptr_, hcnew, ht]
    · intro q1 hq1
      rw [Heap.cell_append_one, if_neg (Nat.ne_of_lt hq1)]
    · intro q1 hq1 hlt
      have : List.length h = q1 := by simpa [Value.ptr_] using hq1
      exact absurd this (Nat.ne_of_gt hlt)

/-- C15 (as stated, refuted): the first `push_back` on a Nil Value makes it the Real that was
pushed, not a List, and the first `push_back` on a Real makes it a List of size 2. -/
theorem first_push_back_gives_no_single_element_list :
    Value.new.is_nil = true ∧
    Value.push_back 1 [] Value.new (Value.of_real 1) = some (Value.of_real 1, []) ∧
    (Value.of_real 1).is_list = false ∧
    (Value.push_back 1 [] (Value.of_real 1) (Value.of_real 2)).bind
      (fun r => Value.size r.2 r.1) = some 2 := by
  refine ⟨?_, ?_, ?_, ?_⟩ <;> rfl

/-- C15 (amended): let `v` and `e` be valid, on different payloads.  On a Nil `v`, `push_back`
and `push_front` make `v` a copy of `e`, with the variant and the content of `e`.  On a `v`
that is neither Nil nor a List, `push_back` makes `v` the List of size 2 of the previous
content of `v` followed by the content of `e`, and `push_front` the List of the content of
`e` followed by the previous content of `v`.  On a List `v`, `push_back` increases `size()`
by one and makes the content of `e` the last element. -/
theorem push_promotes_on_second_element (fuel : Nat) (h : Heap) (v e : Value)
    (hv : v.valid h = true) (he : e.valid h = true)
    (hne : ∀ q, v.ptr_ = some q → e.ptr_ ≠ some q) :
    ∃ te, e.content h = some te ∧
      (v.is_nil = true →
        ∃ v1 h1, v.push_back fuel h e = some (v1, h1) ∧
          v.push_front fuel h e = some (v1, h1) ∧
          v1.type_ = e.type_ ∧ v1.content h1 = some te) ∧
      (v.is_nil = false → v.is_list = false →
        ∃ tx p hB hF, v.content h = some tx ∧
          v.push_back (fuel + 1) h e = some (⟨ValueType.LIST_VALUE, Slot.ptr (some p)⟩, hB) ∧
          hB.cell p = some (Tree.list [tx, te]) ∧
          Value.size hB ⟨ValueType.LIST_VALUE, Slot.ptr (some p)⟩ = some 2 ∧
          v.push_front fuel h e = some (⟨ValueType.LIST_VALUE, Slot.ptr (some p)⟩, hF) ∧
          hF.cell p = some (Tree.list [te, tx]) ∧
          Value.size hF ⟨ValueType.LIST_VALUE, Slot.ptr (some p)⟩ = some 2) ∧
      (v.is_list = true →
        ∃ p values hB, v.ptr_ = some p ∧ h.cell p = some (Tree.list values) ∧
          v.size h = some values.length ∧ v.push_back fuel h e = some (v, hB) ∧
          hB.cell p = some (Tree.list (values ++ [te])) ∧
          v.size hB = some (values.length + 1) ∧ v.at_pos hB values.length = some te) := by
  obtain ⟨te, hte⟩ := Value.content_valid he
  refine ⟨te, hte, ?_, ?_, ?_⟩
  · intro hnil
    have hty : v.type_ = ValueType.NIL_VALUE := by simpa [Value.is_nil] using hnil
    obtain ⟨v1, h1, ta, hta, hassign, ht1, -, hc1, -, -⟩ := Value.assign_to_nil hty hv he
    rw [hte] at hta
    cases hta
    refine ⟨v1, h1, ?_, ?_, ht1, hc1⟩
    · rw [Value.push_back]
      simp [hnil, hassign]
    · simp [Value.push_front, hnil, hassign]
  · intro hnil hlist
    have hn : v.type_ ≠ ValueType.NIL_VALUE := by simpa [Value.is_nil] using hnil
    have hl : v.type_ ≠ ValueType.LIST_VALUE := by simpa [Value.is_list] using hlist
    obtain ⟨tx, te2, p, hB, hF, htx, hte2, hpb, hcb, hpf, hcf⟩ :=
      Value.push_promotes fuel hv hn hl he hne
    rw [hte] at hte2
    cases hte2
    refine ⟨tx, p, hB, hF, htx, hpb, hcb, ?_, hpf, hcf, ?_⟩
    · simp [Value.size, Value.ptr_, hcb]
    · simp [Value.size, Value.ptr_, hcf]
  · intro hlist
    have hty : v.type_ = ValueType.LIST_VALUE := by simpa [Value.is_list] using hlist
    rcases Value.valid_split hv with ⟨hn, -⟩ | ⟨p, t, hu, hc, ht, -, -⟩
    · rcases hn with e1 | e1 <;> rw [e1] at hty <;> cases hty
    · have hp : v.ptr_ = some p := by simp [Value.ptr_, hu]
      rw [hty] at ht
      cases t <;> simp only [Tree.type] at ht <;> try cases ht
      rename_i values
      obtain ⟨hpb, hcb⟩ := Value.push_back_appends fuel hty hp hc hte
      refine ⟨p, values, _, hp, hc, ?_, hpb, hcb, ?_, ?_⟩
      · simp [Value.size, hty, hp, hc]
      · simp [Value.size, hty, hp, hcb]
      · simp [Value.at_pos, hp, hcb]

/-- C15 (amended), on a String receiver that gets the Real 2. -/
theorem push_promotes_on_second_element_witness :
    ∃ tx p hB hF,
      Value.content [some (Tree.string "one")] ⟨ValueType.STRING_VALUE, Slot.ptr (some 0)⟩
        = some tx ∧
      Value.push_back (0 + 1) [some (Tree.string "one")]
        ⟨ValueType.STRING_VALUE, Slot.ptr (some 0)⟩ (Value.of_real 2)
        = some (⟨ValueType.LIST_VALUE, Slot.ptr (some p)⟩, hB) ∧
      hB.cell p = some (Tree.list [tx, Tree.real 2]) ∧
      Value.size hB ⟨ValueType.LIST_VALUE, Slot.ptr (some p)⟩ = some 2 ∧
      Value.push_front 0 [some (Tree.string "one")]
        ⟨ValueType.STRING_VALUE, Slot.ptr (some 0)⟩ (Value.of_real 2)
        = some (⟨ValueType.LIST_VALUE, Slot.ptr (some p)⟩, hF) ∧
      hF.cell p = some (Tree.list [Tree.real 2, tx]) ∧
      Value.size hF ⟨ValueType.LIST_VALUE, Slot.ptr (some p)⟩ = some 2 := by
  obtain ⟨te, hte, -, hscalar, -⟩ :=
    push_promotes_on_second_element 0 [some (Tree.string "one")]
      ⟨ValueType.STRING_VALUE, Slot.ptr (some 0)⟩ (Value.of_real 2) rfl rfl
      (fun q _ hq => by cases hq)
  have hte2 : te = Tree.real 2 := by
    have : Value.content [some (Tree.string "one")] (Value.of_real 2)
        = some (Tree.real 2) := rfl
    rw [this] at hte
    cases hte
    rfl
  subst hte2
  exact hscalar rfl rfl

/-- C16: starting from a valid Nil Value `l`, for a valid `a` that is neither Nil nor a List
and a valid `b`, `l.push_back(a).push_back(b)` makes `l` a List of size 2 whose element 0 is
the content of `a` and whose element 1 is the content of `b`. -/
theorem chained_push_back_builds_list (fuel : Nat) (h : Heap) (l a b : Value)
    (hl : l.is_nil = true) (hlv : l.valid h = true) (ha : a.valid h = true)
    (hb : b.valid h = true) (han : a.is_nil = false) (hal : a.is_list = false) :
    ∃ l1 h1 l2 h2 ta tb, a.content h = some ta ∧ b.content h = some tb ∧
      l.push_back fuel h a = some (l1, h1) ∧ l1.push_back (fuel + 1) h1 b = some (l2, h2) ∧
      l2.is_list = true ∧ l2.size h2 = some 2 ∧
      l2.at_pos h2 0 = some ta ∧ l2.at_pos h2 1 = some tb := by
  have hty : l.type_ = ValueType.NIL_VALUE := by simpa [Value.is_nil] using hl
  obtain ⟨l1, h1, ta, hta, hassign, ht1, hv1, hc1, hkeep, hfresh⟩ :=
    Value.assign_to_nil hty hlv ha
  obtain ⟨tb, htb⟩ := Value.content_valid hb
  have hbelow : ∀ q, b.ptr_ = some q → q < List.length h := by
    intro q hq
    rcases Value.valid_split hb with ⟨-, hnone⟩ | ⟨q1, t1, hu, hcq, -⟩
    · rw [hnone] at hq
      cases hq
    · have : q1 = q := by simpa [Value.ptr_, hu] using hq
      exact this ▸ Heap.lt_of_cell hcq
  have hsame : ∀ q, b.ptr_ = some q → h1.cell q = h.cell q :=
    fun q hq => hkeep q (hbelow q hq)
  have hb1 : b.valid h1 = true := by rw [Value.valid_congr hsame]; exact hb
  have htb1 : b.content h1 = some tb := by rw [Value.content_congr hsame]; exact htb
  have hn1 : l1.type_ ≠ ValueType.NIL_VALUE := by
    rw [ht1]
    simpa [Value.is_nil] using han
  have hl1 : l1.type_ ≠ ValueType.LIST_VALUE := by
    rw [ht1]
    simpa [Value.is_list] using hal
  have hne : ∀ q, l1.ptr_ = some q → b.ptr_ ≠ some q :=
    fun q hq hbq => hfresh q hq (hbelow q hbq)
  obtain ⟨tx, te, p, hB, hF, htx, hte, hpb, hcb, -, -⟩ :=
    Value.push_promotes fuel hv1 hn1 hl1 hb1 hne
  rw [hc1] at htx
  cases htx
  rw [htb1] at hte
  cases hte
  refine ⟨l1, h1, ⟨ValueType.LIST_VALUE, Slot.ptr (some p)⟩, hB, ta, tb, hta, htb, ?_, hpb,
    rfl, ?_, ?_, ?_⟩
  · rw [Value.push_back]
    simp [hl, hassign]
  · simp [Value.size, Value.ptr_, hcb]
  · simp [Value.at_pos, Value.ptr_, hcb]
  · simp [Value.at_pos, Value.ptr_, hcb]

/-- C16, on the String "one" followed by the Real 2. -/
theorem chained_push_back_builds_list_witness :
    ∃ l1 h1 l2 h2 ta tb,
      Value.content [some (Tree.string "one")] ⟨ValueType.STRING_VALUE, Slot.ptr (some 0)⟩
        = some ta ∧
      Value.content [some (Tree.string "one")] (Value.of_real 2) = some tb ∧
      Value.push_back 0 [some (Tree.string "one")] Value.new
        ⟨ValueType.STRING_VALUE, Slot.ptr (some 0)⟩ = some (l1, h1) ∧
      l1.push_back (0 + 1) h1 (Value.of_real 2) = some (l2, h2) ∧
      l2.is_list = true ∧ l2.size h2 = some 2 ∧
      l2.at_pos h2 0 = some ta ∧ l2.at_pos h2 1 = some tb :=
  chained_push_back_builds_list 0 [some (Tree.string "one")] Value.new
    ⟨ValueType.STRING_VALUE, Slot.ptr (some 0)⟩ (Value.of_real 2) rfl rfl rfl rfl rfl rfl

end Oscit.Old

/-! # Theorems on the object tree -/

namespace Oscit

open ValueType

/-! ## The store of objects -/

theorem World.get_lt {w : World} {id : ObjectId} {o : Object} (h : w.get id = some o) :
    id < List.length w := by
  by_contra hn
  have : w[id]? = none := List.getElem?_eq_none (Nat.le_of_not_lt hn)
  simp [World.get, this] at h

theorem World.get_set (w : World) (id j : ObjectId) (x : Option Object)
    (hid : id < List.length w) :
    World.get (w.set id x) j = if j = id then x else w.get j := by
  unfold World.get
  by_cases e : j = id
  · subst e
    simp [hid]
  · have e2 : id ≠ j := fun e3 => e e3.symm
    simp [e, List.getElem?_set_ne e2]

theorem World.update_spec {w : World} {id : ObjectId} {o : Object} (f : Object → Object)
    (h : w.get id = some o) :
    ∃ w1, w.update id f = some w1 ∧
      ∀ j, World.get w1 j = if j = id then some (f o) else w.get j := by
  refine ⟨w.set id (some (f o)), by simp [World.update, h], fun j => ?_⟩
  exact World.get_set w id j _ (World.get_lt h)

theorem World.update_some {w w1 : World} {id : ObjectId} {f : Object → Object}
    (h : w.update id f = some w1) :
    ∃ o, w.get id = some o ∧ ∀ j, World.get w1 j = if j = id then some (f o) else w.get j := by
  cases ho : w.get id with
  | none => simp [World.update, ho] at h
  | some o =>
    obtain ⟨w2, h2, hget⟩ := World.update_spec f ho
    rw [h] at h2
    cases h2
    exact ⟨o, rfl, hget⟩

/-! ## Registration of a child -/

theorem Object.unregister_child_some {w w1 : World} {self object : ObjectId}
    (h : Object.unregister_child w self object = some w1) :
    ∃ p, w.get self = some p ∧
      ∀ j, World.get w1 j =
        if j = self then
          some { p with children_ := THash_remove_element p.children_ object,
                        children_vector_ := p.children_vector_.erase object }
        else w.get j := by
  unfold Object.unregister_child at h
  cases h1 : w.update self fun o =>
      { o with children_ := THash_remove_element o.children_ object } with
  | none => simp [h1] at h
  | some wa =>
    simp only [h1] at h
    obtain ⟨p, hp, hga⟩ := World.update_some h1
    obtain ⟨pa, hpa, hgb⟩ := World.update_some h
    rw [hga self, if_pos rfl] at hpa
    cases hpa
    refine ⟨p, hp, fun j => ?_⟩
    rw [hgb j]
    by_cases e : j = self
    · simp [e]
    · simp [e, hga j]

theorem Object.unregister_child_total {w : World} {self : ObjectId} {p : Object}
    (object : ObjectId) (hp : w.get self = some p) :
    ∃ w1, Object.unregister_child w self object = some w1 := by
  obtain ⟨wa, h1, hga⟩ := World.update_spec
    (fun o => { o with children_ := THash_remove_element o.children_ object }) hp
  have hpa := hga self
  rw [if_pos rfl] at hpa
  obtain ⟨wb, h2, -⟩ := World.update_spec
    (fun o => { o with children_vector_ := o.children_vector_.erase object }) hpa
  exact ⟨wb, by simp [Object.unregister_child, h1, h2]⟩

theorem Object.get_valid_name_some (next : String → String) :
    ∀ (fuel : Nat) {w w1 : World} {self object : ObjectId},
      Object.get_valid_name next fuel w self object = some w1 →
      ∃ p o k, w.get self = some p ∧ w.get object = some o ∧ k < fuel ∧
        (∀ i, i < k → p.children_.lookup (next^[i] o.name_) ≠ none) ∧
        p.children_.lookup (next^[k] o.name_) = none ∧
        ∀ j, World.get w1 j =
          (w.get j).map fun x => if j = object then { x with name_ := next^[k] o.name_ } else x := by
  intro fuel
  induction fuel with
  | zero =>
    intro w w1 self object h
    simp [Object.get_valid_name] at h
  | succ n ih =>
    intro w w1 self object h
    unfold Object.get_valid_name at h
    cases hp : w.get self with
    | none => simp [hp] at h
    | some p =>
      cases ho : w.get object with
      | none => simp [hp, ho] at h
      | some o =>
        simp only [hp, ho] at h
        cases hl : p.children_.lookup o.name_ with
        | none =>
          simp only [hl] at h
          cases h
          refine ⟨p, o, 0, rfl, rfl, Nat.succ_pos n, fun i hi => absurd hi (Nat.not_lt_zero i),
            hl, fun j => ?_⟩
          by_cases e : j = object
          · subst e
            simp [ho]
          · simp [e]
        | some c =>
          simp only [hl] at h
          cases hf : Object.find_next_name next w object with
          | none => simp [hf] at h
          | some wa =>
            simp only [hf] at h
            obtain ⟨o0, ho0, hga⟩ := World.update_some hf
            rw [ho] at ho0
            cases ho0
            obtain ⟨p1, o1, k, hp1, ho1, hk, hbusy, hfree, hgb⟩ := ih h
            rw [hga object, if_pos rfl] at ho1
            cases ho1
            have hpc : p1.children_ = p.children_ := by
              rw [hga self] at hp1
              by_cases e : self = object
              · rw [if_pos e] at hp1
                cases hp1
                rw [e, ho] at hp
                cases hp
                rfl
              · rw [if_neg e, hp] at hp1
                cases hp1
                rfl
            rw [hpc] at hbusy hfree
            refine ⟨p, o, k + 1, rfl, rfl, Nat.succ_lt_succ hk, ?_, ?_, fun j => ?_⟩
            · intro i hi
              cases i with
              | zero => simp [hl]
              | succ i =>
                have := hbusy i (Nat.lt_of_succ_lt_succ hi)
                simpa [Function.iterate_succ_apply] using this
            · simpa [Function.iterate_succ_apply] using hfree
            · rw [hgb j, hga j]
              by_cases e : j = object
              · subst e
                simp [ho, Function.iterate_succ_apply]
              · simp [e]

theorem Object.get_valid_name_total (next : String → String) :
    ∀ (fuel k : Nat) {w : World} {self object : ObjectId} {p o : Object},
      w.get self = some p → w.get object = some o → k < fuel →
      p.children_.lookup (next^[k] o.name_) = none →
      ∃ w1, Object.get_valid_name next fuel w self object = some w1 := by
  intro fuel
  induction fuel with
  | zero =>
    intro k w self object p o _ _ hk _
    exact absurd hk (Nat.not_lt_zero k)
  | succ n ih =>
    intro k w self object p o hp ho hk hfree
    unfold Object.get_valid_name
    simp only [hp, ho]
    cases hl : p.children_.lookup o.name_ with
    | none => exact ⟨w, rfl⟩
    | some c =>
      simp only []
      obtain ⟨wa, hf, hga⟩ := World.update_spec (fun x => { x with name_ := next x.name_ }) ho
      have hf2 : Object.find_next_name next w object = some wa := hf
      simp only [hf2]
      cases k with
      | zero => simp [hl] at hfree
      | succ k =>
        have ho1 := hga object
        rw [if_pos rfl] at ho1
        have hp1 : ∃ p1, World.get wa self = some p1 ∧ p1.children_ = p.children_ := by
          rw [hga self]
          by_cases e : self = object
          · rw [if_pos e]
            rw [e, ho] at hp
            cases hp
            exact ⟨_, rfl, rfl⟩
          · rw [if_neg e]
            exact ⟨p, hp, rfl⟩
        obtain ⟨p1, hp1, hpc⟩ := hp1
        refine ih k hp1 ho1 (Nat.lt_of_succ_lt_succ hk) ?_
        rw [hpc]
        simpa [Function.iterate_succ_apply] using hfree

theorem Object.goes_last_congr {w w1 : World}
    (h : ∀ j, (World.get w1 j).map Object.keep_last_ = (w.get j).map Object.keep_last_)
    (object : ObjectId) (vector : List ObjectId) :
    Object.goes_last w1 object vector = Object.goes_last w object vector := by
  unfold Object.goes_last
  have h2 : (((vector[vector.length - 1]?).bind w1.get).map fun last => !last.keep_last_) =
      (((vector[vector.length - 1]?).bind w.get).map fun last => !last.keep_last_) := by
    cases hv : vector[vector.length - 1]? with
    | none => rfl
    | some l =>
      simp only [Option.bind]
      have hl := h l
      cases h1 : World.get w1 l <;> cases h0 : w.get l <;> simp [h1, h0] at hl
      · rfl
      · simp [hl]
  rw [h2]
  have ho := h object
  cases h1 : World.get w1 object <;> cases h0 : w.get object <;> simp [h1, h0] at ho
  · rfl
  · simp [ho]

theorem Object.insert_before_keep_last_congr {w w1 : World}
    (h : ∀ j, (World.get w1 j).map Object.keep_last_ = (w.get j).map Object.keep_last_)
    (object : ObjectId) (vector : List ObjectId) :
    Object.insert_before_keep_last w1 object vector
      = Object.insert_before_keep_last w object vector := by
  induction vector with
  | nil => rfl
  | cons c rest ih =>
    unfold Object.insert_before_keep_last
    have hc := h c
    cases h1 : World.get w1 c <;> cases h0 : w.get c <;> simp [h1, h0] at hc
    · rfl
    · simp [hc, ih]

/-- What a successful `register_child` has done: `object` got the first free name among
`name_`, `next name_`, ..., the table of `self` lost the keys pointing to `object` and got
the entry of that name, and the vector of `self` lost the first occurrence of `object` and
got `object` at the end or before the first `keep_last_` child. -/
theorem Object.register_child_some {next : String → String} {fuel : Nat} {w w1 : World}
    {self object : ObjectId} (h : Object.register_child next fuel w self object = some w1) :
    ∃ p o k vector, w.get self = some p ∧ w.get object = some o ∧ k < fuel ∧
      (∀ i, i < k →
        (THash_remove_element p.children_ object).lookup (next^[i] o.name_) ≠ none) ∧
      (THash_remove_element p.children_ object).lookup (next^[k] o.name_) = none ∧
      ((Object.goes_last w object (p.children_vector_.erase object) = some true ∧
          vector = p.children_vector_.erase object ++ [object]) ∨
        (Object.goes_last w object (p.children_vector_.erase object) = some false ∧
          Object.insert_before_keep_last w object (p.children_vector_.erase object)
            = some vector)) ∧
      ∀ j, World.get w1 j =
        ((w.get j).map fun x =>
          if j = object then { x with name_ := next^[k] o.name_ } else x).map fun x =>
          if j = self then
            { x with
              children_ := entries_set (THash_remove_element p.children_ object)
                (next^[k] o.name_) object,
              children_vector_ := vector }
          else x := by
  unfold Object.register_child at h
  cases h1 : Object.unregister_child w self object with
  | none => simp [h1] at h
  | some wa =>
    simp only [h1] at h
    obtain ⟨p, hp, hga⟩ := Object.unregister_child_some h1
    cases h2 : Object.get_valid_name next fuel wa self object with
    | none => simp [h2] at h
    | some wb =>
      simp only [h2] at h
      obtain ⟨pa, oa, k, hpa, hoa, hk, hbusy, hfree, hgb⟩ := Object.get_valid_name_some next fuel h2
      rw [hga self, if_pos rfl] at hpa
      cases hpa
      -- the object before the call
      have hobj : ∃ o, w.get object = some o ∧ oa.name_ = o.name_ := by
        rw [hga object] at hoa
        by_cases e : object = self
        · rw [if_pos e] at hoa
          cases hoa
          exact ⟨p, e ▸ hp, rfl⟩
        · rw [if_neg e] at hoa
          exact ⟨oa, hoa, rfl⟩
      obtain ⟨o, ho, hname⟩ := hobj
      rw [hname] at hbusy hfree hgb
      simp only at hbusy hfree
      cases h3 : World.get wb object with
      | none => simp [h3] at h
      | some ob =>
        simp only [h3] at h
        have hob : ob.name_ = next^[k] o.name_ := by
          rw [hgb object, hoa] at h3
          simp at h3
          rw [← h3]
        rw [hob] at h
        cases h4 : World.update wb self fun p1 =>
            { p1 with children_ := entries_set p1.children_ (next^[k] o.name_) object } with
        | none => simp [h4] at h
        | some wc =>
          simp only [h4] at h
          obtain ⟨pb, hpb, hgc⟩ := World.update_some h4
          have hpbc : pb.children_ = THash_remove_element p.children_ object ∧
              pb.children_vector_ = p.children_vector_.erase object := by
            rw [hgb self, hga self, if_pos rfl] at hpb
            simp at hpb
            rw [← hpb]
            by_cases e : self = object <;> simp [e]
          cases h5 : World.get wc self with
          | none => simp [h5] at h
          | some pc =>
            simp only [h5] at h
            have hpc : pc.children_vector_ = p.children_vector_.erase object := by
              rw [hgc self, if_pos rfl] at h5
              cases h5
              exact hpbc.2
            rw [hpc] at h
            have hkl : ∀ j, (World.get wc j).map Object.keep_last_
                = (w.get j).map Object.keep_last_ := by
              intro j
              by_cases e1 : j = self
              · subst e1
                rw [hgc j, if_pos rfl, hp]
                rw [hgb j, hga j, if_pos rfl] at hpb
                simp only [Option.map_some', Option.some.injEq] at hpb
                rw [← hpb]
                by_cases e2 : j = object <;> simp [e2]
              · rw [hgc j, if_neg e1, hgb j, hga j, if_neg e1]
                by_cases e2 : j = object <;> cases w.get j <;> simp [e2]
            rw [Object.goes_last_congr hkl, Object.insert_before_keep_last_congr hkl] at h
            have final : ∀ (vector : List ObjectId) (wd : World),
                (World.update wc self fun p1 => { p1 with children_vector_ := vector })
                  = some wd →
                ∀ j, World.get wd j =
                  ((w.get j).map fun x =>
                    if j = object then { x with name_ := next^[k] o.name_ } else x).map fun x =>
                    if j = self then
                      { x with
                        children_ := entries_set (THash_remove_element p.children_ object)
                          (next^[k] o.name_) object,
                        children_vector_ := vector }
                    else x := by
              intro vector wd hd j
              obtain ⟨pd, hpd, hgd⟩ := World.update_some hd
              rw [h5] at hpd
              cases hpd
              rw [hgd j]
              by_cases e1 : j = self
              · subst e1
                rw [if_pos rfl, hp]
                rw [hgc j, if_pos rfl] at h5
                cases h5
                rw [hgb j, hga j, if_pos rfl] at hpb
                simp only [Option.map_some', Option.some.injEq] at hpb
                rw [← hpb]
                by_cases e2 : j = object <;> simp [e2]
              · rw [if_neg e1, hgc j, if_neg e1, hgb j, hga j, if_neg e1]
                cases w.get j <;> simp [e1]
            cases h6 : Object.goes_last w object (p.children_vector_.erase object) with
            | none => simp [h6] at h
            | some b =>
              cases b with
              | true =>
                simp only [h6] at h
                have h7 : (World.update wc self fun p1 =>
                    { p1 with children_vector_ := p.children_vector_.erase object ++ [object] })
                    = some w1 := by
                  rw [← h]
                  simp [World.update, h5, hpc]
                exact ⟨p, o, k, _, hp, ho, hk, hbusy, hfree, Or.inl ⟨h6, rfl⟩, final _ _ h7⟩
              | false =>
                simp only [h6] at h
                cases h8 : Object.insert_before_keep_last w object
                    (p.children_vector_.erase object) with
                | none => simp [h8] at h
                | some vector =>
                  simp only [h8] at h
                  exact ⟨p, o, k, vector, hp, ho, hk, hbusy, hfree, Or.inr ⟨h6, h8⟩,
                    final _ _ h⟩

theorem Object.goes_last_total {w : World} {object : ObjectId} {o : Object}
    {vector : List ObjectId} (ho : w.get object = some o)
    (hv : ∀ c ∈ vector, ∃ oc, w.get c = some oc) :
    ∃ b, Object.goes_last w object vector = some b := by
  unfold Object.goes_last
  simp only [ho]
  by_cases h1 : o.keep_last_ = true
  · exact ⟨true, by simp [h1]⟩
  · by_cases h2 : vector.length = 0
    · exact ⟨true, by simp [h1, h2]⟩
    · have hlt : vector.length - 1 < vector.length := Nat.sub_lt (Nat.pos_of_ne_zero h2) Nat.one_pos
      have hl : vector[vector.length - 1]? = some (vector[vector.length - 1]) :=
        List.getElem?_eq_getElem hlt
      obtain ⟨oc, hoc⟩ := hv _ (List.getElem_mem hlt)
      exact ⟨!oc.keep_last_, by simp [h1, h2, hl, hoc]⟩

theorem Object.insert_before_keep_last_total {w : World} (object : ObjectId)
    {vector : List ObjectId} (hv : ∀ c ∈ vector, ∃ oc, w.get c = some oc) :
    ∃ l, Object.insert_before_keep_last w object vector = some l := by
  induction vector with
  | nil => exact ⟨[], rfl⟩
  | cons c rest ih =>
    obtain ⟨oc, hoc⟩ := hv c (List.mem_cons_self c rest)
    obtain ⟨l, hl⟩ := ih fun d hd => hv d (List.mem_cons_of_mem c hd)
    unfold Object.insert_before_keep_last
    simp only [hoc]
    by_cases hk : oc.keep_last_ = true
    · exact ⟨object :: c :: rest, by simp [hk]⟩
    · exact ⟨c :: l, by simp [hk, hl]⟩

/-- Enough fuel for the first free name makes `register_child` return, when the object, the
parent and the children of the vector are alive. -/
theorem Object.register_child_total {next : String → String} {fuel k : Nat} {w : World}
    {self object : ObjectId} {p o : Object} (hp : w.get self = some p)
    (ho : w.get object = some o) (hk : k < fuel)
    (hfree : (THash_remove_element p.children_ object).lookup (next^[k] o.name_) = none)
    (hv : ∀ c ∈ p.children_vector_, ∃ oc, w.get c = some oc) :
    ∃ w1, Object.register_child next fuel w self object = some w1 := by
  obtain ⟨wa, h1⟩ := Object.unregister_child_total object hp
  obtain ⟨p0, hp0, hga⟩ := Object.unregister_child_some h1
  rw [hp] at hp0
  cases hp0
  have hpa := hga self
  rw [if_pos rfl] at hpa
  have hoa : ∃ oa, World.get wa object = some oa ∧ oa.name_ = o.name_ := by
    rw [hga object]
    by_cases e : object = self
    · rw [if_pos e]
      rw [e, hp] at ho
      cases ho
      exact ⟨_, rfl, rfl⟩
    · rw [if_neg e]
      exact ⟨o, ho, rfl⟩
  obtain ⟨oa, hoa, hname⟩ := hoa
  have hkla : ∀ j, (World.get wa j).map Object.keep_last_
      = (w.get j).map Object.keep_last_ := by
    intro j
    rw [hga j]
    by_cases e1 : j = self
    · rw [if_pos e1, e1, hp]
      rfl
    · rw [if_neg e1]
  obtain ⟨wb, h2⟩ := Object.get_valid_name_total next fuel k hpa hoa hk
    (by rw [hname]; exact hfree)
  obtain ⟨pa, oa1, k1, -, -, -, -, -, hgb⟩ := Object.get_valid_name_some next fuel h2
  have hklb : ∀ j, (World.get wb j).map Object.keep_last_
      = (World.get wa j).map Object.keep_last_ := by
    intro j
    rw [hgb j]
    by_cases e2 : j = object <;> cases World.get wa j <;> simp [e2]
  have hob : ∃ ob, World.get wb object = some ob := by
    rw [hgb object, hoa]
    exact ⟨_, rfl⟩
  obtain ⟨ob, hob⟩ := hob
  have hpb : ∃ pb, World.get wb self = some pb ∧
      pb.children_vector_ = p.children_vector_.erase object := by
    rw [hgb self, hpa]
    by_cases e : self = object
    · exact ⟨_, rfl, by simp [e]⟩
    · exact ⟨_, rfl, by simp [e]⟩
  obtain ⟨pb, hpb, hpbv⟩ := hpb
  obtain ⟨wc, h4, hgc⟩ := World.update_spec
    (fun p1 => { p1 with children_ := entries_set p1.children_ ob.name_ object }) hpb
  have hpc := hgc self
  rw [if_pos rfl] at hpc
  have hklc : ∀ j, (World.get wc j).map Object.keep_last_
      = (World.get wb j).map Object.keep_last_ := by
    intro j
    rw [hgc j]
    by_cases e1 : j = self
    · rw [if_pos e1, e1, hpb]
      rfl
    · rw [if_neg e1]
  have hkl : ∀ j, (World.get wc j).map Object.keep_last_
      = (w.get j).map Object.keep_last_ :=
    fun j => ((hklc j).trans (hklb j)).trans (hkla j)
  have hv2 : ∀ c ∈ p.children_vector_.erase object, ∃ oc, w.get c = some oc :=
    fun c hc => hv c (List.mem_of_mem_erase hc)
  obtain ⟨b, hb⟩ := Object.goes_last_total ho hv2
  obtain ⟨l, hl⟩ := Object.insert_before_keep_last_total object hv2
  unfold Object.register_child
  simp only [h1, h2, hob, h4, hpc, hpbv]
  rw [Object.goes_last_congr hkl, Object.insert_before_keep_last_congr hkl, hb, hl]
  cases b with
  | true =>
    obtain ⟨wd, hd, -⟩ := World.update_spec
      (fun p1 => { p1 with children_vector_ := p1.children_vector_ ++ [object] }) hpc
    exact ⟨wd, hd⟩
  | false =>
    obtain ⟨wd, hd, -⟩ := World.update_spec
      (fun p1 => { p1 with children_vector_ := l }) hpc
    exact ⟨wd, hd⟩

/-! ## The table and the vector of children -/

theorem entries_set_of_free {α : Type} (entries : List (String × α)) (key : String) (val : α)
    (h : entries.lookup key = none) : entries_set entries key val = entries ++ [(key, val)] := by
  induction entries with
  | nil => rfl
  | cons e rest ih =>
    obtain ⟨k, x⟩ := e
    by_cases hk : key = k
    · subst hk
      simp [List.lookup] at h
    · have hk2 : (key == k) = false := by simpa using hk
      have hk3 : ¬ k = key := fun e => hk e.symm
      simp only [List.lookup, hk2] at h
      simp [entries_set, hk3, ih h]

theorem lookup_remove_element {entries : List (String × ObjectId)} {key : String}
    {c object : ObjectId} (h : entries.lookup key = some c) (hc : c ≠ object) :
    (THash_remove_element entries object).lookup key = some c := by
  induction entries with
  | nil => simp [List.lookup] at h
  | cons e rest ih =>
    obtain ⟨k, x⟩ := e
    by_cases hk : key = k
    · subst hk
      simp only [List.lookup, beq_self_eq_true] at h
      cases h
      have hb : (c != object) = true := by simpa using hc
      simp [THash_remove_element, List.filter_cons, hb, List.lookup]
    · have hk2 : (key == k) = false := by simpa using hk
      simp only [List.lookup, hk2] at h
      have := ih h
      unfold THash_remove_element at this ⊢
      by_cases hx : x = object
      · have hb : (x != object) = false := by simpa using hx
        simpa [List.filter_cons, hb] using this
      · have hb : (x != object) = true := by simpa using hx
        simpa [List.filter_cons, hb, List.lookup, hk2] using this

theorem mem_remove_element {entries : List (String × ObjectId)} {object : ObjectId}
    {e : String × ObjectId} :
    e ∈ THash_remove_element entries object ↔ e ∈ entries ∧ e.2 ≠ object := by
  simp [THash_remove_element, List.mem_filter]

theorem lookup_none_iff_not_key {α : Type} {entries : List (String × α)} {key : String} :
    entries.lookup key = none ↔ key ∉ entries.map Prod.fst := by
  rw [List.lookup_eq_none_iff]
  constructor
  · intro h hk
    obtain ⟨e, he, hek⟩ := List.mem_map.mp hk
    have := h e he
    simp [hek] at this
  · intro h e he
    have : key ≠ e.1 := fun hk => h (List.mem_map.mpr ⟨e, he, hk.symm⟩)
    simpa using this

theorem mem_of_lookup {α : Type} {entries : List (String × α)} {key : String} {x : α}
    (h : entries.lookup key = some x) : (key, x) ∈ entries := by
  induction entries with
  | nil => simp [List.lookup] at h
  | cons e rest ih =>
    obtain ⟨k, y⟩ := e
    by_cases hk : key = k
    · subst hk
      simp only [List.lookup, beq_self_eq_true] at h
      cases h
      exact List.mem_cons_self _ _
    · have hk2 : (key == k) = false := by simpa using hk
      simp only [List.lookup, hk2] at h
      exact List.mem_cons_of_mem _ (ih h)

theorem lookup_of_nodup_keys {α : Type} {entries : List (String × α)} {key : String} {x : α}
    (hn : (entries.map Prod.fst).Nodup) (h : (key, x) ∈ entries) :
    entries.lookup key = some x := by
  induction entries with
  | nil => simp at h
  | cons e rest ih =>
    obtain ⟨k, y⟩ := e
    simp only [List.map_cons, List.nodup_cons] at hn
    rcases List.mem_cons.mp h with e1 | e1
    · cases e1
      simp [List.lookup]
    · have hk : key ≠ k := by
        intro e2
        subst e2
        exact hn.1 (List.mem_map.mpr ⟨(key, x), e1, rfl⟩)
      have hk2 : (key == k) = false := by simpa using hk
      simp only [List.lookup, hk2]
      exact ih hn.2 e1

/-- The fields of the store after a successful `register_child`. -/
theorem Object.register_child_fields {next : String → String} {fuel : Nat} {w w1 : World}
    {self object : ObjectId} {p o : Object}
    (h : Object.register_child next fuel w self object = some w1)
    (hp : w.get self = some p) (ho : w.get object = some o) :
    ∃ i vector p1 o1, i < fuel ∧
      (∀ n, n < i →
        (THash_remove_element p.children_ object).lookup (next^[n] o.name_) ≠ none) ∧
      (THash_remove_element p.children_ object).lookup (next^[i] o.name_) = none ∧
      ((Object.goes_last w object (p.children_vector_.erase object) = some true ∧
          vector = p.children_vector_.erase object ++ [object]) ∨
        (Object.goes_last w object (p.children_vector_.erase object) = some false ∧
          Object.insert_before_keep_last w object (p.children_vector_.erase object)
            = some vector)) ∧
      World.get w1 self = some p1 ∧ World.get w1 object = some o1 ∧
      p1.children_ = entries_set (THash_remove_element p.children_ object)
        (next^[i] o.name_) object ∧
      p1.children_vector_ = vector ∧
      o1.name_ = next^[i] o.name_ ∧
      (∀ j, j ≠ object → (World.get w1 j).map Object.name_ = (w.get j).map Object.name_) ∧
      (∀ j, j ≠ self →
        (World.get w1 j).map Object.children_ = (w.get j).map Object.children_ ∧
        (World.get w1 j).map Object.children_vector_
          = (w.get j).map Object.children_vector_) ∧
      (∀ j, (World.get w1 j).map Object.without_children
        = (w.get j).map Object.without_children) := by
  obtain ⟨p0, o0, i, vector, hp0, ho0, hi, hbusy, hfree, hd, hg⟩ := Object.register_child_some h
  rw [hp] at hp0
  cases hp0
  rw [ho] at ho0
  cases ho0
  have hs : ∃ p1, World.get w1 self = some p1 ∧
      p1.children_ = entries_set (THash_remove_element p.children_ object)
        (next^[i] o.name_) object ∧
      p1.children_vector_ = vector := by
    rw [hg self, hp]
    by_cases e : self = object
    · exact ⟨_, rfl, by simp, by simp⟩
    · exact ⟨_, rfl, by simp, by simp⟩
  have hob : ∃ o1, World.get w1 object = some o1 ∧ o1.name_ = next^[i] o.name_ := by
    rw [hg object, ho]
    by_cases e : object = self
    · exact ⟨_, rfl, by simp [e]⟩
    · exact ⟨_, rfl, by simp [e]⟩
  obtain ⟨p1, hp1, hc1, hv1⟩ := hs
  obtain ⟨o1, ho1, hn1⟩ := hob
  refine ⟨i, vector, p1, o1, hi, hbusy, hfree, hd, hp1, ho1, hc1, hv1, hn1, ?_, ?_, ?_⟩
  · intro j hj
    rw [hg j]
    cases w.get j with
    | none => rfl
    | some x =>
      by_cases e : j = self
      · subst e
        simp [hj]
      · simp [hj, e]
  · intro j hj
    rw [hg j]
    cases w.get j with
    | none => exact ⟨rfl, rfl⟩
    | some x =>
      by_cases e : j = object
      · subst e
        simp [hj]
      · simp [hj, e]
  · intro j
    rw [hg j]
    cases w.get j with
    | none => rfl
    | some x =>
      simp only [Option.map_some', Option.some.injEq]
      split_ifs <;> rfl

/-! ## The place of a child in the vector -/

theorem Object.keeps_last_congr {w w1 : World}
    (h : ∀ j, (World.get w1 j).map Object.keep_last_ = (w.get j).map Object.keep_last_)
    (c : ObjectId) : Object.keeps_last w1 c = Object.keeps_last w c := by
  have hc := h c
  unfold Object.keeps_last
  cases h1 : World.get w1 c <;> cases h0 : w.get c <;> simp [h1, h0] at hc
  · rfl
  · exact hc

theorem Object.keep_last_of_without_children {w w1 : World}
    (h : ∀ j, (World.get w1 j).map Object.without_children
      = (w.get j).map Object.without_children) :
    ∀ j, (World.get w1 j).map Object.keep_last_ = (w.get j).map Object.keep_last_ := by
  intro j
  have hj := congrArg (Option.map Object.keep_last_) (h j)
  simpa [Option.map_map, Function.comp_def, Object.without_children] using hj

theorem Object.insert_before_keep_last_split {w : World} {object : ObjectId} :
    ∀ {vector l : List ObjectId},
      Object.insert_before_keep_last w object vector = some l →
      ∃ ords lasts, vector = ords ++ lasts ∧
        (∀ c ∈ ords, Object.keeps_last w c = false) ∧
        ((lasts = [] ∧ l = vector) ∨
          (∃ d rest, lasts = d :: rest ∧ Object.keeps_last w d = true ∧
            l = ords ++ object :: lasts)) := by
  intro vector
  induction vector with
  | nil =>
    intro l h
    simp only [Object.insert_before_keep_last, Option.some.injEq] at h
    exact ⟨[], [], rfl, fun c hc => absurd hc (List.not_mem_nil c), Or.inl ⟨rfl, h.symm⟩⟩
  | cons c rest ih =>
    intro l h
    unfold Object.insert_before_keep_last at h
    cases hc : w.get c with
    | none => simp [hc] at h
    | some co =>
      simp only [hc] at h
      by_cases hk : co.keep_last_ = true
      · simp only [hk, if_true, Option.some.injEq] at h
        refine ⟨[], c :: rest, rfl, fun d hd => absurd hd (List.not_mem_nil d),
          Or.inr ⟨c, rest, rfl, by simp [Object.keeps_last, hc, hk], h.symm⟩⟩
      · cases hr : Object.insert_before_keep_last w object rest with
        | none => simp [hk, hr] at h
        | some l1 =>
          have h : c :: l1 = l := by simpa [hk, hr] using h
          obtain ⟨ords, lasts, hsplit, hords, hcase⟩ := ih hr
          have hkc : Object.keeps_last w c = false := by
            simpa [Object.keeps_last, hc] using hk
          refine ⟨c :: ords, lasts, by rw [hsplit]; rfl, ?_, ?_⟩
          · intro d hd
            rcases List.mem_cons.mp hd with e | e
            · rw [e]
              exact hkc
            · exact hords d e
          · rcases hcase with ⟨e1, e2⟩ | ⟨d, rest1, e1, e2, e3⟩
            · exact Or.inl ⟨e1, by rw [← h, e2]⟩
            · exact Or.inr ⟨d, rest1, e1, e2, by rw [← h, e3]; rfl⟩

/-- After `register_child` the vector is the previous one, without `object`, with `object`
inserted at one place: at the end when `object` has `keep_last_`, and otherwise, when the
previous vector obeys the ordering rule, between the children without `keep_last_` and the
children with it. -/
theorem Object.register_vector_split {w : World} {object : ObjectId} {o : Object}
    {vector0 vector : List ObjectId} (ho : w.get object = some o)
    (hd : (Object.goes_last w object vector0 = some true ∧ vector = vector0 ++ [object]) ∨
      (Object.goes_last w object vector0 = some false ∧
        Object.insert_before_keep_last w object vector0 = some vector)) :
    ∃ ords lasts, vector0 = ords ++ lasts ∧ vector = ords ++ object :: lasts ∧
      (o.keep_last_ = true → lasts = []) ∧
      (o.keep_last_ = false → Object.keep_last_rule w vector0 →
        (∀ c ∈ ords, Object.keeps_last w c = false) ∧
        (∀ c ∈ lasts, Object.keeps_last w c = true)) := by
  rcases hd with ⟨hg, hvec⟩ | ⟨hg, hins⟩
  · refine ⟨vector0, [], by simp, hvec, fun _ => rfl, ?_⟩
    intro hkl hrule
    refine ⟨?_, fun c hc => absurd hc (List.not_mem_nil c)⟩
    unfold Object.goes_last at hg
    simp only [ho, hkl] at hg
    by_cases hlen : vector0.length = 0
    · intro c hc
      rw [List.length_eq_zero.mp hlen] at hc
      exact absurd hc (List.not_mem_nil c)
    · simp only [hlen, if_false, Bool.false_eq_true, Option.map_eq_some'] at hg
      obtain ⟨lo, hlo, hlk⟩ := hg
      rcases List.eq_nil_or_concat vector0 with e | ⟨init, last, e⟩
      · rw [e] at hlen
        exact absurd rfl hlen
      · rw [List.concat_eq_append] at e
        subst e
        have hlast : (init ++ [last])[(init ++ [last]).length - 1]? = some last := by
          simp
        rw [hlast] at hlo
        simp only [Option.bind] at hlo
        have hkl2 : Object.keeps_last w last = false := by
          simp only [Object.keeps_last, hlo]
          simpa using hlk
        intro c hc
        rcases List.mem_append.mp hc with hc1 | hc1
        · have hr := (List.pairwise_append.mp hrule).2.2 c hc1 last (List.mem_singleton_self _)
          cases hkc : Object.keeps_last w c with
          | false => rfl
          | true =>
            rw [hr hkc] at hkl2
            cases hkl2
        · rw [List.mem_singleton.mp hc1]
          exact hkl2
  · have hok : o.keep_last_ = false ∧ ∃ init last, vector0 = init ++ [last] ∧
        Object.keeps_last w last = true := by
      unfold Object.goes_last at hg
      simp only [ho] at hg
      by_cases hkl : o.keep_last_ = true
      · simp [hkl] at hg
      · by_cases hlen : vector0.length = 0
        · simp [hkl, hlen] at hg
        · simp only [hkl, hlen, if_false, Bool.false_eq_true, Option.map_eq_some'] at hg
          obtain ⟨lo, hlo, hlk⟩ := hg
          rcases List.eq_nil_or_concat vector0 with e | ⟨init, last, e⟩
          · rw [e] at hlen
            exact absurd rfl hlen
          · rw [List.concat_eq_append] at e
            subst e
            have hlast : (init ++ [last])[(init ++ [last]).length - 1]? = some last := by
              simp
            rw [hlast] at hlo
            simp only [Option.bind] at hlo
            refine ⟨by simpa using hkl, init, last, rfl, ?_⟩
            simp only [Object.keeps_last, hlo]
            simpa using hlk
    obtain ⟨hkl, init, last, hv0, hlastk⟩ := hok
    obtain ⟨ords, lasts, hsplit, hords, hcase⟩ := Object.insert_before_keep_last_split hins
    rcases hcase with ⟨e1, -⟩ | ⟨d, rest, e1, e2, e3⟩
    · -- impossible: the last child has `keep_last_`
      exfalso
      rw [e1, List.append_nil] at hsplit
      have hmem : last ∈ ords := by
        rw [← hsplit, hv0]
        simp
      rw [hords last hmem] at hlastk
      cases hlastk
    · refine ⟨ords, lasts, hsplit, e3, fun hk => (by rw [hkl] at hk; cases hk), ?_⟩
      intro _ hrule
      refine ⟨hords, ?_⟩
      intro c hc
      rw [e1] at hc
      rcases List.mem_cons.mp hc with e | e
      · rw [e]
        exact e2
      · rw [hsplit, e1] at hrule
        have h2 := (List.pairwise_append.mp hrule).2.1
        exact (List.pairwise_cons.mp h2).1 c e e2

theorem Object.keep_last_rule_insert {w : World} {object : ObjectId} {o : Object}
    {vector0 vector : List ObjectId} (ho : w.get object = some o)
    (hd : (Object.goes_last w object vector0 = some true ∧ vector = vector0 ++ [object]) ∨
      (Object.goes_last w object vector0 = some false ∧
        Object.insert_before_keep_last w object vector0 = some vector))
    (hrule : Object.keep_last_rule w vector0) : Object.keep_last_rule w vector := by
  obtain ⟨ords, lasts, h0, h1, hlast, hord⟩ := Object.register_vector_split ho hd
  have hko : Object.keeps_last w object = o.keep_last_ := by simp [Object.keeps_last, ho]
  subst h0 h1
  unfold Object.keep_last_rule at hrule ⊢
  obtain ⟨pa, pb, pab⟩ := List.pairwise_append.mp hrule
  cases hk : o.keep_last_ with
  | true =>
    have := hlast hk
    subst this
    refine List.pairwise_append.mpr ⟨pa, List.pairwise_singleton _ _, ?_⟩
    intro a _ b hb _
    rw [List.mem_singleton.mp hb, hko, hk]
  | false =>
    obtain ⟨hords, hlasts⟩ := hord hk (List.pairwise_append.mpr ⟨pa, pb, pab⟩)
    refine List.pairwise_append.mpr ⟨pa, List.pairwise_cons.mpr ⟨?_, pb⟩, ?_⟩
    · intro b hb _
      exact hlasts b hb
    · intro a ha b _ hka
      rw [hords a ha] at hka
      cases hka

/-! ## Url and root -/

theorem World.update_map {α : Type} (g : Object → α) {w w1 : World} {id : ObjectId}
    {f : Object → Object} (h : w.update id f = some w1) (hf : ∀ x, g (f x) = g x) :
    ∀ j, (World.get w1 j).map g = (w.get j).map g := by
  obtain ⟨o, ho, hg⟩ := World.update_some h
  intro j
  rw [hg j]
  by_cases e : j = id
  · rw [if_pos e, e, ho]
    simp [hf]
  · rw [if_neg e]

theorem World.update_other {w w1 : World} {id : ObjectId} {f : Object → Object}
    (h : w.update id f = some w1) : ∀ j, j ≠ id → World.get w1 j = w.get j := by
  obtain ⟨o, -, hg⟩ := World.update_some h
  intro j hj
  rw [hg j, if_neg hj]

theorem World.update_self {w w1 : World} {id : ObjectId} {f : Object → Object} {o : Object}
    (h : w.update id f = some w1) (ho : w.get id = some o) : World.get w1 id = some (f o) := by
  obtain ⟨o1, ho1, hg⟩ := World.update_some h
  rw [ho] at ho1
  cases ho1
  rw [hg id, if_pos rfl]

theorem Root_unregister_object_some {w wa : World} {r self : ObjectId}
    (h : Root_unregister_object w r self = some wa) :
    (∀ j, (World.get wa j).map Object.without_url = (w.get j).map Object.without_url) ∧
    (∀ j, (World.get wa j).map Object.url_root = (w.get j).map Object.url_root) := by
  unfold Root_unregister_object at h
  exact ⟨World.update_map _ h (fun _ => rfl), World.update_map _ h (fun _ => rfl)⟩

theorem Root_register_object_some {w wa : World} {r self : ObjectId}
    (h : Root_register_object w r self = some wa) :
    (∀ j, (World.get wa j).map Object.without_url = (w.get j).map Object.without_url) ∧
    (∀ j, (World.get wa j).map Object.url_root = (w.get j).map Object.url_root) := by
  unfold Root_register_object at h
  cases hs : w.get self with
  | none => simp [hs] at h
  | some o =>
    simp only [hs] at h
    exact ⟨World.update_map _ h (fun _ => rfl), World.update_map _ h (fun _ => rfl)⟩

theorem Object.set_root_tail {w wa w1 : World} {self : ObjectId} {root : Option ObjectId}
    {o : Object} (ho : w.get self = some o)
    (ka : ∀ j, (World.get wa j).map Object.without_url = (w.get j).map Object.without_url)
    (fa : ∀ j, (World.get wa j).map Object.url_root = (w.get j).map Object.url_root)
    (h : (match World.update wa self fun o => { o with root_ := root } with
        | none => none
        | some w2 =>
          match root with
          | some r => Root_register_object w2 r self
          | none => some w2) = some w1) :
    (∀ j, (World.get w1 j).map Object.without_url = (w.get j).map Object.without_url) ∧
    (∀ j, j ≠ self → (World.get w1 j).map Object.url_root = (w.get j).map Object.url_root) ∧
    (World.get w1 self).map Object.url_root = some (o.url_, root, o.context_) := by
  cases hb : World.update wa self fun o => { o with root_ := root } with
  | none => simp [hb] at h
  | some wb =>
    simp only [hb] at h
    obtain ⟨oa, hoa, -⟩ := World.update_some hb
    have hoa2 : Object.url_root oa = Object.url_root o := by
      have := fa self
      rw [hoa, ho] at this
      simpa using this
    have kb : ∀ j, (World.get wb j).map Object.without_url
        = (World.get wa j).map Object.without_url :=
      World.update_map _ hb (fun _ => rfl)
    have fb : ∀ j, j ≠ self → World.get wb j = World.get wa j := World.update_other hb
    have sb : World.get wb self = some { oa with root_ := root } :=
      World.update_self hb hoa
    have step3 : (∀ j, (World.get w1 j).map Object.without_url
          = (World.get wb j).map Object.without_url) ∧
        (∀ j, (World.get w1 j).map Object.url_root
          = (World.get wb j).map Object.url_root) := by
      cases root with
      | none =>
        simp only [Option.some.injEq] at h
        rw [← h]
        exact ⟨fun _ => rfl, fun _ => rfl⟩
      | some r => exact Root_register_object_some h
    obtain ⟨kc, fc⟩ := step3
    refine ⟨fun j => ((kc j).trans (kb j)).trans (ka j), ?_, ?_⟩
    · intro j hj
      rw [fc j, fb j hj, fa j]
    · rw [fc self, sb]
      simp only [Option.map_some', Object.url_root, Option.some.injEq, Prod.mk.injEq,
        true_and]
      simp only [Object.url_root, Prod.mk.injEq] at hoa2
      exact ⟨hoa2.1, hoa2.2.2⟩

/-- `set_root` writes `root_` of the object and `objects_` of the roots. -/
theorem Object.set_root_some {w w1 : World} {self : ObjectId} {root : Option ObjectId}
    (h : Object.set_root w self root = some w1) :
    ∃ o, w.get self = some o ∧
      (∀ j, (World.get w1 j).map Object.without_url = (w.get j).map Object.without_url) ∧
      (∀ j, j ≠ self → (World.get w1 j).map Object.url_root = (w.get j).map Object.url_root) ∧
      (World.get w1 self).map Object.url_root = some (o.url_, root, o.context_) := by
  unfold Object.set_root at h
  cases ho : w.get self with
  | none => simp [ho] at h
  | some o =>
    simp only [ho] at h
    cases hr : o.root_ with
    | none =>
      simp only [hr] at h
      exact ⟨o, rfl, Object.set_root_tail ho (fun _ => rfl) (fun _ => rfl) h⟩
    | some r =>
      simp only [hr] at h
      cases ha : Root_unregister_object w r self with
      | none => simp [ha] at h
      | some wa =>
        simp only [ha] at h
        obtain ⟨k, f⟩ := Root_unregister_object_some ha
        exact ⟨o, rfl, Object.set_root_tail ho k f h⟩

theorem World.alive_of_map {α : Type} {g : Object → α} {w w1 : World}
    (h : ∀ j, (World.get w1 j).map g = (w.get j).map g) {j : ObjectId} {x : Object}
    (hx : w.get j = some x) : ∃ y, World.get w1 j = some y ∧ g y = g x := by
  have := h j
  rw [hx] at this
  cases hy : World.get w1 j with
  | none => simp [hy] at this
  | some y =>
    rw [hy] at this
    exact ⟨y, rfl, by simpa using this⟩

theorem Object.set_root_total {w : World} {self : ObjectId} {o : Object}
    (root : Option ObjectId) (ho : w.get self = some o)
    (hold : ∀ r, o.root_ = some r → ∃ ro, w.get r = some ro)
    (hnew : ∀ r, root = some r → ∃ ro, w.get r = some ro) :
    ∃ w1, Object.set_root w self root = some w1 := by
  have tail : ∀ wa : World,
      (∀ j, (World.get wa j).map Object.without_url = (w.get j).map Object.without_url) →
      ∃ w1, (match World.update wa self fun o => { o with root_ := root } with
        | none => none
        | some w2 =>
          match root with
          | some r => Root_register_object w2 r self
          | none => some w2) = some w1 := by
    intro wa ka
    obtain ⟨oa, hoa, -⟩ := World.alive_of_map ka ho
    obtain ⟨wb, hb, hgb⟩ := World.update_spec (fun x => { x with root_ := root }) hoa
    simp only [hb]
    cases root with
    | none => exact ⟨wb, rfl⟩
    | some r =>
      obtain ⟨ro, hro⟩ := hnew r rfl
      obtain ⟨ra, hra, -⟩ := World.alive_of_map ka hro
      have hrb : ∃ rb, World.get wb r = some rb := by
        rw [hgb r]
        by_cases e : r = self
        · exact ⟨_, by rw [if_pos e]⟩
        · exact ⟨ra, by rw [if_neg e, hra]⟩
      obtain ⟨rb, hrb⟩ := hrb
      have hsb : World.get wb self = some { oa with root_ := some r } := by
        rw [hgb self, if_pos rfl]
      obtain ⟨wc, hc, -⟩ := World.update_spec
        (fun x => { x with objects_ := entries_set x.objects_ oa.url_ self }) hrb
      exact ⟨wc, by simp only [Root_register_object, hsb]; exact hc⟩
  unfold Object.set_root
  simp only [ho]
  cases hr : o.root_ with
  | none => exact tail w (fun _ => rfl)
  | some r =>
    obtain ⟨ro, hro⟩ := hold r hr
    obtain ⟨wa, hwa, -⟩ := World.update_spec
      (fun x => { x with objects_ := THash_remove_element x.objects_ self }) hro
    have hwa2 : Root_unregister_object w r self = some wa := hwa
    simp only [hwa2]
    exact tail wa (Root_unregister_object_some hwa2).1

/-- What `moved` has done to the object itself before it goes through the children. -/
theorem Object.moved_self_some {w w3 : World} {self : ObjectId}
    (h : Object.moved_self w self = some w3) :
    ∃ o, w.get self = some o ∧
      (∀ j, (World.get w3 j).map Object.without_url = (w.get j).map Object.without_url) ∧
      (∀ j, j ≠ self → (World.get w3 j).map Object.url_root = (w.get j).map Object.url_root) ∧
      (∀ parent, o.parent_ = some parent → ∃ p, w.get parent = some p ∧
        (World.get w3 self).map Object.url_root
          = some (p.url_ ++ "/" ++ o.name_, p.root_, p.context_)) ∧
      (o.parent_ = none → o.root_ = some self →
        (World.get w3 self).map Object.url_root = some ("", o.root_, o.context_)) ∧
      (o.parent_ = none → o.root_ ≠ some self →
        (World.get w3 self).map Object.url_root = some (o.name_, none, o.context_)) := by
  unfold Object.moved_self at h
  cases ho : w.get self with
  | none => simp [ho] at h
  | some o =>
    simp only [ho] at h
    cases hpar : o.parent_ with
    | some parent =>
      simp only [hpar] at h
      cases hp : w.get parent with
      | none => simp [hp] at h
      | some p =>
        simp only [hp] at h
        cases h1 : World.update w self fun o => { o with url_ := p.url_ ++ "/" ++ o.name_ } with
        | none => simp [h1] at h
        | some w1 =>
          simp only [h1] at h
          have k1 : ∀ j, (World.get w1 j).map Object.without_url
              = (w.get j).map Object.without_url := World.update_map _ h1 (fun _ => rfl)
          have f1 : ∀ j, j ≠ self → World.get w1 j = w.get j := World.update_other h1
          have s1 : World.get w1 self = some { o with url_ := p.url_ ++ "/" ++ o.name_ } :=
            World.update_self h1 ho
          cases hp1 : World.get w1 parent with
          | none => simp [hp1] at h
          | some p1 =>
            simp only [hp1] at h
            have hp1r : p1.root_ = p.root_ ∧ p1.context_ = p.context_ := by
              by_cases e : parent = self
              · rw [e, s1] at hp1
                cases hp1
                rw [e, ho] at hp
                cases hp
                exact ⟨rfl, rfl⟩
              · rw [f1 parent e, hp] at hp1
                cases hp1
                exact ⟨rfl, rfl⟩
            cases h2 : Object.set_root w1 self p1.root_ with
            | none => simp [h2] at h
            | some w2 =>
              simp only [h2] at h
              obtain ⟨o1, ho1, k2, f2, s2⟩ := Object.set_root_some h2
              rw [s1] at ho1
              cases ho1
              cases hp2 : World.get w2 parent with
              | none => simp [hp2] at h
              | some p2 =>
                simp only [hp2] at h
                have hp2c : p2.context_ = p.context_ := by
                  by_cases e : parent = self
                  · rw [e] at hp2
                    rw [hp2] at s2
                    simp only [Option.map_some', Object.url_root, Option.some.injEq,
                      Prod.mk.injEq] at s2
                    rw [s2.2.2]
                    rw [e, ho] at hp
                    cases hp
                    rfl
                  · have := f2 parent e
                    rw [hp2, hp1] at this
                    simp only [Option.map_some', Object.url_root, Option.some.injEq,
                      Prod.mk.injEq] at this
                    rw [this.2.2, hp1r.2]
                unfold Object.set_context at h
                have k3 : ∀ j, (World.get w3 j).map Object.without_url
                    = (World.get w2 j).map Object.without_url :=
                  World.update_map _ h (fun _ => rfl)
                have f3 : ∀ j, j ≠ self → World.get w3 j = World.get w2 j :=
                  World.update_other h
                obtain ⟨o2, ho2, -⟩ := World.update_some h
                have s3 := World.update_self h ho2
                refine ⟨o, rfl, fun j => ((k3 j).trans (k2 j)).trans (k1 j), ?_, ?_, ?_, ?_⟩
                · intro j hj
                  rw [f3 j hj, f2 j hj, f1 j hj]
                · intro parent1 hpe
                  rw [hpar] at hpe
                  cases hpe
                  refine ⟨p, hp, ?_⟩
                  rw [s3]
                  rw [ho2] at s2
                  simp only [Option.map_some', Object.url_root, Option.some.injEq,
                    Prod.mk.injEq] at s2 ⊢
                  exact ⟨s2.1, by rw [s2.2.1, hp1r.1], hp2c⟩
                · intro hc
                  rw [hpar] at hc
                  cases hc
                · intro hc
                  rw [hpar] at hc
                  cases hc
    | none =>
      simp only [hpar] at h
      by_cases hroot : o.root_ = some self
      · simp only [hroot, if_true] at h
        refine ⟨o, rfl, World.update_map _ h (fun _ => rfl), ?_, ?_, ?_, ?_⟩
        · intro j hj
          rw [World.update_other h j hj]
        · intro parent hc
          rw [hpar] at hc
          cases hc
        · intro _ _
          rw [World.update_self h ho]
          rfl
        · intro _ hc
          exact absurd hroot hc
      · simp only [hroot, if_false] at h
        cases h1 : World.update w self fun o => { o with url_ := o.name_ } with
        | none => simp [h1] at h
        | some w1 =>
          simp only [h1] at h
          have k1 : ∀ j, (World.get w1 j).map Object.without_url
              = (w.get j).map Object.without_url := World.update_map _ h1 (fun _ => rfl)
          have f1 : ∀ j, j ≠ self → World.get w1 j = w.get j := World.update_other h1
          have s1 : World.get w1 self = some { o with url_ := o.name_ } :=
            World.update_self h1 ho
          obtain ⟨o1, ho1, k2, f2, s2⟩ := Object.set_root_some h
          rw [s1] at ho1
          cases ho1
          refine ⟨o, rfl, fun j => (k2 j).trans (k1 j), ?_, ?_, ?_, ?_⟩
          · intro j hj
            rw [f2 j hj, f1 j hj]
          · intro parent hc
            rw [hpar] at hc
            cases hc
          · intro _ hc
            exact absurd hc hroot
          · intro _ _
            exact s2

theorem Object.set_root_alive {w : World} {self : ObjectId} {o : Object}
    (root : Option ObjectId) (ho : w.get self = some o)
    (hroots : ∀ j x r, w.get j = some x → x.root_ = some r → ∃ ro, w.get r = some ro)
    (hnew : ∀ r, root = some r → ∃ ro, w.get r = some ro) :
    ∃ w1, Object.set_root w self root = some w1 :=
  Object.set_root_total root ho (fun r hr => hroots self o r ho hr) hnew

/-- The first part of `moved` returns when the parent is alive and every `root_` points to a
live object. -/
theorem Object.moved_self_total {w : World} {self : ObjectId} {o : Object}
    (ho : w.get self = some o)
    (hpar : ∀ parent, o.parent_ = some parent → ∃ p, w.get parent = some p)
    (hroots : ∀ j x r, w.get j = some x → x.root_ = some r → ∃ ro, w.get r = some ro) :
    ∃ w3, Object.moved_self w self = some w3 := by
  unfold Object.moved_self
  simp only [ho]
  cases hp0 : o.parent_ with
  | some parent =>
    obtain ⟨p, hp⟩ := hpar parent hp0
    simp only [hp]
    obtain ⟨w1, h1, hg1⟩ := World.update_spec
      (fun x => { x with url_ := p.url_ ++ "/" ++ x.name_ }) ho
    simp only [h1]
    have k1 : ∀ j, (World.get w1 j).map Object.without_url
        = (w.get j).map Object.without_url := World.update_map _ h1 (fun _ => rfl)
    have r1 : ∀ j, (World.get w1 j).map Object.root_ = (w.get j).map Object.root_ :=
      World.update_map _ h1 (fun _ => rfl)
    obtain ⟨p1, hp1, -⟩ := World.alive_of_map k1 hp
    simp only [hp1]
    have hroots1 : ∀ j x r, World.get w1 j = some x → x.root_ = some r →
        ∃ ro, World.get w1 r = some ro := by
      intro j x r hx hr
      have hj := r1 j
      rw [hx] at hj
      cases hy : w.get j with
      | none => simp [hy] at hj
      | some y =>
        rw [hy] at hj
        simp only [Option.map_some', Option.some.injEq] at hj
        obtain ⟨ro, hro⟩ := hroots j y r hy (by rw [← hj]; exact hr)
        obtain ⟨ro1, hro1, -⟩ := World.alive_of_map k1 hro
        exact ⟨ro1, hro1⟩
    have s1 := hg1 self
    rw [if_pos rfl] at s1
    obtain ⟨w2, h2⟩ := Object.set_root_alive p1.root_ s1 hroots1
      (fun r hr => hroots1 parent p1 r hp1 hr)
    simp only [h2]
    obtain ⟨-, -, k2, -, -⟩ := Object.set_root_some h2
    obtain ⟨p2, hp2, -⟩ := World.alive_of_map k2 hp1
    simp only [hp2]
    obtain ⟨o2, ho2, -⟩ := World.alive_of_map k2 s1
    obtain ⟨w3, h3, -⟩ := World.update_spec (fun x => { x with context_ := p2.context_ }) ho2
    exact ⟨w3, h3⟩
  | none =>
    simp only []
    by_cases hroot : o.root_ = some self
    · simp only [hroot, if_true]
      obtain ⟨w1, h1, -⟩ := World.update_spec (fun x => { x with url_ := "" }) ho
      exact ⟨w1, h1⟩
    · simp only [hroot, if_false]
      obtain ⟨w1, h1, hg1⟩ := World.update_spec (fun x => { x with url_ := x.name_ }) ho
      simp only [h1]
      have s1 := hg1 self
      rw [if_pos rfl] at s1
      refine Object.set_root_total none s1 ?_ (fun r hr => by cases hr)
      intro r hr
      obtain ⟨ro, hro⟩ := hroots self o r ho hr
      obtain ⟨ro1, hro1, -⟩ := World.alive_of_map
        (World.update_map Object.without_url h1 (fun _ => rfl)) hro
      exact ⟨ro1, hro1⟩

/-- `moved` leaves alone every field but `url_`, `root_`, `context_` and `objects_`. -/
theorem Object.moved_without_url :
    ∀ (fuel : Nat) {w w1 : World} {self : ObjectId}, Object.moved fuel w self = some w1 →
      ∀ j, (World.get w1 j).map Object.without_url = (w.get j).map Object.without_url := by
  intro fuel
  induction fuel with
  | zero =>
    intro w w1 self h
    simp [Object.moved] at h
  | succ n ih =>
    intro w w1 self h
    unfold Object.moved at h
    cases hs : Object.moved_self w self with
    | none => simp [hs] at h
    | some w3 =>
      simp only [hs] at h
      obtain ⟨o, -, k3, -⟩ := Object.moved_self_some hs
      cases ho3 : World.get w3 self with
      | none => simp [ho3] at h
      | some o3 =>
        simp only [ho3] at h
        have loop : ∀ (keys : List String) (wi : World),
            keys.foldlM
              (fun wi key =>
                match o3.children_.lookup key with
                | some child => Object.moved n wi child
                | none => some wi) wi = some w1 →
            ∀ j, (World.get w1 j).map Object.without_url
              = (World.get wi j).map Object.without_url := by
          intro keys
          induction keys with
          | nil =>
            intro wi hf j
            simp only [List.foldlM_nil, pure, Option.some.injEq] at hf
            rw [hf]
          | cons key rest ihk =>
            intro wi hf j
            simp only [List.foldlM_cons, bind, Option.bind_eq_some] at hf
            obtain ⟨wj, hstep, hrest⟩ := hf
            rw [ihk wj hrest j]
            cases hl : o3.children_.lookup key with
            | none =>
              simp only [hl, Option.some.injEq] at hstep
              rw [hstep]
            | some child =>
              simp only [hl] at hstep
              exact ih hstep j
        intro j
        rw [loop _ _ h j, k3 j]

/-! ## Subtrees -/

theorem Object.below_keys_congr {w w1 : World} (hk : World.same_but_url w w1)
    {below below1 : ObjectId → Option (List ObjectId)} (hb : ∀ c, below1 c = below c)
    (self : ObjectId) (children : List (String × ObjectId)) (keys : List String) :
    Object.below_keys below1 w1 self children keys
      = Object.below_keys below w self children keys := by
  induction keys with
  | nil => rfl
  | cons key rest ih =>
    unfold Object.below_keys
    cases hl : children.lookup key with
    | none => simpa using ih
    | some child =>
      simp only []
      have hc := hk child
      cases h1 : World.get w1 child <;> cases h0 : w.get child <;> simp [h1, h0] at hc
      · rfl
      · rename_i c1 c0
        have hp : c1.parent_ = c0.parent_ := by
          have := congrArg Object.parent_ hc
          simpa [Object.without_url] using this
        have hn : c1.name_ = c0.name_ := by
          have := congrArg Object.name_ hc
          simpa [Object.without_url] using this
        simp only [hp, hn, hb child, ih]

theorem Object.subtree_congr {w w1 : World} (hk : World.same_but_url w w1) :
    ∀ (fuel : Nat) (self : ObjectId),
      Object.subtree fuel w1 self = Object.subtree fuel w self := by
  intro fuel
  induction fuel with
  | zero =>
    intro self
    rfl
  | succ n ih =>
    intro self
    unfold Object.subtree
    have hs := hk self
    cases h1 : World.get w1 self <;> cases h0 : w.get self <;> simp [h1, h0] at hs
    · rfl
    · rename_i o1 o0
      have hc : o1.children_ = o0.children_ := by
        have := congrArg Object.children_ hs
        simpa [Object.without_url] using this
      simp only [hc]
      rw [Object.below_keys_congr hk ih]

theorem Object.subtree_head {fuel : Nat} {w : World} {self : ObjectId}
    {nodes : List ObjectId} (h : Object.subtree fuel w self = some nodes) :
    ∃ o l, fuel ≠ 0 ∧ w.get self = some o ∧ nodes = self :: l ∧
      Object.below_keys (Object.subtree (fuel - 1) w) w self o.children_
        (THash_keys o.children_) = some l := by
  cases fuel with
  | zero => simp [Object.subtree] at h
  | succ n =>
    unfold Object.subtree at h
    cases ho : w.get self with
    | none => simp [ho] at h
    | some o =>
      simp only [ho, Option.map_eq_some'] at h
      obtain ⟨l, hl, hn⟩ := h
      exact ⟨o, l, Nat.succ_ne_zero n, rfl, hn.symm, hl⟩

theorem World.same_object {w w1 : World} {m : ObjectId} {om : Object}
    (hk : (World.get w1 m).map Object.without_url = (w.get m).map Object.without_url)
    (hu : (World.get w1 m).map Object.url_root = (w.get m).map Object.url_root)
    (hm : w.get m = some om) :
    ∃ om1, World.get w1 m = some om1 ∧ om1.name_ = om.name_ ∧ om1.parent_ = om.parent_ ∧
      om1.children_ = om.children_ ∧ om1.url_root = om.url_root ∧
      om1.url_ = om.url_ ∧ om1.root_ = om.root_ ∧ om1.context_ = om.context_ := by
  rw [hm] at hk hu
  cases h1 : World.get w1 m with
  | none => simp [h1] at hk
  | some om1 =>
    rw [h1] at hk hu
    simp only [Option.map_some', Option.some.injEq] at hk hu
    have hn := congrArg Object.name_ hk
    have hp := congrArg Object.parent_ hk
    have hc := congrArg Object.children_ hk
    simp only [Object.without_url] at hn hp hc
    have hu2 := hu
    simp only [Object.url_root, Prod.mk.injEq] at hu2
    exact ⟨om1, rfl, hn, hp, hc, hu, hu2.1, hu2.2.1, hu2.2.2⟩

theorem World.same_shape {w w1 : World} {m : ObjectId} {om : Object}
    (hk : World.same_but_url w w1) (hm : w.get m = some om) :
    ∃ om1, World.get w1 m = some om1 ∧ om1.name_ = om.name_ ∧ om1.parent_ = om.parent_ ∧
      om1.children_ = om.children_ ∧ om1.children_vector_ = om.children_vector_ := by
  have h := hk m
  rw [hm] at h
  cases h1 : World.get w1 m with
  | none => simp [h1] at h
  | some om1 =>
    rw [h1] at h
    simp only [Option.map_some', Option.some.injEq] at h
    have hn := congrArg Object.name_ h
    have hp := congrArg Object.parent_ h
    have hc := congrArg Object.children_ h
    have hv := congrArg Object.children_vector_ h
    simp only [Object.without_url] at hn hp hc hv
    exact ⟨om1, rfl, hn, hp, hc, hv⟩

theorem Object.url_follows_of_same {w w1 : World} {inside inside1 : List ObjectId}
    {m : ObjectId} (h : Object.url_follows w inside m)
    (hk : World.same_but_url w w1)
    (hm : (World.get w1 m).map Object.url_root = (w.get m).map Object.url_root)
    (hpar : ∀ par ∈ inside, par ∈ inside1 ∧
      (World.get w1 par).map Object.url_root = (w.get par).map Object.url_root) :
    Object.url_follows w1 inside1 m := by
  obtain ⟨om, par, opar, hom, hp, hin, hopar, hurl⟩ := h
  obtain ⟨om1, hom1, hn1, hp1, -, hu1, -⟩ := World.same_object (hk m) hm hom
  obtain ⟨hin1, hpu⟩ := hpar par hin
  obtain ⟨opar1, hopar1, -, -, -, -, hq1, hq2, hq3⟩ := World.same_object (hk par) hpu hopar
  exact ⟨om1, par, opar1, hom1, by rw [hp1, hp], hin1, hopar1,
    by rw [hu1, hurl, hn1, hq1, hq2, hq3]⟩

theorem Object.moved_self_roots {w w3 : World} {self : ObjectId}
    (hroots : World.roots_alive w) (h : Object.moved_self w self = some w3) :
    World.roots_alive w3 := by
  obtain ⟨o, ho, k3, f3, hpar, hroot, hbare⟩ := Object.moved_self_some h
  have alive : ∀ r ro, w.get r = some ro → ∃ ro1, World.get w3 r = some ro1 := by
    intro r ro hr
    obtain ⟨ro1, h1, -⟩ := World.alive_of_map k3 hr
    exact ⟨ro1, h1⟩
  intro j x r hx hr
  by_cases e : j = self
  · subst e
    have hx2 : (World.get w3 j).map Object.url_root = some (x.url_, some r, x.context_) := by
      rw [hx]
      simp [Object.url_root, hr]
    cases hp0 : o.parent_ with
    | some parent =>
      obtain ⟨p, hp, hu⟩ := hpar parent hp0
      rw [hx2] at hu
      simp only [Option.some.injEq, Prod.mk.injEq] at hu
      obtain ⟨ro, hro⟩ := hroots parent p r hp hu.2.1.symm
      exact alive r ro hro
    | none =>
      by_cases hr0 : o.root_ = some j
      · have hu := hroot hp0 hr0
        rw [hx2] at hu
        simp only [Option.some.injEq, Prod.mk.injEq] at hu
        obtain ⟨ro, hro⟩ := hroots j o r ho hu.2.1.symm
        exact alive r ro hro
      · have hu := hbare hp0 hr0
        rw [hx2] at hu
        simp at hu
  · have hu := f3 j e
    rw [hx] at hu
    cases hy : w.get j with
    | none => simp [hy] at hu
    | some y =>
      rw [hy] at hu
      simp only [Option.map_some', Option.some.injEq, Object.url_root, Prod.mk.injEq] at hu
      obtain ⟨ro, hro⟩ := hroots j y r hy (by rw [← hu.2.1]; exact hr)
      exact alive r ro hro

/-- `moved` on a subtree of live objects, with enough fuel for its depth: it returns; outside
the subtree url, root and context are unchanged; the node gets them from its parent (or is
the root, or is detached); every other object of the subtree gets them from its parent in
the subtree. -/
theorem Object.moved_spec :
    ∀ (fuel : Nat) (w : World) (self : ObjectId) (nodes : List ObjectId),
      Object.subtree fuel w self = some nodes → nodes.Nodup → World.roots_alive w →
      (∀ o parent, w.get self = some o → o.parent_ = some parent →
        parent ∉ nodes ∧ ∃ p, w.get parent = some p) →
      ∃ w1, Object.moved fuel w self = some w1 ∧ World.same_but_url w w1 ∧
        World.roots_alive w1 ∧
        (∀ j, j ∉ nodes → (World.get w1 j).map Object.url_root = (w.get j).map Object.url_root) ∧
        (∃ o, w.get self = some o ∧
          (∀ parent, o.parent_ = some parent → ∃ p, w.get parent = some p ∧
            (World.get w1 self).map Object.url_root
              = some (p.url_ ++ "/" ++ o.name_, p.root_, p.context_)) ∧
          (o.parent_ = none → o.root_ = some self →
            (World.get w1 self).map Object.url_root = some ("", o.root_, o.context_)) ∧
          (o.parent_ = none → o.root_ ≠ some self →
            (World.get w1 self).map Object.url_root = some (o.name_, none, o.context_))) ∧
        (∀ m ∈ nodes, m ≠ self → Object.url_follows w1 nodes m) ∧
        (∀ m ∈ nodes, ∃ om os, World.get w1 m = some om ∧ World.get w1 self = some os ∧
          om.root_ = os.root_ ∧ om.context_ = os.context_) := by
  intro fuel
  induction fuel with
  | zero =>
    intro w self nodes h
    simp [Object.subtree] at h
  | succ n ih =>
    intro w self nodes hsub hnd hroots hpar
    obtain ⟨o, l, -, ho, hnodes, hbelow⟩ := Object.subtree_head hsub
    simp only [Nat.add_sub_cancel] at hbelow
    subst hnodes
    obtain ⟨w3, hs⟩ := Object.moved_self_total ho
      (fun parent hp => (hpar o parent ho hp).2) hroots
    obtain ⟨o0, ho0, k3, f3, hhead⟩ := Object.moved_self_some hs
    rw [ho] at ho0
    cases ho0
    have hroots3 := Object.moved_self_roots hroots hs
    obtain ⟨o3, ho3, -, -, hc3, -⟩ := World.same_shape k3 ho
    have hbelow3 : Object.below_keys (Object.subtree n w3) w3 self o.children_
        (THash_keys o.children_) = some l := by
      rw [Object.below_keys_congr k3 (Object.subtree_congr k3 n)]
      exact hbelow
    have loop : ∀ (ks : List String) (wi : World) (l : List ObjectId),
        Object.below_keys (Object.subtree n wi) wi self o.children_ ks = some l →
        (self :: l).Nodup → World.roots_alive wi → (∃ oi, wi.get self = some oi) →
        ∃ w1, ks.foldlM (fun wi key =>
              match o.children_.lookup key with
              | some child => Object.moved n wi child
              | none => some wi) wi = some w1 ∧
          World.same_but_url wi w1 ∧ World.roots_alive w1 ∧
          (∀ j, j ∉ l →
            (World.get w1 j).map Object.url_root = (wi.get j).map Object.url_root) ∧
          (∀ m ∈ l, Object.url_follows w1 (self :: l) m) ∧
          (∀ m ∈ l, ∃ om os, World.get w1 m = some om ∧ World.get w1 self = some os ∧
            om.root_ = os.root_ ∧ om.context_ = os.context_) := by
      intro ks
      induction ks with
      | nil =>
        intro wi l hb _ hr _
        simp only [Object.below_keys, Option.some.injEq] at hb
        subst hb
        exact ⟨wi, rfl, fun _ => rfl, hr, fun _ _ => rfl,
          fun m hm => absurd hm (List.not_mem_nil m),
          fun m hm => absurd hm (List.not_mem_nil m)⟩
      | cons key rest ihk =>
        intro wi l hb hnd hr hsi
        unfold Object.below_keys at hb
        cases hl : o.children_.lookup key with
        | none =>
          simp only [hl] at hb
          obtain ⟨w1, hf, h1, h2, h3, h4, h5⟩ := ihk wi l hb hnd hr hsi
          refine ⟨w1, ?_, h1, h2, h3, h4, h5⟩
          simp only [List.foldlM_cons, hl, bind, Option.bind]
          exact hf
        | some child =>
          simp only [hl] at hb
          cases hc : wi.get child with
          | none => simp [hc] at hb
          | some c =>
            simp only [hc] at hb
            by_cases hcond : c.parent_ = some self ∧ c.name_ = key
            · rw [if_pos hcond] at hb
              cases hsc : Object.subtree n wi child with
              | none => simp [hsc] at hb
              | some lc =>
                cases hbr : Object.below_keys (Object.subtree n wi) wi self o.children_ rest with
                | none => simp [hsc, hbr] at hb
                | some ls =>
                  simp only [hsc, hbr, Option.some.injEq] at hb
                  subst hb
                  obtain ⟨oi, hoi⟩ := hsi
                  -- what Nodup gives
                  have hself : self ∉ lc ++ ls := (List.nodup_cons.mp hnd).1
                  have hndl : (lc ++ ls).Nodup := (List.nodup_cons.mp hnd).2
                  obtain ⟨hndc, hnds, hdisj⟩ := List.nodup_append.mp hndl
                  have hselfc : self ∉ lc := fun e => hself (List.mem_append_left _ e)
                  have hselfs : self ∉ ls := fun e => hself (List.mem_append_right _ e)
                  -- the child
                  obtain ⟨wj, hmj, kj, hrj, fj, hheadj, hlocj, hglobj⟩ :=
                    ih wi child lc hsc hndc hr
                    (by
                      intro oc parent hoc hp
                      rw [hc] at hoc
                      cases hoc
                      rw [hcond.1] at hp
                      cases hp
                      exact ⟨hselfc, oi, hoi⟩)
                  obtain ⟨oc, hoc, hhj, -, -⟩ := hheadj
                  rw [hc] at hoc
                  cases hoc
                  obtain ⟨ps, hps, hurlc⟩ := hhj self hcond.1
                  rw [hoi] at hps
                  cases hps
                  obtain ⟨-, lc0, -, -, hlc, -⟩ := Object.subtree_head hsc
                  -- the other children
                  have hbj : Object.below_keys (Object.subtree n wj) wj self o.children_ rest
                      = some ls := by
                    rw [Object.below_keys_congr kj (Object.subtree_congr kj n)]
                    exact hbr
                  obtain ⟨oj, hoj, -⟩ := World.same_shape kj hoi
                  obtain ⟨w1, hf, k1, hr1, f1, hloc1, hglob1⟩ := ihk wj ls hbj
                    (List.nodup_cons.mpr ⟨hselfs, hnds⟩) hrj ⟨oj, hoj⟩
                  have k01 : World.same_but_url wi w1 := fun j => (k1 j).trans (kj j)
                  obtain ⟨os1, hos1, -, -, -, -, hq1, hq2, hq3⟩ :=
                    World.same_object (k01 self)
                      ((f1 self hselfs).trans (fj self hselfc)) hoi
                  refine ⟨w1, ?_, k01, hr1, ?_, ?_, ?_⟩
                  · simp only [List.foldlM_cons, hl, hmj, bind, Option.bind]
                    exact hf
                  · intro j hj
                    rw [f1 j (fun e => hj (List.mem_append_right _ e)),
                      fj j (fun e => hj (List.mem_append_left _ e))]
                  · intro m hm
                    rcases List.mem_append.mp hm with hmc | hms
                    · -- an object of the subtree of the child
                      have hmls : m ∉ ls := fun e => hdisj hmc e
                      by_cases hmchild : m = child
                      · subst hmchild
                        obtain ⟨om, hom, hn1, hp1, -⟩ := World.same_shape k01 hc
                        have hu := (f1 m hmls).trans hurlc
                        rw [hom] at hu
                        simp only [Option.map_some', Option.some.injEq] at hu
                        exact ⟨om, self, os1, hom, by rw [hp1, hcond.1],
                          List.mem_cons_self _ _, hos1, by rw [hu, hn1, hq1, hq2, hq3]⟩
                      · have := hlocj m hmc hmchild
                        refine Object.url_follows_of_same this k1 (f1 m hmls) ?_
                        intro par hpar
                        exact ⟨List.mem_cons_of_mem _ (List.mem_append_left _ hpar),
                          f1 par (fun e => hdisj hpar e)⟩
                    · have := hloc1 m hms
                      obtain ⟨om, par, opar, h1, h2, h3, h4, h5⟩ := this
                      refine ⟨om, par, opar, h1, h2, ?_, h4, h5⟩
                      rcases List.mem_cons.mp h3 with e | e
                      · rw [e]
                        exact List.mem_cons_self _ _
                      · exact List.mem_cons_of_mem _ (List.mem_append_right _ e)
                  · intro m hm
                    rcases List.mem_append.mp hm with hmc | hms
                    · have hmls : m ∉ ls := fun e => hdisj hmc e
                      obtain ⟨om, oc1, hom, hoc1, hr2, hc2⟩ := hglobj m hmc
                      rw [hoc1] at hurlc
                      simp only [Option.map_some', Object.url_root, Option.some.injEq,
                        Prod.mk.injEq] at hurlc
                      obtain ⟨om1, hom1, -, -, -, -, -, hr3, hc3⟩ :=
                        World.same_object (k1 m) (f1 m hmls) hom
                      exact ⟨om1, os1, hom1, hos1,
                        by rw [hr3, hr2, hurlc.2.1, hq2], by rw [hc3, hc2, hurlc.2.2, hq3]⟩
                    · exact hglob1 m hms
            · rw [if_neg hcond] at hb
              cases hb
    obtain ⟨w1, hfold, k1, hroots1, f1, hloc, hglob⟩ :=
      loop (THash_keys o.children_) w3 l hbelow3 hnd hroots3 ⟨o3, ho3⟩
    have hself : self ∉ l := (List.nodup_cons.mp hnd).1
    refine ⟨w1, ?_, fun j => (k1 j).trans (k3 j), hroots1, ?_, ⟨o, ho, ?_, ?_, ?_⟩, ?_, ?_⟩
    · unfold Object.moved
      simp only [hs, ho3, hc3]
      exact hfold
    · intro j hj
      rw [f1 j (fun e => hj (List.mem_cons_of_mem _ e)),
        f3 j (fun e => hj (e ▸ List.mem_cons_self _ _))]
    · intro parent hp
      obtain ⟨p, hp1, hu⟩ := hhead.1 parent hp
      exact ⟨p, hp1, by rw [f1 self hself]; exact hu⟩
    · intro h1 h2
      rw [f1 self hself]
      exact hhead.2.1 h1 h2
    · intro h1 h2
      rw [f1 self hself]
      exact hhead.2.2 h1 h2
    · intro m hm hne
      rcases List.mem_cons.mp hm with e | e
      · exact absurd e hne
      · exact hloc m e
    · intro m hm
      rcases List.mem_cons.mp hm with e | e
      · obtain ⟨os1, hos1, -⟩ := World.same_shape k1 ho3
        rw [e]
        exact ⟨os1, os1, hos1, hos1, rfl, rfl⟩
      · exact hglob m e

/-! ## Reparenting -/

theorem Object.below_keys_congr_on {w w1 : World} {n : Nat} {self : ObjectId}
    {children : List (String × ObjectId)}
    (ih : ∀ (c : ObjectId) (lc : List ObjectId), Object.subtree n w c = some lc →
      (∀ j ∈ lc, World.get w1 j = w.get j) → Object.subtree n w1 c = some lc) :
    ∀ (keys : List String) (l : List ObjectId),
      Object.below_keys (Object.subtree n w) w self children keys = some l →
      (∀ j ∈ l, World.get w1 j = w.get j) →
      Object.below_keys (Object.subtree n w1) w1 self children keys = some l := by
  intro keys
  induction keys with
  | nil =>
    intro l h _
    exact h
  | cons key rest ihk =>
    intro l h hsame
    unfold Object.below_keys at h ⊢
    cases hl : children.lookup key with
    | none =>
      simp only [hl] at h ⊢
      exact ihk l h hsame
    | some child =>
      simp only [hl] at h ⊢
      cases hc : w.get child with
      | none => simp [hc] at h
      | some c =>
        simp only [hc] at h
        by_cases hcond : c.parent_ = some self ∧ c.name_ = key
        · rw [if_pos hcond] at h
          cases hsc : Object.subtree n w child with
          | none => simp [hsc] at h
          | some lc =>
            cases hbr : Object.below_keys (Object.subtree n w) w self children rest with
            | none => simp [hsc, hbr] at h
            | some ls =>
              simp only [hsc, hbr, Option.some.injEq] at h
              subst h
              obtain ⟨-, lc0, -, -, hlc, -⟩ := Object.subtree_head hsc
              have hchild : World.get w1 child = some c := by
                rw [hsame child (List.mem_append_left _ (by rw [hlc]; exact List.mem_cons_self _ _)),
                  hc]
              have h1 := ih child lc hsc (fun j hj => hsame j (List.mem_append_left _ hj))
              have h2 := ihk ls hbr (fun j hj => hsame j (List.mem_append_right _ hj))
              simp only [hchild, if_pos hcond, h1, h2]
        · rw [if_neg hcond] at h
          cases h

theorem Object.subtree_congr_on {w w1 : World} :
    ∀ (fuel : Nat) (self : ObjectId) (nodes : List ObjectId),
      Object.subtree fuel w self = some nodes →
      (∀ j ∈ nodes, World.get w1 j = w.get j) →
      Object.subtree fuel w1 self = some nodes := by
  intro fuel
  induction fuel with
  | zero =>
    intro self nodes h
    simp [Object.subtree] at h
  | succ n ih =>
    intro self nodes h hsame
    obtain ⟨o, l, -, ho, hnodes, hbelow⟩ := Object.subtree_head h
    simp only [Nat.add_sub_cancel] at hbelow
    subst hnodes
    have hs : World.get w1 self = some o := by
      rw [hsame self (List.mem_cons_self _ _), ho]
    unfold Object.subtree
    simp only [hs]
    rw [Object.below_keys_congr_on ih _ l hbelow
      (fun j hj => hsame j (List.mem_cons_of_mem _ hj))]
    rfl

/-- The subtree of a node is the same in a store that agrees on the objects below the node
and on the table of the node. -/
theorem Object.subtree_congr_root {w w1 : World} {fuel : Nat} {self : ObjectId}
    {nodes : List ObjectId} {o o1 : Object}
    (h : Object.subtree fuel w self = some nodes) (hnd : nodes.Nodup)
    (ho : w.get self = some o) (ho1 : World.get w1 self = some o1)
    (hc : o1.children_ = o.children_)
    (hsame : ∀ j ∈ nodes, j ≠ self → World.get w1 j = w.get j) :
    Object.subtree fuel w1 self = some nodes := by
  obtain ⟨o0, l, hf, ho0, hnodes, hbelow⟩ := Object.subtree_head h
  rw [ho] at ho0
  cases ho0
  subst hnodes
  cases fuel with
  | zero => exact absurd rfl hf
  | succ n =>
    simp only [Nat.add_sub_cancel] at hbelow
    have hself : self ∉ l := (List.nodup_cons.mp hnd).1
    unfold Object.subtree
    simp only [ho1, hc]
    rw [Object.below_keys_congr_on (fun c lc => Object.subtree_congr_on n c lc) _ l hbelow
      (fun j hj => hsame j (List.mem_cons_of_mem _ hj) (fun e => hself (e ▸ hj)))]
    rfl

theorem World.roots_alive_congr {w w1 : World} (hr : World.roots_alive w)
    (h : ∀ j, (World.get w1 j).map Object.root_ = (w.get j).map Object.root_) :
    World.roots_alive w1 := by
  intro j x r hx hxr
  have hj := h j
  rw [hx] at hj
  cases hy : w.get j with
  | none => simp [hy] at hj
  | some y =>
    rw [hy] at hj
    simp only [Option.map_some', Option.some.injEq] at hj
    obtain ⟨ro, hro⟩ := hr j y r hy (by rw [← hj]; exact hxr)
    obtain ⟨ro1, hro1, -⟩ := World.alive_of_map h hro
    exact ⟨ro1, hro1⟩

theorem World.roots_alive_of_ok {w : World} (h : w.roots_ok = true) : World.roots_alive w := by
  intro j x r hx hxr
  unfold World.roots_ok at h
  rw [List.all_eq_true] at h
  have hmem : some x ∈ w := by
    unfold World.get at hx
    cases hj : w[j]? with
    | none => simp [hj] at hx
    | some slot =>
      rw [hj] at hx
      have hs : slot = some x := by simpa [Option.join] using hx
      rw [hs] at hj
      exact List.getElem?_mem hj
  have := h (some x) hmem
  simp only [hxr] at this
  exact Option.isSome_iff_exists.mp this

theorem Object.eq_of_parts {a b : Option Object}
    (h1 : a.map Object.name_ = b.map Object.name_)
    (h2 : a.map Object.children_ = b.map Object.children_)
    (h3 : a.map Object.children_vector_ = b.map Object.children_vector_)
    (h4 : a.map Object.without_children = b.map Object.without_children) : a = b := by
  cases a <;> cases b <;> simp at h1 h2 h3 h4
  · rfl
  · rename_i x y
    obtain ⟨xn, xu, xp, xr, xc, xk, xch, xv, xa, xt, xrc, xo, xor⟩ := x
    obtain ⟨yn, yu, yp, yr, yc, yk, ych, yv, ya, yt, yrc, yo, yor⟩ := y
    simp only [Object.without_children, Object.mk.injEq] at h1 h2 h3 h4
    simp only [Option.some.injEq, Object.mk.injEq]
    simp_all

theorem THash_remove_element_twice (entries : List (String × ObjectId)) (o : ObjectId) :
    THash_remove_element (THash_remove_element entries o) o = THash_remove_element entries o := by
  simp [THash_remove_element]

theorem Object.url_root_of_without_children {a b : Option Object}
    (h : a.map Object.without_children = b.map Object.without_children) :
    a.map Object.url_root = b.map Object.url_root := by
  have := congrArg (Option.map Object.url_root) h
  simpa [Option.map_map, Function.comp_def, Object.without_children, Object.url_root] using this

/-- The three first statements of `set_parent` after the object has left its previous
parent: `parent_` is written and the object is registered with its new parent. -/
theorem Object.set_parent_tail (next : String → String) (fuel : Nat) {w wa : World}
    {o : ObjectId} {oo : Object} {parent : Option ObjectId}
    (hoa : World.get wa o = some oo)
    (hq : ∀ q, oo.parent_ = some q → q ≠ o)
    (f2 : ∀ j, (World.get wa j).map Object.without_children
      = (w.get j).map Object.without_children)
    (f4 : ∀ j, (∀ q, oo.parent_ = some q → j ≠ q) → World.get wa j = w.get j)
    (f5 : ∀ q qo, oo.parent_ = some q → w.get q = some qo →
      World.get wa q = some { qo with
        children_ := THash_remove_element qo.children_ o,
        children_vector_ := qo.children_vector_.erase o })
    (hp : ∀ p, parent = some p → p ≠ o ∧ ∃ po k, w.get p = some po ∧
      (∀ c ∈ po.children_vector_, ∃ oc, w.get c = some oc) ∧ k < fuel ∧
      (THash_remove_element po.children_ o).lookup (next^[k] oo.name_) = none) :
    ∃ wc,
      (match World.update wa o fun x => { x with parent_ := parent } with
        | none => none
        | some w2 =>
          match (match parent with
            | some p => Object.register_child next fuel w2 p o
            | none => some w2) with
          | none => none
          | some w3 => Object.moved fuel w3 o) = Object.moved fuel wc o ∧
      (∀ j, j ≠ o → (∀ q, oo.parent_ = some q → j ≠ q) → (∀ p, parent = some p → j ≠ p) →
        World.get wc j = w.get j) ∧
      (∃ o3, World.get wc o = some o3 ∧ o3.parent_ = parent ∧ o3.children_ = oo.children_ ∧
        (parent = none → o3.name_ = oo.name_)) ∧
      (∀ j, (World.get wc j).map Object.url_root = (w.get j).map Object.url_root) ∧
      (∀ q qo, oo.parent_ = some q → w.get q = some qo → parent ≠ some q →
        World.get wc q = some { qo with
          children_ := THash_remove_element qo.children_ o,
          children_vector_ := qo.children_vector_.erase o }) ∧
      (∀ p po, parent = some p → w.get p = some po →
        ∃ p3 o3 i ords lasts, World.get wc p = some p3 ∧ World.get wc o = some o3 ∧
          o3.name_ = next^[i] oo.name_ ∧
          p3.children_ = entries_set (THash_remove_element po.children_ o)
            (next^[i] oo.name_) o ∧
          (THash_remove_element po.children_ o).lookup (next^[i] oo.name_) = none ∧
          (if oo.parent_ = some p then (po.children_vector_.erase o).erase o
            else po.children_vector_.erase o) = ords ++ lasts ∧
          p3.children_vector_ = ords ++ o :: lasts) := by
  obtain ⟨wb, hb, hgb⟩ := World.update_spec (fun x => { x with parent_ := parent }) hoa
  have hob : World.get wb o = some { oo with parent_ := parent } := by
    rw [hgb o, if_pos rfl]
  have fb : ∀ j, j ≠ o → World.get wb j = World.get wa j := fun j hj => by
    rw [hgb j, if_neg hj]
  have ub : ∀ j, (World.get wb j).map Object.url_root = (w.get j).map Object.url_root := by
    intro j
    exact (World.update_map Object.url_root hb (fun _ => rfl) j).trans
      (Object.url_root_of_without_children (f2 j))
  cases parent with
  | none =>
    refine ⟨wb, by simp only [hb], ?_, ⟨_, hob, rfl, rfl, fun _ => rfl⟩, ub, ?_, ?_⟩
    · intro j hj hjq _
      rw [fb j hj, f4 j hjq]
    · intro q qo hqq hqo _
      rw [fb q (hq q hqq)]
      exact f5 q qo hqq hqo
    · intro p po hc
      cases hc
  | some p =>
    obtain ⟨hpo, po, k, hpw, hvec, hk, hfree⟩ := hp p rfl
    -- the new parent before the registration
    have hpb : ∃ pb, World.get wb p = some pb ∧
        THash_remove_element pb.children_ o = THash_remove_element po.children_ o ∧
        pb.children_vector_.erase o
          = (if oo.parent_ = some p then (po.children_vector_.erase o).erase o
            else po.children_vector_.erase o) ∧
        (∀ c ∈ pb.children_vector_, c ∈ po.children_vector_) := by
      rw [fb p hpo]
      by_cases e : oo.parent_ = some p
      · rw [f5 p po e hpw, if_pos e]
        exact ⟨_, rfl, THash_remove_element_twice _ _, rfl,
          fun c hc => List.mem_of_mem_erase hc⟩
      · rw [f4 p (fun q hqq e2 => e (e2 ▸ hqq)), hpw, if_neg e]
        exact ⟨po, rfl, rfl, rfl, fun c hc => hc⟩
    obtain ⟨pb, hpb, hrem, hera, hsubv⟩ := hpb
    have alive_b : ∀ c oc, w.get c = some oc → ∃ ob, World.get wb c = some ob := by
      intro c oc hc
      obtain ⟨oa, hoa1, -⟩ := World.alive_of_map f2 hc
      by_cases e : c = o
      · exact ⟨_, e ▸ hob⟩
      · exact ⟨oa, by rw [fb c e, hoa1]⟩
    have hfreeb : (THash_remove_element pb.children_ o).lookup (next^[k] oo.name_) = none := by
      rw [hrem]
      exact hfree
    obtain ⟨wc, hreg⟩ := Object.register_child_total hpb hob hk hfreeb
      (fun c hc => by
        obtain ⟨oc, hoc⟩ := hvec c (hsubv c hc)
        exact alive_b c oc hoc)
    obtain ⟨i, vector, p3, o3, -, -, hfree3, hd, hp3, ho3, hc3, hv3, hn3, hnames, hchildren,
      hrest⟩ := Object.register_child_fields hreg hpb hob
    obtain ⟨ords, lasts, hsplit, hvsplit, -, -⟩ := Object.register_vector_split hob hd
    have same_c : ∀ j, j ≠ o → j ≠ p → World.get wc j = World.get wb j := fun j hj hjp =>
      Object.eq_of_parts (hnames j hj) (hchildren j hjp).1 (hchildren j hjp).2 (hrest j)
    refine ⟨wc, by simp only [hb, hreg], ?_, ?_, ?_, ?_, ?_⟩
    · intro j hj hjq hjp
      rw [same_c j hj (hjp p rfl), fb j hj, f4 j hjq]
    · refine ⟨o3, ho3, ?_, ?_, fun hc => (by cases hc)⟩
      · have h1 := hrest o
        rw [ho3, hob] at h1
        simp only [Option.map_some', Option.some.injEq] at h1
        have := congrArg Object.parent_ h1
        simpa [Object.without_children] using this
      · have h1 := (hchildren o (fun e => hpo e.symm)).1
        rw [ho3, hob] at h1
        simpa using h1
    · intro j
      rw [Object.url_root_of_without_children (hrest j)]
      exact ub j
    · intro q qo hqq hqo hne
      have hqp : q ≠ p := fun e => hne (by rw [e])
      rw [same_c q (hq q hqq) hqp, fb q (hq q hqq)]
      exact f5 q qo hqq hqo
    · intro p1 po1 hc hpo1
      cases hc
      rw [hpw] at hpo1
      cases hpo1
      refine ⟨p3, o3, i, ords, lasts, hp3, ho3, hn3, ?_, ?_, ?_, ?_⟩
      · rw [hc3, hrem]
      · rw [← hrem]
        exact hfree3
      · rw [← hera]
        exact hsplit
      · rw [hv3]
        exact hvsplit

/-- `set_parent` is `moved` on the store in which the object has left its previous parent and
is registered with the new one. -/
theorem Object.set_parent_registers (next : String → String) (fuel : Nat) {w : World}
    {o : ObjectId} {oo : Object} {parent : Option ObjectId}
    (ho : w.get o = some oo)
    (hq : ∀ q, oo.parent_ = some q → q ≠ o ∧ ∃ qo, w.get q = some qo)
    (hp : ∀ p, parent = some p → p ≠ o ∧ ∃ po k, w.get p = some po ∧
      (∀ c ∈ po.children_vector_, ∃ oc, w.get c = some oc) ∧ k < fuel ∧
      (THash_remove_element po.children_ o).lookup (next^[k] oo.name_) = none) :
    ∃ wc, Object.set_parent next fuel w o parent = Object.moved fuel wc o ∧
      (∀ j, j ≠ o → (∀ q, oo.parent_ = some q → j ≠ q) → (∀ p, parent = some p → j ≠ p) →
        World.get wc j = w.get j) ∧
      (∃ o3, World.get wc o = some o3 ∧ o3.parent_ = parent ∧ o3.children_ = oo.children_ ∧
        (parent = none → o3.name_ = oo.name_)) ∧
      (∀ j, (World.get wc j).map Object.url_root = (w.get j).map Object.url_root) ∧
      (∀ q qo, oo.parent_ = some q → w.get q = some qo → parent ≠ some q →
        World.get wc q = some { qo with
          children_ := THash_remove_element qo.children_ o,
          children_vector_ := qo.children_vector_.erase o }) ∧
      (∀ p po, parent = some p → w.get p = some po →
        ∃ p3 o3 i ords lasts, World.get wc p = some p3 ∧ World.get wc o = some o3 ∧
          o3.name_ = next^[i] oo.name_ ∧
          p3.children_ = entries_set (THash_remove_element po.children_ o)
            (next^[i] oo.name_) o ∧
          (THash_remove_element po.children_ o).lookup (next^[i] oo.name_) = none ∧
          (if oo.parent_ = some p then (po.children_vector_.erase o).erase o
            else po.children_vector_.erase o) = ords ++ lasts ∧
          p3.children_vector_ = ords ++ o :: lasts) := by
  obtain ⟨wa, hoa, f2, f4, f5, heq⟩ : ∃ wa, World.get wa o = some oo ∧
      (∀ j, (World.get wa j).map Object.without_children
        = (w.get j).map Object.without_children) ∧
      (∀ j, (∀ q, oo.parent_ = some q → j ≠ q) → World.get wa j = w.get j) ∧
      (∀ q qo, oo.parent_ = some q → w.get q = some qo →
        World.get wa q = some { qo with
          children_ := THash_remove_element qo.children_ o,
          children_vector_ := qo.children_vector_.erase o }) ∧
      Object.set_parent next fuel w o parent =
        (match World.update wa o fun x => { x with parent_ := parent } with
        | none => none
        | some w2 =>
          match (match parent with
            | some p => Object.register_child next fuel w2 p o
            | none => some w2) with
          | none => none
          | some w3 => Object.moved fuel w3 o) := by
    unfold Object.set_parent
    simp only [ho]
    cases hcase : oo.parent_ with
    | none =>
      exact ⟨w, ho, fun _ => rfl, fun _ _ => rfl, fun q qo hc => (by cases hc), rfl⟩
    | some q =>
      obtain ⟨hqo, qo, hqw⟩ := hq q hcase
      obtain ⟨wa, h1⟩ := Object.unregister_child_total o hqw
      obtain ⟨q0, hq0, hga⟩ := Object.unregister_child_some h1
      rw [hqw] at hq0
      cases hq0
      refine ⟨wa, ?_, ?_, ?_, ?_, by simp only [h1]⟩
      · rw [hga o, if_neg (fun e => hqo e.symm), ho]
      · intro j
        rw [hga j]
        by_cases e : j = q
        · rw [if_pos e, e, hqw]
          rfl
        · rw [if_neg e]
      · intro j hj
        rw [hga j, if_neg (hj q rfl)]
      · intro q1 qo1 hc hqo1
        have e : q = q1 := Option.some.inj hc
        subst e
        rw [hqw] at hqo1
        cases hqo1
        rw [hga q, if_pos rfl]
  obtain ⟨wc, htail, rest⟩ := Object.set_parent_tail next fuel hoa
    (fun q hqq => (hq q hqq).1) f2 f4 f5 hp
  exact ⟨wc, heq.trans htail, rest⟩

/-! ## Paths -/

theorem Object.below_keys_child {below : ObjectId → Option (List ObjectId)} {w : World}
    {self : ObjectId} {children : List (String × ObjectId)} :
    ∀ {keys : List String} {l : List ObjectId},
      Object.below_keys below w self children keys = some l →
      ∀ key ∈ keys, ∀ child, children.lookup key = some child →
        ∃ oc lc, w.get child = some oc ∧ oc.parent_ = some self ∧ oc.name_ = key ∧
          below child = some lc ∧ ∀ j ∈ lc, j ∈ l := by
  intro keys
  induction keys with
  | nil =>
    intro l _ key hk
    exact absurd hk (List.not_mem_nil key)
  | cons k rest ih =>
    intro l h key hk child hl
    unfold Object.below_keys at h
    cases hlk : children.lookup k with
    | none =>
      simp only [hlk] at h
      rcases List.mem_cons.mp hk with e | e
      · rw [e, hlk] at hl
        cases hl
      · exact ih h key e child hl
    | some c0 =>
      simp only [hlk] at h
      cases hc : w.get c0 with
      | none => simp [hc] at h
      | some c =>
        simp only [hc] at h
        by_cases hcond : c.parent_ = some self ∧ c.name_ = k
        · rw [if_pos hcond] at h
          cases hsc : below c0 with
          | none => simp [hsc] at h
          | some lc =>
            cases hbr : Object.below_keys below w self children rest with
            | none => simp [hsc, hbr] at h
            | some ls =>
              simp only [hsc, hbr, Option.some.injEq] at h
              subst h
              rcases List.mem_cons.mp hk with e | e
              · rw [e, hlk] at hl
                cases hl
                exact ⟨c, lc, hc, hcond.1, by rw [e]; exact hcond.2, hsc,
                  fun j hj => List.mem_append_left _ hj⟩
              · obtain ⟨oc, lc1, h1, h2, h3, h4, h5⟩ := ih hbr key e child hl
                exact ⟨oc, lc1, h1, h2, h3, h4, fun j hj => List.mem_append_right _ (h5 j hj)⟩
        · rw [if_neg hcond] at h
          cases h

theorem Object.below_keys_mem {below : ObjectId → Option (List ObjectId)} {w : World}
    {self : ObjectId} {children : List (String × ObjectId)} :
    ∀ {keys : List String} {l : List ObjectId},
      Object.below_keys below w self children keys = some l →
      ∀ j ∈ l, ∃ child lc, below child = some lc ∧ j ∈ lc ∧ ∀ i ∈ lc, i ∈ l := by
  intro keys
  induction keys with
  | nil =>
    intro l h j hj
    simp only [Object.below_keys, Option.some.injEq] at h
    rw [← h] at hj
    exact absurd hj (List.not_mem_nil j)
  | cons k rest ih =>
    intro l h j hj
    unfold Object.below_keys at h
    cases hlk : children.lookup k with
    | none =>
      simp only [hlk] at h
      exact ih h j hj
    | some c0 =>
      simp only [hlk] at h
      cases hc : w.get c0 with
      | none => simp [hc] at h
      | some c =>
        simp only [hc] at h
        by_cases hcond : c.parent_ = some self ∧ c.name_ = k
        · rw [if_pos hcond] at h
          cases hsc : below c0 with
          | none => simp [hsc] at h
          | some lc =>
            cases hbr : Object.below_keys below w self children rest with
            | none => simp [hsc, hbr] at h
            | some ls =>
              simp only [hsc, hbr, Option.some.injEq] at h
              subst h
              rcases List.mem_append.mp hj with e | e
              · exact ⟨c0, lc, hsc, e, fun i hi => List.mem_append_left _ hi⟩
              · obtain ⟨child, lc1, h1, h2, h3⟩ := ih hbr j e
                exact ⟨child, lc1, h1, h2, fun i hi => List.mem_append_right _ (h3 i hi)⟩
        · rw [if_neg hcond] at h
          cases h

/-- The objects of a subtree are closed under `get_child`: a child of an object of the
subtree is below the top, has that object as its parent and the key as its name. -/
theorem Object.subtree_child {w : World} :
    ∀ (fuel : Nat) (top : ObjectId) (nodes : List ObjectId),
      Object.subtree fuel w top = some nodes →
      ∀ x ∈ nodes, ∀ (ox : Object) (name : String) (child : ObjectId),
        w.get x = some ox → ox.children_.lookup name = some child →
        child ∈ nodes.tail ∧ ∃ oc, w.get child = some oc ∧ oc.parent_ = some x ∧
          oc.name_ = name := by
  intro fuel
  induction fuel with
  | zero =>
    intro top nodes h
    simp [Object.subtree] at h
  | succ n ih =>
    intro top nodes h x hx ox name child hox hl
    obtain ⟨o, l, -, ho, hnodes, hbelow⟩ := Object.subtree_head h
    simp only [Nat.add_sub_cancel] at hbelow
    subst hnodes
    simp only [List.tail_cons]
    rcases List.mem_cons.mp hx with e | e
    · subst e
      rw [ho] at hox
      cases hox
      have hkey : name ∈ THash_keys ox.children_ :=
        List.mem_map.mpr ⟨(name, child), mem_of_lookup hl, rfl⟩
      obtain ⟨oc, lc, h1, h2, h3, h4, h5⟩ :=
        Object.below_keys_child hbelow name hkey child hl
      obtain ⟨-, lc0, -, -, hlc, -⟩ := Object.subtree_head h4
      exact ⟨h5 child (by rw [hlc]; exact List.mem_cons_self _ _), oc, h1, h2, h3⟩
    · obtain ⟨c, lc, h1, h2, h3⟩ := Object.below_keys_mem hbelow x e
      obtain ⟨h4, h5⟩ := ih c lc h1 x h2 ox name child hox hl
      exact ⟨h3 child (List.mem_of_mem_tail h4), h5⟩

/-- In a subtree where every object below the top has the url that `moved` derives from its
parent, the url of the object reached through the names `path` is the url of the starting
object followed by "/" and a name for each step. -/
theorem Object.url_of_path {w : World} {fuel : Nat} {top : ObjectId} {nodes : List ObjectId}
    (hsub : Object.subtree fuel w top = some nodes) (hnd : nodes.Nodup)
    (hloc : ∀ m ∈ nodes, m ≠ top → Object.url_follows w nodes m) :
    ∀ (path : List String) (x : ObjectId) (ox : Object) (m : ObjectId),
      x ∈ nodes → w.get x = some ox → Object.child_at_path w x path = some m →
      m ∈ nodes ∧ ∃ om, w.get m = some om ∧
        om.url_ = path.foldl (fun url name => url ++ "/" ++ name) ox.url_ := by
  intro path
  induction path with
  | nil =>
    intro x ox m hx hox hm
    simp only [Object.child_at_path, Option.some.injEq] at hm
    subst hm
    exact ⟨hx, ox, hox, rfl⟩
  | cons name rest ih =>
    intro x ox m hx hox hm
    unfold Object.child_at_path at hm
    simp only [hox] at hm
    cases hl : ox.children_.lookup name with
    | none => simp [hl] at hm
    | some child =>
      simp only [hl] at hm
      obtain ⟨hct, oc, hoc, hpar, hname⟩ :=
        Object.subtree_child fuel top nodes hsub x hx ox name child hox hl
      obtain ⟨-, l, -, -, hnodes, -⟩ := Object.subtree_head hsub
      subst hnodes
      simp only [List.tail_cons] at hct
      have hne : child ≠ top := fun e => (List.nodup_cons.mp hnd).1 (e ▸ hct)
      obtain ⟨om, par, opar, h1, h2, -, h4, h5⟩ :=
        hloc child (List.mem_cons_of_mem _ hct) hne
      rw [hoc] at h1
      cases h1
      rw [hpar] at h2
      cases h2
      rw [hox] at h4
      cases h4
      simp only [Object.url_root, Prod.mk.injEq] at h5
      obtain ⟨hm1, om1, hom1, hurl⟩ := ih child oc m (List.mem_cons_of_mem _ hct) hoc hm
      refine ⟨hm1, om1, hom1, ?_⟩
      rw [hurl, h5.1, hname]
      rfl

/-- What `set_parent` leaves behind, for an object whose subtree is `nodes` and whose previous
and new parents are alive and outside that subtree. -/
theorem Object.set_parent_spec (next : String → String) (fuel : Nat) {w : World}
    {o : ObjectId} {oo : Object} (parent : Option ObjectId) {nodes : List ObjectId}
    (ho : w.get o = some oo)
    (hsub : Object.subtree fuel w o = some nodes) (hnd : nodes.Nodup)
    (hroots : World.roots_alive w)
    (hq : ∀ q, oo.parent_ = some q → q ∉ nodes ∧ ∃ qo, w.get q = some qo)
    (hp : ∀ p, parent = some p → p ∉ nodes ∧ ∃ po k, w.get p = some po ∧
      (∀ c ∈ po.children_vector_, ∃ oc, w.get c = some oc) ∧ k < fuel ∧
      (THash_remove_element po.children_ o).lookup (next^[k] oo.name_) = none) :
    ∃ w1 o1, Object.set_parent next fuel w o parent = some w1 ∧
      World.get w1 o = some o1 ∧
      Object.subtree fuel w1 o = some nodes ∧
      (∀ j, j ∉ nodes → (World.get w1 j).map Object.url_root = (w.get j).map Object.url_root) ∧
      (∀ j, j ≠ o → (∀ q, oo.parent_ = some q → j ≠ q) → (∀ p, parent = some p → j ≠ p) →
        (World.get w1 j).map Object.without_url = (w.get j).map Object.without_url) ∧
      o1.parent_ = parent ∧ o1.children_ = oo.children_ ∧
      (∀ p po, parent = some p → w.get p = some po →
        o1.url_root = (po.url_ ++ "/" ++ o1.name_, po.root_, po.context_)) ∧
      (parent = none → oo.root_ = some o →
        o1.name_ = oo.name_ ∧ o1.url_root = ("", some o, oo.context_)) ∧
      (parent = none → oo.root_ ≠ some o →
        o1.name_ = oo.name_ ∧ o1.url_root = (oo.name_, none, oo.context_)) ∧
      (∀ m ∈ nodes, m ≠ o → Object.url_follows w1 nodes m) ∧
      (∀ m ∈ nodes, ∃ om, World.get w1 m = some om ∧ om.root_ = o1.root_ ∧
        om.context_ = o1.context_) ∧
      (∀ q qo, oo.parent_ = some q → w.get q = some qo → parent ≠ some q →
        ∃ q1, World.get w1 q = some q1 ∧
          q1.children_ = THash_remove_element qo.children_ o ∧
          q1.children_vector_ = qo.children_vector_.erase o) ∧
      (∀ p po, parent = some p → w.get p = some po →
        ∃ p1 i ords lasts, World.get w1 p = some p1 ∧
          o1.name_ = next^[i] oo.name_ ∧
          p1.children_ = entries_set (THash_remove_element po.children_ o)
            (next^[i] oo.name_) o ∧
          (THash_remove_element po.children_ o).lookup (next^[i] oo.name_) = none ∧
          (if oo.parent_ = some p then (po.children_vector_.erase o).erase o
            else po.children_vector_.erase o) = ords ++ lasts ∧
          p1.children_vector_ = ords ++ o :: lasts) := by
  obtain ⟨-, l, -, -, hnodes, -⟩ := Object.subtree_head hsub
  have hoin : o ∈ nodes := by
    rw [hnodes]
    exact List.mem_cons_self _ _
  obtain ⟨wc, heq, c1, ⟨o3, ho3, hpar3, hch3, hname3⟩, c3, c4, c5⟩ :=
    Object.set_parent_registers next fuel ho
      (fun q hqq => ⟨fun e => (hq q hqq).1 (e ▸ hoin), (hq q hqq).2⟩)
      (fun p hpp => ⟨fun e => (hp p hpp).1 (e ▸ hoin), (hp p hpp).2⟩)
  have hsame : ∀ j ∈ nodes, j ≠ o → World.get wc j = w.get j := fun j hj hjo =>
    c1 j hjo (fun q hqq e => (hq q hqq).1 (e ▸ hj)) (fun p hpp e => (hp p hpp).1 (e ▸ hj))
  have hsubc : Object.subtree fuel wc o = some nodes :=
    Object.subtree_congr_root hsub hnd ho ho3 hch3 hsame
  have hrootsc : World.roots_alive wc := by
    refine World.roots_alive_congr hroots (fun j => ?_)
    have := congrArg (Option.map fun t : String × Option ObjectId × Option Nat => t.2.1) (c3 j)
    simpa [Option.map_map, Function.comp_def, Object.url_root] using this
  obtain ⟨w1, hmoved, hk, -, hframe, ⟨o30, ho30, hd1, hd2, hd3⟩, hfollow, hglobal⟩ :=
    Object.moved_spec fuel wc o nodes hsubc hnd hrootsc (by
      intro o4 parent4 ho4 hpar4
      rw [ho3] at ho4
      cases ho4
      rw [hpar3] at hpar4
      obtain ⟨hnot, po, -, hpo, -⟩ := hp parent4 hpar4
      obtain ⟨y, hy, -⟩ := World.alive_of_map c3 hpo
      exact ⟨hnot, y, hy⟩)
  rw [ho3] at ho30
  cases ho30
  obtain ⟨o1, ho1, hn1, hp1, hc1, -⟩ := World.same_shape hk ho3
  have hu3 : o3.url_root = oo.url_root := by
    have := c3 o
    rw [ho3, ho] at this
    simpa using this
  simp only [Object.url_root, Prod.mk.injEq] at hu3
  refine ⟨w1, o1, heq.trans hmoved, ho1, ?_, ?_, ?_, hp1.trans hpar3, hc1.trans hch3,
    ?_, ?_, ?_, hfollow, ?_, ?_, ?_⟩
  · rw [Object.subtree_congr hk]
    exact hsubc
  · intro j hj
    rw [hframe j hj]
    exact c3 j
  · intro j hjo hjq hjp
    rw [hk j, c1 j hjo hjq hjp]
  · intro p po hpp hpo
    obtain ⟨p2, hp2, hurl⟩ := hd1 p (hpar3.trans hpp)
    rw [ho1] at hurl
    simp only [Option.map_some', Option.some.injEq] at hurl
    rw [hurl, hn1]
    have := c3 p
    rw [hp2, hpo] at this
    simp only [Option.map_some', Option.some.injEq, Object.url_root, Prod.mk.injEq] at this
    rw [this.1, this.2.1, this.2.2]
  · intro hnone hroot
    have hurl := hd2 (hpar3.trans hnone) (hu3.2.1.trans hroot)
    rw [ho1] at hurl
    simp only [Option.map_some', Option.some.injEq] at hurl
    refine ⟨hn1.trans (hname3 hnone), ?_⟩
    rw [hurl, hu3.2.1, hu3.2.2, hroot]
  · intro hnone hroot
    have hurl := hd3 (hpar3.trans hnone) (fun e => hroot (hu3.2.1 ▸ e))
    rw [ho1] at hurl
    simp only [Option.map_some', Option.some.injEq] at hurl
    refine ⟨hn1.trans (hname3 hnone), ?_⟩
    rw [hurl, hu3.2.2, hname3 hnone]
  · intro m hm
    obtain ⟨om, os, hom, hos, h1, h2⟩ := hglobal m hm
    rw [ho1] at hos
    cases hos
    exact ⟨om, hom, h1, h2⟩
  · intro q qo hqq hqo hne
    have hq3 := c4 q qo hqq hqo hne
    obtain ⟨q1, hq1, -, -, hqc, hqv⟩ := World.same_shape hk hq3
    exact ⟨q1, hq1, hqc, hqv⟩
  · intro p po hpp hpo
    obtain ⟨p3, o4, i, ords, lasts, hp3, ho4, hn4, hc4, hfree, hsplit, hv4⟩ := c5 p po hpp hpo
    rw [ho3] at ho4
    cases ho4
    obtain ⟨p1, hp1w, -, -, hpc, hpv⟩ := World.same_shape hk hp3
    exact ⟨p1, i, ords, lasts, hp1w, hn1.trans hn4, hpc.trans hc4, hfree, hsplit,
      hpv.trans hv4⟩

/-! ## Names of siblings -/

theorem World.mem_of_get {w : World} {j : ObjectId} {x : Object} (hx : w.get j = some x) :
    some x ∈ w := by
  unfold World.get at hx
  cases hj : w[j]? with
  | none => simp [hj] at hx
  | some slot =>
    rw [hj] at hx
    have hs : slot = some x := by simpa [Option.join] using hx
    rw [hs] at hj
    exact List.getElem?_mem hj

theorem World.get_of_mem {w : World} {x : Object} (hx : some x ∈ w) :
    ∃ j, w.get j = some x := by
  obtain ⟨j, hj⟩ := List.mem_iff_getElem?.mp hx
  exact ⟨j, by simp [World.get, hj]⟩

/-- The check `names_ok`, spelled out. -/
theorem World.names_ok_iff (w : World) :
    w.names_ok = true ↔ ∀ p po, w.get p = some po →
      (THash_keys po.children_).Nodup ∧
      ∀ e ∈ po.children_, ∃ c, w.get e.2 = some c ∧ c.name_ = e.1 := by
  unfold World.names_ok
  rw [List.all_eq_true]
  constructor
  · intro h p po hp
    have h1 := h (some po) (World.mem_of_get hp)
    simp only [Bool.and_eq_true, decide_eq_true_eq, List.all_eq_true] at h1
    refine ⟨h1.1, fun e he => ?_⟩
    have h2 := h1.2 e he
    cases hc : w.get e.2 with
    | none => simp [hc] at h2
    | some c =>
      simp only [hc, beq_iff_eq] at h2
      exact ⟨c, rfl, h2⟩
  · intro h slot hslot
    cases slot with
    | none => rfl
    | some po =>
      obtain ⟨p, hp⟩ := World.get_of_mem hslot
      obtain ⟨h1, h2⟩ := h p po hp
      simp only [Bool.and_eq_true, decide_eq_true_eq, List.all_eq_true]
      refine ⟨h1, fun e he => ?_⟩
      obtain ⟨c, hc, hn⟩ := h2 e he
      simp only [hc, beq_iff_eq]
      exact hn

/-- The check `names_ok` holds in a store with the same names and with tables that are parts
of the previous tables. -/
theorem World.names_ok_of_sublist {w w1 : World} (hok : w.names_ok = true)
    (hn : ∀ j, (World.get w1 j).map Object.name_ = (w.get j).map Object.name_)
    (hc : ∀ j po1, World.get w1 j = some po1 →
      ∃ po, w.get j = some po ∧ List.Sublist po1.children_ po.children_) :
    World.names_ok w1 = true := by
  rw [World.names_ok_iff] at hok ⊢
  intro p po1 hp1
  obtain ⟨po, hpo, hsub⟩ := hc p po1 hp1
  obtain ⟨h1, h2⟩ := hok p po hpo
  refine ⟨h1.sublist (hsub.map Prod.fst), fun e he => ?_⟩
  obtain ⟨c, hcw, hcn⟩ := h2 e (hsub.subset he)
  obtain ⟨c1, hc1, hcn1⟩ := World.alive_of_map hn hcw
  exact ⟨c1, hc1, hcn1.trans hcn⟩

theorem Object.unregister_child_names_ok {w w1 : World} {self object : ObjectId}
    (hok : w.names_ok = true) (h : Object.unregister_child w self object = some w1) :
    World.names_ok w1 = true := by
  obtain ⟨p, hp, hg⟩ := Object.unregister_child_some h
  refine World.names_ok_of_sublist hok (fun j => ?_) (fun j po1 hj => ?_)
  · rw [hg j]
    by_cases e : j = self
    · rw [if_pos e, e, hp]
      rfl
    · rw [if_neg e]
  · rw [hg j] at hj
    by_cases e : j = self
    · rw [if_pos e] at hj
      cases hj
      exact ⟨p, e ▸ hp, List.filter_sublist _⟩
    · rw [if_neg e] at hj
      exact ⟨po1, hj, List.Sublist.refl _⟩

theorem Object.register_child_names_ok {next : String → String} {fuel : Nat} {w w1 : World}
    {self object : ObjectId} (hok : w.names_ok = true)
    (hother : ∀ r ro, r ≠ self → w.get r = some ro → ∀ e ∈ ro.children_, e.2 ≠ object)
    (h : Object.register_child next fuel w self object = some w1) :
    World.names_ok w1 = true := by
  obtain ⟨p, o, k, vector, hp, ho, -, -, hfree, -, hg⟩ := Object.register_child_some h
  rw [World.names_ok_iff] at hok ⊢
  have hname : ∀ c oc, w.get c = some oc →
      ∃ oc1, World.get w1 c = some oc1 ∧
        oc1.name_ = if c = object then next^[k] o.name_ else oc.name_ := by
    intro c oc hc
    rw [hg c, hc]
    simp only [Option.map_some']
    refine ⟨_, rfl, ?_⟩
    split_ifs <;> rfl
  intro j pj1 hj1
  rw [hg j] at hj1
  cases hj : w.get j with
  | none => simp [hj] at hj1
  | some pj =>
    rw [hj] at hj1
    simp only [Option.map_some', Option.some.injEq] at hj1
    by_cases e : j = self
    · subst e
      rw [hp] at hj
      cases hj
      rw [if_pos rfl] at hj1
      have hch : pj1.children_ = THash_remove_element p.children_ object
          ++ [(next^[k] o.name_, object)] := by
        rw [← hj1, ← entries_set_of_free _ _ _ hfree]
      obtain ⟨h1, h2⟩ := hok j p hp
      have hsub : List.Sublist (THash_remove_element p.children_ object) p.children_ :=
        List.filter_sublist _
      rw [hch]
      constructor
      · unfold THash_keys
        rw [List.map_append, List.nodup_append]
        refine ⟨h1.sublist (hsub.map Prod.fst), List.nodup_singleton _, ?_⟩
        intro key hkey hkey2
        rw [List.map_cons, List.map_nil, List.mem_singleton] at hkey2
        have hkey3 : key = next^[k] o.name_ := hkey2
        exact lookup_none_iff_not_key.mp hfree (hkey3 ▸ hkey)
      · intro e he
        rcases List.mem_append.mp he with he | he
        · obtain ⟨hin, hne⟩ := mem_remove_element.mp he
          obtain ⟨c, hc, hcn⟩ := h2 e hin
          obtain ⟨c1, hc1, hcn1⟩ := hname e.2 c hc
          rw [if_neg hne] at hcn1
          exact ⟨c1, hc1, hcn1.trans hcn⟩
        · rw [List.mem_singleton] at he
          subst he
          obtain ⟨o1, ho1, hon1⟩ := hname object o ho
          rw [if_pos rfl] at hon1
          exact ⟨o1, ho1, hon1⟩
    · rw [if_neg e] at hj1
      have hch : pj1.children_ = pj.children_ := by
        rw [← hj1]
        split_ifs <;> rfl
      obtain ⟨h1, h2⟩ := hok j pj hj
      rw [hch]
      refine ⟨h1, fun e1 he1 => ?_⟩
      obtain ⟨c, hc, hcn⟩ := h2 e1 he1
      obtain ⟨c1, hc1, hcn1⟩ := hname e1.2 c hc
      rw [if_neg (hother j pj e hj e1 he1)] at hcn1
      exact ⟨c1, hc1, hcn1.trans hcn⟩

/-- The statements of `set_parent`, one after the other. -/
theorem Object.set_parent_some {next : String → String} {fuel : Nat} {w w1 : World}
    {o : ObjectId} {parent : Option ObjectId}
    (h : Object.set_parent next fuel w o parent = some w1) :
    ∃ oo wa wb wc, w.get o = some oo ∧
      ((oo.parent_ = none ∧ wa = w) ∨
        ∃ q, oo.parent_ = some q ∧ Object.unregister_child w q o = some wa) ∧
      World.update wa o (fun x => { x with parent_ := parent }) = some wb ∧
      ((parent = none ∧ wc = wb) ∨
        ∃ p, parent = some p ∧ Object.register_child next fuel wb p o = some wc) ∧
      Object.moved fuel wc o = some w1 := by
  unfold Object.set_parent at h
  cases ho : w.get o with
  | none => simp [ho] at h
  | some oo =>
    simp only [ho] at h
    have step : ∀ wa, ((oo.parent_ = none ∧ wa = w) ∨
          ∃ q, oo.parent_ = some q ∧ Object.unregister_child w q o = some wa) →
        (match World.update wa o fun x => { x with parent_ := parent } with
          | none => none
          | some w2 =>
            match (match parent with
              | some p => Object.register_child next fuel w2 p o
              | none => some w2) with
            | none => none
            | some w3 => Object.moved fuel w3 o) = some w1 →
        ∃ wb wc, World.update wa o (fun x => { x with parent_ := parent }) = some wb ∧
          ((parent = none ∧ wc = wb) ∨
            ∃ p, parent = some p ∧ Object.register_child next fuel wb p o = some wc) ∧
          Object.moved fuel wc o = some w1 := by
      intro wa _ h2
      cases hb : World.update wa o fun x => { x with parent_ := parent } with
      | none => simp [hb] at h2
      | some wb =>
        simp only [hb] at h2
        cases parent with
        | none => exact ⟨wb, wb, rfl, Or.inl ⟨rfl, rfl⟩, h2⟩
        | some p =>
          simp only at h2
          cases hr : Object.register_child next fuel wb p o with
          | none => simp [hr] at h2
          | some wc =>
            simp only [hr] at h2
            exact ⟨wb, wc, rfl, Or.inr ⟨p, rfl, hr⟩, h2⟩
    cases hcase : oo.parent_ with
    | none =>
      simp only [hcase] at h
      obtain ⟨wb, wc, h1, h2, h3⟩ := step w (Or.inl ⟨hcase, rfl⟩) h
      exact ⟨oo, w, wb, wc, rfl, Or.inl ⟨hcase, rfl⟩, h1, h2, h3⟩
    | some q =>
      simp only [hcase] at h
      cases hu : Object.unregister_child w q o with
      | none => simp [hu] at h
      | some wa =>
        simp only [hu] at h
        obtain ⟨wb, wc, h1, h2, h3⟩ := step wa (Or.inr ⟨q, hcase, hu⟩) h
        exact ⟨oo, wa, wb, wc, rfl, Or.inr ⟨q, hcase, hu⟩, h1, h2, h3⟩

theorem Object.set_parent_names_ok {next : String → String} {fuel : Nat} {w w1 : World}
    {o : ObjectId} {oo : Object} {parent : Option ObjectId} (hok : w.names_ok = true)
    (ho : w.get o = some oo)
    (hother : ∀ r ro, oo.parent_ ≠ some r → parent ≠ some r → w.get r = some ro →
      ∀ e ∈ ro.children_, e.2 ≠ o)
    (h : Object.set_parent next fuel w o parent = some w1) :
    World.names_ok w1 = true := by
  obtain ⟨oo0, wa, wb, wc, ho0, ha, hb, hc, hm⟩ := Object.set_parent_some h
  rw [ho] at ho0
  cases ho0
  -- the object has left its previous parent
  have hoka : World.names_ok wa = true := by
    rcases ha with ⟨-, e⟩ | ⟨q, -, hu⟩
    · rw [e]
      exact hok
    · exact Object.unregister_child_names_ok hok hu
  have hothera : ∀ r ro, parent ≠ some r → World.get wa r = some ro →
      ∀ e ∈ ro.children_, e.2 ≠ o := by
    intro r ro hne hr e he
    rcases ha with ⟨hnone, e1⟩ | ⟨q, hq, hu⟩
    · subst e1
      exact hother r ro (by rw [hnone]; exact fun x => by cases x) hne hr e he
    · obtain ⟨qo, hqo, hg⟩ := Object.unregister_child_some hu
      rw [hg r] at hr
      by_cases e1 : r = q
      · rw [if_pos e1] at hr
        cases hr
        exact (mem_remove_element.mp he).2
      · rw [if_neg e1] at hr
        exact hother r ro (by rw [hq]; exact fun x => e1 (Option.some.inj x).symm) hne hr e he
  -- `parent_` is written
  have hnb := World.update_map Object.name_ hb (fun _ => rfl)
  have hcb := World.update_map Object.children_ hb (fun _ => rfl)
  have hokb : World.names_ok wb = true := by
    refine World.names_ok_of_sublist hoka hnb (fun j po1 hj => ?_)
    have := hcb j
    rw [hj] at this
    cases hja : World.get wa j with
    | none => simp [hja] at this
    | some pa =>
      rw [hja] at this
      simp only [Option.map_some', Option.some.injEq] at this
      exact ⟨pa, rfl, by rw [this]⟩
  have hotherb : ∀ r ro, parent ≠ some r → World.get wb r = some ro →
      ∀ e ∈ ro.children_, e.2 ≠ o := by
    intro r ro hne hr e he
    have := hcb r
    rw [hr] at this
    cases hja : World.get wa r with
    | none => simp [hja] at this
    | some pa =>
      rw [hja] at this
      simp only [Option.map_some', Option.some.injEq] at this
      exact hothera r pa hne hja e (by rw [← this]; exact he)
  -- the object is registered with the new parent
  have hokc : World.names_ok wc = true := by
    rcases hc with ⟨-, e⟩ | ⟨p, hp, hr⟩
    · rw [e]
      exact hokb
    · exact Object.register_child_names_ok hokb
        (fun r ro hne hr1 => hotherb r ro (by rw [hp]; exact fun x => hne (Option.some.inj x).symm)
          hr1) hr
  -- `moved` writes neither names nor tables
  have hk := Object.moved_without_url fuel hm
  refine World.names_ok_of_sublist hokc (fun j => ?_) (fun j po1 hj => ?_)
  · have := congrArg (Option.map Object.name_) (hk j)
    simpa [Option.map_map, Function.comp_def, Object.without_url] using this
  · have := congrArg (Option.map Object.children_) (hk j)
    rw [hj] at this
    cases hjc : World.get wc j with
    | none => simp [hjc] at this
    | some pc =>
      rw [hjc] at this
      simp only [Option.map_map, Option.map_some', Option.some.injEq, Function.comp_def,
        Object.without_url] at this
      exact ⟨pc, rfl, by rw [this]⟩

/-- C21: let the parent `self`, the object and the children of the vector be alive, and let
`find_next_name` reach within the fuel a name that the table of `self`, without `object`,
does not hold.  Then `register_child` returns; `object` is in the table of `self` under its
name, which is the first free name among `name_`, `next name_`, ...; and every other object
that was in the table is still there under the same key, its name unchanged and different from
the name of `object`. -/
theorem register_child_loses_no_child (next : String → String) (fuel k : Nat) (w : World)
    (self object : ObjectId) (p o : Object)
    (hp : w.get self = some p) (ho : w.get object = some o)
    (hv : ∀ c ∈ p.children_vector_, (w.get c).isSome = true) (hk : k < fuel)
    (hfree : (THash_remove_element p.children_ object).lookup (next^[k] o.name_) = none) :
    ∃ w1 p1 o1 i, Object.register_child next fuel w self object = some w1 ∧
      World.get w1 self = some p1 ∧ World.get w1 object = some o1 ∧
      i ≤ k ∧ o1.name_ = next^[i] o.name_ ∧
      (∀ n, n < i →
        (THash_remove_element p.children_ object).lookup (next^[n] o.name_) ≠ none) ∧
      p1.children_.lookup o1.name_ = some object ∧
      ∀ key c, c ≠ object → p.children_.lookup key = some c →
        p1.children_.lookup key = some c ∧ key ≠ o1.name_ ∧
        (World.get w1 c).map Object.name_ = (w.get c).map Object.name_ := by
  obtain ⟨w1, h⟩ := Object.register_child_total hp ho hk hfree
    (fun c hc => Option.isSome_iff_exists.mp (hv c hc))
  obtain ⟨i, vector, p1, o1, -, hbusy, hfree1, -, hp1, ho1, hc1, -, hn1, hnames, -, -⟩ :=
    Object.register_child_fields h hp ho
  have hik : i ≤ k := by
    by_contra hlt
    exact hbusy k (Nat.lt_of_not_le hlt) hfree
  refine ⟨w1, p1, o1, i, h, hp1, ho1, hik, hn1, hbusy, ?_, ?_⟩
  · rw [hc1, hn1]
    exact lookup_entries_set_self _ _ _
  · intro key c hc hl
    have hrem := lookup_remove_element hl hc
    have hne : key ≠ o1.name_ := by
      intro e
      rw [e, hn1, hfree1] at hrem
      cases hrem
    refine ⟨?_, hne, hnames c hc⟩
    rw [hc1, lookup_entries_set_ne _ _ _ _ (by rw [← hn1]; exact hne)]
    exact hrem

/-- C21, on two objects named "osc": after the first one is registered, registering the
second one leaves it in the table under another name, and the first one under "osc". -/
theorem register_child_loses_no_child_witness :
    Object.register_child (fun s => s ++ "1") 2
        [some (Object.new "parent"), some (Object.new "osc"), some (Object.new "osc")] 0 1
      = some [some { Object.new "parent" with
                      children_ := [("osc", 1)], children_vector_ := [1] },
              some (Object.new "osc"), some (Object.new "osc")] ∧
    ∃ w1 p1 o1, Object.register_child (fun s => s ++ "1") 2
        [some { Object.new "parent" with children_ := [("osc", 1)], children_vector_ := [1] },
         some (Object.new "osc"), some (Object.new "osc")] 0 2 = some w1 ∧
      World.get w1 0 = some p1 ∧ World.get w1 2 = some o1 ∧
      p1.children_.lookup o1.name_ = some 2 ∧
      p1.children_.lookup "osc" = some 1 ∧ "osc" ≠ o1.name_ := by
  refine ⟨by decide, ?_⟩
  obtain ⟨w1, p1, o1, i, h, hp1, ho1, -, -, -, hl, hrest⟩ :=
    register_child_loses_no_child (fun s => s ++ "1") 2 1
      [some { Object.new "parent" with children_ := [("osc", 1)], children_vector_ := [1] },
       some (Object.new "osc"), some (Object.new "osc")] 0 2 _ _ rfl rfl
      (by decide) (by decide) (by decide)
  obtain ⟨h1, h2, -⟩ := hrest "osc" 1 (by decide) (by decide)
  exact ⟨w1, p1, o1, h, hp1, ho1, hl, h1, h2⟩

/-- C22 (as stated, refuted): "y1" and "y" are registered with the first parent, another "y" with
the second; registering the "y" of the first parent with the second one as well renames it
to "y1".  The first parent then holds it under the key "y", and holds two children named
"y1". -/
theorem register_child_elsewhere_breaks_names :
    ((Object.register_child (fun s => s ++ "1") 2
        [some (Object.new "p"), some (Object.new "q"), some (Object.new "y1"),
         some (Object.new "y"), some (Object.new "y")] 0 2).bind
      fun wa => (Object.register_child (fun s => s ++ "1") 2 wa 0 3).bind
      fun wb => (Object.register_child (fun s => s ++ "1") 2 wb 1 4).bind
      fun wc => (Object.register_child (fun s => s ++ "1") 2 wc 1 3).bind
      fun w => some ((World.get w 0).map Object.children_, (World.get w 2).map Object.name_,
        (World.get w 3).map Object.name_, World.names_ok w))
      = some (some [("y1", 2), ("y", 3)], some "y1", some "y1", false) := by
  decide

/-- C22 (amended): in a store where `names_ok` holds, every child is in the table under its
name and two distinct children of a node have distinct names; the check still holds after
`unregister_child`, after `register_child` of an object that is in the table of no other
node, and after `set_parent` of an object that is in the table of no node other than its
previous and its new parent. -/
theorem sibling_names_stay_unique (next : String → String) (fuel : Nat) (w w1 : World)
    (hok : w.names_ok = true) :
    (∀ p po kc c kd d cc dd, w.get p = some po → (kc, c) ∈ po.children_ →
      (kd, d) ∈ po.children_ → w.get c = some cc → w.get d = some dd →
      cc.name_ = kc ∧ po.children_.lookup cc.name_ = some c ∧ (c ≠ d → cc.name_ ≠ dd.name_)) ∧
    (∀ self object, Object.unregister_child w self object = some w1 →
      World.names_ok w1 = true) ∧
    (∀ self object,
      (∀ r ro, r ≠ self → w.get r = some ro → ∀ e ∈ ro.children_, e.2 ≠ object) →
      Object.register_child next fuel w self object = some w1 → World.names_ok w1 = true) ∧
    (∀ o oo parent, w.get o = some oo →
      (∀ r ro, oo.parent_ ≠ some r → parent ≠ some r → w.get r = some ro →
        ∀ e ∈ ro.children_, e.2 ≠ o) →
      Object.set_parent next fuel w o parent = some w1 → World.names_ok w1 = true) := by
  refine ⟨?_, fun self object h => Object.unregister_child_names_ok hok h,
    fun self object hother h => Object.register_child_names_ok hok hother h,
    fun o oo parent ho hother h => Object.set_parent_names_ok hok ho hother h⟩
  intro p po kc c kd d cc dd hp hc hd hcc hdd
  obtain ⟨h1, h2⟩ := (World.names_ok_iff w).mp hok p po hp
  obtain ⟨c1, hc1, hcn⟩ := h2 (kc, c) hc
  obtain ⟨d1, hd1, hdn⟩ := h2 (kd, d) hd
  rw [hcc] at hc1
  cases hc1
  rw [hdd] at hd1
  cases hd1
  have hlc := lookup_of_nodup_keys h1 hc
  have hld := lookup_of_nodup_keys h1 hd
  simp only at hcn hdn
  refine ⟨hcn, by rw [hcn]; exact hlc, fun hne heq => hne ?_⟩
  rw [← hcn, heq, hdn, hld] at hlc
  exact (Option.some.inj hlc).symm

/-- C22 (amended), on two parents that each have a child "osc": the check holds before and
after the child of the second parent is given the first parent. -/
theorem sibling_names_stay_unique_witness :
    World.names_ok
      [some { Object.new "p" with children_ := [("osc", 1)], children_vector_ := [1] },
       some { Object.new "osc" with url_ := "p/osc", parent_ := some 0 },
       some { Object.new "q" with children_ := [("osc", 3)], children_vector_ := [3] },
       some { Object.new "osc" with url_ := "q/osc", parent_ := some 2 }] = true ∧
    (Object.set_parent (fun s => s ++ "1") 2
      [some { Object.new "p" with children_ := [("osc", 1)], children_vector_ := [1] },
       some { Object.new "osc" with url_ := "p/osc", parent_ := some 0 },
       some { Object.new "q" with children_ := [("osc", 3)], children_vector_ := [3] },
       some { Object.new "osc" with url_ := "q/osc", parent_ := some 2 }] 3 (some 0)).map
      (fun w1 => (World.names_ok w1, (World.get w1 0).map Object.children_))
      = some (true, some [("osc", 1), ("osc1", 3)]) := by
  refine ⟨by decide, ?_⟩
  cases h : Object.set_parent (fun s => s ++ "1") 2
      [some { Object.new "p" with children_ := [("osc", 1)], children_vector_ := [1] },
       some { Object.new "osc" with url_ := "p/osc", parent_ := some 0 },
       some { Object.new "q" with children_ := [("osc", 3)], children_vector_ := [3] },
       some { Object.new "osc" with url_ := "q/osc", parent_ := some 2 }] 3 (some 0) with
  | none => exact absurd h (by decide)
  | some w1 =>
    have hok := (sibling_names_stay_unique (fun s => s ++ "1") 2
      [some { Object.new "p" with children_ := [("osc", 1)], children_vector_ := [1] },
       some { Object.new "osc" with url_ := "p/osc", parent_ := some 0 },
       some { Object.new "q" with children_ := [("osc", 3)], children_vector_ := [3] },
       some { Object.new "osc" with url_ := "q/osc", parent_ := some 2 }] w1
      (by decide)).2.2.2 3 _ (some 0) rfl
      (fun r ro h1 h2 hr e he => by
        match r, hr with
        | 0, _ => exact absurd rfl h2
        | 1, hr =>
          cases hr
          cases he
        | 2, _ => exact absurd rfl h1
        | 3, hr =>
          cases hr
          cases he
        | n + 4, hr => cases hr) h
    have hch : (World.get w1 0).map Object.children_ = some [("osc", 1), ("osc1", 3)] := by
      have hdec : (Object.set_parent (fun s => s ++ "1") 2
        [some { Object.new "p" with children_ := [("osc", 1)], children_vector_ := [1] },
         some { Object.new "osc" with url_ := "p/osc", parent_ := some 0 },
         some { Object.new "q" with children_ := [("osc", 3)], children_vector_ := [3] },
         some { Object.new "osc" with url_ := "q/osc", parent_ := some 2 }] 3 (some 0)).bind
          (fun w1 => (World.get w1 0).map Object.children_)
          = some [("osc", 1), ("osc1", 3)] := by decide
      rw [h] at hdec
      exact hdec
    simp only [Option.map_some', hok, hch]

theorem Object.keep_last_rule_congr {w w1 : World}
    (h : ∀ j, (World.get w1 j).map Object.keep_last_ = (w.get j).map Object.keep_last_)
    {vector : List ObjectId} (hr : Object.keep_last_rule w vector) :
    Object.keep_last_rule w1 vector := by
  unfold Object.keep_last_rule at hr ⊢
  refine hr.imp ?_
  intro c d hcd
  rw [Object.keeps_last_congr h c, Object.keeps_last_congr h d]
  exact hcd

theorem Object.unregister_child_keep_last {w w1 : World} {self object : ObjectId}
    (h : Object.unregister_child w self object = some w1) :
    ∀ j, (World.get w1 j).map Object.keep_last_ = (w.get j).map Object.keep_last_ := by
  obtain ⟨p, hp, hg⟩ := Object.unregister_child_some h
  intro j
  rw [hg j]
  by_cases e : j = self
  · rw [if_pos e, e, hp]
    rfl
  · rw [if_neg e]

/-- C23: in every state reached from a node with an empty vector by calls of `register_child`
and `unregister_child` on that node, no child with `keep_last_` precedes in
`children_vector_` a child without it. -/
theorem keep_last_children_stay_last (next : String → String) (fuel : Nat) (self : ObjectId)
    (ops : List ChildOp) (w w1 : World) (p : Object) (hp : w.get self = some p)
    (h0 : p.children_vector_ = [])
    (hrun : Object.run_child_ops next fuel self w ops = some w1) :
    ∃ p1, World.get w1 self = some p1 ∧ Object.keep_last_rule w1 p1.children_vector_ := by
  have step : ∀ (ops : List ChildOp) (w w1 : World),
      (∃ p, w.get self = some p ∧ Object.keep_last_rule w p.children_vector_) →
      Object.run_child_ops next fuel self w ops = some w1 →
      ∃ p1, World.get w1 self = some p1 ∧ Object.keep_last_rule w1 p1.children_vector_ := by
    intro ops
    induction ops with
    | nil =>
      intro w w1 hi hrun
      simp only [Object.run_child_ops, Option.some.injEq] at hrun
      rw [← hrun]
      exact hi
    | cons op rest ih =>
      intro w w1 hi hrun
      obtain ⟨p, hp, hrule⟩ := hi
      cases op with
      | register_child object =>
        unfold Object.run_child_ops at hrun
        cases hr : Object.register_child next fuel w self object with
        | none => simp [hr] at hrun
        | some wa =>
          simp only [hr] at hrun
          refine ih wa w1 ?_ hrun
          obtain ⟨p0, o, -, -, hp0, ho, -⟩ := Object.register_child_some hr
          obtain ⟨i, vector, p1, o1, -, -, -, hd, hp1, -, -, hv1, -, -, -, hrest⟩ :=
            Object.register_child_fields hr hp ho
          refine ⟨p1, hp1, ?_⟩
          rw [hv1]
          refine Object.keep_last_rule_congr
            (Object.keep_last_of_without_children hrest) ?_
          exact Object.keep_last_rule_insert ho hd
            (List.Pairwise.sublist (List.erase_sublist object _) hrule)
      | unregister_child object =>
        unfold Object.run_child_ops at hrun
        cases hr : Object.unregister_child w self object with
        | none => simp [hr] at hrun
        | some wa =>
          simp only [hr] at hrun
          refine ih wa w1 ?_ hrun
          obtain ⟨p0, hp0, hg⟩ := Object.unregister_child_some hr
          rw [hp] at hp0
          cases hp0
          refine ⟨_, by rw [hg self, if_pos rfl], ?_⟩
          refine Object.keep_last_rule_congr
            (Object.unregister_child_keep_last hr) ?_
          exact List.Pairwise.sublist (List.erase_sublist object _) hrule
  refine step ops w w1 ⟨p, hp, ?_⟩ hrun
  rw [h0]
  exact List.Pairwise.nil

/-- C23, on a node that gets a `keep_last_` child first and then two ordinary children, one of
which is removed and registered again. -/
theorem keep_last_children_stay_last_witness :
    ∃ w1 p1, Object.run_child_ops (fun s => s ++ "1") 2 0
        [some (Object.new "parent"), some { Object.new "err" with keep_last_ := true },
         some (Object.new "a"), some (Object.new "b")]
        [ChildOp.register_child 1, ChildOp.register_child 2, ChildOp.register_child 3,
         ChildOp.unregister_child 2, ChildOp.register_child 2] = some w1 ∧
      World.get w1 0 = some p1 ∧ p1.children_vector_ = [3, 2, 1] ∧
      Object.keep_last_rule w1 p1.children_vector_ := by
  have hrun : Object.run_child_ops (fun s => s ++ "1") 2 0
      [some (Object.new "parent"), some { Object.new "err" with keep_last_ := true },
       some (Object.new "a"), some (Object.new "b")]
      [ChildOp.register_child 1, ChildOp.register_child 2, ChildOp.register_child 3,
       ChildOp.unregister_child 2, ChildOp.register_child 2]
      = some [some { Object.new "parent" with
                      children_ := [("err", 1), ("b", 3), ("a", 2)],
                      children_vector_ := [3, 2, 1] },
              some { Object.new "err" with keep_last_ := true },
              some (Object.new "a"), some (Object.new "b")] := by decide
  obtain ⟨p1, hp1, hrule⟩ := keep_last_children_stay_last (fun s => s ++ "1") 2 0
    [ChildOp.register_child 1, ChildOp.register_child 2, ChildOp.register_child 3,
     ChildOp.unregister_child 2, ChildOp.register_child 2]
    [some (Object.new "parent"), some { Object.new "err" with keep_last_ := true },
     some (Object.new "a"), some (Object.new "b")] _
    (Object.new "parent") rfl rfl hrun
  refine ⟨_, p1, hrun, hp1, ?_, hrule⟩
  have h2 : p1 = { Object.new "parent" with
      children_ := [("err", 1), ("b", 3), ("a", 2)], children_vector_ := [3, 2, 1] } := by
    have h3 : World.get [some { Object.new "parent" with
                      children_ := [("err", 1), ("b", 3), ("a", 2)],
                      children_vector_ := [3, 2, 1] },
              some { Object.new "err" with keep_last_ := true },
              some (Object.new "a"), some (Object.new "b")] 0 = some _ := rfl
    rw [h3] at hp1
    cases hp1
    rfl
  rw [h2]

/-- C24: let the vector of `self` obey the ordering rule and not hold `object`.  Then
`register_child` keeps the previous children in their order; an `object` with `keep_last_`
comes last, and an `object` without it comes after all the children without `keep_last_` and
before all the children with it. -/
theorem register_child_keeps_insertion_order (next : String → String) (fuel k : Nat)
    (w : World) (self object : ObjectId) (p o : Object)
    (hp : w.get self = some p) (ho : w.get object = some o)
    (hv : ∀ c ∈ p.children_vector_, (w.get c).isSome = true) (hk : k < fuel)
    (hfree : (THash_remove_element p.children_ object).lookup (next^[k] o.name_) = none)
    (hnew : object ∉ p.children_vector_)
    (hrule : Object.keep_last_rule w p.children_vector_) :
    ∃ w1 p1, Object.register_child next fuel w self object = some w1 ∧
      World.get w1 self = some p1 ∧
      (o.keep_last_ = true → p1.children_vector_ = p.children_vector_ ++ [object]) ∧
      (o.keep_last_ = false → ∃ ords lasts, p.children_vector_ = ords ++ lasts ∧
        p1.children_vector_ = ords ++ object :: lasts ∧
        (∀ c ∈ ords, Object.keeps_last w c = false) ∧
        (∀ c ∈ lasts, Object.keeps_last w c = true)) := by
  obtain ⟨w1, h⟩ := Object.register_child_total hp ho hk hfree
    (fun c hc => Option.isSome_iff_exists.mp (hv c hc))
  obtain ⟨i, vector, p1, o1, -, -, -, hd, hp1, -, -, hv1, -, -, -, -⟩ :=
    Object.register_child_fields h hp ho
  rw [List.erase_of_not_mem hnew] at hd
  obtain ⟨ords, lasts, h0, h1, hlast, hord⟩ := Object.register_vector_split ho hd
  refine ⟨w1, p1, h, hp1, ?_, ?_⟩
  · intro hkl
    rw [hv1, h1, h0, hlast hkl]
    simp
  · intro hkl
    obtain ⟨ha, hb⟩ := hord hkl hrule
    exact ⟨ords, lasts, h0, by rw [hv1, h1], ha, hb⟩

/-- C24, on a node with the children a, b (ordinary) and err (`keep_last_`): a new ordinary
child comes between b and err. -/
theorem register_child_keeps_insertion_order_witness :
    ∃ w1 p1, Object.register_child (fun s => s ++ "1") 1
        [some { Object.new "parent" with
                  children_ := [("err", 1), ("a", 2), ("b", 3)],
                  children_vector_ := [2, 3, 1] },
         some { Object.new "err" with keep_last_ := true },
         some (Object.new "a"), some (Object.new "b"), some (Object.new "c")] 0 4 = some w1 ∧
      World.get w1 0 = some p1 ∧
      ∃ ords lasts, [2, 3, 1] = ords ++ lasts ∧ p1.children_vector_ = ords ++ 4 :: lasts ∧
        (∀ c ∈ ords, Object.keeps_last
          [some { Object.new "parent" with
                  children_ := [("err", 1), ("a", 2), ("b", 3)],
                  children_vector_ := [2, 3, 1] },
           some { Object.new "err" with keep_last_ := true },
           some (Object.new "a"), some (Object.new "b"), some (Object.new "c")] c = false) ∧
        (∀ c ∈ lasts, Object.keeps_last
          [some { Object.new "parent" with
                  children_ := [("err", 1), ("a", 2), ("b", 3)],
                  children_vector_ := [2, 3, 1] },
           some { Object.new "err" with keep_last_ := true },
           some (Object.new "a"), some (Object.new "b"), some (Object.new "c")] c = true) := by
  obtain ⟨w1, p1, h, hp1, -, hord⟩ := register_child_keeps_insertion_order
    (fun s => s ++ "1") 1 0
    [some { Object.new "parent" with
              children_ := [("err", 1), ("a", 2), ("b", 3)],
              children_vector_ := [2, 3, 1] },
     some { Object.new "err" with keep_last_ := true },
     some (Object.new "a"), some (Object.new "b"), some (Object.new "c")] 0 4 _ _ rfl rfl
    (by decide) (by decide) (by decide) (by decide)
    (by unfold Object.keep_last_rule; decide)
  exact ⟨w1, p1, h, hp1, hord rfl⟩

/-- C25: let the table and the vector of `self` hold the same objects, the vector without
duplicates.  Then the same is true after `unregister_child(object)`, which leaves `object`
in neither, and after `register_child(object)` (for an `object` that is alive and finds a free
name within the fuel), which leaves `object` in both. -/
theorem table_and_vector_agree (next : String → String) (fuel : Nat) (w : World)
    (self object : ObjectId) (p : Object) (hp : w.get self = some p)
    (hsub : ∀ c ∈ p.children_.map Prod.snd, c ∈ p.children_vector_)
    (hsup : ∀ c ∈ p.children_vector_, c ∈ p.children_.map Prod.snd)
    (hnd : p.children_vector_.Nodup) :
    (∃ w1 p1, Object.unregister_child w self object = some w1 ∧
      World.get w1 self = some p1 ∧
      (∀ c, c ∈ p1.children_.map Prod.snd ↔ c ∈ p1.children_vector_) ∧
      p1.children_vector_.Nodup ∧ object ∉ p1.children_vector_) ∧
    ∀ (o : Object) (k : Nat), w.get object = some o →
      (∀ c ∈ p.children_vector_, (w.get c).isSome = true) → k < fuel →
      (THash_remove_element p.children_ object).lookup (next^[k] o.name_) = none →
      ∃ w1 p1, Object.register_child next fuel w self object = some w1 ∧
        World.get w1 self = some p1 ∧
        (∀ c, c ∈ p1.children_.map Prod.snd ↔ c ∈ p1.children_vector_) ∧
        p1.children_vector_.Nodup ∧ object ∈ p1.children_vector_ := by
  have hremoved : ∀ c, c ∈ (THash_remove_element p.children_ object).map Prod.snd
      ↔ c ∈ p.children_vector_.erase object := by
    intro c
    rw [List.Nodup.mem_erase_iff hnd]
    constructor
    · intro hc
      obtain ⟨e, he, hec⟩ := List.mem_map.mp hc
      obtain ⟨he1, he2⟩ := mem_remove_element.mp he
      exact ⟨by rw [← hec]; exact he2, hsub c (List.mem_map.mpr ⟨e, he1, hec⟩)⟩
    · intro ⟨hne, hc⟩
      obtain ⟨e, he, hec⟩ := List.mem_map.mp (hsup c hc)
      exact List.mem_map.mpr ⟨e, mem_remove_element.mpr ⟨he, by rw [hec]; exact hne⟩, hec⟩
  have hnot : object ∉ p.children_vector_.erase object := by
    intro hc
    exact ((List.Nodup.mem_erase_iff hnd).mp hc).1 rfl
  constructor
  · obtain ⟨w1, h⟩ := Object.unregister_child_total object hp
    obtain ⟨p0, hp0, hg⟩ := Object.unregister_child_some h
    rw [hp] at hp0
    cases hp0
    exact ⟨w1, _, h, by rw [hg self, if_pos rfl], hremoved, hnd.sublist (List.erase_sublist _ _),
      hnot⟩
  · intro o k ho hv hk hfree
    obtain ⟨w1, h⟩ := Object.register_child_total hp ho hk hfree
      (fun c hc => Option.isSome_iff_exists.mp (hv c hc))
    obtain ⟨i, vector, p1, o1, -, -, hfree1, hd, hp1, -, hc1, hv1, -, -, -, -⟩ :=
      Object.register_child_fields h hp ho
    obtain ⟨ords, lasts, h0, h1, -, -⟩ := Object.register_vector_split ho hd
    have hmemv : ∀ c, c ∈ vector ↔ c = object ∨ c ∈ p.children_vector_.erase object := by
      intro c
      rw [h1, h0]
      simp only [List.mem_append, List.mem_cons]
      tauto
    refine ⟨w1, p1, h, hp1, ?_, ?_, ?_⟩
    · intro c
      rw [hv1, hmemv c, hc1, entries_set_of_free _ _ _ hfree1, ← hremoved c]
      simp only [List.map_append, List.map_cons, List.map_nil, List.mem_append,
        List.mem_singleton]
      tauto
    · rw [hv1, h1]
      have hnd0 : (ords ++ lasts).Nodup := by
        rw [← h0]
        exact hnd.sublist (List.erase_sublist _ _)
      rw [h0] at hnot
      have hperm : (ords ++ object :: lasts).Perm (object :: (ords ++ lasts)) :=
        List.perm_middle
      exact hperm.nodup_iff.mpr (List.nodup_cons.mpr ⟨hnot, hnd0⟩)
    · rw [hv1, hmemv object]
      exact Or.inl rfl

/-- C25, on a node with the children a and b, for the child a. -/
theorem table_and_vector_agree_witness :
    (∃ w1 p1, Object.unregister_child
        [some { Object.new "parent" with
                  children_ := [("a", 1), ("b", 2)], children_vector_ := [1, 2] },
         some (Object.new "a"), some (Object.new "b")] 0 1 = some w1 ∧
      World.get w1 0 = some p1 ∧
      (∀ c, c ∈ p1.children_.map Prod.snd ↔ c ∈ p1.children_vector_) ∧
      p1.children_vector_.Nodup ∧ 1 ∉ p1.children_vector_) ∧
    ∃ w1 p1, Object.register_child (fun s => s ++ "1") 1
        [some { Object.new "parent" with
                  children_ := [("a", 1), ("b", 2)], children_vector_ := [1, 2] },
         some (Object.new "a"), some (Object.new "b")] 0 1 = some w1 ∧
      World.get w1 0 = some p1 ∧
      (∀ c, c ∈ p1.children_.map Prod.snd ↔ c ∈ p1.children_vector_) ∧
      p1.children_vector_.Nodup ∧ 1 ∈ p1.children_vector_ :=
  have h := table_and_vector_agree (fun s => s ++ "1") 1
    [some { Object.new "parent" with
              children_ := [("a", 1), ("b", 2)], children_vector_ := [1, 2] },
     some (Object.new "a"), some (Object.new "b")] 0 1 _ rfl
    (by decide) (by decide) (by decide)
  ⟨h.1, h.2 (Object.new "a") 0 rfl (by decide) (by decide) (by decide)⟩

/-- C26 (failing input): after `clear()` on a node with one child the table `children_` is
empty and the child has been deleted, but `children_vector_` still holds the child and
`get_child(0, ...)` returns true with it. -/
theorem clear_leaves_children_vector :
    (Object.clear (fun s => s ++ "1") 3
        [some { Object.new "parent" with children_ := [("a", 1)], children_vector_ := [1] },
         some { Object.new "a" with parent_ := some 0, url_ := "parent/a" }] 0).map
      (fun w1 => ((World.get w1 0).map Object.children_,
        (World.get w1 0).map Object.children_vector_, (World.get w1 1).isSome,
        Object.get_child_at w1 0 0))
      = some (some [], some [1], false, some (some 1)) := by
  decide

/-- C30 (failing input): for every hash `H`, on a node whose meta-type is the List of one
Hash and whose `trigger` returns a Matrix, the tags "H" and "M" differ but the type ids are
both `H ""`, and `type_with_current_value()` returns a List, not an Error.  With the sample
Real 0 and a `trigger` that returns a String, and a hash that separates "f" and "s", the
result is the Error that names both tags. -/
theorem type_mismatch_hash_matrix_unreported (H : String → TypeTagID) :
    Value.type_tag 1 [some ⟨1, Obj.list [⟨HASH_VALUE, Slot.ptr (some 1)⟩]⟩, some ⟨1, Obj.hash []⟩]
      ⟨HASH_VALUE, Slot.ptr (some 1)⟩ = some "H" ∧
    Value.type_tag 1 [some ⟨1, Obj.matrix Matrix_default⟩] ⟨MATRIX_VALUE, Slot.ptr (some 0)⟩
      = some "M" ∧
    (Object.type_with_current_value H 2
        (fun h _ => some (⟨MATRIX_VALUE, Slot.ptr (some h.length)⟩,
          h ++ [some ⟨1, Obj.matrix Matrix_default⟩]))
        [some { Object.new "node" with type_ := ⟨LIST_VALUE, Slot.ptr (some 0)⟩ }]
        [some ⟨1, Obj.list [⟨HASH_VALUE, Slot.ptr (some 1)⟩]⟩, some ⟨1, Obj.hash []⟩] 0).map
      (fun r => (r.1.is_error, r.1.is_list, (r.1.at_pos r.2 0).map Value.is_matrix))
      = some (false, true, some true) ∧
    ((Object.type_with_current_value (fun s => (s.data.map Char.toNat).sum) 2
        (fun h _ => some (Value.of_string h "live"))
        [some { Object.new "node" with type_ := ⟨LIST_VALUE, Slot.ptr (some 0)⟩ }]
        [some ⟨1, Obj.list [Value.of_real 0]⟩] 0).bind
      fun r => (r.1.error_code r.2).bind fun c => (r.1.error_message r.2).map fun m =>
        (r.1.is_error, c, m))
      = some (true, INTERNAL_SERVER_ERROR,
          "Current value type not matching meta type (expected 'f' found 's').") := by
  refine ⟨rfl, rfl, ?_, by decide⟩
  simp [Object.type_with_current_value, World.get, Object.new, Value.copy, Value.assign,
    Value.share, Value.new, Value.ptr_, Value.set_type_without_default, Value.clear, acquire,
    Heap.cell, Heap.write, Value.is_string, Value.is_list, Value.at_pos, List_at,
    Value.is_any, Value.is_nil, gNilValue, Value.type_id, Value.set_value_at,
    List_set_value_at, Value.set_matrix_ptr, release, Heap.free, Heap.alloc, Value.is_error,
    Value.is_matrix]

/-- C27: let the object `o` be alive with the subtree `nodes`, in a store whose root
references are alive, and let its previous parent and the new parent `parent` be alive and
outside the subtree, the new parent with a free name for `o` within the fuel.  Then
`set_parent` returns, and in the store it leaves: the url of `o` is the url of the new parent
followed by "/" and the name of `o`; without a parent it is "" when `o` is its own root and
the bare name otherwise; every other object of the subtree has its parent in the subtree and
the url of that parent followed by "/" and its name; and the object reached from `o` through
the names of `path` has the url of `o` followed by "/" and a name for each step (from a root
without parent: "/n1/.../nN"). -/
theorem set_parent_recomputes_urls (next : String → String) (fuel k : Nat) (w : World)
    (o : ObjectId) (oo : Object) (parent : Option ObjectId) (nodes : List ObjectId)
    (ho : w.get o = some oo)
    (hsub : Object.subtree fuel w o = some nodes) (hnd : nodes.Nodup)
    (hroots : w.roots_ok = true)
    (hq : ∀ q, oo.parent_ = some q → q ∉ nodes ∧ (w.get q).isSome = true)
    (hk : k < fuel)
    (hp : ∀ p, parent = some p → p ∉ nodes ∧ ∃ po, w.get p = some po ∧
      (∀ c ∈ po.children_vector_, (w.get c).isSome = true) ∧
      (THash_remove_element po.children_ o).lookup (next^[k] oo.name_) = none) :
    ∃ w1 o1, Object.set_parent next fuel w o parent = some w1 ∧
      World.get w1 o = some o1 ∧ o1.parent_ = parent ∧
      (∀ p po, parent = some p → w.get p = some po →
        ∃ p1, World.get w1 p = some p1 ∧ p1.url_ = po.url_ ∧
          o1.url_ = p1.url_ ++ "/" ++ o1.name_) ∧
      (parent = none → oo.root_ = some o → o1.url_ = "") ∧
      (parent = none → oo.root_ ≠ some o → o1.url_ = o1.name_) ∧
      (∀ m ∈ nodes, m ≠ o → ∃ om par opar, World.get w1 m = some om ∧
        om.parent_ = some par ∧ par ∈ nodes ∧ World.get w1 par = some opar ∧
        om.url_ = opar.url_ ++ "/" ++ om.name_) ∧
      (∀ path m, Object.child_at_path w1 o path = some m →
        m ∈ nodes ∧ ∃ om, World.get w1 m = some om ∧
          om.url_ = path.foldl (fun url name => url ++ "/" ++ name) o1.url_) ∧
      (parent = none → oo.root_ = some o → ∀ path m,
        Object.child_at_path w1 o path = some m →
        ∃ om, World.get w1 m = some om ∧
          om.url_ = path.foldl (fun url name => url ++ "/" ++ name) "") := by
  obtain ⟨-, l, -, -, hnodes, -⟩ := Object.subtree_head hsub
  have hoin : o ∈ nodes := by
    rw [hnodes]
    exact List.mem_cons_self _ _
  obtain ⟨w1, o1, hset, ho1, hsub1, hframe, -, hpar1, -, hhead, hroot, hbare, hfollow, -, -, -⟩ :=
    Object.set_parent_spec next fuel parent ho hsub hnd
      (World.roots_alive_of_ok hroots)
      (fun q hqq => ⟨(hq q hqq).1, Option.isSome_iff_exists.mp (hq q hqq).2⟩)
      (fun p hpp => by
        obtain ⟨h1, po, h2, h3, h4⟩ := hp p hpp
        exact ⟨h1, po, k, h2, fun c hc => Option.isSome_iff_exists.mp (h3 c hc), hk, h4⟩)
  have hpath := Object.url_of_path hsub1 hnd hfollow
  refine ⟨w1, o1, hset, ho1, hpar1, ?_, ?_, ?_, ?_, ?_, ?_⟩
  · intro p po hpp hpo
    have h1 := hframe p (hp p hpp).1
    rw [hpo] at h1
    cases hp1 : World.get w1 p with
    | none => simp [hp1] at h1
    | some p1 =>
      rw [hp1] at h1
      simp only [Option.map_some', Option.some.injEq, Object.url_root, Prod.mk.injEq] at h1
      have h2 := hhead p po hpp hpo
      simp only [Object.url_root, Prod.mk.injEq] at h2
      exact ⟨p1, rfl, h1.1, by rw [h2.1, h1.1]⟩
  · intro hnone hr
    have h2 := (hroot hnone hr).2
    simp only [Object.url_root, Prod.mk.injEq] at h2
    exact h2.1
  · intro hnone hr
    obtain ⟨h1, h2⟩ := hbare hnone hr
    simp only [Object.url_root, Prod.mk.injEq] at h2
    rw [h2.1, h1]
  · intro m hm hmo
    obtain ⟨om, par, opar, h1, h2, h3, h4, h5⟩ := hfollow m hm hmo
    simp only [Object.url_root, Prod.mk.injEq] at h5
    exact ⟨om, par, opar, h1, h2, h3, h4, h5.1⟩
  · intro path m hm
    exact hpath path o o1 m hoin ho1 hm
  · intro hnone hr path m hm
    obtain ⟨-, om, h1, h2⟩ := hpath path o o1 m hoin ho1 hm
    have h3 := (hroot hnone hr).2
    simp only [Object.url_root, Prod.mk.injEq] at h3
    rw [h3.1] at h2
    exact ⟨om, h1, h2⟩

/-- C27, on a root with the child "a" and a detached object "o" with the child "c": after
`o.set_parent(a)` the url of "c" is "/a/o/c", and the url of "o" is the url of "a" followed
by "/" and the name of "o". -/
theorem set_parent_recomputes_urls_witness :
    ((Object.set_parent (fun s => s ++ "1") 3
        [some { Object.new "root" with
                  url_ := "", root_ := some 0, children_ := [("a", 1)],
                  children_vector_ := [1] },
         some { Object.new "a" with url_ := "/a", parent_ := some 0, root_ := some 0 },
         some { Object.new "o" with children_ := [("c", 3)], children_vector_ := [3] },
         some { Object.new "c" with url_ := "o/c", parent_ := some 2 }] 2 (some 1)).bind
      fun w1 => (World.get w1 3).map Object.url_) = some "/a/o/c" ∧
    ∃ w1 o1, Object.set_parent (fun s => s ++ "1") 3
        [some { Object.new "root" with
                  url_ := "", root_ := some 0, children_ := [("a", 1)],
                  children_vector_ := [1] },
         some { Object.new "a" with url_ := "/a", parent_ := some 0, root_ := some 0 },
         some { Object.new "o" with children_ := [("c", 3)], children_vector_ := [3] },
         some { Object.new "c" with url_ := "o/c", parent_ := some 2 }] 2 (some 1) = some w1 ∧
      World.get w1 2 = some o1 ∧ ∃ p1, World.get w1 1 = some p1 ∧ p1.url_ = "/a" ∧
        o1.url_ = p1.url_ ++ "/" ++ o1.name_ := by
  refine ⟨by decide, ?_⟩
  obtain ⟨w1, o1, h, ho1, -, hhead, -⟩ :=
    set_parent_recomputes_urls (fun s => s ++ "1") 3 0
      [some { Object.new "root" with
                url_ := "", root_ := some 0, children_ := [("a", 1)],
                children_vector_ := [1] },
       some { Object.new "a" with url_ := "/a", parent_ := some 0, root_ := some 0 },
       some { Object.new "o" with children_ := [("c", 3)], children_vector_ := [3] },
       some { Object.new "c" with url_ := "o/c", parent_ := some 2 }] 2
      { Object.new "o" with children_ := [("c", 3)], children_vector_ := [3] }
      (some 1) [2, 3] rfl (by decide) (by decide) (by decide)
      (fun q hqq => by cases hqq) (by decide)
      (fun p hpp => by
        cases hpp
        exact ⟨by decide, _, rfl, by decide, by decide⟩)
  exact ⟨w1, o1, h, ho1, hhead 1 _ rfl rfl⟩

/-- C28 (as stated, refuted): "root" is made its own root and "a" is attached to it; after
`root.set_parent(NULL)`, which is a call with a null new parent, the root reference of "a"
is still "root" and not null. -/
theorem set_parent_null_keeps_own_root :
    ((Object.set_root [some (Object.new "root"), some (Object.new "a")] 0 (some 0)).bind
      fun wa => (Object.set_parent (fun s => s ++ "1") 3 wa 1 (some 0)).bind
      fun wb => (Object.set_parent (fun s => s ++ "1") 3 wb 0 none).bind
      fun w1 => (World.get w1 1).map Object.root_) = some (some 0) := by
  decide

/-- C28 (amended): let the object `o` be alive with the subtree `nodes`, in a store whose root
references are alive; let its previous parent and the new parent be alive, outside the
subtree, with `o` at most once in their vectors, the new parent with a free name for `o`
within the fuel.  Then `set_parent` returns, and in the store it leaves: `o` is neither in the
table nor in the vector of a previous parent that is not the new one; `o` is once in the
table, under its name, and once in the vector of the new parent; every object of the subtree
has the root reference of `o`, which is the root reference of the new parent, and without a
new parent is null unless `o` is its own root, in which case it is still `o`. -/
theorem set_parent_detaches_attaches_propagates (next : String → String) (fuel k : Nat)
    (w : World) (o : ObjectId) (oo : Object) (parent : Option ObjectId) (nodes : List ObjectId)
    (ho : w.get o = some oo)
    (hsub : Object.subtree fuel w o = some nodes) (hnd : nodes.Nodup)
    (hroots : w.roots_ok = true)
    (hq : ∀ q, oo.parent_ = some q → q ∉ nodes ∧ ∃ qo, w.get q = some qo ∧
      qo.children_vector_.count o ≤ 1)
    (hk : k < fuel)
    (hp : ∀ p, parent = some p → p ∉ nodes ∧ ∃ po, w.get p = some po ∧
      po.children_vector_.count o ≤ 1 ∧
      (∀ c ∈ po.children_vector_, (w.get c).isSome = true) ∧
      (THash_remove_element po.children_ o).lookup (next^[k] oo.name_) = none) :
    ∃ w1 o1, Object.set_parent next fuel w o parent = some w1 ∧
      World.get w1 o = some o1 ∧ o1.parent_ = parent ∧
      (∀ q, oo.parent_ = some q → parent ≠ some q →
        ∃ q1, World.get w1 q = some q1 ∧ (∀ e ∈ q1.children_, e.2 ≠ o) ∧
          o ∉ q1.children_vector_) ∧
      (∀ p po, parent = some p → w.get p = some po →
        ∃ p1, World.get w1 p = some p1 ∧
          p1.children_.lookup o1.name_ = some o ∧
          (p1.children_.map Prod.snd).count o = 1 ∧
          p1.children_vector_.count o = 1 ∧
          p1.root_ = po.root_ ∧ o1.root_ = p1.root_) ∧
      (parent = none → oo.root_ = some o → o1.root_ = some o) ∧
      (parent = none → oo.root_ ≠ some o → o1.root_ = none) ∧
      (∀ m ∈ nodes, ∃ om, World.get w1 m = some om ∧ om.root_ = o1.root_) := by
  obtain ⟨w1, o1, hset, ho1, -, hframe, -, hpar1, -, hhead, hroot, hbare, -, hglobal, hold,
    hnew⟩ :=
    Object.set_parent_spec next fuel parent ho hsub hnd
      (World.roots_alive_of_ok hroots)
      (fun q hqq => by
        obtain ⟨h1, qo, h2, -⟩ := hq q hqq
        exact ⟨h1, qo, h2⟩)
      (fun p hpp => by
        obtain ⟨h1, po, h2, -, h3, h4⟩ := hp p hpp
        exact ⟨h1, po, k, h2, fun c hc => Option.isSome_iff_exists.mp (h3 c hc), hk, h4⟩)
  have hcount : ∀ v : List ObjectId, v.count o ≤ 1 → (v.erase o).count o = 0 := by
    intro v hv
    rw [List.count_erase_self]
    omega
  refine ⟨w1, o1, hset, ho1, hpar1, ?_, ?_, ?_, ?_, ?_⟩
  · intro q hqq hne
    obtain ⟨-, qo, hqo, hc⟩ := hq q hqq
    obtain ⟨q1, hq1, hqc, hqv⟩ := hold q qo hqq hqo hne
    refine ⟨q1, hq1, ?_, ?_⟩
    · intro e he
      rw [hqc] at he
      exact (mem_remove_element.mp he).2
    · rw [hqv]
      exact List.count_eq_zero.mp (hcount _ hc)
  · intro p po hpp hpo
    obtain ⟨hnot, po0, hpo0, hc, -, -⟩ := hp p hpp
    rw [hpo] at hpo0
    cases hpo0
    obtain ⟨p1, i, ords, lasts, hp1, hn1, hpc, hfree, hsplit, hpv⟩ := hnew p po hpp hpo
    have hu := hhead p po hpp hpo
    simp only [Object.url_root, Prod.mk.injEq] at hu
    have hf := hframe p hnot
    rw [hp1, hpo] at hf
    simp only [Option.map_some', Option.some.injEq, Object.url_root, Prod.mk.injEq] at hf
    refine ⟨p1, hp1, ?_, ?_, ?_, hf.2.1, by rw [hu.2.1, hf.2.1]⟩
    · rw [hpc, hn1]
      exact lookup_entries_set_self _ _ _
    · rw [hpc, entries_set_of_free _ _ _ hfree, List.map_append, List.count_append]
      have h0 : ((THash_remove_element po.children_ o).map Prod.snd).count o = 0 := by
        rw [List.count_eq_zero]
        intro hmem
        obtain ⟨e, he, heo⟩ := List.mem_map.mp hmem
        exact (mem_remove_element.mp he).2 heo
      rw [h0]
      simp
    · rw [hpv, List.count_append, List.count_cons_self]
      have h0 : (ords ++ lasts).count o = 0 := by
        rw [← hsplit]
        by_cases e : oo.parent_ = some p
        · rw [if_pos e, List.count_erase_self, hcount _ hc]
        · rw [if_neg e]
          exact hcount _ hc
      rw [List.count_append] at h0
      omega
  · intro hnone hr
    have h2 := (hroot hnone hr).2
    simp only [Object.url_root, Prod.mk.injEq] at h2
    exact h2.2.1
  · intro hnone hr
    have h2 := (hbare hnone hr).2
    simp only [Object.url_root, Prod.mk.injEq] at h2
    exact h2.2.1
  · intro m hm
    obtain ⟨om, h1, h2, -⟩ := hglobal m hm
    exact ⟨om, h1, h2⟩

/-- C28 (amended), on a root with the child "a" and a detached "q" whose child "o" has the
child "c": after `o.set_parent(a)` the root reference of "c" is the root, "q" has no child
left, and "a" has "o" once in its vector. -/
theorem set_parent_detaches_attaches_propagates_witness :
    ((Object.set_parent (fun s => s ++ "1") 3
        [some { Object.new "root" with
                  url_ := "", root_ := some 0, children_ := [("a", 1)],
                  children_vector_ := [1] },
         some { Object.new "a" with url_ := "/a", parent_ := some 0, root_ := some 0 },
         some { Object.new "q" with children_ := [("o", 3)], children_vector_ := [3] },
         some { Object.new "o" with
                  url_ := "q/o", parent_ := some 2, children_ := [("c", 4)],
                  children_vector_ := [4] },
         some { Object.new "c" with url_ := "q/o/c", parent_ := some 3 }] 3 (some 1)).bind
      fun w1 => (World.get w1 4).map Object.root_) = some (some 0) ∧
    ∃ w1 q1 p1, Object.set_parent (fun s => s ++ "1") 3
        [some { Object.new "root" with
                  url_ := "", root_ := some 0, children_ := [("a", 1)],
                  children_vector_ := [1] },
         some { Object.new "a" with url_ := "/a", parent_ := some 0, root_ := some 0 },
         some { Object.new "q" with children_ := [("o", 3)], children_vector_ := [3] },
         some { Object.new "o" with
                  url_ := "q/o", parent_ := some 2, children_ := [("c", 4)],
                  children_vector_ := [4] },
         some { Object.new "c" with url_ := "q/o/c", parent_ := some 3 }] 3 (some 1)
          = some w1 ∧
      World.get w1 2 = some q1 ∧ 3 ∉ q1.children_vector_ ∧
      World.get w1 1 = some p1 ∧ p1.children_vector_.count 3 = 1 ∧ p1.root_ = some 0 := by
  refine ⟨by decide, ?_⟩
  obtain ⟨w1, o1, h, -, -, hold, hnew, -⟩ :=
    set_parent_detaches_attaches_propagates (fun s => s ++ "1") 3 0
      [some { Object.new "root" with
                url_ := "", root_ := some 0, children_ := [("a", 1)],
                children_vector_ := [1] },
       some { Object.new "a" with url_ := "/a", parent_ := some 0, root_ := some 0 },
       some { Object.new "q" with children_ := [("o", 3)], children_vector_ := [3] },
       some { Object.new "o" with
                url_ := "q/o", parent_ := some 2, children_ := [("c", 4)],
                children_vector_ := [4] },
       some { Object.new "c" with url_ := "q/o/c", parent_ := some 3 }] 3
      { Object.new "o" with
          url_ := "q/o", parent_ := some 2, children_ := [("c", 4)],
          children_vector_ := [4] }
      (some 1) [3, 4] rfl (by decide) (by decide) (by decide)
      (fun q hqq => by
        cases hqq
        exact ⟨by decide, _, rfl, by decide⟩)
      (by decide)
      (fun p hpp => by
        cases hpp
        exact ⟨by decide, _, rfl, by decide, by decide, by decide⟩)
  obtain ⟨q1, hq1, -, hqv⟩ := hold 2 rfl (by decide)
  obtain ⟨p1, hp1, -, -, hpv, hpr, -⟩ := hnew 1 _ rfl rfl
  exact ⟨w1, q1, p1, h, hq1, hqv, hp1, hpv, hpr⟩

/-! ## Batch calls, the live value of a node and destruction -/

/-- An Error built by `ErrorValue` and extended by `append`: the heap gets one object. -/
theorem ErrorValue_append (g : Heap) (code : ErrorCode) (m : String) :
    ErrorValue g code m
      = (⟨ERROR_VALUE, Slot.ptr (some (List.length g))⟩, g ++ [some ⟨1, Obj.error code m⟩]) ∧
    Heap.cell (g ++ [some ⟨1, Obj.error code m⟩]) (List.length g)
      = some ⟨1, Obj.error code m⟩ ∧
    (∀ q, q ≠ List.length g → Heap.cell (g ++ [some ⟨1, Obj.error code m⟩]) q = g.cell q) ∧
    ∀ (g2 : Heap) (n : Nat) (m2 str : String),
      g2.cell (List.length g) = some ⟨n, Obj.error code m2⟩ →
      Value.append g2 ⟨ERROR_VALUE, Slot.ptr (some (List.length g))⟩ str
        = some (g2.write (List.length g) ⟨n, Obj.error code (m2 ++ str)⟩) ∧
      (g2.write (List.length g) ⟨n, Obj.error code (m2 ++ str)⟩).cell (List.length g)
        = some ⟨n, Obj.error code (m2 ++ str)⟩ ∧
      ∀ q, q ≠ List.length g →
        (g2.write (List.length g) ⟨n, Obj.error code (m2 ++ str)⟩).cell q = g2.cell q := by
  refine ⟨rfl, ?_, ?_, ?_⟩
  · have := Heap.cell_alloc g (Obj.error code m) (List.length g)
    simpa [Heap.alloc] using this
  · intro q hq
    have := Heap.cell_alloc g (Obj.error code m) q
    simpa [Heap.alloc, hq] using this
  · intro g2 n m2 str hc
    refine ⟨?_, ?_, ?_⟩
    · simp [Value.append, Value.is_error, Value.ptr_, hc]
    · rw [Heap.cell_write, if_pos rfl, if_pos (Heap.cell_lt hc)]
    · intro q hq
      rw [Heap.cell_write, if_neg (fun e => hq e.symm)]

/-- The copy of a meta-type that is neither a String nor a List has a type tag, that of the
meta-type itself unless the meta-type is Empty: the copy of an Empty Value is Nil. -/
theorem Value.type_tag_of_copy (fuel : Nat) (h g1 : Heap) (t c : Value)
    (hct : c.type_ = (if t.type_ = EMPTY_VALUE then NIL_VALUE else t.type_))
    (hl : t.is_list = false) :
    ∃ tag, c.type_tag fuel g1 = some tag ∧ c.is_list = false ∧
      (t.is_string = false → c.is_string = false) ∧
      (t.is_empty = false → t.type_tag fuel h = some tag) ∧
      (t.is_empty = true → tag = "N") := by
  obtain ⟨ty, u⟩ := t
  obtain ⟨cty, cu⟩ := c
  simp only at hct
  subst hct
  cases ty <;> simp [Value.is_list] at hl <;>
    simp [Value.is_list, Value.is_string, Value.is_empty] <;>
    first
      | (cases fuel <;> rfl)
      | exact ⟨_, by cases fuel <;> rfl, by cases fuel <;> rfl⟩

/-! ## Reference counts -/

/-- `operator=` from a Value whose payload is shared: the count of the payload goes up by
one, unless the receiver already refers to it. -/
theorem Value.assign_count {g : Heap} {w s : Value} (hw : w.valid g = true)
    (hs : s.valid g = true) {q : Addr} {c0 : Cell} (hnm : s.type_ ≠ MATRIX_VALUE)
    (hq : s.ptr_ = some q) (hc : g.cell q = some c0) :
    ∀ r g1, w.assign g s = some (r, g1) →
      g1.cell q
        = some ⟨if w.ptr_ = some q then c0.ref_count else c0.ref_count + 1, c0.obj⟩ := by
  intro r g1 hassign
  rcases Value.valid_cases hs with ⟨-, hnone⟩ | ⟨p, c, hu, hcp, ht⟩
  · rw [hnone] at hq
    cases hq
  · have hpq : p = q := by simpa [Value.ptr_, hu] using hq
    subst hpq
    rw [hc] at hcp
    cases hcp
    obtain ⟨t, u⟩ := s
    simp only at hu ht hnm
    subst hu
    have hshare : Value.assign g w ⟨t, Slot.ptr (some p)⟩ = w.share g t (some p) := by
      cases hobj : c0.obj <;> rw [hobj] at ht <;> simp only [Obj.type] at ht <;> subst ht <;>
        first
          | rfl
          | exact absurd rfl hnm
    rw [hshare] at hassign
    by_cases hwp : w.ptr_ = some p
    · obtain ⟨hsh, -⟩ := Value.share_same hw hc t ht hwp
      rw [hsh] at hassign
      cases hassign
      rw [if_pos hwp, hc]
    · obtain ⟨w0, h0, -, hc0, hsh⟩ := Value.share_other hw hc t hwp
      rw [hsh] at hassign
      cases hassign
      rw [if_neg hwp, Heap.cell_write, if_pos rfl, if_pos (Heap.cell_lt hc0)]

/-- `operator=` from a Matrix: the receiver gets a payload at a new address. -/
theorem Value.assign_matrix_fresh {g : Heap} {w s : Value} (hw : w.valid g = true)
    (hs : s.valid g = true) (hm : s.type_ = MATRIX_VALUE) (hown : w.ptr_ ≠ s.ptr_) :
    ∀ r g1, w.assign g s = some (r, g1) → r.ptr_ = some (List.length g) := by
  intro r g1 hassign
  rcases Value.valid_cases hs with ⟨hn, -⟩ | ⟨p, c, hu, hcp, ht⟩
  · rcases hn with e | e | e | e <;> rw [e] at hm <;> cases hm
  · obtain ⟨t, u⟩ := s
    simp only at hu ht hm
    subst hu
    subst hm
    obtain ⟨n, ob⟩ := c
    cases ob <;> simp only [Obj.type] at ht <;> try cases ht
    rename_i m
    have hwp : w.ptr_ ≠ some p := hown
    obtain ⟨w0, h0, -, -, hlen, hsm⟩ := Value.set_matrix_ptr_valid hw hcp hwp
    have : Value.assign g w ⟨MATRIX_VALUE, Slot.ptr (some p)⟩
        = w.set_matrix_ptr g (some p) := rfl
    rw [this, hsm] at hassign
    cases hassign
    simp [Value.ptr_, hlen]

/-- The destructor of a Value whose reference to its payload is counted: the objects of the
heap stay, except the Matrix of a Matrix Value. -/
theorem Value.clear_keeps {g : Heap} {v : Value} (hv : v.valid g = true)
    (hcount : v.type_ ≠ MATRIX_VALUE → ∀ q c0, v.ptr_ = some q → g.cell q = some c0 →
      2 ≤ c0.ref_count) :
    ∃ v0 g1, v.clear g = some (v0, g1) ∧
      ∀ q c0, g.cell q = some c0 → (v.type_ = MATRIX_VALUE → v.ptr_ ≠ some q) →
        ∃ n, g1.cell q = some ⟨n, c0.obj⟩ := by
  obtain ⟨v0, g1, hclear, -, -, -, hframe⟩ := Value.clear_valid hv
  refine ⟨v0, g1, hclear, ?_⟩
  intro q c0 hq hm
  by_cases hvq : v.ptr_ = some q
  · have hnm : v.type_ ≠ MATRIX_VALUE := fun e => hm e hvq
    have h2 := hcount hnm q c0 hvq hq
    have hnle : ¬ c0.ref_count ≤ 1 := by omega
    obtain ⟨t, u⟩ := v
    simp only at hnm
    cases t <;>
      simp [Value.clear, Value.ptr_] at hclear hvq ⊢ <;>
      first
        | exact absurd rfl hnm
        | (rcases Value.valid_cases hv with ⟨-, hnone⟩ | ⟨p, c, hu, -, ht⟩
           · simp [Value.ptr_, hvq] at hnone
           · obtain ⟨n, ob⟩ := c
             cases ob <;> simp [Obj.type] at ht)
        | (simp only [hvq] at hclear
           simp [release, hq, hnle] at hclear
           obtain ⟨-, hg1⟩ := hclear
           rw [← hg1, Heap.cell_write, if_pos rfl, if_pos (Heap.cell_lt hq)]
           exact ⟨_, rfl⟩)
  · exact ⟨c0.ref_count, by rw [hframe q hvq, hq]⟩

theorem Value.u_of_ptr {v : Value} {p : Addr} (hp : v.ptr_ = some p) :
    v.u = Slot.ptr (some p) := by
  obtain ⟨t, u⟩ := v
  cases u <;> simp [Value.ptr_] at hp ⊢
  exact hp

/-- The copy that `type_with_current_value` makes of a List meta-type is the meta-type, on
the same payload. -/
theorem Value.copy_list {h : Heap} {t : Value} {pl : Addr} {n : Nat} {values : List Value}
    (hl : t.is_list = true) (hp : t.u = Slot.ptr (some pl))
    (hc : h.cell pl = some ⟨n, Obj.list values⟩) :
    ∃ h1 n1, Value.copy h t = some (t, h1) ∧ h1.cell pl = some ⟨n1, Obj.list values⟩ ∧
      t.valid h1 = true ∧
      ∀ q c0, h.cell q = some c0 → ∃ m, h1.cell q = some ⟨m, c0.obj⟩ := by
  obtain ⟨ty, u⟩ := t
  simp only at hp
  subst hp
  have hty : ty = LIST_VALUE := by simpa [Value.is_list] using hl
  subst hty
  have hv : (Value.mk LIST_VALUE (Slot.ptr (some pl))).valid h = true :=
    Value.valid_intro rfl hc rfl
  obtain ⟨c, g1, hassign, hcv, hct, -, hptr, hkeep⟩ :=
    Value.assign_alike (rfl : Value.new.valid h = true) hv (fun e => by cases e)
  have hcu := Value.u_of_ptr (hptr (fun e => by cases e))
  have hceq : c = ⟨LIST_VALUE, Slot.ptr (some pl)⟩ := by
    obtain ⟨cty, cu⟩ := c
    simp only at hct hcu
    rw [hcu]
    simp at hct
    rw [hct]
  subst hceq
  obtain ⟨n1, hn1⟩ := hkeep pl _ hc (Or.inl (by simp [Value.new, Value.ptr_]))
  exact ⟨g1, n1, hassign, hn1, hcv,
    fun q c0 hq => hkeep q c0 hq (Or.inl (by simp [Value.new, Value.ptr_]))⟩

theorem Heap.grows_but_refl (p : Option Addr) (g : Heap) : Heap.grows_but p g g :=
  fun _ c0 hq => ⟨c0, hq, Nat.le_refl _, rfl, fun _ => rfl⟩

theorem Heap.grows_but_trans {p : Option Addr} {g g1 g2 : Heap}
    (h1 : Heap.grows_but p g g1) (h2 : Heap.grows_but p g1 g2) : Heap.grows_but p g g2 := by
  intro q c0 hq
  obtain ⟨c1, hc1, hn1, ht1, ho1⟩ := h1 q c0 hq
  obtain ⟨c2, hc2, hn2, ht2, ho2⟩ := h2 q c1 hc1
  exact ⟨c2, hc2, Nat.le_trans hn1 hn2, ht2.trans ht1, fun hp => (ho2 hp).trans (ho1 hp)⟩

theorem Heap.grows_but_of_grows {p : Option Addr} {g g1 : Heap} (h : Heap.grows g g1) :
    Heap.grows_but p g g1 := by
  intro q c0 hq
  obtain ⟨c1, hc1, hn1, ht1, ho1⟩ := h q c0 hq
  exact ⟨c1, hc1, hn1, ht1, fun _ => ho1 (fun e => by cases e)⟩

theorem Heap.grows_cell {g g1 : Heap} (h : Heap.grows g g1) {q : Addr} {c0 : Cell}
    (hq : g.cell q = some c0) :
    ∃ n, c0.ref_count ≤ n ∧ g1.cell q = some ⟨n, c0.obj⟩ := by
  obtain ⟨c1, hc1, hn1, -, ho1⟩ := h q c0 hq
  obtain ⟨n1, o1⟩ := c1
  have : o1 = c0.obj := ho1 (fun e => by cases e)
  subst this
  exact ⟨n1, hn1, hc1⟩

theorem Heap.grows_but_cell {p : Option Addr} {g g1 : Heap} (h : Heap.grows_but p g g1)
    {q : Addr} {c0 : Cell} (hq : g.cell q = some c0) (hp : p ≠ some q) :
    ∃ n, c0.ref_count ≤ n ∧ g1.cell q = some ⟨n, c0.obj⟩ := by
  obtain ⟨c1, hc1, hn1, -, ho1⟩ := h q c0 hq
  obtain ⟨n1, o1⟩ := c1
  have : o1 = c0.obj := ho1 hp
  subst this
  exact ⟨n1, hn1, hc1⟩

theorem Value.valid_of_grows_but {p : Option Addr} {g g1 : Heap} {x : Value}
    (h : Heap.grows_but p g g1) (hx : x.valid g = true) : x.valid g1 = true :=
  Value.valid_of_same_class
    (fun q c0 hq => by
      obtain ⟨c1, hc1, -, ht1, -⟩ := h q c0 hq
      exact ⟨c1, hc1, ht1⟩) hx

theorem Value.alike_of_grows_but {p : Option Addr} {g g1 : Heap} {x : Value}
    (h : Heap.grows_but p g g1) (hx : x.valid g = true) (hp : x.ptr_ ≠ p ∨ x.ptr_ = none) :
    Value.alike g1 x g x := by
  refine Value.alike_of_kept hx ?_
  intro q c0 hxq hq
  have hpq : p ≠ some q := by
    rcases hp with h1 | h1
    · rw [hxq] at h1
      exact fun e => h1 e.symm
    · rw [hxq] at h1
      cases h1
  obtain ⟨n, -, hn⟩ := Heap.grows_but_cell h hq hpq
  exact ⟨n, hn⟩

/-- What the destructor of a valid Value does to the heap: the payload of a Matrix is
deleted; another payload loses a reference, and is deleted with its last one. -/
theorem Value.clear_cells {g : Heap} {v : Value} (hv : v.valid g = true) :
    ∃ v0 g1, v.clear g = some (v0, g1) ∧ List.length g1 = List.length g ∧ v0.ptr_ = none ∧
      v0.type_ = v.type_ ∧
      (∀ q, v.ptr_ ≠ some q → g1.cell q = g.cell q) ∧
      (∀ q c0, v.ptr_ = some q → g.cell q = some c0 →
        g1.cell q = if v.type_ = MATRIX_VALUE ∨ c0.ref_count ≤ 1 then none
          else some ⟨c0.ref_count - 1, c0.obj⟩) := by
  obtain ⟨v0, g1, hclear, hty, hp0, hlen, hframe⟩ := Value.clear_valid hv
  refine ⟨v0, g1, hclear, hlen, hp0, hty, hframe, ?_⟩
  intro q c0 hvq hq
  rcases Value.valid_cases hv with ⟨-, hnone⟩ | ⟨p, c, hu, hcp, ht⟩
  · rw [hnone] at hvq
    cases hvq
  · have hpq : p = q := by simpa [Value.ptr_, hu] using hvq
    subst hpq
    rw [hq] at hcp
    cases hcp
    obtain ⟨t, u⟩ := v
    simp only at hu ht
    subst hu
    obtain ⟨n, ob⟩ := c0
    simp only at ht
    cases ob <;> simp only [Obj.type] at ht <;> subst ht <;>
      simp [Value.clear, Value.ptr_, release, hq] at hclear ⊢ <;>
      (try split_ifs at hclear ⊢) <;>
      (obtain ⟨ha, hb⟩ := hclear
       first
         | (cases ha; rw [Heap.cell_free]; simp)
         | (cases ha; rw [Heap.cell_write]; simp [Heap.cell_lt hq])
         | (subst hb; rw [Heap.cell_free]; simp))


/-- The destructor of a Value whose reference to its payload is counted, on a heap whose
objects are all referred to: the payload of a Matrix is deleted, another payload loses one of
its references and stays, and nothing else changes. -/
theorem Value.clear_counted {g : Heap} {v : Value} (hv : v.valid g = true)
    (hJ : Heap.counted g)
    (hvc : v.type_ ≠ MATRIX_VALUE → ∀ q c, v.ptr_ = some q → g.cell q = some c →
      2 ≤ c.ref_count) :
    ∃ v0 g1, v.clear g = some (v0, g1) ∧ List.length g1 = List.length g ∧
      Heap.counted g1 ∧
      (∀ q, v.ptr_ ≠ some q → g1.cell q = g.cell q) ∧
      (∀ q c0, v.ptr_ = some q → g.cell q = some c0 → v.type_ ≠ MATRIX_VALUE →
        g1.cell q = some ⟨c0.ref_count - 1, c0.obj⟩ ∧ 2 ≤ c0.ref_count) ∧
      (v.type_ = MATRIX_VALUE → ∀ q, v.ptr_ = some q → g1.cell q = none) := by
  obtain ⟨v0, g1, hclear, hlen, -, -, hne, heq⟩ := Value.clear_cells hv
  have hpay : ∀ q, v.ptr_ = some q → ∃ c0, g.cell q = some c0 := by
    intro q hq
    rcases Value.valid_cases hv with ⟨-, hnone⟩ | ⟨p, c, hu, hcp, -⟩
    · rw [hnone] at hq
      cases hq
    · have hpq : p = q := by simpa [Value.ptr_, hu] using hq
      subst hpq
      exact ⟨c, hcp⟩
  have hdec : ∀ q c0, v.ptr_ = some q → g.cell q = some c0 → v.type_ ≠ MATRIX_VALUE →
      g1.cell q = some ⟨c0.ref_count - 1, c0.obj⟩ ∧ 2 ≤ c0.ref_count := by
    intro q c0 hq hc hnm
    have h2 := hvc hnm q c0 hq hc
    refine ⟨?_, h2⟩
    rw [heq q c0 hq hc, if_neg]
    intro h
    rcases h with h | h
    · exact hnm h
    · omega
  refine ⟨v0, g1, hclear, hlen, ?_, hne, hdec, ?_⟩
  · intro q c hc
    by_cases hq : v.ptr_ = some q
    · obtain ⟨c0, hc0⟩ := hpay q hq
      by_cases hm : v.type_ = MATRIX_VALUE
      · rw [heq q c0 hq hc0, if_pos (Or.inl hm)] at hc
        cases hc
      · obtain ⟨h1, h2⟩ := hdec q c0 hq hc0 hm
        rw [h1] at hc
        cases hc
        simp only
        omega
    · rw [hne q hq] at hc
      exact hJ q c hc
  · intro hm q hq
    obtain ⟨c0, hc0⟩ := hpay q hq
    rw [heq q c0 hq hc0, if_pos (Or.inl hm)]

/-- What `operator=` does to the heap when the reference of the receiver to its payload is
counted: every object stays, except the Matrix of a receiver that is a Matrix; the payload
that the result shares is referred to at least twice, and the Matrix of a result that is a
Matrix is new. -/
theorem Value.assign_cells {g : Heap} {w s : Value} (hw : w.valid g = true)
    (hs : s.valid g = true) (hown : s.type_ = MATRIX_VALUE → w.ptr_ ≠ s.ptr_)
    (hJ : Heap.counted g)
    (hwc : w.type_ ≠ MATRIX_VALUE → ∀ q c, w.ptr_ = some q → g.cell q = some c →
      2 ≤ c.ref_count) :
    ∃ r g1, w.assign g s = some (r, g1) ∧ r.valid g1 = true ∧
      r.type_ = (if s.type_ = EMPTY_VALUE then NIL_VALUE else s.type_) ∧
      (s.type_ ≠ EMPTY_VALUE → Value.alike g1 r g s) ∧
      Heap.counted g1 ∧ List.length g ≤ List.length g1 ∧
      (∀ q c0, g.cell q = some c0 → (w.type_ = MATRIX_VALUE → w.ptr_ ≠ some q) →
        ∃ n, g1.cell q = some ⟨n, c0.obj⟩ ∧ (w.ptr_ ≠ some q → c0.ref_count ≤ n) ∧
          (s.type_ ≠ MATRIX_VALUE → s.ptr_ = some q → c0.ref_count ≤ n)) ∧
      (r.type_ ≠ MATRIX_VALUE → r.ptr_ = s.ptr_) ∧
      (r.type_ ≠ MATRIX_VALUE → ∀ q c, r.ptr_ = some q → g1.cell q = some c →
        2 ≤ c.ref_count) ∧
      (r.type_ = MATRIX_VALUE → r.ptr_ = some (List.length g)) := by
  obtain ⟨r, g1, hassign, hrv, hrt, hal, hrp, -⟩ := Value.assign_alike hw hs hown
  obtain ⟨w0, h0, hclear, hlen0, hJ0, hne0, hdec0, hm0⟩ := Value.clear_counted hw hJ hwc
  have hkeep0 : ∀ q c0, g.cell q = some c0 → (w.type_ = MATRIX_VALUE → w.ptr_ ≠ some q) →
      ∃ n, h0.cell q = some ⟨n, c0.obj⟩ ∧ (w.ptr_ ≠ some q → c0.ref_count ≤ n) ∧
        (w.ptr_ = some q → 1 ≤ n) := by
    intro q c0 hq hm
    by_cases hwq : w.ptr_ = some q
    · have hnm : w.type_ ≠ MATRIX_VALUE := fun e => hm e hwq
      obtain ⟨h1, h2⟩ := hdec0 q c0 hwq hq hnm
      exact ⟨_, h1, fun h => absurd hwq h, fun _ => by omega⟩
    · exact ⟨c0.ref_count, by rw [hne0 q hwq, hq], fun _ => Nat.le_refl _,
        fun h => absurd h hwq⟩
  have hrm : r.type_ = MATRIX_VALUE ↔ s.type_ = MATRIX_VALUE := by
    rw [hrt]
    split_ifs with he
    · rw [he]
      exact ⟨fun e => (by cases e), fun e => (by cases e)⟩
    · exact Iff.rfl
  have hnopay : no_payload s.type_ → s.ptr_ = none := by
    intro hnp
    rcases Value.valid_cases hs with ⟨-, hnone⟩ | ⟨p, c, hu, -, ht⟩
    · exact hnone
    · rcases hnp with e1 | e1 | e1 | e1 <;> rw [e1] at ht <;>
        cases hobj : c.obj <;> rw [hobj] at ht <;> cases ht
  -- the heap of the result, case by case
  have hheap : (no_payload s.type_ ∧ g1 = h0) ∨
      (∃ p c, s.ptr_ = some p ∧ s.type_ ≠ MATRIX_VALUE ∧ g.cell p = some c ∧
        ((w.ptr_ = some p ∧ g1 = g ∧ w.type_ ≠ MATRIX_VALUE) ∨
         (w.ptr_ ≠ some p ∧ h0.cell p = some c ∧
           g1 = h0.write p ⟨c.ref_count + 1, c.obj⟩))) ∨
      (∃ m, s.type_ = MATRIX_VALUE ∧ g1 = (h0.alloc (Obj.matrix m)).2) := by
    rcases Value.valid_cases hs with ⟨hn, -⟩ | ⟨p, c, hu, hcp, ht⟩
    · left
      refine ⟨hn, ?_⟩
      obtain ⟨t, u⟩ := s
      rcases hn with e | e | e | e <;> simp only at e <;> subst e <;>
        simp [Value.assign, Value.set_nil, Value.set_any, Value.set_real,
          Value.set_type_without_default, hclear] at hassign <;>
        exact hassign.2.symm
    · right
      obtain ⟨t, u⟩ := s
      simp only at hu ht
      subst hu
      by_cases hmt : t = MATRIX_VALUE
      · right
        subst hmt
        obtain ⟨n, ob⟩ := c
        cases ob <;> simp only [Obj.type] at ht <;> try cases ht
        rename_i m
        have hwp : w.ptr_ ≠ some p := hown rfl
        obtain ⟨w0a, h0a, hcleara, -, -, hsm⟩ := Value.set_matrix_ptr_valid hw hcp hwp
        rw [hclear] at hcleara
        cases hcleara
        have : Value.assign g w ⟨MATRIX_VALUE, Slot.ptr (some p)⟩
            = w.set_matrix_ptr g (some p) := rfl
        rw [this, hsm] at hassign
        cases hassign
        exact ⟨m, rfl, rfl⟩
      · left
        refine ⟨p, c, rfl, hmt, hcp, ?_⟩
        have hshare : Value.assign g w ⟨t, Slot.ptr (some p)⟩ = w.share g t (some p) := by
          cases hobj : c.obj <;> rw [hobj] at ht <;> simp only [Obj.type] at ht <;>
            subst ht <;>
            first
              | rfl
              | exact absurd rfl hmt
        rw [hshare] at hassign
        by_cases hwp : w.ptr_ = some p
        · left
          obtain ⟨hsh, hweq⟩ := Value.share_same hw hcp t ht hwp
          rw [hsh] at hassign
          cases hassign
          refine ⟨hwp, rfl, ?_⟩
          rw [hweq]
          exact hmt
        · right
          obtain ⟨w0a, h0a, hcleara, hc0, hsh⟩ := Value.share_other hw hcp t hwp
          rw [hclear] at hcleara
          cases hcleara
          rw [hsh] at hassign
          cases hassign
          exact ⟨hwp, hc0, rfl⟩
  refine ⟨r, g1, hassign, hrv, hrt, hal, ?_, ?_, ?_, fun h => hrp (fun e => h (hrm.mpr e)),
    ?_, ?_⟩
  · -- counted
    rcases hheap with ⟨-, e⟩ | ⟨p, c, -, -, hcp, ⟨-, e, -⟩ | ⟨-, hc0, e⟩⟩ | ⟨m, -, e⟩
    · rw [e]
      exact hJ0
    · rw [e]
      exact hJ
    · rw [e]
      intro q c1 hq
      rw [Heap.cell_write] at hq
      split_ifs at hq with h1 h2
      · cases hq
        simp only
        omega
      · exact hJ0 q c1 hq
    · rw [e]
      intro q c1 hq
      rw [Heap.cell_alloc] at hq
      split_ifs at hq with h1
      · cases hq
        exact Nat.le_refl _
      · exact hJ0 q c1 hq
  · -- length
    rcases hheap with ⟨-, e⟩ | ⟨p, c, -, -, hcp, ⟨-, e, -⟩ | ⟨-, hc0, e⟩⟩ | ⟨m, -, e⟩
    · rw [e, hlen0]
    · rw [e]
    · rw [e]
      simp [Heap.write, hlen0]
    · rw [e]
      simp [Heap.alloc, hlen0]
  · -- the objects that stay
    intro q c0 hq hm
    obtain ⟨n, hn, hle, h1⟩ := hkeep0 q c0 hq hm
    rcases hheap with ⟨hnp, e⟩ | ⟨p, c, hsp, hsnm, hcp, ⟨hwp, e, -⟩ | ⟨hwp, hc0, e⟩⟩ |
      ⟨m, hsm, e⟩
    · rw [e]
      refine ⟨n, hn, hle, ?_⟩
      intro _ hsq
      rw [hnopay hnp] at hsq
      cases hsq
    · rw [e]
      exact ⟨c0.ref_count, hq, fun _ => Nat.le_refl _, fun _ _ => Nat.le_refl _⟩
    · rw [e]
      by_cases hpq : p = q
      · subst hpq
        rw [hq] at hcp
        cases hcp
        refine ⟨c0.ref_count + 1, ?_, fun _ => by omega, fun _ _ => by omega⟩
        rw [Heap.cell_write, if_pos rfl, if_pos (Heap.cell_lt hc0)]
      · refine ⟨n, ?_, hle, ?_⟩
        · rw [Heap.cell_write, if_neg hpq]
          exact hn
        · intro _ hsq
          rw [hsp] at hsq
          exact absurd (Option.some.inj hsq) hpq
    · rw [e]
      refine ⟨n, ?_, hle, fun h => absurd hsm h⟩
      rw [Heap.cell_alloc, if_neg]
      · exact hn
      · exact Nat.ne_of_lt (Heap.cell_lt hn)
  · -- the payload of the result is counted
    intro hrnm q c1 hrq hq
    have hsnm : s.type_ ≠ MATRIX_VALUE := fun e => hrnm (hrm.mpr e)
    have hsq : s.ptr_ = some q := by rw [← hrp hsnm]; exact hrq
    rcases hheap with ⟨hnp, e⟩ | ⟨p, c, hsp, -, hcp, ⟨hwp, e, hwnm⟩ | ⟨hwp, hc0, e⟩⟩ |
      ⟨m, hsm, e⟩
    · rw [hnopay hnp] at hsq
      cases hsq
    · rw [hsp] at hsq
      cases hsq
      rw [e] at hq
      exact hwc hwnm _ _ hwp hq
    · rw [hsp] at hsq
      cases hsq
      rw [e, Heap.cell_write, if_pos rfl, if_pos (Heap.cell_lt hc0)] at hq
      cases hq
      have := hJ _ _ hcp
      simp only
      omega
    · exact absurd hsm hsnm
  · -- the Matrix of the result is new
    intro hr
    have hsm : s.type_ = MATRIX_VALUE := hrm.mp hr
    exact Value.assign_matrix_fresh hw hs hsm (hown hsm) r g1 hassign

theorem Value.alike_of_grows {g g1 : Heap} {x : Value} (h : Heap.grows g g1)
    (hx : x.valid g = true) : Value.alike g1 x g x :=
  Value.alike_of_grows_but h hx (Classical.em (x.ptr_ = none)).symm

/-! ## The loops of `from_hash` and `set_all_ok` -/

/-- A valid Value that is not a Matrix does not point to the Matrix of a valid Matrix. -/
theorem Value.ptr_ne_of_matrix {g : Heap} {a b : Value} (ha : a.valid g = true)
    (hb : b.valid g = true) (hbm : b.type_ = MATRIX_VALUE) (ham : a.type_ ≠ MATRIX_VALUE) :
    a.ptr_ ≠ b.ptr_ := by
  intro e
  rcases Value.valid_cases hb with ⟨hn, -⟩ | ⟨p, c, hu, hc, ht⟩
  · rcases hn with e1 | e1 | e1 | e1 <;> rw [e1] at hbm <;> cases hbm
  · have hbp : b.ptr_ = some p := by simp [Value.ptr_, hu]
    rcases Value.valid_cases ha with ⟨-, hnone⟩ | ⟨p1, c1, hu1, hc1, ht1⟩
    · rw [hnone, hbp] at e
      cases e
    · have hap : a.ptr_ = some p1 := by simp [Value.ptr_, hu1]
      rw [hap, hbp] at e
      cases e
      rw [hc] at hc1
      cases hc1
      exact ham (ht1.symm.trans (ht.trans hbm))

/-- The payload of a valid Value that has one is a live object of its class. -/
theorem Value.cell_of_ptr {g : Heap} {v : Value} {q : Addr} (hv : v.valid g = true)
    (hq : v.ptr_ = some q) : ∃ c, g.cell q = some c ∧ c.obj.type = v.type_ := by
  rcases Value.valid_cases hv with ⟨-, hnone⟩ | ⟨p, c, hu, hc, ht⟩
  · rw [hnone] at hq
    cases hq
  · have hpq : p = q := by simpa [Value.ptr_, hu] using hq
    subst hpq
    exact ⟨c, hc, ht⟩

theorem Heap.keeps_fresh {h g : Heap} (hk : Heap.keeps h g) :
    h.cell (List.length g) = none := by
  cases hc : h.cell (List.length g) with
  | none => rfl
  | some c0 =>
    obtain ⟨n, hn⟩ := hk _ c0 hc
    exact absurd (Heap.cell_lt hn) (Nat.lt_irrefl _)

/-- The turn of `val.get(key, &param)` in the loops, on a key of `val`. -/
theorem Object.batch_get {h g : Heap} {pv : Addr} {nv : Nat}
    {entries : List (String × Value)} {param val s : Value} {key : String}
    (hinv : Object.batch_inv h g param) (hv : val.is_hash = true) (hp : val.ptr_ = some pv)
    (hpv : h.cell pv = some ⟨nv, Obj.hash entries⟩)
    (hent : ∀ e ∈ entries, e.2.valid h = true) (hl : entries.lookup key = some s) :
    ∃ param1 g1, val.get g key param = some (true, param1, g1) ∧
      Object.batch_inv h g1 param1 ∧
      param1.type_ = (if s.type_ = EMPTY_VALUE then NIL_VALUE else s.type_) ∧
      (s.type_ ≠ EMPTY_VALUE → Value.alike g1 param1 h s) ∧
      List.length g ≤ List.length g1 ∧
      (param1.type_ = MATRIX_VALUE → param1.ptr_ = some (List.length g)) ∧
      (∀ q c0, g.cell q = some c0 → (param.type_ = MATRIX_VALUE → param.ptr_ ≠ some q) →
        ∃ n, g1.cell q = some ⟨n, c0.obj⟩ ∧ (param.ptr_ ≠ some q → c0.ref_count ≤ n)) := by
  obtain ⟨hJ, hk, hpar, hheld, hown⟩ := hinv
  have hmem : (key, s) ∈ entries := mem_of_lookup hl
  have hsh : s.valid h = true := hent _ hmem
  have hs : s.valid g = true := Value.valid_of_kept hk hsh
  obtain ⟨m, hpvg⟩ := hk pv _ hpv
  have hown1 : s.type_ = MATRIX_VALUE → param.ptr_ ≠ s.ptr_ := by
    intro hsm
    by_cases hpm : param.type_ = MATRIX_VALUE
    · intro e
      rcases Value.valid_cases hsh with ⟨hn, -⟩ | ⟨p, c, hu, hc, ht⟩
      · rcases hn with e1 | e1 | e1 | e1 <;> rw [e1] at hsm <;> cases hsm
      · have hsp : s.ptr_ = some p := by simp [Value.ptr_, hu]
        rw [hown hpm p (e.trans hsp)] at hc
        cases hc
    · exact Value.ptr_ne_of_matrix hpar hs hsm hpm
  obtain ⟨r, g1, hassign, hrv, hrt, hal, hJ1, hlen, hkeep, hrp, hrc, hrm⟩ :=
    Value.assign_cells hpar hs hown1 hJ hheld
  have hkeep1 : ∀ q c0, g.cell q = some c0 →
      (param.type_ = MATRIX_VALUE → param.ptr_ ≠ some q) →
      ∃ n, g1.cell q = some ⟨n, c0.obj⟩ ∧ (param.ptr_ ≠ some q → c0.ref_count ≤ n) := by
    intro q c0 hq hm
    obtain ⟨n, hn, hle, -⟩ := hkeep q c0 hq hm
    exact ⟨n, hn, hle⟩
  have hk1 : Heap.keeps h g1 := by
    intro q c0 hq
    obtain ⟨n, hn⟩ := hk q c0 hq
    have hne : param.type_ = MATRIX_VALUE → param.ptr_ ≠ some q := by
      intro hpm e
      rw [hown hpm q e] at hq
      cases hq
    obtain ⟨n1, hn1, -⟩ := hkeep1 q _ hn hne
    exact ⟨n1, hn1⟩
  refine ⟨r, g1, ?_, ⟨hJ1, hk1, hrv, hrc, ?_⟩, hrt, ?_, hlen, hrm, hkeep1⟩
  · simp [Value.get, hv, THash_get, hp, hpvg, hl, hassign]
  · intro hr q hq
    rw [hrm hr] at hq
    cases hq
    exact Heap.keeps_fresh hk
  · intro hne
    exact Value.alike_trans (hal hne) (Value.alike_of_kept hsh (fun q c0 _ hq => hk q c0 hq))

/-- A step that keeps the objects of the heap and their references keeps what the loops
need, whatever it does to the table at `pr`, which is none of the objects of `h`. -/
theorem Object.batch_inv_grows {h g g1 : Heap} {param : Value} {pr : Option Addr}
    (hinv : Object.batch_inv h g param) (hgrow : Heap.grows_but pr g g1)
    (hJ1 : Heap.counted g1) (hpr : ∀ q, pr = some q → h.cell q = none) :
    Object.batch_inv h g1 param := by
  obtain ⟨hJ, hk, hpar, hheld, hown⟩ := hinv
  refine ⟨hJ1, ?_, Value.valid_of_grows_but hgrow hpar, ?_, hown⟩
  · intro q c0 hq
    obtain ⟨n, hn⟩ := hk q c0 hq
    have hne : pr ≠ some q := by
      intro e
      rw [hpr q e] at hq
      cases hq
    obtain ⟨n1, -, hn1⟩ := Heap.grows_but_cell hgrow hn hne
    exact ⟨n1, hn1⟩
  · intro hnm q c hq hc
    obtain ⟨c0, hc0, -⟩ := Value.cell_of_ptr hpar hq
    obtain ⟨c1, hc1, hle, -, -⟩ := hgrow q c0 hc0
    rw [hc] at hc1
    cases hc1
    have := hheld hnm q c0 hq hc0
    omega

/-- The destructor of the temporary that a call returned, after a step that kept the objects
of the heap as they were before the call: every object that was there before the call is
still there, referred to at least as often. -/
theorem Value.clear_temp {pr : Option Addr} {g1 g2 : Heap} {ret : Value}
    (hret : ret.valid g2 = true) (hJ1 : Heap.counted g1) (hJ2 : Heap.counted g2)
    (hgrow : Heap.grows_but pr g1 g2)
    (hm : ret.type_ = MATRIX_VALUE → ∀ q, ret.ptr_ = some q → g1.cell q = none)
    (hsh : ret.type_ ≠ MATRIX_VALUE → ∀ q c0 c2, ret.ptr_ = some q → g1.cell q = some c0 →
      g2.cell q = some c2 → c0.ref_count + 1 ≤ c2.ref_count) :
    ∃ v0 g3, ret.clear g2 = some (v0, g3) ∧ Heap.counted g3 ∧ Heap.grows_but pr g1 g3 ∧
      List.length g3 = List.length g2 ∧
      (∀ q, ret.ptr_ ≠ some q → g3.cell q = g2.cell q) ∧
      (ret.type_ ≠ MATRIX_VALUE → ∀ q c2, ret.ptr_ = some q → g2.cell q = some c2 →
        2 ≤ c2.ref_count → g3.cell q = some ⟨c2.ref_count - 1, c2.obj⟩) := by
  obtain ⟨v0, g3, hclear, hlen, -, -, hne, heq⟩ := Value.clear_cells hret
  refine ⟨v0, g3, hclear, ?_, ?_, hlen, hne, ?_⟩
  · intro q c hc
    by_cases hq : ret.ptr_ = some q
    · obtain ⟨c2, hc2, -⟩ := Value.cell_of_ptr hret hq
      rw [heq q c2 hq hc2] at hc
      split_ifs at hc with h1
      cases hc
      simp only
      have : ¬ c2.ref_count ≤ 1 := fun h => h1 (Or.inr h)
      omega
    · rw [hne q hq] at hc
      exact hJ2 q c hc
  · intro q c0 hc0
    obtain ⟨c2, hc2, hle, hty, hobj⟩ := hgrow q c0 hc0
    by_cases hq : ret.ptr_ = some q
    · have hnm : ret.type_ ≠ MATRIX_VALUE := by
        intro e
        rw [hm e q hq] at hc0
        cases hc0
      have h1 := hsh hnm q c0 c2 hq hc0 hc2
      rw [heq q c2 hq hc2]
      rw [if_neg (by
        intro h
        rcases h with h | h
        · exact hnm h
        · have := hJ1 q c0 hc0
          have := Nat.le_trans h1 h
          omega)]
      refine ⟨_, rfl, ?_, hty, hobj⟩
      simp only
      omega
    · rw [hne q hq]
      exact ⟨c2, hc2, hle, hty, hobj⟩
  · intro hnm q c2 hq hc2 h2
    rw [heq q c2 hq hc2, if_neg]
    intro h
    rcases h with h | h
    · exact hnm h
    · omega

/-- One turn of the loop of `set_all_ok` on a key of `val`. -/
theorem Object.set_all_ok_turn_spec
    {call : Heap → ObjectId → Value → Option (Value × Heap)} {o : Object} {r : ObjectId}
    {val : Value} {h g : Heap} {pv : Addr} {nv : Nat} {entries : List (String × Value)}
    {param s : Value} {key : String} (ok : Bool) (calls : List (ObjectId × Bool))
    (hroot : o.root_ = some r) (hv : val.is_hash = true) (hp : val.ptr_ = some pv)
    (hpv : h.cell pv = some ⟨nv, Obj.hash entries⟩)
    (hent : ∀ e ∈ entries, e.2.valid h = true)
    (hcall : ∀ k child, o.children_.lookup k = some child → Object.call_ok call child)
    (hinv : Object.batch_inv h g param) (hl : entries.lookup key = some s) :
    (o.children_.lookup key = none →
      Object.set_all_ok_turn call o val (param, ok, calls, g) key
        = some (param, false, calls, g)) ∧
    (∀ child, o.children_.lookup key = some child →
      ∃ (t : BatchCall) (g3 : Heap), t.key = key ∧ t.child = child ∧
        BatchCall.ok call o entries h t ∧
        Object.set_all_ok_turn call o val (param, ok, calls, g) key
          = some (t.param, !t.ret.is_error && ok, calls ++ [(child, t.ret.is_error)], g3) ∧
        Object.batch_inv h g3 t.param) := by
  constructor
  · intro hc
    simp [Object.set_all_ok_turn, hc]
  · intro child hc
    obtain ⟨param1, g1, hget, hinv1, hpt, hal, -, -, -⟩ :=
      Object.batch_get hinv hv hp hpv hent hl
    obtain ⟨ret, g2, hcl, hretv, hJ2, hgrow, hfresh, hshared⟩ :=
      hcall key child hc g1 param1 hinv1.1 hinv1.2.2.1
    obtain ⟨v0, g3, hclear, hJ3, hgrow3, -, -, -⟩ :=
      Value.clear_temp hretv hinv1.1 hJ2 hgrow hfresh hshared
    refine ⟨⟨key, child, g1, param1, ret, g2⟩, g3, rfl, rfl, ⟨hc, hcl, s, hl, hpt, hal⟩, ?_,
      Object.batch_inv_grows hinv1 hgrow3 hJ3 (fun q e => by cases e)⟩
    simp [Object.set_all_ok_turn, hc, hget, hroot, hcl, hclear]

/-- The loop of `set_all_ok` over keys of `val`. -/
theorem Object.set_all_ok_loop
    {call : Heap → ObjectId → Value → Option (Value × Heap)} {o : Object} {r : ObjectId}
    {val : Value} {h : Heap} {pv : Addr} {nv : Nat} {entries : List (String × Value)}
    (hroot : o.root_ = some r) (hv : val.is_hash = true) (hp : val.ptr_ = some pv)
    (hpv : h.cell pv = some ⟨nv, Obj.hash entries⟩)
    (hent : ∀ e ∈ entries, e.2.valid h = true)
    (hcall : ∀ k child, o.children_.lookup k = some child → Object.call_ok call child) :
    ∀ (ks : List String), (∀ k ∈ ks, ∃ s, entries.lookup k = some s) →
      ∀ (param : Value) (ok : Bool) (calls : List (ObjectId × Bool)) (g : Heap),
        Object.batch_inv h g param →
        ∃ (param1 : Value) (ok1 : Bool) (g1 : Heap) (trace : List BatchCall),
          ks.foldlM (Object.set_all_ok_turn call o val) (param, ok, calls, g)
            = some (param1, ok1, calls ++ trace.map (fun t => (t.child, t.ret.is_error)), g1) ∧
          Object.batch_inv h g1 param1 ∧
          trace.map BatchCall.key = ks.filter (fun k => (o.children_.lookup k).isSome) ∧
          (∀ t ∈ trace, BatchCall.ok call o entries h t) ∧
          (ok1 = true ↔ ok = true ∧ (∀ k ∈ ks, (o.children_.lookup k).isSome = true) ∧
            ∀ t ∈ trace, t.ret.is_error = false) := by
  intro ks
  induction ks with
  | nil =>
    intro _ param ok calls g hinv
    exact ⟨param, ok, g, [], by simp, hinv, by simp, by simp, by simp⟩
  | cons key rest ih =>
    intro hks param ok calls g hinv
    obtain ⟨s, hl⟩ := hks key (List.mem_cons_self _ _)
    have hrest : ∀ k ∈ rest, ∃ s, entries.lookup k = some s :=
      fun k hk => hks k (List.mem_cons_of_mem _ hk)
    obtain ⟨hnone, hsome⟩ :=
      Object.set_all_ok_turn_spec ok calls hroot hv hp hpv hent hcall hinv hl
    cases hc : o.children_.lookup key with
    | none =>
      obtain ⟨param1, ok1, g1, trace, hfold, hinv1, hkeys, htr, hok⟩ :=
        ih hrest param false calls g hinv
      refine ⟨param1, ok1, g1, trace, ?_, hinv1, ?_, htr, ?_⟩
      · simp [List.foldlM_cons, hnone hc, hfold]
      · simp [List.filter_cons, hc, hkeys]
      · constructor
        · intro h1
          have := (hok.mp h1).1
          cases this
        · rintro ⟨-, h2, -⟩
          have := h2 key (List.mem_cons_self _ _)
          rw [hc] at this
          cases this
    | some child =>
      obtain ⟨t, g3, htk, htc, htok, hturn, hinv3⟩ := hsome child hc
      obtain ⟨param1, ok1, g1, trace, hfold, hinv1, hkeys, htr, hok⟩ :=
        ih hrest t.param (!t.ret.is_error && ok) (calls ++ [(child, t.ret.is_error)]) g3 hinv3
      refine ⟨param1, ok1, g1, t :: trace, ?_, hinv1, ?_, ?_, ?_⟩
      · simp [List.foldlM_cons, hturn, hfold, htc]
      · simp [List.filter_cons, hc, hkeys, htk]
      · intro t1 ht1
        rcases List.mem_cons.mp ht1 with e | e
        · rw [e]
          exact htok
        · exact htr t1 e
      · rw [hok]
        constructor
        · rintro ⟨h1, h2, h3⟩
          have h1a : t.ret.is_error = false ∧ ok = true := by simpa using h1
          refine ⟨h1a.2, ?_, ?_⟩
          · intro k hk
            rcases List.mem_cons.mp hk with e | e
            · rw [e, hc]
              rfl
            · exact h2 k e
          · intro t1 ht1
            rcases List.mem_cons.mp ht1 with e | e
            · rw [e]
              exact h1a.1
            · exact h3 t1 e
        · rintro ⟨h1, h2, h3⟩
          refine ⟨?_, fun k hk => h2 k (List.mem_cons_of_mem _ hk),
            fun t1 ht1 => h3 t1 (List.mem_cons_of_mem _ ht1)⟩
          have := h3 t (List.mem_cons_self _ _)
          simp [this, h1]


/-- The children called along a trace: one for each key that names a child, in order. -/
theorem BatchCall.children_of_trace {o : Object} :
    ∀ (ks : List String) (trace : List BatchCall),
      trace.map BatchCall.key = ks.filter (fun k => (o.children_.lookup k).isSome) →
      (∀ t ∈ trace, o.children_.lookup t.key = some t.child) →
      trace.map BatchCall.child = ks.filterMap (fun k => o.children_.lookup k) := by
  intro ks
  induction ks with
  | nil =>
    intro trace hk _
    simp at hk
    simp [hk]
  | cons key rest ih =>
    intro trace hk htr
    cases hc : o.children_.lookup key with
    | none =>
      rw [List.filter_cons, hc] at hk
      rw [List.filterMap_cons, hc]
      exact ih trace hk htr
    | some child =>
      rw [List.filter_cons, hc] at hk
      rw [List.filterMap_cons, hc]
      cases trace with
      | nil => simp at hk
      | cons t rest1 =>
        simp only [List.map_cons, Option.isSome_some, if_true, List.cons.injEq] at hk
        obtain ⟨hk1, hk2⟩ := hk
        have h1 := htr t (List.mem_cons_self _ _)
        rw [hk1, hc] at h1
        simp only [List.map_cons, List.cons.injEq]
        exact ⟨(Option.some.inj h1).symm,
          ih rest1 hk2 (fun t1 ht1 => htr t1 (List.mem_cons_of_mem _ ht1))⟩

/-- Let the union of the storage of the local `param` hold no address of a live object.  On
a node that has a root, for calls that return, `set_all_ok(val)` returns, and it returns
true if and only if every key of the Hash `val` names a child and no call returned an
Error; the calls that it makes are, in the order of the keys, one call for each key that
names a child, on this child and with the Value that `val` holds under the key, whatever the
earlier calls returned; without a key (an empty Hash, a `val` that is not a Hash) it returns
true, calls nothing and leaves the heap as it is. -/
theorem Object.set_all_ok_spec (bits : Slot)
    (call : Heap → ObjectId → Value → Option (Value × Heap)) (w : World) (h : Heap)
    (self r : ObjectId) (o : Object) (val : Value)
    (hbits : (Value.new_on bits).ptr_ = none)
    (ho : w.get self = some o) (hroot : o.root_ = some r) (hJ : Heap.counted h)
    (hval : val.is_hash = true → ∃ pv nv entries, val.ptr_ = some pv ∧
      h.cell pv = some ⟨nv, Obj.hash entries⟩ ∧ ∀ e ∈ entries, e.2.valid h = true)
    (hcall : ∀ k child, o.children_.lookup k = some child → Object.call_ok call child) :
    ∃ (entries : List (String × Value)) (trace : List BatchCall) (ok : Bool) (h1 : Heap),
      (if val.is_hash = true then
          ∃ pv nv, val.ptr_ = some pv ∧ h.cell pv = some ⟨nv, Obj.hash entries⟩
        else entries = []) ∧
      val.begin h = some (entries.map Prod.fst) ∧
      Object.set_all_ok bits call w h self val
        = some (ok, trace.map (fun t => (t.child, t.ret.is_error)), h1) ∧
      trace.map BatchCall.key
        = (entries.map Prod.fst).filter (fun k => (o.children_.lookup k).isSome) ∧
      trace.map BatchCall.child
        = (entries.map Prod.fst).filterMap (fun k => o.children_.lookup k) ∧
      (∀ t ∈ trace, BatchCall.ok call o entries h t) ∧
      (ok = true ↔ (∀ k ∈ entries.map Prod.fst, (o.children_.lookup k).isSome = true) ∧
        ∀ t ∈ trace, t.ret.is_error = false) ∧
      (entries = [] → ok = true ∧ trace = [] ∧ h1 = h) := by
  by_cases hv : val.is_hash = true
  · obtain ⟨pv, nv, entries, hp, hpv, hent⟩ := hval hv
    have hbegin : val.begin h = some (entries.map Prod.fst) := by
      simp [Value.begin, hv, hp, hpv]
    have hend : val.end_ h = some [] := by
      simp [Value.end_, hv, hp, hpv]
    by_cases hnil : entries = []
    · subst hnil
      refine ⟨[], [], true, h, ?_, hbegin, ?_, by simp, by simp, by simp, by simp, by simp⟩
      · rw [if_pos hv]
        exact ⟨pv, nv, hp, hpv⟩
      · simp [Object.set_all_ok, ho, hbegin, hend, Value.clear, Value.new_on]
    · have hinv : Object.batch_inv h h (Value.new_on bits) := by
        refine ⟨hJ, fun q c0 hq => ⟨c0.ref_count, hq⟩, ?_, ?_, ?_⟩
        · have e : (Value.new_on bits).valid h = ((Value.new_on bits).ptr_ == none) := rfl
          rw [e, hbits]
          rfl
        · intro _ q c hq
          rw [hbits] at hq
          cases hq
        · intro e
          cases e
      obtain ⟨param1, ok1, g1, trace, hfold, hinv1, hkeys, htr, hok⟩ :=
        Object.set_all_ok_loop hroot hv hp hpv hent hcall (entries.map Prod.fst)
          (fun k hk => by
            obtain ⟨s, hs, -⟩ := lookup_of_mem_keys hk
            exact ⟨s, hs⟩)
          (Value.new_on bits) true [] h hinv
      obtain ⟨v0, h1, hclear, -⟩ := Value.clear_counted hinv1.2.2.1 hinv1.1 hinv1.2.2.2.1
      refine ⟨entries, trace, ok1, h1, ?_, hbegin, ?_, hkeys,
        BatchCall.children_of_trace _ trace hkeys (fun t ht => (htr t ht).1), htr, ?_,
        fun e => absurd e hnil⟩
      · rw [if_pos hv]
        exact ⟨pv, nv, hp, hpv⟩
      · simp only [List.nil_append] at hfold
        simp [Object.set_all_ok, ho, hbegin, hend, hfold, hclear]
      · rw [hok]
        simp
  · have hv1 : val.is_hash = false := by simpa using hv
    have hbegin : val.begin h = some [] := by
      simp [Value.begin, hv1, gEmptyHash_keys]
    have hend : val.end_ h = some [] := by
      simp [Value.end_, hv1]
    refine ⟨[], [], true, h, ?_, hbegin, ?_, by simp, by simp, by simp, by simp, by simp⟩
    · rw [if_neg hv]
    · simp [Object.set_all_ok, ho, hbegin, hend, Value.clear, Value.new_on]

/-- What `THash::set` does to a live table on a heap whose objects are all referred to: the
table at `p` gets the copy `c` of `x` under `key`; every other object stays, referred to at
least as often; the payload that `c` shares is referred to at least twice, and the Matrix of
a `c` that is a Matrix is new. -/
theorem Value.hash_set_cells {g : Heap} {x : Value} {p : Addr} {n : Nat}
    {entries : List (String × Value)} {bits : Slot} (key : String)
    (hbits : (Value.new_on bits).ptr_ = none)
    (hc : g.cell p = some ⟨n, Obj.hash entries⟩) (hx : x.valid g = true)
    (hJ : Heap.counted g) :
    ∃ c n1 g2, THash_set_on bits g (some p) key x = some g2 ∧
      g2.cell p = some ⟨n1, Obj.hash (entries_set entries key c)⟩ ∧
      c.valid g2 = true ∧ x.valid g2 = true ∧
      c.type_ = (if x.type_ = EMPTY_VALUE then NIL_VALUE else x.type_) ∧
      (x.type_ ≠ EMPTY_VALUE → Value.alike g2 c g2 x) ∧
      Heap.counted g2 ∧ Heap.grows_but (some p) g g2 ∧
      (c.type_ ≠ MATRIX_VALUE → c.ptr_ = x.ptr_) ∧ Value.held g2 c ∧
      (c.type_ = MATRIX_VALUE → c.ptr_ = some (List.length g)) := by
  have hnew : (Value.new_on bits).valid g = true := by
    have e : (Value.new_on bits).valid g = ((Value.new_on bits).ptr_ == none) := rfl
    rw [e, hbits]
    rfl
  have hown : x.type_ = MATRIX_VALUE → (Value.new_on bits).ptr_ ≠ x.ptr_ := by
    intro e
    rcases Value.valid_cases hx with ⟨hn, -⟩ | ⟨q, c0, hu, -, -⟩
    · rcases hn with e1 | e1 | e1 | e1 <;> rw [e1] at e <;> cases e
    · have hxp : x.ptr_ = some q := by simp [Value.ptr_, hu]
      rw [hbits, hxp]
      exact fun e1 => by cases e1
  have hheld : Value.held g (Value.new_on bits) := fun _ q c e => by
    rw [hbits] at e
    cases e
  obtain ⟨c, g1, hcopy, hcv, hct, hal, hJ1, hlen, hkeep, hcp, hcc, hcm⟩ :=
    Value.assign_cells hnew hx hown hJ hheld
  have hgrow1 : Heap.grows g g1 := by
    intro q c0 hq
    obtain ⟨m, hm, hle, -⟩ := hkeep q c0 hq (fun e => by cases e)
    exact ⟨_, hm, hle (fun e => by rw [hbits] at e; cases e), rfl, fun _ => rfl⟩
  obtain ⟨n1, hn1, hp1⟩ := Heap.grows_cell hgrow1 hc
  simp only at hp1
  have hlt : p < g1.length := Heap.cell_lt hp1
  have hcell2 : (g1.write p ⟨n1, Obj.hash (entries_set entries key c)⟩).cell p
      = some ⟨n1, Obj.hash (entries_set entries key c)⟩ := by
    simp [Heap.cell_write, hlt]
  have hother : ∀ q, q ≠ p →
      (g1.write p ⟨n1, Obj.hash (entries_set entries key c)⟩).cell q = g1.cell q := by
    intro q hq
    have hpq : p ≠ q := fun e => hq e.symm
    rw [Heap.cell_write, if_neg hpq]
  have hgrow2 : Heap.grows_but (some p) g1
      (g1.write p ⟨n1, Obj.hash (entries_set entries key c)⟩) := by
    intro q c0 hq
    by_cases hqp : q = p
    · subst hqp
      rw [hp1] at hq
      cases hq
      exact ⟨_, hcell2, Nat.le_refl _, rfl, fun e => absurd rfl e⟩
    · rw [hother q hqp]
      exact ⟨c0, hq, Nat.le_refl _, rfl, fun _ => rfl⟩
  have hJ2 : Heap.counted (g1.write p ⟨n1, Obj.hash (entries_set entries key c)⟩) := by
    intro q c2 hq
    by_cases hqp : q = p
    · subst hqp
      rw [hcell2] at hq
      cases hq
      have := hJ q _ hc
      exact Nat.le_trans this hn1
    · rw [hother q hqp] at hq
      exact hJ1 q c2 hq
  have hxv1 : x.valid g1 = true := Value.valid_of_grows_but hgrow1 hx
  refine ⟨c, n1, _, ?_, hcell2, Value.valid_of_grows_but hgrow2 hcv,
    Value.valid_of_grows_but hgrow2 hxv1, hct, ?_, hJ2,
    Heap.grows_but_trans (Heap.grows_but_of_grows hgrow1) hgrow2, hcp, ?_, hcm⟩
  · simp [THash_set_on, Value.copy_on, hcopy, hp1]
  · intro hne
    -- both Values are read in the heap after the write
    have hsame : ∀ (v : Value), v.valid g1 = true →
        (¬ no_payload v.type_ →
          v.payload (g1.write p ⟨n1, Obj.hash (entries_set entries key c)⟩)
            = (if v.ptr_ = some p then some (Obj.hash (entries_set entries key c))
               else v.payload g1)) := by
      intro v hv _
      rcases Value.valid_cases hv with ⟨hn, hnone⟩ | ⟨q, c0, hu, hq, -⟩
      · simp [Value.payload, hnone]
      · have hvp : v.ptr_ = some q := by simp [Value.ptr_, hu]
        by_cases hqp : q = p
        · subst hqp
          simp [Value.payload, hvp, hcell2]
        · have : some q ≠ some p := fun e => hqp (Option.some.inj e)
          simp [Value.payload, hvp, hother q hqp, this]
    obtain ⟨ht, hr, hpay⟩ := hal hne
    refine ⟨ht, hr, fun hnp => ?_⟩
    obtain ⟨h1, h2⟩ := hpay hnp
    have hxnp : ¬ no_payload x.type_ := by rw [← ht]; exact hnp
    have hcx : c.ptr_ = x.ptr_ ∨ (c.ptr_ ≠ some p ∧ x.ptr_ ≠ some p) := by
      by_cases hm : c.type_ = MATRIX_VALUE
      · right
        have hxm : x.type_ = MATRIX_VALUE := by rw [← ht]; exact hm
        constructor
        · rw [hcm hm]
          intro e
          have := Heap.cell_lt hc
          cases e
          exact absurd this (Nat.lt_irrefl _)
        · intro e
          obtain ⟨c0, hc0, ht0⟩ := Value.cell_of_ptr hx e
          rw [hc] at hc0
          cases hc0
          rw [hxm] at ht0
          cases ht0
      · exact Or.inl (hcp hm)
    rw [hsame c hcv hnp, hsame x hxv1 hxnp]
    rcases hcx with e | ⟨e1, e2⟩
    · rw [e]
      split_ifs with hxp
      · exact ⟨rfl, rfl⟩
      · obtain ⟨-, -, hpx⟩ := Value.alike_of_grows hgrow1 hx
        obtain ⟨h3, -⟩ := hpx hxnp
        exact ⟨h1.trans h3.symm, h2⟩
    · rw [if_neg e1, if_neg e2]
      obtain ⟨-, -, hpx⟩ := Value.alike_of_grows hgrow1 hx
      obtain ⟨h3, -⟩ := hpx hxnp
      exact ⟨h1.trans h3.symm, h2⟩
  · intro hnm q c2 hq hq2
    by_cases hqp : q = p
    · subst hqp
      rw [hcell2] at hq2
      cases hq2
      have := hcc hnm q _ hq hp1
      exact this
    · rw [hother q hqp] at hq2
      exact hcc hnm q c2 hq hq2


/-- A valid Value stays valid when the object behind its pointer stays. -/
theorem Value.valid_of_kept_ptr {g g1 : Heap} {x : Value} (hx : x.valid g = true)
    (hkeep : ∀ q c0, x.ptr_ = some q → g.cell q = some c0 →
      ∃ n, g1.cell q = some ⟨n, c0.obj⟩) : x.valid g1 = true := by
  rcases Value.valid_cases hx with ⟨hn, hnone⟩ | ⟨p, c, hu, hc, ht⟩
  · obtain ⟨t, u⟩ := x
    rcases hn with e | e | e | e <;> simp only at e <;> subst e <;>
      simpa [Value.valid] using hnone
  · have hxp : x.ptr_ = some p := by simp [Value.ptr_, hu]
    obtain ⟨n, hn⟩ := hkeep p c hxp hc
    exact Value.valid_intro hu hn ht

/-- The end of a turn of `from_hash`: the Value `ret`, a temporary that is valid in the heap
`ga`, is entered under `key` in the table of `*result` and destroyed.  The heap `gb` is the
one before the temporary was made. -/
theorem Object.from_hash_tail {src : String → Heap → Value → Prop} {h gb ga : Heap}
    {param ret : Value} {pr : Addr} {nr : Nat} {rentries : List (String × Value)}
    {bits : Slot} (key : String) (hbits : (Value.new_on bits).ptr_ = none)
    (hinv : Object.batch_inv h gb param) (hJa : Heap.counted ga)
    (hgrow : Heap.grows gb ga) (hret : ret.valid ga = true)
    (hm : ret.type_ = MATRIX_VALUE → ∀ q, ret.ptr_ = some q → gb.cell q = none)
    (hsh : ret.type_ ≠ MATRIX_VALUE → ∀ q c0 c1, ret.ptr_ = some q → gb.cell q = some c0 →
      ga.cell q = some c1 → c0.ref_count + 1 ≤ c1.ref_count)
    (hprh : h.cell pr = none) (hprc : ga.cell pr = some ⟨nr, Obj.hash rentries⟩)
    (hprb : ret.ptr_ = some pr → ∃ c0, gb.cell pr = some c0)
    (hold : ∀ e ∈ rentries, ∃ gs v, src e.1 gs v ∧ Object.entry_of pr gb e.2 gs v)
    (hD : param.type_ = MATRIX_VALUE → ∀ e ∈ rentries, e.2.type_ = MATRIX_VALUE →
      e.2.ptr_ ≠ param.ptr_) :
    ∃ c nr3 g2 v0 g3, THash_set_on bits ga (some pr) key ret = some g2 ∧
      ret.clear g2 = some (v0, g3) ∧ Object.batch_inv h g3 param ∧
      g3.cell pr = some ⟨nr3, Obj.hash (entries_set rentries key c)⟩ ∧
      Object.entry_of pr g3 c ga ret ∧
      (∀ e ∈ rentries, ∃ gs v, src e.1 gs v ∧ Object.entry_of pr g3 e.2 gs v) ∧
      (param.type_ = MATRIX_VALUE → ∀ e ∈ entries_set rentries key c,
        e.2.type_ = MATRIX_VALUE → e.2.ptr_ ≠ param.ptr_) := by
  obtain ⟨c, n1, g2, hset, hcell2, hcv2, hretv2, hct, hal2, hJ2, hgrow2, hcp, hcheld, hcm⟩ :=
    Value.hash_set_cells key hbits hprc hret hJa
  have hgrowb2 : Heap.grows_but (some pr) gb g2 :=
    Heap.grows_but_trans (Heap.grows_but_of_grows hgrow) hgrow2
  have hsh2 : ret.type_ ≠ MATRIX_VALUE → ∀ q c0 c2, ret.ptr_ = some q →
      gb.cell q = some c0 → g2.cell q = some c2 → c0.ref_count + 1 ≤ c2.ref_count := by
    intro hnm q c0 c2 hq hc0 hc2
    obtain ⟨c1, hc1, -, -, -⟩ := hgrow q c0 hc0
    have h1 := hsh hnm q c0 c1 hq hc0 hc1
    obtain ⟨c2a, hc2a, hle, -, -⟩ := hgrow2 q c1 hc1
    rw [hc2] at hc2a
    cases hc2a
    omega
  obtain ⟨v0, g3, hclear, hJ3, hgrow3, -, hne3, hdec3⟩ :=
    Value.clear_temp hretv2 hinv.1 hJ2 hgrowb2 hm hsh2
  have hcret : c.type_ ≠ MATRIX_VALUE → ret.type_ ≠ MATRIX_VALUE := by
    intro hnm e
    rw [hct, e] at hnm
    exact hnm (by decide)
  have hkeepc : ∀ q c0, c.ptr_ = some q → g2.cell q = some c0 →
      ∃ n, g3.cell q = some ⟨n, c0.obj⟩ := by
    intro q c0 hcq hc0
    by_cases hq : ret.ptr_ = some q
    · have hnm : c.type_ ≠ MATRIX_VALUE := by
        intro e
        rw [hcm e] at hcq
        cases hcq
        obtain ⟨c1, hc1, -⟩ := Value.cell_of_ptr hret hq
        exact absurd (Heap.cell_lt hc1) (Nat.lt_irrefl _)
      exact ⟨_, hdec3 (hcret hnm) q c0 hq hc0 (hcheld hnm q c0 hcq hc0)⟩
    · exact ⟨c0.ref_count, by rw [hne3 q hq, hc0]⟩
  have hcv3 : c.valid g3 = true := Value.valid_of_kept_ptr hcv2 hkeepc
  have hpr3 : ∃ nr3, g3.cell pr = some ⟨nr3, Obj.hash (entries_set rentries key c)⟩ := by
    by_cases hq : ret.ptr_ = some pr
    · obtain ⟨c0, hc0⟩ := hprb hq
      have hnm : ret.type_ ≠ MATRIX_VALUE := by
        intro e
        rw [hm e pr hq] at hc0
        cases hc0
      have h1 := hsh2 hnm pr c0 _ hq hc0 hcell2
      have h2 := hinv.1 pr c0 hc0
      simp only at h1
      exact ⟨_, hdec3 hnm pr _ hq hcell2 (by simp only; omega)⟩
    · exact ⟨n1, by rw [hne3 pr hq, hcell2]⟩
  obtain ⟨nr3, hcell3⟩ := hpr3
  refine ⟨c, nr3, g2, v0, g3, hset, hclear,
    Object.batch_inv_grows hinv hgrow3 hJ3 (fun q e => by cases e; exact hprh), hcell3,
    ⟨hcv3, hct, ?_⟩, ?_, ?_⟩
  · intro hne hcpr
    have hretpr : ret.ptr_ ≠ some pr := by
      by_cases hcmx : c.type_ = MATRIX_VALUE
      · intro e
        obtain ⟨c1, hc1, ht1⟩ := Value.cell_of_ptr hret e
        rw [hprc] at hc1
        cases hc1
        rw [hct, if_neg hne] at hcmx
        rw [hcmx] at ht1
        cases ht1
      · rw [← hcp hcmx]
        exact hcpr
    exact Value.alike_trans (Value.alike_of_kept hcv2 hkeepc)
      (Value.alike_trans (hal2 hne) (Value.alike_of_grows_but hgrow2 hret (Or.inl hretpr)))
  · intro e he
    obtain ⟨gs, v, hsrc, hxv, hxt, hxal⟩ := hold e he
    refine ⟨gs, v, hsrc, Value.valid_of_grows_but hgrow3 hxv, hxt, ?_⟩
    intro hne hpne
    exact Value.alike_trans (Value.alike_of_grows_but hgrow3 hxv (Or.inl hpne))
      (hxal hne hpne)
  · intro hpm e he hem
    rcases mem_entries_set he with h1 | h1
    · exact hD hpm e h1 hem
    · rw [h1] at hem ⊢
      rw [hcm hem]
      intro heq
      obtain ⟨c1, hc1, -⟩ :=
        Value.cell_of_ptr (Value.valid_of_grows_but hgrow hinv.2.2.1) heq.symm
      exact absurd (Heap.cell_lt hc1) (Nat.lt_irrefl _)

theorem lookup_none_of_not_mem_keys {α : Type} {entries : List (String × α)} {key : String}
    (hk : key ∉ entries.map Prod.fst) : entries.lookup key = none := by
  cases hl : entries.lookup key with
  | none => rfl
  | some s =>
    exact absurd (List.mem_map_of_mem Prod.fst (mem_of_lookup hl)) hk

/-- The turn of `val.get(key, &param)` keeps what the loop of `from_hash` needs of
`*result`. -/
theorem Object.result_inv_get {src : String → Heap → Value → Prop} {h g g1 : Heap}
    {param param1 result : Value} {done : List String}
    (hpar : param.valid g = true)
    (hres : Object.result_inv src h g param result done)
    (hpm : param1.type_ = MATRIX_VALUE → param1.ptr_ = some (List.length g))
    (hkeep : ∀ q c0, g.cell q = some c0 →
      (param.type_ = MATRIX_VALUE → param.ptr_ ≠ some q) →
      ∃ n, g1.cell q = some ⟨n, c0.obj⟩ ∧ (param.ptr_ ≠ some q → c0.ref_count ≤ n)) :
    Object.result_inv src h g1 param1 result done := by
  rcases hres with hnil | ⟨pr, nr, rentries, hr, hprh, hprc, hkeys, hent, hD⟩
  · exact Or.inl hnil
  · right
    have hne : ∀ (x : Value), x.valid g = true →
        (x.type_ = MATRIX_VALUE → param.type_ = MATRIX_VALUE → x.ptr_ ≠ param.ptr_) →
        ∀ q c0, x.ptr_ = some q → g.cell q = some c0 → ∃ n, g1.cell q = some ⟨n, c0.obj⟩ := by
      intro x hx hxd q c0 hxq hq
      have : param.type_ = MATRIX_VALUE → param.ptr_ ≠ some q := by
        intro hpmx e
        by_cases hxm : x.type_ = MATRIX_VALUE
        · exact hxd hxm hpmx (hxq.trans e.symm)
        · exact Value.ptr_ne_of_matrix hx hpar hpmx hxm (hxq.trans e.symm)
      obtain ⟨n, hn, -⟩ := hkeep q c0 hq this
      exact ⟨n, hn⟩
    have hprne : param.type_ = MATRIX_VALUE → param.ptr_ ≠ some pr := by
      intro hpmx e
      obtain ⟨c, hc, ht⟩ := Value.cell_of_ptr hpar e
      rw [hprc] at hc
      cases hc
      rw [hpmx] at ht
      cases ht
    obtain ⟨n1, hn1, -⟩ := hkeep pr _ hprc hprne
    refine ⟨pr, n1, rentries, hr, hprh, hn1, hkeys, ?_, ?_⟩
    · intro e he
      obtain ⟨gs, v, hsrc, hxv, hxt, hxal⟩ := hent e he
      have hk := hne e.2 hxv (fun hxm hpmx => hD hpmx e he hxm)
      refine ⟨gs, v, hsrc, Value.valid_of_kept_ptr hxv hk, hxt, ?_⟩
      intro hnev hpne
      exact Value.alike_trans (Value.alike_of_kept hxv hk) (hxal hnev hpne)
    · intro hp1 e he hem heq
      obtain ⟨gs, v, hsrc, hxv, -, -⟩ := hent e he
      rw [hpm hp1] at heq
      obtain ⟨c, hc, -⟩ := Value.cell_of_ptr hxv heq
      exact absurd (Heap.cell_lt hc) (Nat.lt_irrefl _)

/-- The statement `result->set(key, ret)` of a turn of `from_hash`, with the destruction of
the temporary `ret`, which is valid in the heap `g2` and was made from the heap `g1`. -/
theorem Object.from_hash_enter {src : String → Heap → Value → Prop} {h g1 g2 : Heap}
    {param ret result : Value} {done : List String} {key : String} {bits : Slot}
    (hbits : (Value.new_on bits).ptr_ = none) (hinv : Object.batch_inv h g1 param)
    (hres : Object.result_inv src h g1 param result done) (hkd : key ∉ done)
    (hJ2 : Heap.counted g2) (hgrow : Heap.grows g1 g2) (hret : ret.valid g2 = true)
    (hm : ret.type_ = MATRIX_VALUE → ∀ q, ret.ptr_ = some q → g1.cell q = none)
    (hsh : ret.type_ ≠ MATRIX_VALUE → ∀ q c0 c1, ret.ptr_ = some q → g1.cell q = some c0 →
      g2.cell q = some c1 → c0.ref_count + 1 ≤ c1.ref_count)
    (hsrc : src key g2 ret) :
    ∃ result1 g2a v0 g3, result.set_key_on bits g2 key ret = some (result1, g2a) ∧
      ret.clear g2a = some (v0, g3) ∧ Object.batch_inv h g3 param ∧
      Object.result_inv src h g3 param result1 (done ++ [key]) := by
  have hinv2 : Object.batch_inv h g2 param :=
    Object.batch_inv_grows hinv hgrow hJ2 (fun q e => by cases e)
  rcases hres with ⟨hdone, hnil⟩ | ⟨pr, nr, rentries, hr, hprh, hprc, hkeys, hent, hD⟩
  · -- the first key: the table is made
    subst hdone
    have hprc : Heap.cell (g2 ++ [some ⟨1, Obj.hash []⟩]) (List.length g2)
        = some ⟨1, Obj.hash []⟩ := by
      have := Heap.cell_alloc g2 (Obj.hash []) (List.length g2)
      simpa [Heap.alloc] using this
    have hother : ∀ q, q ≠ List.length g2 →
        Heap.cell (g2 ++ [some ⟨1, Obj.hash []⟩]) q = g2.cell q := by
      intro q hq
      have := Heap.cell_alloc g2 (Obj.hash []) q
      simpa [Heap.alloc, hq] using this
    have hold : ∀ q c0, g2.cell q = some c0 →
        Heap.cell (g2 ++ [some ⟨1, Obj.hash []⟩]) q = some c0 := by
      intro q c0 hq
      rw [hother q (Nat.ne_of_lt (Heap.cell_lt hq)), hq]
    have hgrowa : Heap.grows g2 (g2 ++ [some ⟨1, Obj.hash []⟩]) :=
      fun q c0 hq => ⟨c0, hold q c0 hq, Nat.le_refl _, rfl, fun _ => rfl⟩
    have hJa : Heap.counted (g2 ++ [some ⟨1, Obj.hash []⟩]) := by
      intro q c hq
      by_cases hql : q = List.length g2
      · subst hql
        rw [hprc] at hq
        cases hq
        exact Nat.le_refl _
      · rw [hother q hql] at hq
        exact hJ2 q c hq
    have hreta : ret.valid (g2 ++ [some ⟨1, Obj.hash []⟩]) = true :=
      Value.valid_of_grows_but hgrowa hret
    have hsha : ret.type_ ≠ MATRIX_VALUE → ∀ q c0 c1, ret.ptr_ = some q →
        g1.cell q = some c0 → Heap.cell (g2 ++ [some ⟨1, Obj.hash []⟩]) q = some c1 →
        c0.ref_count + 1 ≤ c1.ref_count := by
      intro hnm q c0 c1 hq hc0 hc1
      obtain ⟨c2, hc2, -⟩ := Value.cell_of_ptr hret hq
      rw [hold q c2 hc2] at hc1
      have e := Option.some.inj hc1
      rw [← e]
      exact hsh hnm q c0 c2 hq hc0 hc2
    have hprb : ret.ptr_ = some (List.length g2) → ∃ c0, g1.cell (List.length g2) = some c0 := by
      intro e
      obtain ⟨c2, hc2, -⟩ := Value.cell_of_ptr hret e
      exact absurd (Heap.cell_lt hc2) (Nat.lt_irrefl _)
    have hold0 : ∀ e ∈ ([] : List (String × Value)),
        ∃ gs v, src e.1 gs v ∧ Object.entry_of (List.length g2) g1 e.2 gs v :=
      fun e he => by cases he
    obtain ⟨c, nr3, g2a, v0, g3, hset, hclear, hinv3, hcell3, hentc, -, hD3⟩ :=
      Object.from_hash_tail key hbits hinv hJa (Heap.grows_but_trans hgrow hgrowa) hreta hm
        hsha
        (Heap.keeps_fresh hinv2.2.1) hprc hprb hold0 (fun _ e he => by cases he)
    refine ⟨⟨HASH_VALUE, Slot.ptr (some (List.length g2))⟩, g2a, v0, g3, ?_, hclear, hinv3,
      Or.inr ⟨List.length g2, nr3, _, rfl, Heap.keeps_fresh hinv2.2.1, hcell3, ?_, ?_, hD3⟩⟩
    · obtain ⟨t, u⟩ := result
      simp only at hnil
      subst hnil
      simp [Value.set_key_on, Value.is_hash, Value.set_type, Value.set_type_without_default,
        Value.clear, Value.set_default, Heap.alloc, Value.ptr_, hset]
    · simp [entries_set]
    · intro e he
      simp only [entries_set, List.mem_singleton] at he
      subst he
      obtain ⟨hcv, hct, hcal⟩ := hentc
      refine ⟨g2, ret, hsrc, hcv, hct, ?_⟩
      intro hne hpne
      exact Value.alike_trans (hcal hne hpne) (Value.alike_of_grows hgrowa hret)
  · -- a later key: the table is there
    obtain ⟨nr2, -, hprc2⟩ := Heap.grows_cell hgrow hprc
    simp only at hprc2
    obtain ⟨c, nr3, g2a, v0, g3, hset, hclear, hinv3, hcell3, hentc, hent3, hD3⟩ :=
      Object.from_hash_tail key hbits hinv hJ2 hgrow hret hm hsh hprh hprc2
        (fun _ => ⟨_, hprc⟩) hent hD
    have hfree : rentries.lookup key = none :=
      lookup_none_of_not_mem_keys (by rw [hkeys]; exact hkd)
    refine ⟨result, g2a, v0, g3, ?_, hclear, hinv3,
      Or.inr ⟨pr, nr3, _, hr, hprh, hcell3, ?_, ?_, hD3⟩⟩
    · subst hr
      simp [Value.set_key_on, Value.is_hash, Value.ptr_, hset]
    · rw [entries_set_of_free _ _ _ hfree, List.map_append, hkeys]
      rfl
    · intro e he
      rw [entries_set_of_free _ _ _ hfree] at he
      rcases List.mem_append.mp he with h1 | h1
      · exact hent3 e h1
      · simp only [List.mem_singleton] at h1
        subst h1
        exact ⟨g2, ret, hsrc, hentc⟩

/-- The temporary built by `ErrorValue`: a new Error, referred to once. -/
theorem ErrorValue_cells (g : Heap) (code : ErrorCode) (m : String) (hJ : Heap.counted g) :
    ErrorValue g code m
      = (⟨ERROR_VALUE, Slot.ptr (some (List.length g))⟩, g ++ [some ⟨1, Obj.error code m⟩]) ∧
    Heap.cell (g ++ [some ⟨1, Obj.error code m⟩]) (List.length g)
      = some ⟨1, Obj.error code m⟩ ∧
    Heap.counted (g ++ [some ⟨1, Obj.error code m⟩]) ∧
    Heap.grows g (g ++ [some ⟨1, Obj.error code m⟩]) ∧
    Value.valid (g ++ [some ⟨1, Obj.error code m⟩])
      ⟨ERROR_VALUE, Slot.ptr (some (List.length g))⟩ = true := by
  have hnew : Heap.cell (g ++ [some ⟨1, Obj.error code m⟩]) (List.length g)
      = some ⟨1, Obj.error code m⟩ := by
    have := Heap.cell_alloc g (Obj.error code m) (List.length g)
    simpa [Heap.alloc] using this
  have hother : ∀ q, q ≠ List.length g →
      Heap.cell (g ++ [some ⟨1, Obj.error code m⟩]) q = g.cell q := by
    intro q hq
    have := Heap.cell_alloc g (Obj.error code m) q
    simpa [Heap.alloc, hq] using this
  refine ⟨rfl, hnew, ?_, ?_, ?_⟩
  · intro q c hq
    by_cases hql : q = List.length g
    · subst hql
      rw [hnew] at hq
      cases hq
      exact Nat.le_refl _
    · rw [hother q hql] at hq
      exact hJ q c hq
  · intro q c0 hq
    refine ⟨c0, ?_, Nat.le_refl _, rfl, fun _ => rfl⟩
    rw [hother q (Nat.ne_of_lt (Heap.cell_lt hq)), hq]
  · exact Value.valid_intro rfl hnew rfl

/-- One turn of the loop of `from_hash` on a key of `val` that has not been seen. -/
theorem Object.from_hash_turn_spec
    {call : Heap → ObjectId → Value → Option (Value × Heap)} {o : Object} {r : ObjectId}
    {val : Value} {h g : Heap} {pv : Addr} {nv : Nat} {entries : List (String × Value)}
    {param result s : Value} {done : List String} {key : String} {elem : String → Slot}
    (helem : ∀ k, (Value.new_on (elem k)).ptr_ = none)
    (hroot : o.root_ = some r) (hv : val.is_hash = true) (hp : val.ptr_ = some pv)
    (hpv : h.cell pv = some ⟨nv, Obj.hash entries⟩)
    (hent : ∀ e ∈ entries, e.2.valid h = true)
    (hcall : ∀ k child, o.children_.lookup k = some child → Object.call_ok call child)
    (hinv : Object.batch_inv h g param)
    (hres : Object.result_inv (Object.answer call o entries h) h g param result done)
    (hl : entries.lookup key = some s) (hkd : key ∉ done) :
    ∃ param1 result1 g3,
      Object.from_hash_turn elem call o val (param, result, g) key
        = some (param1, result1, g3) ∧
      Object.batch_inv h g3 param1 ∧
      Object.result_inv (Object.answer call o entries h) h g3 param1 result1
        (done ++ [key]) := by
  cases hc : o.children_.lookup key with
  | none =>
    obtain ⟨hev, hcell, hJ2, hgrow, hvalid⟩ := ErrorValue_cells g NOT_FOUND_ERROR key hinv.1
    have hsh : (⟨ERROR_VALUE, Slot.ptr (some (List.length g))⟩ : Value).type_ ≠ MATRIX_VALUE →
        ∀ q c0 c1, (⟨ERROR_VALUE, Slot.ptr (some (List.length g))⟩ : Value).ptr_ = some q →
        g.cell q = some c0 →
        Heap.cell (g ++ [some ⟨1, Obj.error NOT_FOUND_ERROR key⟩]) q = some c1 →
        c0.ref_count + 1 ≤ c1.ref_count := by
      intro _ q c0 c1 hq hc0 _
      have hql : List.length g = q := by simpa [Value.ptr_] using hq
      subst hql
      exact absurd (Heap.cell_lt hc0) (Nat.lt_irrefl _)
    obtain ⟨result1, g2a, v0, g3, hset, hclear, hinv3, hres3⟩ :=
      Object.from_hash_enter (helem key) hinv hres hkd hJ2 hgrow hvalid (fun e => by cases e)
        hsh
        (Or.inl ⟨hc, g, hev⟩)
    refine ⟨param, result1, g3, ?_, hinv3, hres3⟩
    simp [Object.from_hash_turn, hc, hev, hset, hclear]
  | some child =>
    obtain ⟨param1, g1, hget, hinv1, hpt, hal, -, hpm, hkeep⟩ :=
      Object.batch_get hinv hv hp hpv hent hl
    have hres1 := Object.result_inv_get hinv.2.2.1 hres hpm hkeep
    obtain ⟨ret, g2, hcl, hretv, hJ2, hgrow, hfresh, hshared⟩ :=
      hcall key child hc g1 param1 hinv1.1 hinv1.2.2.1
    obtain ⟨result1, g2a, v0, g3, hset, hclear, hinv3, hres3⟩ :=
      Object.from_hash_enter (helem key) hinv1 hres1 hkd hJ2 hgrow hretv hfresh hshared
        (Or.inr ⟨⟨key, child, g1, param1, ret, g2⟩, ⟨hc, hcl, s, hl, hpt, hal⟩, rfl, rfl, rfl⟩)
    refine ⟨param1, result1, g3, ?_, hinv3, hres3⟩
    simp [Object.from_hash_turn, hc, hget, hroot, hcl, hset, hclear]

/-- The loop of `from_hash` over keys of `val` that are distinct and have not been seen. -/
theorem Object.from_hash_loop
    {call : Heap → ObjectId → Value → Option (Value × Heap)} {o : Object} {r : ObjectId}
    {val : Value} {h : Heap} {pv : Addr} {nv : Nat} {entries : List (String × Value)}
    {elem : String → Slot} (helem : ∀ k, (Value.new_on (elem k)).ptr_ = none)
    (hroot : o.root_ = some r) (hv : val.is_hash = true) (hp : val.ptr_ = some pv)
    (hpv : h.cell pv = some ⟨nv, Obj.hash entries⟩)
    (hent : ∀ e ∈ entries, e.2.valid h = true)
    (hcall : ∀ k child, o.children_.lookup k = some child → Object.call_ok call child) :
    ∀ (ks : List String), (∀ k ∈ ks, ∃ s, entries.lookup k = some s) → ks.Nodup →
      ∀ (done : List String), (∀ k ∈ ks, k ∉ done) →
      ∀ (param result : Value) (g : Heap), Object.batch_inv h g param →
        Object.result_inv (Object.answer call o entries h) h g param result done →
        ∃ param1 result1 g1,
          ks.foldlM (Object.from_hash_turn elem call o val) (param, result, g)
            = some (param1, result1, g1) ∧
          Object.batch_inv h g1 param1 ∧
          Object.result_inv (Object.answer call o entries h) h g1 param1 result1
            (done ++ ks) := by
  intro ks
  induction ks with
  | nil =>
    intro _ _ done _ param result g hinv hres
    exact ⟨param, result, g, by simp, hinv, by simpa using hres⟩
  | cons key rest ih =>
    intro hks hnd done hdone param result g hinv hres
    obtain ⟨s, hl⟩ := hks key (List.mem_cons_self _ _)
    obtain ⟨hkr, hndr⟩ := List.nodup_cons.mp hnd
    obtain ⟨param1, result1, g3, hturn, hinv3, hres3⟩ :=
      Object.from_hash_turn_spec helem hroot hv hp hpv hent hcall hinv hres hl
        (hdone key (List.mem_cons_self _ _))
    obtain ⟨param2, result2, g4, hfold, hinv4, hres4⟩ :=
      ih (fun k hk => hks k (List.mem_cons_of_mem _ hk)) hndr (done ++ [key])
        (fun k hk hmem => by
          rcases List.mem_append.mp hmem with h1 | h1
          · exact hdone k (List.mem_cons_of_mem _ hk) h1
          · simp only [List.mem_singleton] at h1
            subst h1
            exact hkr hk)
        param1 result1 g3 hinv3 hres3
    refine ⟨param2, result2, g4, ?_, hinv4, ?_⟩
    · simp [List.foldlM_cons, hturn, hfold]
    · simpa using hres4


/-- The payload of an Error that is alike the temporary built by `ErrorValue`. -/
theorem Value.error_of_alike {g gb : Heap} {x : Value} {code : ErrorCode} {m : String}
    (hal : Value.alike g x (gb ++ [some ⟨1, Obj.error code m⟩])
      ⟨ERROR_VALUE, Slot.ptr (some (List.length gb))⟩) :
    x.is_error = true ∧ x.error_code g = some code ∧ x.error_message g = some m := by
  obtain ⟨ht, -, hpay⟩ := hal
  have ht1 : x.type_ = ERROR_VALUE := ht
  have hnp : ¬ no_payload x.type_ := by
    rw [ht1]
    intro e
    rcases e with e | e | e | e <;> cases e
  obtain ⟨h1, -⟩ := hpay hnp
  have hcell : Heap.cell (gb ++ [some ⟨1, Obj.error code m⟩]) (List.length gb)
      = some ⟨1, Obj.error code m⟩ := by
    have := Heap.cell_alloc gb (Obj.error code m) (List.length gb)
    simpa [Heap.alloc] using this
  have h2 : x.payload g = some (Obj.error code m) := by
    rw [h1]
    simp [Value.payload, Value.ptr_, hcell]
  refine ⟨by simp [Value.is_error, ht1], ?_, ?_⟩
  · unfold Value.payload at h2
    unfold Value.error_code
    cases hb : x.ptr_.bind g.cell with
    | none => simp [hb] at h2
    | some c =>
      obtain ⟨n, ob⟩ := c
      simp [hb] at h2
      subst h2
      rfl
  · unfold Value.payload at h2
    unfold Value.error_message
    cases hb : x.ptr_.bind g.cell with
    | none => simp [hb] at h2
    | some c =>
      obtain ⟨n, ob⟩ := c
      simp [hb] at h2
      subst h2
      rfl

/-- C32 (as stated, refuted): started with a Nil `result`, `from_hash` of a Hash without
keys returns with `result` still Nil, not a Hash.  And on the Hash {"a": "s"}, whose String
is at the address 1, for a node with the child "a" whose call returns the Real 1 for an Empty
parameter and the Real 2 for any other: when the union of the storage of the local `param`
already holds the address 1, `val.get("a", &param)` leaves `param` Empty and `result` maps
"a" to the Real 1; in storage that holds no address of a live object it maps "a" to the
Real 2. -/
theorem from_hash_leaves_nil_on_empty_hash :
    Value.is_hash ⟨HASH_VALUE, Slot.ptr (some 0)⟩ = true ∧
    Value.begin [some ⟨1, Obj.hash []⟩] ⟨HASH_VALUE, Slot.ptr (some 0)⟩ = some [] ∧
    Object.from_hash Slot.undef (fun _ => Slot.undef) (fun g _ x => some (x, g))
        [some { Object.new "node" with root_ := some 0 }] [some ⟨1, Obj.hash []⟩] 0
        ⟨HASH_VALUE, Slot.ptr (some 0)⟩ gNilValue
      = some (gNilValue, [some ⟨1, Obj.hash []⟩]) ∧
    gNilValue.is_hash = false ∧
    (Object.from_hash (Slot.ptr (some 1)) (fun _ => Slot.undef)
        (fun g _ x => some (Value.of_real (if x.is_empty then 1 else 2), g))
        [some { Object.new "node" with
                  root_ := some 0, children_ := [("a", 1)], children_vector_ := [1] },
         some (Object.new "a")]
        [some ⟨1, Obj.hash [("a", ⟨STRING_VALUE, Slot.ptr (some 1)⟩)]⟩,
         some ⟨1, Obj.string "s"⟩] 0
        ⟨HASH_VALUE, Slot.ptr (some 0)⟩ gNilValue).map
      (fun r => (r.1, r.2.cell 2))
      = some (⟨HASH_VALUE, Slot.ptr (some 2)⟩,
          some ⟨1, Obj.hash [("a", Value.of_real 1)]⟩) ∧
    (Object.from_hash Slot.undef (fun _ => Slot.undef)
        (fun g _ x => some (Value.of_real (if x.is_empty then 1 else 2), g))
        [some { Object.new "node" with
                  root_ := some 0, children_ := [("a", 1)], children_vector_ := [1] },
         some (Object.new "a")]
        [some ⟨1, Obj.hash [("a", ⟨STRING_VALUE, Slot.ptr (some 1)⟩)]⟩,
         some ⟨1, Obj.string "s"⟩] 0
        ⟨HASH_VALUE, Slot.ptr (some 0)⟩ gNilValue).map
      (fun r => (r.1, r.2.cell 2))
      = some (⟨HASH_VALUE, Slot.ptr (some 2)⟩,
          some ⟨1, Obj.hash [("a", Value.of_real 2)]⟩) := by
  refine ⟨?_, ?_, ?_, ?_, ?_, ?_⟩ <;> decide

/-- C32 (amended): let the storage of the local `param` and of the elements that the table of
`result` builds hold no address of a live object.  On a node that has a root, for calls that
return, `from_hash(val, result)` returns.  For a Hash `val` with at least one key and a Nil
`result` it leaves `result` a Hash with exactly the keys of `val`, in order; the element
under a key is valid, it is an Error with the code `NOT_FOUND_ERROR` and the key as its
message when no child has this name, and else it has the variant and the content of what a
call on the child of this name returned, a call made with the Value that `val` holds under
the key.  For a `val` that is not a Hash, or a Hash without keys, `result` and the heap are
left as they are. -/
theorem from_hash_answers_every_key (bits : Slot) (elem : String → Slot)
    (call : Heap → ObjectId → Value → Option (Value × Heap)) (w : World) (h : Heap)
    (self r : ObjectId) (o : Object) (val result : Value)
    (hbits : (Value.new_on bits).ptr_ = none)
    (helem : ∀ k, (Value.new_on (elem k)).ptr_ = none)
    (ho : w.get self = some o) (hroot : o.root_ = some r) (hJ : Heap.counted h)
    (hval : val.is_hash = true → ∃ pv nv entries, val.ptr_ = some pv ∧
      h.cell pv = some ⟨nv, Obj.hash entries⟩ ∧ (∀ e ∈ entries, e.2.valid h = true) ∧
      (entries.map Prod.fst).Nodup)
    (hcall : ∀ k child, o.children_.lookup k = some child → Object.call_ok call child) :
    ∃ (entries : List (String × Value)),
      (if val.is_hash = true then
          ∃ pv nv, val.ptr_ = some pv ∧ h.cell pv = some ⟨nv, Obj.hash entries⟩
        else entries = []) ∧
      val.begin h = some (entries.map Prod.fst) ∧
      (entries = [] → Object.from_hash bits elem call w h self val result = some (result, h)) ∧
      (entries ≠ [] → result.is_nil = true →
        ∃ pr nr rentries h1,
          Object.from_hash bits elem call w h self val result
            = some (⟨HASH_VALUE, Slot.ptr (some pr)⟩, h1) ∧
          h1.cell pr = some ⟨nr, Obj.hash rentries⟩ ∧
          rentries.map Prod.fst = entries.map Prod.fst ∧
          ∀ k x, (k, x) ∈ rentries →
            x.valid h1 = true ∧
            (o.children_.lookup k = none →
              x.is_error = true ∧ x.error_code h1 = some NOT_FOUND_ERROR ∧
              x.error_message h1 = some k) ∧
            (∀ child, o.children_.lookup k = some child →
              ∃ t : BatchCall, t.key = k ∧ t.child = child ∧
                BatchCall.ok call o entries h t ∧
                x.type_ = (if t.ret.type_ = EMPTY_VALUE then NIL_VALUE else t.ret.type_) ∧
                (t.ret.type_ ≠ EMPTY_VALUE → x.ptr_ ≠ some pr →
                  Value.alike h1 x t.after t.ret))) := by
  have hempty : ∀ (e : List String), val.begin h = some [] → val.end_ h = some e →
      Object.from_hash bits elem call w h self val result = some (result, h) := by
    intro e hb he
    simp [Object.from_hash, ho, hb, he, Value.clear, Value.new_on]
  by_cases hv : val.is_hash = true
  · obtain ⟨pv, nv, entries, hp, hpv, hent, hnd⟩ := hval hv
    have hbegin : val.begin h = some (entries.map Prod.fst) := by
      simp [Value.begin, hv, hp, hpv]
    have hend : val.end_ h = some [] := by
      simp [Value.end_, hv, hp, hpv]
    refine ⟨entries, ?_, hbegin, ?_, ?_⟩
    · rw [if_pos hv]
      exact ⟨pv, nv, hp, hpv⟩
    · intro e
      subst e
      exact hempty [] hbegin hend
    · intro hne hnil
      have hinv : Object.batch_inv h h (Value.new_on bits) := by
        refine ⟨hJ, fun q c0 hq => ⟨c0.ref_count, hq⟩, ?_, ?_, ?_⟩
        · have e : (Value.new_on bits).valid h = ((Value.new_on bits).ptr_ == none) := rfl
          rw [e, hbits]
          rfl
        · intro _ q c hq
          rw [hbits] at hq
          cases hq
        · intro e
          cases e
      have hres : Object.result_inv (Object.answer call o entries h) h h (Value.new_on bits)
          result [] := Or.inl ⟨rfl, by simpa [Value.is_nil] using hnil⟩
      obtain ⟨param1, result1, g1, hfold, hinv1, hres1⟩ :=
        Object.from_hash_loop helem hroot hv hp hpv hent hcall (entries.map Prod.fst)
          (fun k hk => by
            obtain ⟨s, hs, -⟩ := lookup_of_mem_keys hk
            exact ⟨s, hs⟩)
          hnd [] (fun _ _ hmem => by cases hmem) (Value.new_on bits) result h hinv hres
      simp only [List.nil_append] at hres1
      obtain ⟨v0, h1, hclear, -, hJ1, hne1, hdec1, -⟩ :=
        Value.clear_counted hinv1.2.2.1 hinv1.1 hinv1.2.2.2.1
      have hkeep : ∀ q c0, g1.cell q = some c0 →
          (param1.type_ = MATRIX_VALUE → param1.ptr_ ≠ some q) →
          ∃ n, h1.cell q = some ⟨n, c0.obj⟩ ∧ (param1.ptr_ ≠ some q → c0.ref_count ≤ n) := by
        intro q c0 hq hm
        by_cases hpq : param1.ptr_ = some q
        · exact ⟨_, (hdec1 q c0 hpq hq (fun e => hm e hpq)).1, fun e => absurd hpq e⟩
        · exact ⟨c0.ref_count, by rw [hne1 q hpq, hq], fun _ => Nat.le_refl _⟩
      have hres2 : Object.result_inv (Object.answer call o entries h) h h1 Value.new result1
          (entries.map Prod.fst) :=
        Object.result_inv_get hinv1.2.2.1 hres1 (fun e => by cases e) hkeep
      rcases hres2 with ⟨hdone, -⟩ | ⟨pr, nr, rentries, hr, hprh, hprc, hkeys, hentr, -⟩
      · exfalso
        cases entries with
        | nil => exact hne rfl
        | cons e rest => simp at hdone
      · subst hr
        refine ⟨pr, nr, rentries, h1, ?_, hprc, hkeys, ?_⟩
        · simp [Object.from_hash, ho, hbegin, hend, hfold, hclear]
        · intro k x hmem
          obtain ⟨ga, v, hsrc, hxv, hxt, hxal⟩ := hentr (k, x) hmem
          simp only at hsrc hxv hxt hxal
          refine ⟨hxv, ?_, ?_⟩
          · intro hc
            rcases hsrc with ⟨-, gb, hev⟩ | ⟨t, htok, htk, -, -⟩
            · have hev1 : ErrorValue gb NOT_FOUND_ERROR k
                  = (⟨ERROR_VALUE, Slot.ptr (some (List.length gb))⟩,
                    gb ++ [some ⟨1, Obj.error NOT_FOUND_ERROR k⟩]) := rfl
              rw [hev1] at hev
              cases hev
              have hxe : x.type_ = ERROR_VALUE := hxt
              have hxpr : x.ptr_ ≠ some pr := by
                intro e
                obtain ⟨c, hc1, ht1⟩ := Value.cell_of_ptr hxv e
                rw [hprc] at hc1
                cases hc1
                rw [hxe] at ht1
                cases ht1
              exact Value.error_of_alike (hxal (fun e => by cases e) hxpr)
            · rw [← htk] at hc
              rw [htok.1] at hc
              cases hc
          · intro child hc
            rcases hsrc with ⟨hnone, -⟩ | ⟨t, htok, htk, htr, hta⟩
            · rw [hnone] at hc
              cases hc
            · subst htr
              subst hta
              refine ⟨t, htk, ?_, htok, hxt, hxal⟩
              have := htok.1
              rw [htk, hc] at this
              exact (Option.some.inj this).symm
  · have hv1 : val.is_hash = false := by simpa using hv
    have hbegin : val.begin h = some [] := by
      simp [Value.begin, hv1, gEmptyHash_keys]
    have hend : val.end_ h = some [] := by
      simp [Value.end_, hv1]
    refine ⟨[], ?_, hbegin, fun _ => hempty [] hbegin hend, fun e => absurd rfl e⟩
    rw [if_neg hv]

/-- C32 (amended), on a node with the children "a" and "b", for the Hash with the keys "a",
"x" and "b" and calls that return a Real: the result is a Hash with the three keys. -/
theorem from_hash_answers_every_key_witness :
    ∃ pr nr rentries h1,
      Object.from_hash Slot.undef (fun _ => Slot.undef)
          (fun g _ _ => some (Value.of_real 7, g))
          [some { Object.new "node" with
                    root_ := some 0, children_ := [("a", 1), ("b", 2)],
                    children_vector_ := [1, 2] },
           some (Object.new "a"), some (Object.new "b")]
          [some ⟨1, Obj.hash [("a", Value.of_real 1), ("x", Value.of_real 2),
            ("b", Value.of_real 3)]⟩] 0 ⟨HASH_VALUE, Slot.ptr (some 0)⟩ gNilValue
        = some (⟨HASH_VALUE, Slot.ptr (some pr)⟩, h1) ∧
      h1.cell pr = some ⟨nr, Obj.hash rentries⟩ ∧
      rentries.map Prod.fst = ["a", "x", "b"] ∧
      ∀ x, ("x", x) ∈ rentries →
        x.is_error = true ∧ x.error_code h1 = some NOT_FOUND_ERROR ∧
        x.error_message h1 = some "x" := by
  obtain ⟨entries, hif, -, -, hmain⟩ :=
    from_hash_answers_every_key Slot.undef (fun _ => Slot.undef)
      (fun g _ _ => some (Value.of_real 7, g))
      [some { Object.new "node" with
                root_ := some 0, children_ := [("a", 1), ("b", 2)],
                children_vector_ := [1, 2] },
       some (Object.new "a"), some (Object.new "b")]
      [some ⟨1, Obj.hash [("a", Value.of_real 1), ("x", Value.of_real 2),
        ("b", Value.of_real 3)]⟩] 0 0 _ ⟨HASH_VALUE, Slot.ptr (some 0)⟩ gNilValue rfl
      (fun _ => rfl) rfl rfl
      (fun q c hq => by
        match q, hq with
        | 0, hq =>
          cases hq
          exact Nat.le_refl _
        | q + 1, hq => simp [Heap.cell] at hq)
      (fun _ => ⟨0, 1, _, rfl, rfl, by decide, by decide⟩)
      (fun _ _ _ g _ hJg _ => ⟨Value.of_real 7, g, rfl, rfl, hJg, Heap.grows_but_refl none g,
        fun e => (by cases e), fun _ q c0 c1 e => (by cases e)⟩)
  rw [if_pos (show Value.is_hash ⟨HASH_VALUE, Slot.ptr (some 0)⟩ = true from rfl)] at hif
  obtain ⟨pv, nv, hp, hpv⟩ := hif
  cases hp
  cases hpv
  obtain ⟨pr, nr, rentries, h1, hres, hcell, hkeys, hall⟩ :=
    hmain (fun e => by cases e) rfl
  exact ⟨pr, nr, rentries, h1, hres, hcell, hkeys, fun x hx => ((hall "x" x hx).2.1 rfl)⟩

/-! ## Destruction -/

theorem World.prunes_refl (d : List ObjectId) (w : World) : World.prunes d w w :=
  fun _ o1 h1 => ⟨o1, h1, Or.inr ⟨rfl, List.Sublist.refl _, List.Sublist.refl _,
    fun _ he hne => absurd he hne, fun _ hc hne => absurd hc hne⟩⟩

theorem World.prunes_dead {d : List ObjectId} {w w1 : World} (h : World.prunes d w w1)
    {x : ObjectId} (hx : w.get x = none) : World.get w1 x = none := by
  cases h1 : World.get w1 x with
  | none => rfl
  | some o1 =>
    obtain ⟨o, ho, -⟩ := h x o1 h1
    rw [hx] at ho
    cases ho

theorem World.prunes_trans {d : List ObjectId} {w w1 w2 : World}
    (h1 : World.prunes d w w1) (h2 : World.prunes d w1 w2) : World.prunes d w w2 := by
  intro x o2 hx2
  obtain ⟨o1, hx1, r2⟩ := h2 x o2 hx2
  obtain ⟨o, hx, r1⟩ := h1 x o1 hx1
  refine ⟨o, hx, ?_⟩
  rcases r2 with hd | ⟨hn2, hs2, hv2, hm2, hc2⟩
  · exact Or.inl hd
  · rcases r1 with hd | ⟨hn1, hs1, hv1, hm1, hc1⟩
    · exact Or.inl hd
    · right
      refine ⟨hn2.trans hn1, hs2.trans hs1, hv2.trans hv1, ?_, ?_⟩
      · intro e he hne
        by_cases he1 : e ∈ o1.children_
        · exact hm2 e he1 hne
        · rcases hm1 e he he1 with h | h
          · exact Or.inl h
          · exact Or.inr (World.prunes_dead h2 h)
      · intro c hc hne
        by_cases hc1' : c ∈ o1.children_vector_
        · exact hc2 c hc1' hne
        · rcases hc1 c hc hc1' with h | h
          · exact Or.inl h
          · exact Or.inr (World.prunes_dead h2 h)

theorem World.prunes_weaken {d : List ObjectId} {w w1 : World}
    (h : World.prunes [] w w1) : World.prunes d w w1 := by
  intro x o1 hx1
  obtain ⟨o, hx, r⟩ := h x o1 hx1
  refine ⟨o, hx, ?_⟩
  rcases r with hd | ⟨hn, hs, hv, hm, hc⟩
  · cases hd
  · right
    refine ⟨hn, hs, hv, ?_, ?_⟩
    · intro e he hne
      rcases hm e he hne with h | h
      · cases h
      · exact Or.inr h
    · intro c hc1 hne
      rcases hc c hc1 hne with h | h
      · cases h
      · exact Or.inr h

/-- A step that keeps the names, the tables and the vectors loses nothing. -/
theorem World.prunes_of_kids {w w1 : World}
    (h : ∀ j, (World.get w1 j).map Object.kids = (w.get j).map Object.kids) :
    World.prunes [] w w1 := by
  intro x o1 hx1
  have hj := h x
  rw [hx1] at hj
  cases hx : w.get x with
  | none => simp [hx] at hj
  | some o =>
    rw [hx] at hj
    simp only [Option.map_some', Option.some.injEq, Object.kids, Prod.mk.injEq] at hj
    obtain ⟨hn, hc, hv⟩ := hj
    refine ⟨o, rfl, Or.inr ⟨hn, ?_, ?_, ?_, ?_⟩⟩
    · rw [hc]
    · rw [hv]
    · intro e he hne
      rw [hc] at hne
      exact absurd he hne
    · intro c hc1 hne
      rw [hv] at hne
      exact absurd hc1 hne

theorem World.kids_of_without_url {w w1 : World}
    (h : ∀ j, (World.get w1 j).map Object.without_url = (w.get j).map Object.without_url) :
    ∀ j, (World.get w1 j).map Object.kids = (w.get j).map Object.kids := by
  intro j
  have hj := congrArg (Option.map Object.kids) (h j)
  simpa [Option.map_map, Function.comp, Object.kids, Object.without_url] using hj

theorem World.alive_of_kids {w w1 : World}
    (h : ∀ j, (World.get w1 j).map Object.kids = (w.get j).map Object.kids) :
    ∀ j, (World.get w1 j).isSome = (w.get j).isSome := by
  intro j
  have hj := congrArg Option.isSome (h j)
  simpa using hj

/-- What `unregister_child` loses: the entries of `object`. -/
theorem Object.unregister_child_prunes {w w1 : World} {self object : ObjectId}
    (h : Object.unregister_child w self object = some w1) :
    World.prunes [object] w w1 ∧ ∀ j, (World.get w1 j).isSome = (w.get j).isSome := by
  obtain ⟨p, hp, hg⟩ := Object.unregister_child_some h
  constructor
  · intro x o1 hx1
    rw [hg x] at hx1
    by_cases e : x = self
    · subst e
      rw [if_pos rfl] at hx1
      cases hx1
      refine ⟨p, hp, Or.inr ⟨rfl, ?_, ?_, ?_, ?_⟩⟩
      · exact List.filter_sublist _
      · exact List.erase_sublist _ _
      · intro e he hne
        left
        simp only [THash_remove_element, List.mem_filter, not_and] at hne
        have := hne he
        simp only [bne_iff_ne, ne_eq, not_not] at this
        simp [this]
      · intro c hc hne
        left
        by_cases hco : c = object
        · simp [hco]
        · exact absurd ((List.mem_erase_of_ne hco).mpr hc) hne
    · rw [if_neg e] at hx1
      exact ⟨o1, hx1, Or.inr ⟨rfl, List.Sublist.refl _, List.Sublist.refl _,
        fun _ he hne => absurd he hne, fun _ hc hne => absurd hc hne⟩⟩
  · intro j
    rw [hg j]
    by_cases e : j = self
    · subst e
      simp [hp]
    · rw [if_neg e]


/-- Once the objects listed in `d` are deleted, what is missing points to deleted objects
only. -/
theorem World.prunes_close {d : List ObjectId} {w w1 : World} (h : World.prunes d w w1)
    (hd : ∀ x ∈ d, World.get w1 x = none) : World.prunes [] w w1 := by
  intro x o1 hx1
  obtain ⟨o, hx, r⟩ := h x o1 hx1
  refine ⟨o, hx, ?_⟩
  rcases r with hxd | ⟨hn, hs, hv, hm, hc⟩
  · rw [hd x hxd] at hx1
    cases hx1
  · right
    refine ⟨hn, hs, hv, ?_, ?_⟩
    · intro e he hne
      rcases hm e he hne with h1 | h1
      · exact Or.inr (hd _ h1)
      · exact Or.inr h1
    · intro c hc1 hne
      rcases hc c hc1 hne with h1 | h1
      · exact Or.inr (hd _ h1)
      · exact Or.inr h1

/-- The operator `delete` on the storage of an object loses nothing but this object. -/
theorem World.prunes_free {w : World} {self : ObjectId} {o : Object}
    (ho : w.get self = some o) :
    World.prunes [self] w (w.free self) ∧ World.get (w.free self) self = none ∧
    ∀ j, j ≠ self → World.get (w.free self) j = w.get j := by
  have hget : ∀ j, World.get (w.free self) j = if j = self then none else w.get j :=
    fun j => World.get_set w self j none (World.get_lt ho)
  refine ⟨?_, by rw [hget self, if_pos rfl], fun j hj => by rw [hget j, if_neg hj]⟩
  intro x o1 hx1
  rw [hget x] at hx1
  by_cases e : x = self
  · rw [if_pos e] at hx1
    cases hx1
  · rw [if_neg e] at hx1
    refine ⟨o1, hx1, Or.inr ⟨rfl, List.Sublist.refl _, List.Sublist.refl _,
      fun _ he hne => absurd he hne, fun _ hc hne => absurd hc hne⟩⟩

/-- An assignment to fields other than the name, the table and the vector loses nothing. -/
theorem World.update_prunes {w w1 : World} {id : ObjectId} {f : Object → Object}
    (h : w.update id f = some w1) (hf : ∀ x, Object.kids (f x) = Object.kids x) :
    World.prunes [] w w1 :=
  World.prunes_of_kids (World.update_map Object.kids h hf)

/-- What `Object::clear` loses, when the deletion of a child loses only deleted objects: the
entries of the table of the object itself. -/
theorem Object.clear_with_prunes {del : World → ObjectId → Option World}
    (hdel : ∀ w c w1, del w c = some w1 → World.prunes [] w w1)
    {w w4 : World} {self : ObjectId} (h : Object.clear_with del w self = some w4) :
    World.prunes [self] w w4 ∧ (World.get w4 self).isSome = true := by
  unfold Object.clear_with at h
  cases ho : w.get self with
  | none => simp [ho] at h
  | some o =>
    simp only [ho] at h
    have loop : ∀ (keys : List String) (wi w3 : World),
        keys.foldlM
          (fun wi key =>
            match World.get wi self with
            | none => none
            | some oi =>
              match oi.children_.lookup key with
              | none => some wi
              | some child =>
                match World.update wi child fun c => { c with parent_ := none } with
                | none => none
                | some w1 =>
                  match (match oi.root_ with
                    | some r => Root_unregister_object w1 r child
                    | none => some w1) with
                  | none => none
                  | some w2 => Object.release del w2 child) wi = some w3 →
        World.prunes [] wi w3 := by
      intro keys
      induction keys with
      | nil =>
        intro wi w3 hf
        simp only [List.foldlM_nil, pure, Option.some.injEq] at hf
        rw [hf]
        exact World.prunes_refl _ _
      | cons key rest ihk =>
        intro wi w3 hf
        simp only [List.foldlM_cons, bind, Option.bind_eq_some] at hf
        obtain ⟨wj, hstep, hrest⟩ := hf
        refine World.prunes_trans ?_ (ihk wj w3 hrest)
        cases hoi : World.get wi self with
        | none => simp [hoi] at hstep
        | some oi =>
          simp only [hoi] at hstep
          cases hl : oi.children_.lookup key with
          | none =>
            simp only [hl, Option.some.injEq] at hstep
            rw [hstep]
            exact World.prunes_refl _ _
          | some child =>
            simp only [hl] at hstep
            cases hu : World.update wi child fun c => { c with parent_ := none } with
            | none => simp [hu] at hstep
            | some wa =>
              simp only [hu] at hstep
              have p1 : World.prunes [] wi wa := World.update_prunes hu (fun _ => rfl)
              have hstep2 : ∃ wb, World.prunes [] wa wb ∧
                  Object.release del wb child = some wj := by
                cases hr : oi.root_ with
                | none =>
                  simp only [hr] at hstep
                  exact ⟨wa, World.prunes_refl _ _, hstep⟩
                | some r =>
                  simp only [hr] at hstep
                  cases hru : Root_unregister_object wa r child with
                  | none => simp [hru] at hstep
                  | some wb =>
                    simp only [hru] at hstep
                    exact ⟨wb, World.update_prunes hru (fun _ => rfl), hstep⟩
              obtain ⟨wb, p2, hrel⟩ := hstep2
              refine World.prunes_trans p1 (World.prunes_trans p2 ?_)
              unfold Object.release at hrel
              cases hc : World.get wb child with
              | none => simp [hc] at hrel
              | some oc =>
                simp only [hc] at hrel
                split_ifs at hrel with hcount
                · exact hdel _ _ _ hrel
                · exact World.update_prunes hrel (fun _ => rfl)
    split at h
    · cases h
    · rename_i w3 hf
      have p3 := loop _ _ _ hf
      obtain ⟨o3, ho3, hg⟩ := World.update_some h
      constructor
      · refine World.prunes_trans (World.prunes_weaken p3) ?_
        intro x o1 hx1
        rw [hg x] at hx1
        by_cases e : x = self
        · subst e
          exact ⟨o3, ho3, Or.inl (List.mem_singleton.mpr rfl)⟩
        · rw [if_neg e] at hx1
          exact ⟨o1, hx1, Or.inr ⟨rfl, List.Sublist.refl _, List.Sublist.refl _,
            fun _ he hne => absurd he hne, fun _ hc hne => absurd hc hne⟩⟩
      · rw [hg self, if_pos rfl]
        rfl


/-- The first two statements of the destructor, `set_parent(NULL)` and `set_root(NULL)`:
the object leaves the table and the vector of its parent and has no parent and no root; no
object is deleted and no other table or vector changes. -/
theorem Object.detach_spec {next : String → String} {fuel : Nat} {w w1 w2 : World}
    {self : ObjectId} {o : Object} (ho : w.get self = some o)
    (h1 : Object.set_parent next fuel w self none = some w1)
    (h2 : Object.set_root w1 self none = some w2) :
    World.prunes [self] w w2 ∧ (∀ j, (World.get w2 j).isSome = (w.get j).isSome) ∧
    (∃ o2, World.get w2 self = some o2 ∧ o2.parent_ = none ∧ o2.root_ = none ∧
      o2.aliases_ = o.aliases_ ∧ o2.children_.Sublist o.children_) ∧
    (∀ q qo, o.parent_ = some q → w.get q = some qo →
      ∃ qo2, World.get w2 q = some qo2 ∧
        qo2.children_ = THash_remove_element qo.children_ self ∧
        qo2.children_vector_ = qo.children_vector_.erase self) ∧
    (∀ j, o.parent_ ≠ some j → (World.get w2 j).map Object.kids = (w.get j).map Object.kids) := by
  obtain ⟨oo, wa, wb, wc, hoo, hwa, hwb, hwc, hmoved⟩ := Object.set_parent_some h1
  rw [ho] at hoo
  cases hoo
  have hwcb : wc = wb := by
    rcases hwc with ⟨-, e⟩ | ⟨p, e, -⟩
    · exact e
    · cases e
  subst hwcb
  obtain ⟨o1, ho1, hu2, -, hr2⟩ := Object.set_root_some h2
  have hu1 := Object.moved_without_url fuel hmoved
  have hub : ∀ j, (World.get w2 j).map Object.without_url
      = (World.get wc j).map Object.without_url := fun j => (hu2 j).trans (hu1 j)
  have hkb : ∀ j, (World.get wc j).map Object.kids = (World.get wa j).map Object.kids :=
    World.update_map Object.kids hwb (fun _ => rfl)
  have hk2 : ∀ j, (World.get w2 j).map Object.kids = (World.get wa j).map Object.kids :=
    fun j => (World.kids_of_without_url hub j).trans (hkb j)
  obtain ⟨oa, hoa, hgb⟩ := World.update_some hwb
  have hselfb : World.get wc self = some { oa with parent_ := none } := by
    rw [hgb self, if_pos rfl]
  -- the object itself in the end
  have hself2 : ∃ o2, World.get w2 self = some o2 ∧ o2.parent_ = none ∧ o2.root_ = none ∧
      o2.aliases_ = oa.aliases_ ∧ o2.children_ = oa.children_ := by
    have hs := hub self
    rw [hselfb] at hs
    cases h2s : World.get w2 self with
    | none => simp [h2s] at hs
    | some o2 =>
      rw [h2s] at hs hr2
      simp only [Option.map_some', Option.some.injEq] at hs hr2
      refine ⟨o2, rfl, ?_, ?_, ?_, ?_⟩
      · exact congrArg Object.parent_ hs
      · have := congrArg (fun t => t.2.1) hr2
        simpa [Object.url_root] using this
      · have := congrArg Object.aliases_ hs
        exact this
      · have := congrArg Object.children_ hs
        exact this
  obtain ⟨o2, ho2, hp2, hroot2, hal2, hch2⟩ := hself2
  rcases hwa with ⟨hpn, e⟩ | ⟨q, hpq, hun⟩
  · -- no parent
    subst e
    rw [ho] at hoa
    cases hoa
    refine ⟨World.prunes_weaken (World.prunes_of_kids hk2), World.alive_of_kids hk2,
      ⟨o2, ho2, hp2, hroot2, hal2, by rw [hch2]⟩, ?_, fun j _ => hk2 j⟩
    intro q qo hq
    rw [hpn] at hq
    cases hq
  · -- a parent
    obtain ⟨p, hp, hga⟩ := Object.unregister_child_some hun
    obtain ⟨pr1, al1⟩ := Object.unregister_child_prunes hun
    have hoa2 : oa.aliases_ = o.aliases_ ∧ oa.children_.Sublist o.children_ := by
      rw [hga self] at hoa
      by_cases e : self = q
      · rw [if_pos e] at hoa
        cases hoa
        rw [← e, ho] at hp
        cases hp
        exact ⟨rfl, List.filter_sublist _⟩
      · rw [if_neg e, ho] at hoa
        cases hoa
        exact ⟨rfl, List.Sublist.refl _⟩
    refine ⟨World.prunes_trans pr1 (World.prunes_weaken (World.prunes_of_kids hk2)),
      fun j => (World.alive_of_kids hk2 j).trans (al1 j),
      ⟨o2, ho2, hp2, hroot2, hal2.trans hoa2.1, by rw [hch2]; exact hoa2.2⟩, ?_, ?_⟩
    · intro q1 qo hq1 hqo
      rw [hpq] at hq1
      cases hq1
      rw [hp] at hqo
      cases hqo
      have hk := hk2 q
      rw [hga q, if_pos rfl] at hk
      cases hq2 : World.get w2 q with
      | none => simp [hq2] at hk
      | some qo2 =>
        rw [hq2] at hk
        simp only [Option.map_some', Option.some.injEq, Object.kids, Prod.mk.injEq] at hk
        exact ⟨qo2, rfl, hk.2.1, hk.2.2⟩
    · intro j hj
      rw [hk2 j, hga j, if_neg]
      intro e
      exact hj (by rw [e]; exact hpq)

/-- The stages of the destructor, in the order of its statements. -/
theorem Object.delete_some {next : String → String} {fuel : Nat} {w w5 : World}
    {self : ObjectId} (h : Object.delete_ next (fuel + 1) w self = some w5) :
    ∃ o w1 w2 w3 w4, w.get self = some o ∧
      Object.set_parent next fuel w self none = some w1 ∧
      Object.set_root w1 self none = some w2 ∧
      o.aliases_.foldlM
        (fun wi a => (Alias_unlink_original wi a).bind fun wj => Object.delete_ next fuel wj a)
        w2 = some w3 ∧
      Object.clear_with (Object.delete_ next fuel) w3 self = some w4 ∧
      (World.get w4 self).isSome = true ∧ w5 = w4.free self := by
  unfold Object.delete_ at h
  cases ho : w.get self with
  | none => simp [ho] at h
  | some o =>
    simp only [ho] at h
    cases h1 : Object.set_parent next fuel w self none with
    | none => simp [h1] at h
    | some w1 =>
      simp only [h1] at h
      cases h2 : Object.set_root w1 self none with
      | none => simp [h2] at h
      | some w2 =>
        simp only [h2] at h
        split at h
        · cases h
        · rename_i w3 hf
          have h3 : o.aliases_.foldlM
              (fun wi a =>
                (Alias_unlink_original wi a).bind fun wj => Object.delete_ next fuel wj a)
              w2 = some w3 := by
            rw [← hf]
            congr 1
            funext wi a
            cases Alias_unlink_original wi a <;> rfl
          cases h4 : Object.clear_with (Object.delete_ next fuel) w3 self with
          | none => simp [h4] at h
          | some w4 =>
            simp only [h4] at h
            cases h5 : World.get w4 self with
            | none => simp [h5] at h
            | some o4 =>
              simp only [h5, Option.some.injEq] at h
              exact ⟨o, w1, w2, w3, w4, rfl, rfl, h2, h3, h4, by simp [h5], h.symm⟩

/-- The loop of the destructor over the aliases, when the deletion of an alias loses only
deleted objects and deletes the alias: the aliases are deleted. -/
theorem Object.delete_aliases_prunes {del : World → ObjectId → Option World}
    (hdel : ∀ w a w1, del w a = some w1 → World.prunes [] w w1 ∧ World.get w1 a = none) :
    ∀ (aliases : List ObjectId) (wi w3 : World),
      aliases.foldlM (fun wi a => (Alias_unlink_original wi a).bind fun wj => del wj a) wi
        = some w3 →
      World.prunes [] wi w3 ∧ ∀ a ∈ aliases, World.get w3 a = none := by
  intro aliases
  induction aliases with
  | nil =>
    intro wi w3 hf
    simp only [List.foldlM_nil, pure, Option.some.injEq] at hf
    rw [hf]
    exact ⟨World.prunes_refl _ _, fun a ha => by cases ha⟩
  | cons a rest ih =>
    intro wi w3 hf
    simp only [List.foldlM_cons, bind, Option.bind_eq_some] at hf
    obtain ⟨wk, ⟨wj, hun, hd⟩, hrest⟩ := hf
    obtain ⟨p2, hdead⟩ := hdel wj a wk hd
    obtain ⟨p3, hall⟩ := ih wk w3 hrest
    have p1 : World.prunes [] wi wj := World.update_prunes hun (fun _ => rfl)
    refine ⟨World.prunes_trans p1 (World.prunes_trans p2 p3), ?_⟩
    intro b hb
    rcases List.mem_cons.mp hb with e | e
    · rw [e]
      exact World.prunes_dead p3 hdead
    · exact hall b e

/-- What a destruction loses: from the tables and the vectors of the objects that are left,
only entries of deleted objects; the object itself is deleted. -/
theorem Object.delete_prunes (next : String → String) :
    ∀ (fuel : Nat) (w : World) (self : ObjectId) (w5 : World),
      Object.delete_ next fuel w self = some w5 →
      World.prunes [] w w5 ∧ World.get w5 self = none := by
  intro fuel
  induction fuel with
  | zero =>
    intro w self w5 h
    simp [Object.delete_] at h
  | succ n ih =>
    intro w self w5 h
    obtain ⟨o, w1, w2, w3, w4, ho, h1, h2, h3, h4, h5, e⟩ := Object.delete_some h
    obtain ⟨p12, -⟩ := Object.detach_spec ho h1 h2
    obtain ⟨p3, -⟩ := Object.delete_aliases_prunes ih o.aliases_ w2 w3 h3
    obtain ⟨p4, -⟩ := Object.clear_with_prunes (fun w c w1 hd => (ih w c w1 hd).1) h4
    obtain ⟨o4, ho4⟩ := Option.isSome_iff_exists.mp h5
    obtain ⟨p5, hdead, -⟩ := World.prunes_free ho4
    subst e
    have pall : World.prunes [self] w (World.free w4 self) :=
      World.prunes_trans p12 (World.prunes_trans (World.prunes_weaken p3)
        (World.prunes_trans p4 p5))
    exact ⟨World.prunes_close pall (fun x hx => by
      rw [List.mem_singleton.mp hx]
      exact hdead), hdead⟩

/-- `Object::clear` is a method of a live object. -/
theorem Object.clear_with_alive {del : World → ObjectId → Option World} {w w4 : World}
    {self : ObjectId} (h : Object.clear_with del w self = some w4) :
    (w.get self).isSome = true := by
  unfold Object.clear_with at h
  cases ho : w.get self with
  | none => simp [ho] at h
  | some o => rfl


/-- C33 (as stated, refuted): the parent "q" holds the object "x", an Alias "y" of "x" and a
third child "z"; the destruction of "x" deletes "y" as well, and "q" is left with "z" alone:
its other child "y" is gone from its table and from its vector. -/
theorem destruction_removes_sibling_alias :
    (Object.delete_ (fun s => s ++ "1") 4
        [some { Object.new "q" with
                  children_ := [("x", 1), ("y", 2), ("z", 3)], children_vector_ := [1, 2, 3] },
         some { Object.new "x" with parent_ := some 0, url_ := "q/x", aliases_ := [2] },
         some { Object.new "y" with parent_ := some 0, url_ := "q/y", original_ := some 1 },
         some { Object.new "z" with parent_ := some 0, url_ := "q/z" }] 1).map
      (fun w5 => ((World.get w5 0).map Object.children_,
        (World.get w5 0).map Object.children_vector_, (World.get w5 1).isSome,
        (World.get w5 2).isSome, (World.get w5 3).isSome))
      = some (some [("z", 3)], some [3], false, false, true) := by
  decide

theorem World.update_id {w : World} {id : ObjectId} {o : Object} {f : Object → Object}
    (ho : w.get id = some o) (hf : f o = o) : World.update w id f = some w := by
  unfold World.update
  simp only [ho, hf, Option.some.injEq]
  apply List.ext_getElem?
  intro j
  by_cases e : id = j
  · subst e
    unfold World.get at ho
    cases hj : w[id]? with
    | none => simp [hj] at ho
    | some slot =>
      rw [hj] at ho
      have hs : slot = some o := by simpa [Option.join] using ho
      rw [List.getElem?_set_self (by
        rcases List.getElem?_eq_some_iff.mp hj with ⟨hlt, -⟩
        exact hlt), hs]
  · rw [List.getElem?_set_ne e]

theorem erase_eq_filter_of_count_le_one (object : ObjectId) :
    ∀ vector : List ObjectId, vector.count object ≤ 1 →
      vector.erase object = vector.filter fun c => c != object := by
  intro vector
  induction vector with
  | nil => intro _; rfl
  | cons c rest ih =>
    intro h
    by_cases e : c = object
    · subst e
      rw [List.erase_cons_head, List.filter_cons_of_neg (by simp)]
      rw [List.count_cons_self] at h
      have h0 : rest.count c = 0 := by omega
      rw [List.filter_eq_self.mpr]
      intro a ha
      have : a ≠ c := fun e => (List.count_eq_zero.mp h0) (e ▸ ha)
      simpa using this
    · rw [List.erase_cons_tail (by simpa using e), List.filter_cons_of_pos (by simpa using e)]
      rw [List.count_cons_of_ne (fun x => e x.symm)] at h
      rw [ih h]

/-- C37: on a live node `self` that holds `object` at most once in its vector,
`unregister_child(object)` returns; afterwards `object` is neither in the table nor in the
vector; the table and the vector are the previous ones without the entries of `object`, in
the previous order, so that every other child is still in both; no other field and no other
object is written; when `object` was in neither, the store is unchanged; and a second call
changes nothing. -/
theorem unregister_child_removes_exactly (w : World) (self object : ObjectId) (p : Object)
    (hp : w.get self = some p) (hcount : p.children_vector_.count object ≤ 1) :
    ∃ w1 p1, Object.unregister_child w self object = some w1 ∧
      World.get w1 self = some p1 ∧
      (∀ e ∈ p1.children_, e.2 ≠ object) ∧ object ∉ p1.children_vector_ ∧
      p1.children_ = p.children_.filter (fun e => e.2 != object) ∧
      p1.children_vector_ = p.children_vector_.filter (fun c => c != object) ∧
      (∀ e ∈ p.children_, e.2 ≠ object → e ∈ p1.children_) ∧
      (∀ c ∈ p.children_vector_, c ≠ object → c ∈ p1.children_vector_) ∧
      List.Sublist p1.children_ p.children_ ∧
      List.Sublist p1.children_vector_ p.children_vector_ ∧
      p1 = { p with children_ := p1.children_, children_vector_ := p1.children_vector_ } ∧
      (∀ j, j ≠ self → World.get w1 j = w.get j) ∧
      ((∀ e ∈ p.children_, e.2 ≠ object) → object ∉ p.children_vector_ → w1 = w) ∧
      Object.unregister_child w1 self object = some w1 := by
  obtain ⟨w1, h⟩ := Object.unregister_child_total object hp
  obtain ⟨p0, hp0, hg⟩ := Object.unregister_child_some h
  rw [hp] at hp0
  cases hp0
  have hp1 : World.get w1 self = some { p with
      children_ := THash_remove_element p.children_ object,
      children_vector_ := p.children_vector_.erase object } := by
    rw [hg self, if_pos rfl]
  have hv : p.children_vector_.erase object
      = p.children_vector_.filter fun c => c != object :=
    erase_eq_filter_of_count_le_one object _ hcount
  have hstable : ∀ (x : World) (px : Object), x.get self = some px →
      (∀ e ∈ px.children_, e.2 ≠ object) → object ∉ px.children_vector_ →
      Object.unregister_child x self object = some x := by
    intro x px hx h1 h2
    unfold Object.unregister_child
    have hf : THash_remove_element px.children_ object = px.children_ := by
      unfold THash_remove_element
      rw [List.filter_eq_self]
      intro e he
      simpa using h1 e he
    rw [World.update_id hx (by rw [hf])]
    simp only
    exact World.update_id hx (by rw [List.erase_of_not_mem h2])
  have hno1 : ∀ e ∈ THash_remove_element p.children_ object, e.2 ≠ object :=
    fun e he => (mem_remove_element.mp he).2
  have hno2 : object ∉ p.children_vector_.erase object := by
    rw [hv]
    intro hmem
    have := (List.mem_filter.mp hmem).2
    simp at this
  refine ⟨w1, _, h, hp1, hno1, hno2, rfl, hv, ?_, ?_, List.filter_sublist _,
    List.erase_sublist _ _, rfl, ?_, ?_, ?_⟩
  · intro e he hne
    exact mem_remove_element.mpr ⟨he, hne⟩
  · intro c hc hne
    exact (List.mem_erase_of_ne hne).mpr hc
  · intro j hj
    rw [hg j, if_neg hj]
  · intro h1 h2
    have := hstable w p hp h1 h2
    rw [h] at this
    exact Option.some.inj this
  · exact hstable w1 _ hp1 hno1 hno2

/-- C37, on a node with the children a, b and c, for the child b. -/
theorem unregister_child_removes_exactly_witness :
    ∃ w1 p1, Object.unregister_child
        [some { Object.new "parent" with
                  children_ := [("a", 1), ("b", 2), ("c", 3)],
                  children_vector_ := [1, 2, 3] },
         some (Object.new "a"), some (Object.new "b"), some (Object.new "c")] 0 2 = some w1 ∧
      World.get w1 0 = some p1 ∧
      p1.children_ = [("a", 1), ("c", 3)] ∧ p1.children_vector_ = [1, 3] := by
  obtain ⟨w1, p1, h, hp1, -, -, hc, hv, -⟩ := unregister_child_removes_exactly
    [some { Object.new "parent" with
              children_ := [("a", 1), ("b", 2), ("c", 3)],
              children_vector_ := [1, 2, 3] },
     some (Object.new "a"), some (Object.new "b"), some (Object.new "c")] 0 2 _ rfl
    (by decide)
  exact ⟨w1, p1, h, hp1, hc, hv⟩

/-- C39 (failing input): "root" has the child "c", which has the leaf "d", and every
`trigger` returns Nil.  On "c", `insert_in_hash` leaves its argument as it is: a Nil stays
Nil, and the default-constructed `obj_hash` of the caller stays Empty.  An Empty Value is not
Nil, so that on "root" the key "c" is added to the result, with the value Nil. -/
theorem insert_in_hash_lists_child_without_value :
    Object.insert_in_hash (fun _ h _ => some (gNilValue, h)) 3
        [some { Object.new "root" with children_ := [("c", 1)], children_vector_ := [1] },
         some { Object.new "c" with
                  parent_ := some 0, children_ := [("d", 2)], children_vector_ := [2] },
         some { Object.new "d" with parent_ := some 1 }] [] 1 gNilValue
      = some (gNilValue, []) ∧
    Object.insert_in_hash (fun _ h _ => some (gNilValue, h)) 3
        [some { Object.new "root" with children_ := [("c", 1)], children_vector_ := [1] },
         some { Object.new "c" with
                  parent_ := some 0, children_ := [("d", 2)], children_vector_ := [2] },
         some { Object.new "d" with parent_ := some 1 }] [] 1 Value.new
      = some (Value.new, []) ∧
    Value.new.is_nil = false ∧
    Object.insert_in_hash (fun _ h _ => some (gNilValue, h)) 3
        [some { Object.new "root" with children_ := [("c", 1)], children_vector_ := [1] },
         some { Object.new "c" with
                  parent_ := some 0, children_ := [("d", 2)], children_vector_ := [2] },
         some { Object.new "d" with parent_ := some 1 }] [] 0 gNilValue
      = some (⟨HASH_VALUE, Slot.ptr (some 0)⟩,
          [some ⟨1, Obj.hash [("c", ⟨NIL_VALUE, Slot.undef⟩)]⟩]) := by
  decide

end Oscit

namespace Oscit.Old

/-- C38: let `v` and `e` be valid, on different payloads.  On a Nil `v`, `push_back` and
`push_front` make `v` a copy of `e`: the variant and the content of `e`, which is a List only
when `e` is one.  On a `v` that is neither Nil nor a List, `push_back` makes `v` the List
[x, e] of the previous content x of `v` and the content of `e`, and `push_front` the List
[e, x].  On a List `v` of size n, `push_back` gives the size n+1 with the content of `e` last,
`push_front` the size n+1 with the content of `e` first, and the previous elements follow or
precede it in their order. -/
theorem push_on_each_receiver (fuel : Nat) (h : Heap) (v e : Value)
    (hv : v.valid h = true) (he : e.valid h = true)
    (hne : ∀ q, v.ptr_ = some q → e.ptr_ ≠ some q) :
    ∃ te, e.content h = some te ∧
      (v.is_nil = true →
        ∃ v1 h1, v.push_back fuel h e = some (v1, h1) ∧
          v.push_front fuel h e = some (v1, h1) ∧
          v1.type_ = e.type_ ∧ v1.content h1 = some te ∧ v1.is_list = e.is_list) ∧
      (v.is_nil = false → v.is_list = false →
        ∃ tx p hB hF, v.content h = some tx ∧
          v.push_back (fuel + 1) h e = some (⟨ValueType.LIST_VALUE, Slot.ptr (some p)⟩, hB) ∧
          Value.size hB ⟨ValueType.LIST_VALUE, Slot.ptr (some p)⟩ = some 2 ∧
          Value.at_pos hB ⟨ValueType.LIST_VALUE, Slot.ptr (some p)⟩ 0 = some tx ∧
          Value.at_pos hB ⟨ValueType.LIST_VALUE, Slot.ptr (some p)⟩ 1 = some te ∧
          v.push_front fuel h e = some (⟨ValueType.LIST_VALUE, Slot.ptr (some p)⟩, hF) ∧
          Value.size hF ⟨ValueType.LIST_VALUE, Slot.ptr (some p)⟩ = some 2 ∧
          Value.at_pos hF ⟨ValueType.LIST_VALUE, Slot.ptr (some p)⟩ 0 = some te ∧
          Value.at_pos hF ⟨ValueType.LIST_VALUE, Slot.ptr (some p)⟩ 1 = some tx) ∧
      (v.is_list = true →
        ∃ p values hB hF, v.ptr_ = some p ∧ h.cell p = some (Tree.list values) ∧
          v.size h = some values.length ∧
          v.push_back fuel h e = some (v, hB) ∧
          hB.cell p = some (Tree.list (values ++ [te])) ∧
          v.size hB = some (values.length + 1) ∧ v.at_pos hB values.length = some te ∧
          (∀ i, i < values.length → v.at_pos hB i = v.at_pos h i) ∧
          v.push_front fuel h e = some (v, hF) ∧
          hF.cell p = some (Tree.list (te :: values)) ∧
          v.size hF = some (values.length + 1) ∧ v.at_pos hF 0 = some te ∧
          (∀ i, i < values.length → v.at_pos hF (i + 1) = v.at_pos h i)) := by
  obtain ⟨te, hte⟩ := Value.content_valid he
  refine ⟨te, hte, ?_, ?_, ?_⟩
  · intro hnil
    have hty : v.type_ = ValueType.NIL_VALUE := by simpa [Value.is_nil] using hnil
    obtain ⟨v1, h1, ta, hta, hassign, ht1, -, hc1, -, -⟩ := Value.assign_to_nil hty hv he
    rw [hte] at hta
    cases hta
    refine ⟨v1, h1, ?_, ?_, ht1, hc1, by simp [Value.is_list, ht1]⟩
    · rw [Value.push_back]
      simp [hnil, hassign]
    · simp [Value.push_front, hnil, hassign]
  · intro hnil hlist
    have hn : v.type_ ≠ ValueType.NIL_VALUE := by simpa [Value.is_nil] using hnil
    have hl : v.type_ ≠ ValueType.LIST_VALUE := by simpa [Value.is_list] using hlist
    obtain ⟨tx, te2, p, hB, hF, htx, hte2, hpb, hcb, hpf, hcf⟩ :=
      Value.push_promotes fuel hv hn hl he hne
    rw [hte] at hte2
    cases hte2
    refine ⟨tx, p, hB, hF, htx, hpb, ?_, ?_, ?_, hpf, ?_, ?_, ?_⟩ <;>
      simp [Value.size, Value.at_pos, Value.ptr_, hcb, hcf]
  · intro hlist
    have hty : v.type_ = ValueType.LIST_VALUE := by simpa [Value.is_list] using hlist
    rcases Value.valid_split hv with ⟨hn, -⟩ | ⟨p, t, hu, hc, ht, -, -⟩
    · rcases hn with e1 | e1 <;> rw [e1] at hty <;> cases hty
    · have hp : v.ptr_ = some p := by simp [Value.ptr_, hu]
      rw [hty] at ht
      cases t <;> simp only [Tree.type] at ht <;> try cases ht
      rename_i values
      obtain ⟨hpb, hcb⟩ := Value.push_back_appends fuel hty hp hc hte
      obtain ⟨hpf, hcf⟩ := Value.push_front_prepends fuel hty hp hc hte
      refine ⟨p, values, _, _, hp, hc, ?_, hpb, hcb, ?_, ?_, ?_, hpf, hcf, ?_, ?_, ?_⟩
      · simp [Value.size, hty, hp, hc]
      · simp [Value.size, hty, hp, hcb]
      · simp [Value.at_pos, hp, hcb]
      · intro i hi
        simp [Value.at_pos, hp, hcb, hc, List.getElem?_append_left hi]
      · simp [Value.size, hty, hp, hcf]
      · simp [Value.at_pos, hp, hcf]
      · intro i _
        simp [Value.at_pos, hp, hcf, hc]

/-- C38, on the List ["one"] that gets the Real 2 at its end and at its front. -/
theorem push_on_each_receiver_witness :
    ∃ hB hF,
      Value.push_back 0 [some (Tree.list [Tree.string "one"])]
        ⟨ValueType.LIST_VALUE, Slot.ptr (some 0)⟩ (Value.of_real 2)
        = some (⟨ValueType.LIST_VALUE, Slot.ptr (some 0)⟩, hB) ∧
      hB.cell 0 = some (Tree.list ([Tree.string "one"] ++ [Tree.real 2])) ∧
      Value.push_front 0 [some (Tree.list [Tree.string "one"])]
        ⟨ValueType.LIST_VALUE, Slot.ptr (some 0)⟩ (Value.of_real 2)
        = some (⟨ValueType.LIST_VALUE, Slot.ptr (some 0)⟩, hF) ∧
      hF.cell 0 = some (Tree.list (Tree.real 2 :: [Tree.string "one"])) := by
  obtain ⟨te, hte, -, -, hlist⟩ := push_on_each_receiver 0
    [some (Tree.list [Tree.string "one"])] ⟨ValueType.LIST_VALUE, Slot.ptr (some 0)⟩
    (Value.of_real 2) rfl rfl (fun q hq => by simp [Value.ptr_, Value.of_real])
  obtain ⟨p, values, hB, hF, hp, hc, -, hpb, hcb, -, -, -, hpf, hcf, -⟩ := hlist rfl
  have hp0 : p = 0 := by
    have : some 0 = some p := hp
    exact (Option.some.inj this).symm
  subst hp0
  have hv : values = [Tree.string "one"] := by
    have : some (Tree.list [Tree.string "one"]) = some (Tree.list values) := hc
    simpa using this.symm
  subst hv
  have hte2 : te = Tree.real 2 := by
    have : some (Tree.real 2) = some te := hte
    simpa using this.symm
  subst hte2
  exact ⟨hB, hF, hpb, hcb, hpf, hcf⟩

end Oscit.Old

/-! # Theorems on storage that holds earlier bits, and on the operations of `Value` -/

namespace Oscit

open ValueType

/-! ## Copies in storage that holds earlier bits -/

/-- A Value built in storage that holds no address is valid. -/
theorem Value.new_on_valid {bits : Slot} (h : Heap) (hbits : (Value.new_on bits).ptr_ = none) :
    (Value.new_on bits).valid h = true := by
  have e : (Value.new_on bits).valid h = ((Value.new_on bits).ptr_ == none) := rfl
  rw [e, hbits]
  rfl

/-- The copy of a String, List, Error or Hash in storage that does not hold the address of
its payload: the copy is the same handle, and the payload is referred to once more. -/
theorem Value.copy_on_shared (bits : Slot) {h : Heap} {x : Value} {p : Addr} {c : Cell}
    (hs : shareable x.type_) (hu : x.u = Slot.ptr (some p)) (hc : h.cell p = some c)
    (hne : (Value.new_on bits).ptr_ ≠ some p) :
    Value.copy_on bits h x = some (x, h.write p ⟨c.ref_count + 1, c.obj⟩) := by
  obtain ⟨t, u⟩ := x
  simp only at hu hs
  subst hu
  rcases hs with e | e | e | e <;> subst e <;>
    simp [Value.copy_on, Value.new_on, Value.assign, Value.share,
      Value.set_type_without_default, Value.clear, acquire, hc, Value.ptr_] <;>
    exact hne

/-- The copy of an Empty, Nil or Any Value keeps the bits that the storage held. -/
theorem Value.copy_on_plain (bits : Slot) (h : Heap) (x : Value)
    (hx : x.type_ = EMPTY_VALUE ∨ x.type_ = NIL_VALUE ∨ x.type_ = ANY_VALUE) :
    Value.copy_on bits h x
      = some (⟨if x.type_ = ANY_VALUE then ANY_VALUE else NIL_VALUE, bits⟩, h) := by
  obtain ⟨t, u⟩ := x
  simp only at hx
  rcases hx with e | e | e <;> subst e <;> rfl

/-- The copy of a Real does not depend on the bits that the storage held. -/
theorem Value.copy_on_real (bits : Slot) (h : Heap) (x : Value) (hx : x.type_ = REAL_VALUE) :
    Value.copy_on bits h x = some (⟨REAL_VALUE, Slot.real x.r⟩, h) := by
  obtain ⟨t, u⟩ := x
  simp only at hx
  subst hx
  rfl

/-- The copy of a Matrix does not depend on the bits that the storage held. -/
theorem Value.copy_on_matrix (bits : Slot) (h : Heap) (x : Value)
    (hx : x.type_ = MATRIX_VALUE) : Value.copy_on bits h x = Value.copy h x := by
  obtain ⟨t, u⟩ := x
  simp only at hx
  subst hx
  rfl

/-- `return value;` for a String, List, Error or Hash whose reference is counted, in storage
that does not hold the address of the payload: the result is the same handle and the heap is
as before. -/
theorem Value.return_on_shared (bits : Slot) {h : Heap} {x : Value} {p : Addr} {c : Cell}
    (hs : shareable x.type_) (hu : x.u = Slot.ptr (some p)) (hc : h.cell p = some c)
    (hn : 1 ≤ c.ref_count) (hne : (Value.new_on bits).ptr_ ≠ some p) :
    ∃ h2, Value.return_on bits h x = some (x, h2) ∧ List.length h2 = List.length h ∧
      ∀ q, h2.cell q = h.cell q := by
  have hlt : p < List.length h := Heap.cell_lt hc
  have hc1 : (h.write p ⟨c.ref_count + 1, c.obj⟩).cell p = some ⟨c.ref_count + 1, c.obj⟩ := by
    rw [Heap.cell_write, if_pos rfl, if_pos hlt]
  have hxp : x.ptr_ = some p := by simp [Value.ptr_, hu]
  have hnot : ¬ (c.ref_count + 1 ≤ 1) := by omega
  refine ⟨(h.write p ⟨c.ref_count + 1, c.obj⟩).write p ⟨c.ref_count, c.obj⟩, ?_, ?_, ?_⟩
  · unfold Value.return_on
    rw [Value.copy_on_shared bits hs hu hc hne]
    obtain ⟨t, u⟩ := x
    simp only at hu hs hxp
    rcases hs with e | e | e | e <;> subst e <;>
      simp [Value.clear, hxp, release, hc1, hnot]
  · simp [Heap.length_write]
  · intro q
    rw [Heap.cell_write]
    by_cases hpq : p = q
    · subst hpq
      rw [if_pos rfl, if_pos (by simpa [Heap.length_write] using hlt), hc]
    · rw [if_neg hpq, Heap.cell_write, if_neg hpq]

/-- The copy of a Value that is not Empty, Nil or Any, in storage that does not hold the
address of its payload, is the copy made in storage that holds no address. -/
theorem Value.copy_on_eq_copy {bits : Slot} {h : Heap} {x : Value} (hx : x.valid h = true)
    (hne : ∀ p, (Value.new_on bits).ptr_ = some p → x.ptr_ ≠ some p)
    (hplain : ¬ (x.type_ = EMPTY_VALUE ∨ x.type_ = NIL_VALUE ∨ x.type_ = ANY_VALUE)) :
    Value.copy_on bits h x = Value.copy h x := by
  rcases Value.valid_cases hx with ⟨hn, -⟩ | ⟨p, c, hu, hc, ht⟩
  · rcases hn with e | e | e | e
    · exact absurd (Or.inl e) hplain
    · exact absurd (Or.inr (Or.inl e)) hplain
    · rw [Value.copy_on_real bits h x e]
      exact (Value.copy_on_real Slot.undef h x e).symm
    · exact absurd (Or.inr (Or.inr e)) hplain
  · have hxp : x.ptr_ = some p := by simp [Value.ptr_, hu]
    have hnb : (Value.new_on bits).ptr_ ≠ some p := fun e => hne p e hxp
    by_cases hm : x.type_ = MATRIX_VALUE
    · exact Value.copy_on_matrix bits h x hm
    · have hs : shareable x.type_ := by
        obtain ⟨n, ob⟩ := c
        simp only at ht
        rw [← ht] at hm ⊢
        cases ob <;> simp [Obj.type, shareable] at hm ⊢
      rw [Value.copy_on_shared bits hs hu hc hnb]
      exact (Value.copy_on_shared Slot.undef hs hu hc (fun e => by cases e)).symm

/-- The end of `type_with_current_value` on a meta-type that is neither a String nor a List,
once the local `type` has been built: the Error is built, extended, returned, and `type` is
destroyed. -/
theorem Object.invalid_meta_type_tail {tb rb : Slot} {H : String → TypeTagID} {fuel : Nat}
    {w : World} {h g1 : Heap} {self : ObjectId} {o : Object} {c : Value} {tag : String}
    (trigger : Heap → Value → Option (Value × Heap))
    (ho : w.get self = some o) (hcopy : Value.copy_on tb h o.type_ = some (c, g1))
    (hcs : c.is_string = false) (hcl : c.is_list = false)
    (htag : c.type_tag fuel g1 = some tag)
    (hc : c.valid g1 = true ∨ no_payload c.type_)
    (hrb : (Value.new_on rb).ptr_ ≠ some (List.length g1)) :
    ∃ h1, Object.type_with_current_value_on tb rb H fuel trigger w h self
        = some (⟨ERROR_VALUE, Slot.ptr (some (List.length g1))⟩, h1) ∧
      h1.cell (List.length g1) = some ⟨1, Obj.error INTERNAL_SERVER_ERROR
        ("Invalid meta type. Should be a list (found '" ++ tag ++ "').")⟩ := by
  obtain ⟨he1, he2, he3, happ⟩ := ErrorValue_append g1 INTERNAL_SERVER_ERROR
    "Invalid meta type. Should be a list (found '"
  obtain ⟨ha1, ha2, ha3⟩ := happ _ 1 _ tag he2
  obtain ⟨hb1, hb2, hb3⟩ := happ _ 1 _ "')." ha2
  obtain ⟨h5, hret, hlen5, hcell5⟩ :=
    Value.return_on_shared rb
      (x := ⟨ERROR_VALUE, Slot.ptr (some (List.length g1))⟩)
      (Or.inr (Or.inr (Or.inl rfl))) rfl hb2 (Nat.le_refl 1) hrb
  -- the destruction of the local `type`
  have hclear : ∃ c0 h6, c.clear h5 = some (c0, h6) ∧
      h6.cell (List.length g1) = h5.cell (List.length g1) := by
    rcases hc with hv | hn
    · have hv5 : c.valid h5 = true := by
        refine Value.valid_of_kept ?_ hv
        intro q c0 hq
        have hne : q ≠ List.length g1 := Nat.ne_of_lt (Heap.cell_lt hq)
        exact ⟨c0.ref_count, by rw [hcell5, hb3 q hne, ha3 q hne, he3 q hne, hq]⟩
      obtain ⟨w0, h0, hcl0, -, -, -, hframe⟩ := Value.clear_valid hv5
      have hcp : c.ptr_ ≠ some (List.length g1) := by
        intro hp
        rcases Value.valid_cases hv with ⟨-, hnone⟩ | ⟨p, c0, hu, hc0, -⟩
        · rw [hnone] at hp
          cases hp
        · have : p = List.length g1 := by simpa [Value.ptr_, hu] using hp
          exact absurd (this ▸ Heap.cell_lt hc0) (Nat.lt_irrefl _)
      exact ⟨w0, h0, hcl0, hframe _ hcp⟩
    · refine ⟨c, h5, ?_, rfl⟩
      obtain ⟨t, u⟩ := c
      simp only [no_payload] at hn
      rcases hn with e | e | e | e <;> subst e <;> rfl
  obtain ⟨c0, h6, hcl6, hcell6⟩ := hclear
  refine ⟨h6, ?_, by rw [hcell6, hcell5, hb2]⟩
  unfold Object.type_with_current_value_on
  simp only [ho, hcopy, hcs, hcl, htag]
  simp [he1, ha1, hb1, hret, hcl6]

/-- A copy does not shorten the heap. -/
theorem Value.copy_length {h g1 : Heap} {x c : Value} (hx : x.valid h = true)
    (hcopy : Value.copy h x = some (c, g1)) : List.length h ≤ List.length g1 := by
  obtain ⟨c1, g2, hc1, -, -, -, hm, hkeep⟩ := Value.copy_valid hx
  rw [hcopy] at hc1
  cases hc1
  by_cases hxm : x.type_ = MATRIX_VALUE
  · obtain ⟨p, n, m, -, -, -, hnew⟩ := hm hxm
    exact Nat.le_of_lt (Heap.cell_lt hnew)
  · rcases Value.valid_cases hx with ⟨hn, -⟩ | ⟨p, c0, hu, hc0, ht⟩
    · have e : Value.copy h x = Value.copy_on Slot.undef h x := rfl
      rcases hn with e1 | e1 | e1 | e1
      · rw [e, Value.copy_on_plain Slot.undef h x (Or.inl e1)] at hcopy
        cases hcopy
        exact Nat.le_refl _
      · rw [e, Value.copy_on_plain Slot.undef h x (Or.inr (Or.inl e1))] at hcopy
        cases hcopy
        exact Nat.le_refl _
      · rw [e, Value.copy_on_real Slot.undef h x e1] at hcopy
        cases hcopy
        exact Nat.le_refl _
      · rw [e, Value.copy_on_plain Slot.undef h x (Or.inr (Or.inr e1))] at hcopy
        cases hcopy
        exact Nat.le_refl _
    · have hs : shareable x.type_ := by
        obtain ⟨n, ob⟩ := c0
        simp only at ht
        rw [← ht] at hxm ⊢
        cases ob <;> simp [Obj.type, shareable] at hxm ⊢
      have e : Value.copy h x = Value.copy_on Slot.undef h x := rfl
      rw [e, Value.copy_on_shared Slot.undef hs hu hc0 (fun e => by cases e)] at hcopy
      cases hcopy
      simp [Heap.length_write]

/-- C31 (amended): let neither the storage of the local `type` nor the storage of the result
hold the address of the payload of the meta-type, nor the storage of the result an address
that is handed out during the call.  On a live node with a valid meta-type, whatever
`trigger` is: a String meta-type is returned as it is; a meta-type that is neither a String
nor a List gives an Error with the code `INTERNAL_SERVER_ERROR` and the message "Invalid
meta type. Should be a list (found '<tag>').", where <tag> is the type tag of the meta-type,
and "N" for an Empty meta-type. -/
theorem invalid_meta_type_gives_internal_error (tb rb : Slot) (H : String → TypeTagID)
    (fuel : Nat) (w : World) (h : Heap) (self : ObjectId) (o : Object)
    (ho : w.get self = some o) (hv : o.type_.valid h = true)
    (htb : ∀ p, (Value.new_on tb).ptr_ = some p → o.type_.ptr_ ≠ some p)
    (hrb : ∀ p, (Value.new_on rb).ptr_ = some p →
      o.type_.ptr_ ≠ some p ∧ p < List.length h) :
    (o.type_.is_string = true →
      ∃ type h1, (∀ trigger,
          Object.type_with_current_value_on tb rb H fuel trigger w h self
            = some (type, h1)) ∧
        type.is_string = true ∧ Value.alike h1 type h o.type_ ∧
        type.str h1 = o.type_.str h) ∧
    (o.type_.is_string = false → o.type_.is_list = false →
      ∃ e h1 tag, (∀ trigger,
          Object.type_with_current_value_on tb rb H fuel trigger w h self = some (e, h1)) ∧
        e.is_error = true ∧ e.error_code h1 = some INTERNAL_SERVER_ERROR ∧
        e.error_message h1
          = some ("Invalid meta type. Should be a list (found '" ++ tag ++ "').") ∧
        (o.type_.is_empty = false → o.type_.type_tag fuel h = some tag) ∧
        (o.type_.is_empty = true → tag = "N")) := by
  constructor
  · intro hs
    have hty : o.type_.type_ = STRING_VALUE := by simpa [Value.is_string] using hs
    rcases Value.valid_cases hv with ⟨hn, -⟩ | ⟨p, c, hu, hc, ht⟩
    · rcases hn with e | e | e | e <;> rw [e] at hty <;> cases hty
    · have hxp : o.type_.ptr_ = some p := by simp [Value.ptr_, hu]
      have hsh : shareable o.type_.type_ := Or.inl hty
      have hcopy := Value.copy_on_shared tb hsh hu hc (fun e => htb p e hxp)
      have hlt : p < List.length h := Heap.cell_lt hc
      have hc1 : (h.write p ⟨c.ref_count + 1, c.obj⟩).cell p
          = some ⟨c.ref_count + 1, c.obj⟩ := by
        rw [Heap.cell_write, if_pos rfl, if_pos hlt]
      obtain ⟨h2, hret, -, hcell2⟩ :=
        Value.return_on_shared rb hsh hu hc1 (Nat.le_add_left 1 _)
          (fun e => (hrb p e).1 hxp)
      have hc2 : h2.cell p = some ⟨c.ref_count + 1, c.obj⟩ := by rw [hcell2, hc1]
      refine ⟨o.type_, h2, ?_, hs, ?_, ?_⟩
      · intro trigger
        unfold Object.type_with_current_value_on
        simp only [ho, hcopy, hs, if_true]
        exact hret
      · refine Value.alike_of_kept hv ?_
        intro q c0 hq hc0
        rw [hxp] at hq
        cases hq
        rw [hc] at hc0
        cases hc0
        exact ⟨_, hc2⟩
      · have e1 : o.type_.ptr_.bind h2.cell = some ⟨c.ref_count + 1, c.obj⟩ := by
          rw [hxp, Option.some_bind, hc2]
        have e2 : o.type_.ptr_.bind h.cell = some c := by
          rw [hxp, Option.some_bind, hc]
        unfold Value.str
        rw [e1, e2]
        obtain ⟨n, ob⟩ := c
        cases ob <;> rfl
  · intro hs hl
    by_cases hplain : o.type_.type_ = EMPTY_VALUE ∨ o.type_.type_ = NIL_VALUE ∨
        o.type_.type_ = ANY_VALUE
    · -- the copy keeps the bits of the storage
      have hcopy := Value.copy_on_plain tb h o.type_ hplain
      have hct : (Value.mk (if o.type_.type_ = ANY_VALUE then ANY_VALUE else NIL_VALUE) tb).type_
          = (if o.type_.type_ = EMPTY_VALUE then NIL_VALUE else o.type_.type_) := by
        rcases hplain with e | e | e <;> simp [e]
      obtain ⟨tag, htag, hcl, hcsf, ht1, ht2⟩ :=
        Value.type_tag_of_copy fuel h h o.type_ _ hct hl
      have hnp : no_payload
          (Value.mk (if o.type_.type_ = ANY_VALUE then ANY_VALUE else NIL_VALUE) tb).type_ := by
        rcases hplain with e | e | e <;> simp [e, no_payload]
      have hrb1 : (Value.new_on rb).ptr_ ≠ some (List.length h) :=
        fun e => absurd (hrb _ e).2 (Nat.lt_irrefl _)
      refine ⟨⟨ERROR_VALUE, Slot.ptr (some (List.length h))⟩, ?_⟩
      have hex : ∀ trigger, ∃ h1, Object.type_with_current_value_on tb rb H fuel trigger w h self
          = some (⟨ERROR_VALUE, Slot.ptr (some (List.length h))⟩, h1) ∧
          h1.cell (List.length h) = some ⟨1, Obj.error INTERNAL_SERVER_ERROR
            ("Invalid meta type. Should be a list (found '" ++ tag ++ "').")⟩ :=
        fun trigger => Object.invalid_meta_type_tail trigger ho hcopy (hcsf hs) hcl htag
          (Or.inr hnp) hrb1
      obtain ⟨h1, hrun, hcell⟩ := hex (fun _ _ => none)
      refine ⟨h1, tag, ?_, rfl, ?_, ?_, ht1, ht2⟩
      · intro trigger
        obtain ⟨h1a, hruna, -⟩ := hex trigger
        rw [hruna]
        have e : Object.type_with_current_value_on tb rb H fuel trigger w h self
            = Object.type_with_current_value_on tb rb H fuel (fun _ _ => none) w h self := by
          unfold Object.type_with_current_value_on
          simp only [ho, hcopy, hcsf hs, hcl, htag]
          simp
        rw [e, hrun] at hruna
        exact hruna.symm
      · simp [Value.error_code, Value.ptr_, hcell]
      · simp [Value.error_message, Value.ptr_, hcell]
    · -- the copy is the one made in storage that holds no address
      have hown : o.type_.type_ = MATRIX_VALUE → Value.new.ptr_ ≠ o.type_.ptr_ := by
        intro hm hp
        rcases Value.valid_cases hv with ⟨hn, -⟩ | ⟨p, c0, hu, -, -⟩
        · rcases hn with e | e | e | e <;> rw [e] at hm <;> cases hm
        · simp [Value.ptr_, hu, Value.new] at hp
      obtain ⟨c, g1, hassign, hcv, hct, -, -, -⟩ :=
        Value.assign_alike (rfl : Value.new.valid h = true) hv hown
      have hcopy0 : Value.copy h o.type_ = some (c, g1) := hassign
      have hcopy : Value.copy_on tb h o.type_ = some (c, g1) := by
        rw [Value.copy_on_eq_copy hv htb hplain]
        exact hcopy0
      have hlen : List.length h ≤ List.length g1 := Value.copy_length hv hcopy0
      obtain ⟨tag, htag, hcl, hcsf, ht1, ht2⟩ :=
        Value.type_tag_of_copy fuel h g1 o.type_ c hct hl
      have hrb1 : (Value.new_on rb).ptr_ ≠ some (List.length g1) :=
        fun e => absurd (Nat.lt_of_lt_of_le (hrb _ e).2 hlen) (Nat.lt_irrefl _)
      have hex : ∀ trigger, ∃ h1, Object.type_with_current_value_on tb rb H fuel trigger w h self
          = some (⟨ERROR_VALUE, Slot.ptr (some (List.length g1))⟩, h1) ∧
          h1.cell (List.length g1) = some ⟨1, Obj.error INTERNAL_SERVER_ERROR
            ("Invalid meta type. Should be a list (found '" ++ tag ++ "').")⟩ :=
        fun trigger => Object.invalid_meta_type_tail trigger ho hcopy (hcsf hs) hcl htag
          (Or.inl hcv) hrb1
      obtain ⟨h1, hrun, hcell⟩ := hex (fun _ _ => none)
      refine ⟨⟨ERROR_VALUE, Slot.ptr (some (List.length g1))⟩, h1, tag, ?_, rfl, ?_, ?_, ht1,
        ht2⟩
      · intro trigger
        have e : Object.type_with_current_value_on tb rb H fuel trigger w h self
            = Object.type_with_current_value_on tb rb H fuel (fun _ _ => none) w h self := by
          unfold Object.type_with_current_value_on
          simp only [ho, hcopy, hcsf hs, hcl, htag]
          simp
        rw [e, hrun]
      · simp [Value.error_code, Value.ptr_, hcell]
      · simp [Value.error_message, Value.ptr_, hcell]

/-- C31 (amended), on a node whose meta-type is the Real 1, with a local `type` built in
storage that holds the address 5. -/
theorem invalid_meta_type_gives_internal_error_witness :
    ∃ e h1 tag, (∀ trigger,
        Object.type_with_current_value_on (Slot.ptr (some 5)) Slot.undef (fun _ => 0) 0 trigger
          [some { Object.new "node" with type_ := Value.of_real 1 }] [] 0 = some (e, h1)) ∧
      e.is_error = true ∧ e.error_code h1 = some INTERNAL_SERVER_ERROR ∧
      e.error_message h1
        = some ("Invalid meta type. Should be a list (found '" ++ tag ++ "').") ∧
      Value.type_tag 0 [] (Value.of_real 1) = some tag := by
  obtain ⟨e, h1, tag, h, he, hc, hm, ht, -⟩ :=
    (invalid_meta_type_gives_internal_error (Slot.ptr (some 5)) Slot.undef (fun _ => 0) 0
      [some { Object.new "node" with type_ := Value.of_real 1 }] [] 0 _ rfl rfl
      (fun p _ e => by cases e) (fun p e => by cases e)).2 rfl rfl
  exact ⟨e, h1, tag, h, he, hc, hm, ht rfl⟩

/-- C31 (as stated, refuted): the type tag of an Empty meta-type is "", but
`type_with_current_value()` reports the tag "N" of the Nil copy it works on.  And for the
String meta-type "info", at the address 0: when the union of the storage of the local `type`
already holds the address 0, the copy stays Empty and the method returns the Error with the
tag "" instead of the String. -/
theorem empty_meta_type_is_reported_as_nil :
    Value.type_tag 0 [] Value.new = some "" ∧
    (Object.type_with_current_value_on Slot.undef Slot.undef (fun _ => 0) 0 (fun _ _ => none)
        [some { Object.new "node" with type_ := Value.new }] [] 0).bind
      (fun r => r.1.error_message r.2)
      = some "Invalid meta type. Should be a list (found 'N')." ∧
    (Object.type_with_current_value_on (Slot.ptr (some 0)) Slot.undef (fun _ => 0) 0
        (fun _ _ => none)
        [some { Object.new "node" with type_ := ⟨STRING_VALUE, Slot.ptr (some 0)⟩ }]
        [some ⟨1, Obj.string "info"⟩] 0).bind
      (fun r => r.1.error_message r.2)
      = some "Invalid meta type. Should be a list (found '')." ∧
    (Object.type_with_current_value_on Slot.undef Slot.undef (fun _ => 0) 0
        (fun _ _ => none)
        [some { Object.new "node" with type_ := ⟨STRING_VALUE, Slot.ptr (some 0)⟩ }]
        [some ⟨1, Obj.string "info"⟩] 0)
      = some (⟨STRING_VALUE, Slot.ptr (some 0)⟩, [some ⟨2, Obj.string "info"⟩]) := by
  refine ⟨?_, ?_, ?_, ?_⟩ <;> decide

/-- A valid Value can be cleared. -/
theorem Value.clearable_of_valid {h : Heap} {w : Value} (hw : w.valid h = true) :
    w.clearable h = true := by
  rcases Value.valid_cases hw with ⟨hn, -⟩ | ⟨p, c, hu, hc, ht⟩
  · obtain ⟨t, u⟩ := w
    simp only at hn
    rcases hn with e | e | e | e <;> subst e <;> rfl
  · obtain ⟨t, u⟩ := w
    obtain ⟨n, ob⟩ := c
    simp only at hu ht
    subst hu
    subst ht
    cases ob <;> simp [Value.clearable, Value.ptr_, hc, Obj.type]

/-- C5 (failing input): let the String "a" be at the address 0.  A Value that is built by the
copy constructor from this String, in storage whose union already holds the address 0, stays
Empty, and the count of the String stays at 1; so does a default-constructed Value that is
assigned the String, or set to it.  A Real whose bits are those of the address 0 stays a
Real.  In storage that holds no address the copy is a String, as it is for every valid
receiver. -/
theorem assign_on_equal_bits_keeps_variant :
    Value.copy_on (Slot.ptr (some 0)) [some ⟨1, Obj.string "a"⟩]
        ⟨STRING_VALUE, Slot.ptr (some 0)⟩
      = some (⟨EMPTY_VALUE, Slot.ptr (some 0)⟩, [some ⟨1, Obj.string "a"⟩]) ∧
    Value.assign [some ⟨1, Obj.string "a"⟩] (Value.new_on (Slot.ptr (some 0)))
        ⟨STRING_VALUE, Slot.ptr (some 0)⟩
      = some (⟨EMPTY_VALUE, Slot.ptr (some 0)⟩, [some ⟨1, Obj.string "a"⟩]) ∧
    Value.set [some ⟨1, Obj.string "a"⟩] (Value.new_on (Slot.ptr (some 0)))
        ⟨STRING_VALUE, Slot.ptr (some 0)⟩
      = some (⟨EMPTY_VALUE, Slot.ptr (some 0)⟩, [some ⟨1, Obj.string "a"⟩]) ∧
    (Value.mk EMPTY_VALUE (Slot.ptr (some 0))).is_empty = true ∧
    (Value.mk STRING_VALUE (Slot.ptr (some 0))).is_empty = false ∧
    Value.assign [some ⟨1, Obj.string "a"⟩] ⟨REAL_VALUE, Slot.ptr (some 0)⟩
        ⟨STRING_VALUE, Slot.ptr (some 0)⟩
      = some (⟨REAL_VALUE, Slot.ptr (some 0)⟩, [some ⟨1, Obj.string "a"⟩]) ∧
    Value.copy_on Slot.undef [some ⟨1, Obj.string "a"⟩] ⟨STRING_VALUE, Slot.ptr (some 0)⟩
      = some (⟨STRING_VALUE, Slot.ptr (some 0)⟩, [some ⟨2, Obj.string "a"⟩]) := by
  refine ⟨?_, ?_, ?_, ?_, ?_, ?_, ?_⟩ <;> decide

/-- C29 (failing input): a node with the single child "b", a leaf, and an empty heap, in
which `ListValue list` gets the address 0.  When the union of the storage of the result
already holds the address 0, the copy made by `return list;` stays Empty and the List is
deleted with the local `list`: `list()` returns an Empty Value, not a List with the String
"b".  In storage that holds no address of a live object the result is the List of the String
"b". -/
theorem list_into_stale_result_is_empty :
    (Object.list_on (Slot.ptr (some 0)) (fun _ _ => Slot.undef)
        [some { Object.new "parent" with children_ := [("b", 1)], children_vector_ := [1] },
         some (Object.new "b")] [] 0).map
      (fun r => (r.1, r.1.is_empty, r.1.is_list, r.2.cell 0))
      = some (⟨EMPTY_VALUE, Slot.ptr (some 0)⟩, true, false, none) ∧
    Object.list_on Slot.undef (fun _ _ => Slot.undef)
        [some { Object.new "parent" with children_ := [("b", 1)], children_vector_ := [1] },
         some (Object.new "b")] [] 0
      = some (⟨LIST_VALUE, Slot.ptr (some 0)⟩,
          [some ⟨1, Obj.list [⟨STRING_VALUE, Slot.ptr (some 1)⟩]⟩,
           some ⟨1, Obj.string "b"⟩]) := by
  constructor <;> decide

/-- C35 (failing input): a node whose meta-type is the List [Real 0], at the address 0, and
whose `trigger` returns the Real 5.  When the union of the storage of the local `type`
already holds the address 0, the copy `Value type = type_;` stays Empty and the method returns
the Error "Invalid meta type. Should be a list (found '')." instead of the meta-type with the
live value; the List still holds the Real 0.  In storage that holds no address of a live
object the result is the List, which then holds the Real 5. -/
theorem type_with_stale_local_reports_invalid_meta_type (H : String → TypeTagID) :
    Object.type_with_current_value_on (Slot.ptr (some 0)) Slot.undef H 1
        (fun h _ => some (Value.of_real 5, h))
        [some { Object.new "n" with type_ := ⟨LIST_VALUE, Slot.ptr (some 0)⟩ }]
        [some ⟨1, Obj.list [Value.of_real 0]⟩] 0
      = some (⟨ERROR_VALUE, Slot.ptr (some 1)⟩,
          [some ⟨1, Obj.list [Value.of_real 0]⟩,
           some ⟨1, Obj.error INTERNAL_SERVER_ERROR
             "Invalid meta type. Should be a list (found '')."⟩]) ∧
    Object.type_with_current_value_on Slot.undef Slot.undef H 1
        (fun h _ => some (Value.of_real 5, h))
        [some { Object.new "n" with type_ := ⟨LIST_VALUE, Slot.ptr (some 0)⟩ }]
        [some ⟨1, Obj.list [Value.of_real 0]⟩] 0
      = some (⟨LIST_VALUE, Slot.ptr (some 0)⟩, [some ⟨2, Obj.list [Value.of_real 5]⟩]) := by
  constructor
  · rfl
  · simp [Object.type_with_current_value_on, World.get, Object.new, Value.copy_on,
      Value.new_on, Value.assign, Value.share, Value.ptr_, Value.set_type_without_default,
      Value.clear, acquire, Heap.cell, Heap.write, Value.is_string, Value.is_list,
      Value.at_pos, List_at, Value.of_real, Value.is_any, Value.is_nil, Value.type_id,
      Value.set_value_at, List_set_value_at, Value.set_real, Value.return_on, release, Value.r]

/-- C36 (failing input): the Hash {"a": "s"}, whose String is at the address 1, on a node
with the child "a" whose call returns a Real for a String parameter and an Error for any
other.  When the union of the storage of the local `param` already holds the address 1,
`val.get("a", &param)` leaves `param` Empty: the child is called with an Empty Value, answers
with an Error, and `set_all_ok` returns false, although the call with the String that `val`
holds under "a" would return a Real.  In storage that holds no address of a live object
`set_all_ok` returns true. -/
theorem set_all_ok_with_stale_param_calls_with_empty :
    (Object.set_all_ok (Slot.ptr (some 1))
        (fun g _ x => some (if x.is_string then (Value.of_real 1, g) else ErrorValue g 400 "bad"))
        [some { Object.new "node" with
                  root_ := some 0, children_ := [("a", 1)], children_vector_ := [1] },
         some (Object.new "a")]
        [some ⟨1, Obj.hash [("a", ⟨STRING_VALUE, Slot.ptr (some 1)⟩)]⟩,
         some ⟨1, Obj.string "s"⟩] 0 ⟨HASH_VALUE, Slot.ptr (some 0)⟩).map
      (fun r => (r.1, r.2.1))
      = some (false, [(1, true)]) ∧
    (Object.set_all_ok Slot.undef
        (fun g _ x => some (if x.is_string then (Value.of_real 1, g) else ErrorValue g 400 "bad"))
        [some { Object.new "node" with
                  root_ := some 0, children_ := [("a", 1)], children_vector_ := [1] },
         some (Object.new "a")]
        [some ⟨1, Obj.hash [("a", ⟨STRING_VALUE, Slot.ptr (some 1)⟩)]⟩,
         some ⟨1, Obj.string "s"⟩] 0 ⟨HASH_VALUE, Slot.ptr (some 0)⟩).map
      (fun r => (r.1, r.2.1))
      = some (true, [(1, false)]) := by
  constructor <;> decide

end Oscit

/-! # Theorems on the destruction of a tree -/

namespace Oscit

open ValueType

/-! ## Destruction of a tree -/

theorem Object.core_of_parts {a b : Object} (h1 : a.without_url = b.without_url)
    (h2 : a.url_root = b.url_root) : a.core = b.core := by
  obtain ⟨xn, xu, xp, xr, xc, xk, xch, xv, xa, xt, xrc, xo, xor⟩ := a
  obtain ⟨yn, yu, yp, yr, yc, yk, ych, yv, ya, yt, yrc, yo, yor⟩ := b
  simp only [Object.without_url, Object.url_root, Object.core, Object.mk.injEq,
    Prod.mk.injEq] at h1 h2 ⊢
  simp_all

theorem Object.shell_of_core {a b : Object} (h : a.core = b.core) : a.shell = b.shell := by
  obtain ⟨xn, xu, xp, xr, xc, xk, xch, xv, xa, xt, xrc, xo, xor⟩ := a
  obtain ⟨yn, yu, yp, yr, yc, yk, ych, yv, ya, yt, yrc, yo, yor⟩ := b
  simp only [Object.shell, Object.core, Object.mk.injEq] at h ⊢
  simp_all

/-- What two objects with the same core share. -/
theorem Object.core_fields {a b : Object} (h : a.core = b.core) :
    a.name_ = b.name_ ∧ a.parent_ = b.parent_ ∧ a.root_ = b.root_ ∧
    a.children_ = b.children_ ∧ a.children_vector_ = b.children_vector_ ∧
    a.aliases_ = b.aliases_ ∧ a.ref_count_ = b.ref_count_ := by
  obtain ⟨xn, xu, xp, xr, xc, xk, xch, xv, xa, xt, xrc, xo, xor⟩ := a
  obtain ⟨yn, yu, yp, yr, yc, yk, ych, yv, ya, yt, yrc, yo, yor⟩ := b
  simp only [Object.core, Object.mk.injEq] at h ⊢
  simp_all

/-- What two objects with the same shell share. -/
theorem Object.shell_fields {a b : Object} (h : a.shell = b.shell) :
    a.name_ = b.name_ ∧ a.parent_ = b.parent_ ∧ a.root_ = b.root_ ∧
    a.aliases_ = b.aliases_ ∧ a.ref_count_ = b.ref_count_ := by
  obtain ⟨xn, xu, xp, xr, xc, xk, xch, xv, xa, xt, xrc, xo, xor⟩ := a
  obtain ⟨yn, yu, yp, yr, yc, yk, ych, yv, ya, yt, yrc, yo, yor⟩ := b
  simp only [Object.shell, Object.mk.injEq] at h ⊢
  simp_all

/-- An object of one store, read in a store that has the same objects up to a function. -/
theorem World.get_of_map {α : Type} {g : Object → α} {w w1 : World} {j : ObjectId}
    {x : Object} (h : (World.get w1 j).map g = (w.get j).map g) (hx : w.get j = some x) :
    ∃ y, World.get w1 j = some y ∧ g y = g x := by
  rw [hx] at h
  cases hy : World.get w1 j with
  | none => simp [hy] at h
  | some y =>
    rw [hy] at h
    exact ⟨y, rfl, by simpa using h⟩

theorem Object.below_keys_congr_core {w w1 : World} {n : Nat} {self : ObjectId}
    {children : List (String × ObjectId)}
    (ih : ∀ (c : ObjectId) (lc : List ObjectId), Object.subtree n w c = some lc →
      (∀ j ∈ lc, (World.get w1 j).map Object.core = (w.get j).map Object.core) →
      Object.subtree n w1 c = some lc) :
    ∀ (keys : List String) (l : List ObjectId),
      Object.below_keys (Object.subtree n w) w self children keys = some l →
      (∀ j ∈ l, (World.get w1 j).map Object.core = (w.get j).map Object.core) →
      Object.below_keys (Object.subtree n w1) w1 self children keys = some l := by
  intro keys
  induction keys with
  | nil =>
    intro l h _
    exact h
  | cons key rest ihk =>
    intro l h hsame
    unfold Object.below_keys at h ⊢
    cases hl : children.lookup key with
    | none =>
      simp only [hl] at h ⊢
      exact ihk l h hsame
    | some child =>
      simp only [hl] at h ⊢
      cases hc : w.get child with
      | none => simp [hc] at h
      | some c =>
        simp only [hc] at h
        by_cases hcond : c.parent_ = some self ∧ c.name_ = key
        · rw [if_pos hcond] at h
          cases hsc : Object.subtree n w child with
          | none => simp [hsc] at h
          | some lc =>
            cases hbr : Object.below_keys (Object.subtree n w) w self children rest with
            | none => simp [hsc, hbr] at h
            | some ls =>
              simp only [hsc, hbr, Option.some.injEq] at h
              subst h
              obtain ⟨-, lc0, -, -, hlc, -⟩ := Object.subtree_head hsc
              obtain ⟨c1, hchild, hcore⟩ := World.get_of_map
                (hsame child (List.mem_append_left _
                  (by rw [hlc]; exact List.mem_cons_self _ _))) hc
              obtain ⟨hn, hp, -⟩ := Object.core_fields hcore
              have hcond1 : c1.parent_ = some self ∧ c1.name_ = key := by
                rw [hp, hn]
                exact hcond
              have h1 := ih child lc hsc (fun j hj => hsame j (List.mem_append_left _ hj))
              have h2 := ihk ls hbr (fun j hj => hsame j (List.mem_append_right _ hj))
              simp only [hchild, if_pos hcond1, h1, h2]
        · rw [if_neg hcond] at h
          cases h

/-- The subtree of a node is the same in a store whose objects below the node are the same up
to the index of a root. -/
theorem Object.subtree_congr_core {w w1 : World} :
    ∀ (fuel : Nat) (self : ObjectId) (nodes : List ObjectId),
      Object.subtree fuel w self = some nodes →
      (∀ j ∈ nodes, (World.get w1 j).map Object.core = (w.get j).map Object.core) →
      Object.subtree fuel w1 self = some nodes := by
  intro fuel
  induction fuel with
  | zero =>
    intro self nodes h
    simp [Object.subtree] at h
  | succ n ih =>
    intro self nodes h hsame
    obtain ⟨o, l, -, ho, hnodes, hbelow⟩ := Object.subtree_head h
    simp only [Nat.add_sub_cancel] at hbelow
    subst hnodes
    obtain ⟨o1, hs, hcore⟩ := World.get_of_map (hsame self (List.mem_cons_self _ _)) ho
    obtain ⟨-, -, -, hch, -⟩ := Object.core_fields hcore
    unfold Object.subtree
    simp only [hs, hch]
    rw [Object.below_keys_congr_core ih _ l hbelow
      (fun j hj => hsame j (List.mem_cons_of_mem _ hj))]
    rfl

/-- The subtree of a node is the same in a store whose objects below the node are the same up
to the index of a root, when the node itself keeps its table. -/
theorem Object.subtree_congr_top {w w1 : World} {fuel : Nat} {self : ObjectId}
    {nodes : List ObjectId} {o o1 : Object}
    (h : Object.subtree fuel w self = some nodes) (hnd : nodes.Nodup)
    (ho : w.get self = some o) (ho1 : World.get w1 self = some o1)
    (hc : o1.children_ = o.children_)
    (hsame : ∀ j ∈ nodes, j ≠ self →
      (World.get w1 j).map Object.core = (w.get j).map Object.core) :
    Object.subtree fuel w1 self = some nodes := by
  obtain ⟨o0, l, hf, ho0, hnodes, hbelow⟩ := Object.subtree_head h
  rw [ho] at ho0
  cases ho0
  subst hnodes
  cases fuel with
  | zero => exact absurd rfl hf
  | succ n =>
    simp only [Nat.add_sub_cancel] at hbelow
    have hself : self ∉ l := (List.nodup_cons.mp hnd).1
    unfold Object.subtree
    simp only [ho1, hc]
    rw [Object.below_keys_congr_core (fun c lc => Object.subtree_congr_core n c lc) _ l hbelow
      (fun j hj => hsame j (List.mem_cons_of_mem _ hj) (fun e => hself (e ▸ hj)))]
    rfl

theorem World.map_of_map {α β : Type} {g : Object → α} {k : Object → β}
    (hgk : ∀ a b, g a = g b → k a = k b) {a b : Option Object}
    (h : a.map g = b.map g) : a.map k = b.map k := by
  cases a <;> cases b <;> simp at h ⊢
  exact hgk _ _ h

theorem World.map_shell_of_core {a b : Option Object} (h : a.map Object.core = b.map Object.core) :
    a.map Object.shell = b.map Object.shell :=
  World.map_of_map (fun _ _ => Object.shell_of_core) h

theorem World.map_core_of_parts {a b : Option Object}
    (h1 : a.map Object.without_url = b.map Object.without_url)
    (h2 : a.map Object.url_root = b.map Object.url_root) :
    a.map Object.core = b.map Object.core := by
  cases a <;> cases b <;> simp at h1 h2 ⊢
  exact Object.core_of_parts h1 h2

/-- An object that is alive on one side of an equation up to a function is alive on the other
side. -/
theorem World.some_of_map {α : Type} {g : Object → α} {a b : Option Object}
    (h : a.map g = b.map g) {x : Object} (hx : b = some x) :
    ∃ y, a = some y ∧ g y = g x := by
  subst hx
  cases a with
  | none => simp at h
  | some y => exact ⟨y, rfl, by simpa using h⟩

theorem World.none_of_map {α : Type} {g : Object → α} {a b : Option Object}
    (h : a.map g = b.map g) (hb : b = none) : a = none := by
  subst hb
  cases a with
  | none => rfl
  | some y => simp at h

theorem World.root_of_shell {a b : Option Object}
    (h : a.map Object.shell = b.map Object.shell) : a.map Object.root_ = b.map Object.root_ :=
  World.map_of_map (fun _ _ e => (Object.shell_fields e).2.2.1) h

theorem World.root_of_core {a b : Option Object}
    (h : a.map Object.core = b.map Object.core) : a.map Object.root_ = b.map Object.root_ :=
  World.map_of_map (fun _ _ e => (Object.core_fields e).2.2.1) h

/-- The roots of a store stay alive and outside `s` when objects of `s` are deleted and the
other objects keep their root. -/
theorem World.roots_kept {w w1 : World} {d s : List ObjectId}
    (hr : ∀ j oj r, w.get j = some oj → oj.root_ = some r → r ∉ s ∧ ∃ ro, w.get r = some ro)
    (hd : ∀ j ∈ d, j ∈ s) (hdead : ∀ j ∈ d, World.get w1 j = none)
    (hsame : ∀ j, j ∉ d → (World.get w1 j).map Object.root_ = (w.get j).map Object.root_) :
    ∀ j oj r, World.get w1 j = some oj → oj.root_ = some r →
      r ∉ s ∧ ∃ ro, World.get w1 r = some ro := by
  intro j oj r hj hroot
  have hjd : j ∉ d := fun hm => by
    rw [hdead j hm] at hj
    cases hj
  obtain ⟨o0, ho0, hr0⟩ := World.some_of_map (hsame j hjd).symm hj
  obtain ⟨hrs, ro, hro⟩ := hr j o0 r ho0 (by rw [hr0]; exact hroot)
  have hrd : r ∉ d := fun hm => hrs (hd r hm)
  obtain ⟨ro1, hro1, -⟩ := World.some_of_map (hsame r hrd) hro
  exact ⟨hrs, ro1, hro1⟩

theorem Object.fields_without_url {a b : Object} (h : a.without_url = b.without_url) :
    a.name_ = b.name_ ∧ a.parent_ = b.parent_ ∧ a.children_ = b.children_ ∧
    a.children_vector_ = b.children_vector_ ∧ a.aliases_ = b.aliases_ ∧
    a.ref_count_ = b.ref_count_ := by
  obtain ⟨xn, xu, xp, xr, xc, xk, xch, xv, xa, xt, xrc, xo, xor⟩ := a
  obtain ⟨yn, yu, yp, yr, yc, yk, ych, yv, ya, yt, yrc, yo, yor⟩ := b
  simp only [Object.without_url, Object.mk.injEq] at h ⊢
  simp_all

theorem Object.shell_of_parts {a b : Object} {c : List (String × ObjectId)}
    {v : List ObjectId}
    (h1 : a.without_url = Object.without_url { b with children_ := c, children_vector_ := v })
    (h2 : a.url_root = b.url_root) : a.shell = b.shell := by
  obtain ⟨xn, xu, xp, xr, xc, xk, xch, xv, xa, xt, xrc, xo, xor⟩ := a
  obtain ⟨yn, yu, yp, yr, yc, yk, ych, yv, ya, yt, yrc, yo, yor⟩ := b
  simp only [Object.without_url, Object.url_root, Object.shell, Object.mk.injEq,
    Prod.mk.injEq] at h1 h2 ⊢
  simp_all

/-- The first two statements of the destructor return on the top of a tree of live objects
whose parent is alive and outside the tree, in a store where every `root_` points to a live
object outside the tree: afterwards the object has no parent and no root, the tree is as
before and none of its objects has a root; outside the tree every object keeps all its fields
but the index, the table and the vector, and every object but the parent keeps all its fields
but the index. -/
theorem Object.detach_total (next : String → String) (n : Nat) {w : World} {x : ObjectId}
    {ox : Object} {nodes : List ObjectId} (ho : w.get x = some ox)
    (hsub : Object.subtree n w x = some nodes) (hnd : nodes.Nodup)
    (hroots : ∀ j oj r, w.get j = some oj → oj.root_ = some r →
      r ∉ nodes ∧ ∃ ro, w.get r = some ro)
    (hpar : ∀ q, ox.parent_ = some q → q ∉ nodes ∧ ∃ qo, w.get q = some qo) :
    ∃ w1 w2 o2, Object.set_parent next n w x none = some w1 ∧
      Object.set_root w1 x none = some w2 ∧
      World.get w2 x = some o2 ∧ o2.parent_ = none ∧ o2.root_ = none ∧
      o2.children_ = ox.children_ ∧ o2.aliases_ = ox.aliases_ ∧
      Object.subtree n w2 x = some nodes ∧
      (∀ m ∈ nodes, ∃ om, World.get w2 m = some om ∧ om.root_ = none) ∧
      (∀ j, j ≠ x → ox.parent_ ≠ some j →
        (World.get w2 j).map Object.without_url = (w.get j).map Object.without_url) ∧
      (∀ j, j ∉ nodes → (World.get w2 j).map Object.shell = (w.get j).map Object.shell) ∧
      (∀ j, j ∉ nodes → ox.parent_ ≠ some j →
        (World.get w2 j).map Object.core = (w.get j).map Object.core) := by
  have hxin : x ∈ nodes := by
    obtain ⟨-, l, -, -, hl, -⟩ := Object.subtree_head hsub
    rw [hl]
    exact List.mem_cons_self _ _
  have hralive : World.roots_alive w := fun j oj r hj hr => (hroots j oj r hj hr).2
  have hnotroot : ox.root_ ≠ some x := fun e => (hroots x ox x ho e).1 hxin
  obtain ⟨w1, o1, h1, ho1, hsub1, hurl, hwu, hp1, hc1, -, -, hnot, -, hrootsame, -, -⟩ :=
    Object.set_parent_spec next n none ho hsub hnd hralive hpar (fun p hp => by cases hp)
  obtain ⟨-, hu1⟩ := hnot rfl hnotroot
  have hr1 : o1.root_ = none := by
    have := congrArg (fun t => t.2.1) hu1
    simpa [Object.url_root] using this
  obtain ⟨w2, h2⟩ := Object.set_root_total none ho1
    (fun r hr => by rw [hr1] at hr; cases hr) (fun r hr => by cases hr)
  obtain ⟨o1b, ho1b, hwu2, hur2, hurx⟩ := Object.set_root_some h2
  rw [ho1] at ho1b
  cases ho1b
  have hcore21 : ∀ j, (World.get w2 j).map Object.core = (World.get w1 j).map Object.core := by
    intro j
    refine World.map_core_of_parts (hwu2 j) ?_
    by_cases e : j = x
    · subst e
      rw [hurx, ho1]
      simp [Object.url_root, hr1]
    · exact hur2 j e
  obtain ⟨-, -, ⟨o2, ho2, hp2, hroot2, hal2, -⟩, -, -⟩ := Object.detach_spec ho h1 h2
  obtain ⟨o2b, ho2b, hcore2⟩ := World.some_of_map (hcore21 x) ho1
  rw [ho2] at ho2b
  cases ho2b
  obtain ⟨-, -, -, hch2, -⟩ := Object.core_fields hcore2
  have hsub2 : Object.subtree n w2 x = some nodes :=
    Object.subtree_congr_core n x nodes hsub1 (fun j _ => hcore21 j)
  have hwuall : ∀ j, j ≠ x → ox.parent_ ≠ some j →
      (World.get w2 j).map Object.without_url = (w.get j).map Object.without_url := by
    intro j hjx hjq
    exact (hwu2 j).trans (hwu j hjx (fun q hq e => hjq (by rw [hq, e]))
      (fun p hp => by cases hp))
  have hcoreall : ∀ j, j ∉ nodes → ox.parent_ ≠ some j →
      (World.get w2 j).map Object.core = (w.get j).map Object.core := by
    intro j hj hjq
    have hjx : j ≠ x := fun e => hj (e ▸ hxin)
    refine (hcore21 j).trans (World.map_core_of_parts ?_ (hurl j hj))
    exact hwu j hjx (fun q hq e => hjq (by rw [hq, e])) (fun p hp => by cases hp)
  refine ⟨w1, w2, o2, h1, h2, ho2, hp2, hroot2, hch2.trans hc1, hal2, hsub2, ?_, hwuall, ?_,
    hcoreall⟩
  · intro m hm
    obtain ⟨om, hom, hrm, -⟩ := hrootsame m hm
    obtain ⟨om2, hom2, hc2⟩ := World.some_of_map (hcore21 m) hom
    obtain ⟨-, -, hrr, -⟩ := Object.core_fields hc2
    exact ⟨om2, hom2, by rw [hrr, hrm, hr1]⟩
  · intro j hj
    by_cases hjq : ox.parent_ = some j
    · -- the parent
      refine (World.map_shell_of_core (hcore21 j)).trans ?_
      obtain ⟨oo, wa, wb, wc, hoo, hwa, hwb, hwc, hmoved⟩ := Object.set_parent_some h1
      rw [ho] at hoo
      cases hoo
      have hwcb : wc = wb := by
        rcases hwc with ⟨-, e⟩ | ⟨p, e, -⟩
        · exact e
        · cases e
      subst hwcb
      rcases hwa with ⟨hpn, -⟩ | ⟨q, hpq, hun⟩
      · rw [hpn] at hjq
        cases hjq
      · rw [hpq] at hjq
        cases hjq
        have hqx : j ≠ x := fun e => hj (e ▸ hxin)
        obtain ⟨p, hp, hga⟩ := Object.unregister_child_some hun
        have hqb : World.get wc j = World.get wa j := World.update_other hwb j hqx
        have hm := Object.moved_without_url n hmoved j
        rw [hqb, hga j, if_pos rfl] at hm
        have hu := hurl j hj
        rw [hp] at hu ⊢
        cases hq1 : World.get w1 j with
        | none => simp [hq1] at hu
        | some q1 =>
          rw [hq1] at hm hu
          simp only [Option.map_some', Option.some.injEq] at hm hu ⊢
          exact Object.shell_of_parts hm hu
    · exact World.map_shell_of_core (hcoreall j hj hjq)

/-- The loop of `clear` returns on an object without root, when the deletion of a child does
on trees what the destructor is to do: the subtrees of the children are deleted, and every
other object keeps all its fields but the index. -/
theorem Object.clear_loop_total {del : World → ObjectId → Option World} {n : Nat}
    (hdel : Object.deletes_trees del n) {x : ObjectId} {ch : List (String × ObjectId)} :
    ∀ (keys : List String) (wi : World) (l : List ObjectId),
      (∃ oi, wi.get x = some oi ∧ oi.children_ = ch ∧ oi.root_ = none) →
      Object.below_keys (Object.subtree n wi) wi x ch keys = some l →
      l.Nodup → x ∉ l →
      (∀ m ∈ l, ∃ om, wi.get m = some om ∧ om.aliases_ = [] ∧ om.ref_count_ ≤ 1) →
      (∀ j oj r, wi.get j = some oj → oj.root_ = some r →
        r ∉ l ∧ ∃ ro, wi.get r = some ro) →
      ∃ w3, keys.foldlM
          (fun wi key =>
            match World.get wi x with
            | none => none
            | some oi =>
              match oi.children_.lookup key with
              | none => some wi
              | some child =>
                match World.update wi child fun c => { c with parent_ := none } with
                | none => none
                | some w1 =>
                  match (match oi.root_ with
                    | some r => Root_unregister_object w1 r child
                    | none => some w1) with
                  | none => none
                  | some w2 => Object.release del w2 child) wi = some w3 ∧
        (∀ j ∈ l, World.get w3 j = none) ∧
        (∀ j, j ∉ l → (World.get w3 j).map Object.core = (wi.get j).map Object.core) := by
  intro keys
  induction keys with
  | nil =>
    intro wi l _ hbelow _ _ _ _
    simp only [Object.below_keys, Option.some.injEq] at hbelow
    subst hbelow
    exact ⟨wi, rfl, fun j hj => absurd hj (List.not_mem_nil j), fun _ _ => rfl⟩
  | cons key rest ih =>
    intro wi l hx hbelow hnd hxl hdesc hroots
    obtain ⟨oi, hoi, hch, hri⟩ := hx
    unfold Object.below_keys at hbelow
    cases hlk : ch.lookup key with
    | none =>
      simp only [hlk] at hbelow
      obtain ⟨w3, hf, hdead, hsame⟩ := ih wi l ⟨oi, hoi, hch, hri⟩ hbelow hnd hxl hdesc hroots
      refine ⟨w3, ?_, hdead, hsame⟩
      simp only [List.foldlM_cons, hoi, hch, hlk]
      exact hf
    | some c =>
      simp only [hlk] at hbelow
      cases hoc : wi.get c with
      | none => simp [hoc] at hbelow
      | some oc =>
        simp only [hoc] at hbelow
        by_cases hcond : oc.parent_ = some x ∧ oc.name_ = key
        · rw [if_pos hcond] at hbelow
          cases hsc : Object.subtree n wi c with
          | none => simp [hsc] at hbelow
          | some lc =>
            cases hbr : Object.below_keys (Object.subtree n wi) wi x ch rest with
            | none => simp [hsc, hbr] at hbelow
            | some ls =>
              simp only [hsc, hbr, Option.some.injEq] at hbelow
              subst hbelow
              obtain ⟨-, lc0, -, -, hlc, -⟩ := Object.subtree_head hsc
              have hcin : c ∈ lc := by
                rw [hlc]
                exact List.mem_cons_self _ _
              have hndc : lc.Nodup := (List.nodup_append.mp hnd).1
              have hnds : ls.Nodup := (List.nodup_append.mp hnd).2.1
              have hdisj : ∀ j, j ∈ lc → j ∉ ls := fun j h1 h2 =>
                (List.nodup_append.mp hnd).2.2 h1 h2
              have hcx : c ≠ x := fun e => hxl (List.mem_append_left _ (e ▸ hcin))
              -- the child loses its parent
              obtain ⟨wa, hu, hga⟩ :=
                World.update_spec (fun c => { c with parent_ := none }) hoc
              have hca : World.get wa c = some { oc with parent_ := none } := by
                rw [hga c, if_pos rfl]
              have hother : ∀ j, j ≠ c → World.get wa j = wi.get j := fun j hj => by
                rw [hga j, if_neg hj]
              have hroota : ∀ j, (World.get wa j).map Object.root_
                  = (wi.get j).map Object.root_ :=
                World.update_map Object.root_ hu (fun _ => rfl)
              obtain ⟨occ, hocc, halc, hrcc⟩ := hdesc c (List.mem_append_left _ hcin)
              rw [hoc] at hocc
              cases hocc
              -- the deletion of the child
              obtain ⟨w5, hd5, hdead5, -, hcore5⟩ := hdel wa c { oc with parent_ := none } lc hca
                (Object.subtree_congr_root hsc hndc hoc hca rfl (fun j _ hj => hother j hj))
                hndc halc
                (fun m hm hmc => by
                  rw [hother m hmc]
                  exact hdesc m (List.mem_append_left _ hm))
                (fun j oj r hj hr => by
                  obtain ⟨h1, h2⟩ := World.roots_kept hroots (d := [])
                    (fun j h => absurd h (List.not_mem_nil j)) (fun j h => absurd h (List.not_mem_nil j))
                    (fun j _ => hroota j) j oj r hj hr
                  exact ⟨fun h => h1 (List.mem_append_left _ h), h2⟩)
                (fun q hq => by cases hq)
              have hcore5i : ∀ j, j ∉ lc →
                  (World.get w5 j).map Object.core = (wi.get j).map Object.core := by
                intro j hj
                rw [hcore5 j hj (fun e => by cases e), hother j (fun e => hj (e ▸ hcin))]
              -- the other children
              obtain ⟨o5, ho5, hco5⟩ := World.some_of_map
                (hcore5i x (fun h => hxl (List.mem_append_left _ h))) hoi
              obtain ⟨-, -, hr5, hch5, -⟩ := Object.core_fields hco5
              obtain ⟨w3, hf, hdead3, hsame3⟩ := ih w5 ls
                ⟨o5, ho5, hch5.trans hch, hr5.trans hri⟩
                (Object.below_keys_congr_core
                  (fun c lc => Object.subtree_congr_core n c lc) rest ls hbr
                  (fun j hj => hcore5i j (fun h => hdisj j h hj)))
                hnds (fun h => hxl (List.mem_append_right _ h))
                (fun m hm => by
                  obtain ⟨om, hom, ha, hrc⟩ := hdesc m (List.mem_append_right _ hm)
                  obtain ⟨om5, hom5, hcm⟩ := World.some_of_map
                    (hcore5i m (fun h => hdisj m h hm)) hom
                  obtain ⟨-, -, -, -, -, ha5, hrc5⟩ := Object.core_fields hcm
                  exact ⟨om5, hom5, ha5.trans ha, by rw [hrc5]; exact hrc⟩)
                (fun j oj r hj hr => by
                  obtain ⟨h1, h2⟩ := World.roots_kept hroots (d := lc)
                    (fun _ h => List.mem_append_left _ h) hdead5
                    (fun j hj => World.root_of_core (hcore5i j hj)) j oj r hj hr
                  exact ⟨fun h => h1 (List.mem_append_right _ h), h2⟩)
              refine ⟨w3, ?_, ?_, ?_⟩
              · have hcnt : oc.ref_count_ ≤ 1 := hrcc
                simp only [List.foldlM_cons, hoi, hch, hlk, hu, hri, Object.release, hca, hcnt,
                  if_true, hd5, bind, Option.bind]
                exact hf
              · intro j hj
                rcases List.mem_append.mp hj with h | h
                · exact World.none_of_map (hsame3 j (hdisj j h)) (hdead5 j h)
                · exact hdead3 j h
              · intro j hj
                have h1 : j ∉ lc := fun h => hj (List.mem_append_left _ h)
                have h2 : j ∉ ls := fun h => hj (List.mem_append_right _ h)
                exact (hsame3 j h2).trans (hcore5i j h1)
        · rw [if_neg hcond] at hbelow
          cases hbelow

/-- The loop of the destructor over the aliases returns, when the aliases are live objects
without children and aliases whose parents are alive and are no aliases, and the deletion of
an alias does on trees what the destructor is to do: the aliases are deleted, every other
object keeps all its fields but the index, the table and the vector, and every other object
that is not the parent of an alias keeps all its fields but the index. -/
theorem Object.alias_loop_total {del : World → ObjectId → Option World} {n : Nat}
    (hdel : Object.deletes_trees del n) :
    ∀ (als : List ObjectId) (wi : World),
      (als ≠ [] → n ≠ 0) → als.Nodup →
      (∀ a ∈ als, ∃ oa, wi.get a = some oa ∧ oa.children_ = [] ∧ oa.aliases_ = [] ∧
        ∀ q, oa.parent_ = some q → q ∉ als ∧ ∃ qo, wi.get q = some qo) →
      (∀ j oj r, wi.get j = some oj → oj.root_ = some r →
        r ∉ als ∧ ∃ ro, wi.get r = some ro) →
      ∃ w3, als.foldlM (fun wi a => (Alias_unlink_original wi a).bind fun wj => del wj a) wi
          = some w3 ∧
        (∀ a ∈ als, World.get w3 a = none) ∧
        (∀ j, j ∉ als → (World.get w3 j).map Object.shell = (wi.get j).map Object.shell) ∧
        (∀ j, j ∉ als → (∀ a ∈ als, ∀ oa, wi.get a = some oa → oa.parent_ ≠ some j) →
          (World.get w3 j).map Object.core = (wi.get j).map Object.core) := by
  intro als
  induction als with
  | nil =>
    intro wi _ _ _ _
    exact ⟨wi, rfl, fun j hj => absurd hj (List.not_mem_nil j), fun _ _ => rfl,
      fun _ _ _ => rfl⟩
  | cons a rest ih =>
    intro wi hn hnd hals hroots
    have hn0 : n ≠ 0 := hn (List.cons_ne_nil _ _)
    obtain ⟨hanr, hndr⟩ := List.nodup_cons.mp hnd
    obtain ⟨oa, hoa, hcha, hala, hpa⟩ := hals a (List.mem_cons_self _ _)
    -- the alias forgets its original
    obtain ⟨wj, hu, hgj⟩ := World.update_spec (fun a => { a with original_ := none }) hoa
    have haj : World.get wj a = some { oa with original_ := none } := by
      rw [hgj a, if_pos rfl]
    have hother : ∀ j, j ≠ a → World.get wj j = wi.get j := fun j hj => by
      rw [hgj j, if_neg hj]
    have hrootj : ∀ j, (World.get wj j).map Object.root_ = (wi.get j).map Object.root_ :=
      World.update_map Object.root_ hu (fun _ => rfl)
    have hsubj : Object.subtree n wj a = some [a] := by
      obtain ⟨k, hk⟩ := Nat.exists_eq_succ_of_ne_zero hn0
      rw [hk]
      simp [Object.subtree, haj, hcha, THash_keys, Object.below_keys]
    -- the deletion of the alias
    obtain ⟨wk, hdk, hdeadk, hshellk, hcorek⟩ := hdel wj a { oa with original_ := none } [a]
      haj hsubj (List.nodup_singleton a) hala
      (fun m hm hma => absurd (List.mem_singleton.mp hm) hma)
      (fun j oj r hj hr => by
        obtain ⟨h1, h2⟩ := World.roots_kept hroots (d := [])
          (fun j h => absurd h (List.not_mem_nil j)) (fun j h => absurd h (List.not_mem_nil j))
          (fun j _ => hrootj j) j oj r hj hr
        exact ⟨fun h => h1 (List.mem_singleton.mp h ▸ List.mem_cons_self _ _), h2⟩)
      (fun q hq => by
        obtain ⟨h1, qo, hqo⟩ := hpa q hq
        have hqa : q ≠ a := fun e => h1 (e ▸ List.mem_cons_self _ _)
        exact ⟨fun h => hqa (List.mem_singleton.mp h), qo, by rw [hother q hqa]; exact hqo⟩)
    have hshellki : ∀ j, j ≠ a →
        (World.get wk j).map Object.shell = (wi.get j).map Object.shell := by
      intro j hj
      rw [hshellk j (fun h => hj (List.mem_singleton.mp h)), hother j hj]
    have hcoreki : ∀ j, j ≠ a → oa.parent_ ≠ some j →
        (World.get wk j).map Object.core = (wi.get j).map Object.core := by
      intro j hj hpj
      rw [hcorek j (fun h => hj (List.mem_singleton.mp h)) hpj, hother j hj]
    have hrest : ∀ b ∈ rest, (World.get wk b).map Object.core = (wi.get b).map Object.core := by
      intro b hb
      refine hcoreki b (fun e => hanr (e ▸ hb)) (fun e => ?_)
      exact (hpa b e).1 (List.mem_cons_of_mem _ hb)
    -- the other aliases
    obtain ⟨w3, hf, hdead3, hshell3, hcore3⟩ := ih wk (fun _ => hn0) hndr
      (fun b hb => by
        obtain ⟨ob, hob, hchb, halb, hpb⟩ := hals b (List.mem_cons_of_mem _ hb)
        obtain ⟨obk, hobk, hcb⟩ := World.some_of_map (hrest b hb) hob
        obtain ⟨-, hp, -, hch, -, hal, -⟩ := Object.core_fields hcb
        refine ⟨obk, hobk, hch.trans hchb, hal.trans halb, ?_⟩
        intro q hq
        obtain ⟨h1, qo, hqo⟩ := hpb q (by rw [← hp]; exact hq)
        have hqa : q ≠ a := fun e => h1 (e ▸ List.mem_cons_self _ _)
        obtain ⟨qk, hqk, -⟩ := World.some_of_map (hshellki q hqa) hqo
        exact ⟨fun h => h1 (List.mem_cons_of_mem _ h), qk, hqk⟩)
      (fun j oj r hj hr => by
        obtain ⟨h1, h2⟩ := World.roots_kept hroots (d := [a])
          (fun j h => List.mem_singleton.mp h ▸ List.mem_cons_self _ _) hdeadk
          (fun j hj => World.root_of_shell
            (hshellki j (fun e => hj (List.mem_singleton.mpr e)))) j oj r hj hr
        exact ⟨fun h => h1 (List.mem_cons_of_mem _ h), h2⟩)
    refine ⟨w3, ?_, ?_, ?_, ?_⟩
    · have hun : Alias_unlink_original wi a = some wj := hu
      simp only [List.foldlM_cons, hun, Option.bind, hdk, bind]
      exact hf
    · intro b hb
      rcases List.mem_cons.mp hb with e | e
      · subst e
        exact World.none_of_map (hshell3 b hanr) (hdeadk b (List.mem_singleton.mpr rfl))
      · exact hdead3 b e
    · intro j hj
      have h1 : j ≠ a := fun e => hj (e ▸ List.mem_cons_self _ _)
      have h2 : j ∉ rest := fun h => hj (List.mem_cons_of_mem _ h)
      exact (hshell3 j h2).trans (hshellki j h1)
    · intro j hj hnp
      have h1 : j ≠ a := fun e => hj (e ▸ List.mem_cons_self _ _)
      have h2 : j ∉ rest := fun h => hj (List.mem_cons_of_mem _ h)
      refine (hcore3 j h2 ?_).trans (hcoreki j h1 (hnp a (List.mem_cons_self _ _) oa hoa))
      intro b hb obk hobk
      obtain ⟨ob, hob, hcb⟩ := World.some_of_map (hrest b hb).symm hobk
      obtain ⟨-, hp, -⟩ := Object.core_fields hcb
      rw [← hp]
      exact hnp b (List.mem_cons_of_mem _ hb) ob hob

/-- The destructor returns when its statements return, one after the other. -/
theorem Object.delete_intro {next : String → String} {fuel : Nat} {w w1 w2 w3 w4 : World}
    {self : ObjectId} {o : Object} (ho : w.get self = some o)
    (h1 : Object.set_parent next fuel w self none = some w1)
    (h2 : Object.set_root w1 self none = some w2)
    (h3 : o.aliases_.foldlM
      (fun wi a => (Alias_unlink_original wi a).bind fun wj => Object.delete_ next fuel wj a)
      w2 = some w3)
    (h4 : Object.clear_with (Object.delete_ next fuel) w3 self = some w4)
    (h5 : (World.get w4 self).isSome = true) :
    Object.delete_ next (fuel + 1) w self = some (w4.free self) := by
  have key : ∀ {a b : Option World} {u : World}, a = b → a = some w3 → b = some u →
      u = w3 := by
    intro a b u e1 e2 e3
    subst e1
    rw [e2] at e3
    exact (Option.some.inj e3).symm
  have key0 : ∀ {a b : Option World}, a = b → a = some w3 → b = none → False := by
    intro a b e1 e2 e3
    subst e1
    rw [e2] at e3
    cases e3
  obtain ⟨o4, ho4⟩ := Option.isSome_iff_exists.mp h5
  rw [Object.delete_]
  simp only [ho, h1, h2]
  split
  · rename_i heq
    exact (key0 (by congr 1; funext wi a; cases Alias_unlink_original wi a <;> rfl)
      h3 heq).elim
  · rename_i u heq
    have hu : u = w3 :=
      key (by congr 1; funext wi a; cases Alias_unlink_original wi a <;> rfl) h3 heq
    subst hu
    simp only [h4, ho4]

/-- One level of the destructor: when the deletions that it calls do on trees of depth at most
`n` what the destructor is to do, the destructor returns on the top of a tree of depth at most
`n + 1` whose aliases are live objects without children and aliases; it deletes the tree and
the aliases. -/
theorem Object.delete_step_total (next : String → String) (n : Nat)
    (hdel : Object.deletes_trees (Object.delete_ next (n + 1)) n)
    {w : World} {x : ObjectId} {ox : Object} {nodes : List ObjectId}
    (ho : w.get x = some ox) (hsub : Object.subtree (n + 1) w x = some nodes)
    (hnd : (nodes ++ ox.aliases_).Nodup) (hn : ox.aliases_ ≠ [] → n ≠ 0)
    (hdesc : ∀ m ∈ nodes, m ≠ x →
      ∃ om, w.get m = some om ∧ om.aliases_ = [] ∧ om.ref_count_ ≤ 1)
    (hals : ∀ a ∈ ox.aliases_, ∃ oa, w.get a = some oa ∧ oa.children_ = [] ∧
      oa.aliases_ = [] ∧
      ∀ q, oa.parent_ = some q → q ∉ nodes ++ ox.aliases_ ∧ ∃ qo, w.get q = some qo)
    (hroots : ∀ j oj r, w.get j = some oj → oj.root_ = some r →
      r ∉ nodes ++ ox.aliases_ ∧ ∃ ro, w.get r = some ro)
    (hpar : ∀ q, ox.parent_ = some q → q ∉ nodes ++ ox.aliases_ ∧ ∃ qo, w.get q = some qo) :
    ∃ w5, Object.delete_ next (n + 2) w x = some w5 ∧
      (∀ j ∈ nodes ++ ox.aliases_, World.get w5 j = none) ∧
      (∀ j, j ∉ nodes ++ ox.aliases_ →
        (World.get w5 j).map Object.shell = (w.get j).map Object.shell) ∧
      (∀ j, j ∉ nodes ++ ox.aliases_ → ox.parent_ ≠ some j →
        (∀ a ∈ ox.aliases_, ∀ oa, w.get a = some oa → oa.parent_ ≠ some j) →
        (World.get w5 j).map Object.core = (w.get j).map Object.core) := by
  have hndn : nodes.Nodup := (List.nodup_append.mp hnd).1
  have hnda : ox.aliases_.Nodup := (List.nodup_append.mp hnd).2.1
  have hdisj : ∀ j, j ∈ nodes → j ∉ ox.aliases_ := fun j h1 h2 =>
    (List.nodup_append.mp hnd).2.2 h1 h2
  obtain ⟨-, l, -, -, hl, -⟩ := Object.subtree_head hsub
  have hxin : x ∈ nodes := by
    rw [hl]
    exact List.mem_cons_self _ _
  -- set_parent(NULL) and set_root(NULL)
  obtain ⟨w1, w2, o2, h1, h2, ho2, hp2, hr2, hch2, hal2, hsub2, hnoroot2, hwu2, hshell2,
      hcore2⟩ :=
    Object.detach_total next (n + 1) ho hsub hndn
      (fun j oj r hj hr =>
        ⟨fun h => (hroots j oj r hj hr).1 (List.mem_append_left _ h), (hroots j oj r hj hr).2⟩)
      (fun q hq => ⟨fun h => (hpar q hq).1 (List.mem_append_left _ h), (hpar q hq).2⟩)
  have hroots2 : ∀ j oj r, World.get w2 j = some oj → oj.root_ = some r →
      r ∉ nodes ++ ox.aliases_ ∧ ∃ ro, World.get w2 r = some ro := by
    intro j oj r hj hr
    by_cases hjn : j ∈ nodes
    · obtain ⟨om, hom, hrm⟩ := hnoroot2 j hjn
      rw [hj] at hom
      cases hom
      rw [hrm] at hr
      cases hr
    · obtain ⟨o0, ho0, hs0⟩ := World.some_of_map (hshell2 j hjn).symm hj
      obtain ⟨-, -, hr0, -⟩ := Object.shell_fields hs0
      obtain ⟨hrs, ro, hro⟩ := hroots j o0 r ho0 (by rw [hr0]; exact hr)
      obtain ⟨ro2, hro2, -⟩ := World.some_of_map
        (hshell2 r (fun h => hrs (List.mem_append_left _ h))) hro
      exact ⟨hrs, ro2, hro2⟩
  have halias2 : ∀ a ∈ ox.aliases_,
      (World.get w2 a).map Object.core = (w.get a).map Object.core := by
    intro a ha
    refine hcore2 a (fun h => hdisj a h ha) (fun e => ?_)
    exact (hpar a e).1 (List.mem_append_right _ ha)
  -- the aliases
  obtain ⟨w3, hf3, hdead3, hshell3, hcore3⟩ :=
    Object.alias_loop_total hdel ox.aliases_ w2 hn hnda
      (fun a ha => by
        obtain ⟨oa, hoa, hcha, hala, hpa⟩ := hals a ha
        obtain ⟨oa2, hoa2, hca⟩ := World.some_of_map (halias2 a ha) hoa
        obtain ⟨-, hp, -, hch, -, hal, -⟩ := Object.core_fields hca
        refine ⟨oa2, hoa2, hch.trans hcha, hal.trans hala, ?_⟩
        intro q hq
        obtain ⟨h1, qo, hqo⟩ := hpa q (by rw [← hp]; exact hq)
        obtain ⟨q2, hq2, -⟩ := World.some_of_map
          (hshell2 q (fun h => h1 (List.mem_append_left _ h))) hqo
        exact ⟨fun h => h1 (List.mem_append_right _ h), q2, hq2⟩)
      (fun j oj r hj hr =>
        ⟨fun h => (hroots2 j oj r hj hr).1 (List.mem_append_right _ h),
          (hroots2 j oj r hj hr).2⟩)
  have hnodes3 : ∀ m ∈ nodes,
      (World.get w3 m).map Object.core = (World.get w2 m).map Object.core := by
    intro m hm
    refine hcore3 m (hdisj m hm) ?_
    intro a ha oa2 hoa2 e
    obtain ⟨oa, hoa, hca⟩ := World.some_of_map (halias2 a ha).symm hoa2
    obtain ⟨-, hp, -⟩ := Object.core_fields hca
    exact (hals a ha).elim fun ob hob => by
      obtain ⟨hob1, -, -, hpb⟩ := hob
      rw [hoa] at hob1
      cases hob1
      exact (hpb m (by rw [hp]; exact e)).1 (List.mem_append_left _ hm)
  obtain ⟨o3, ho3, hc3⟩ := World.some_of_map (hnodes3 x hxin) ho2
  obtain ⟨-, hp3, hr3, hch3, -⟩ := Object.core_fields hc3
  have hsub3 : Object.subtree (n + 1) w3 x = some nodes :=
    Object.subtree_congr_core (n + 1) x nodes hsub2 hnodes3
  obtain ⟨o3b, l3, -, ho3b, hl3, hbelow3⟩ := Object.subtree_head hsub3
  rw [ho3] at ho3b
  cases ho3b
  simp only [Nat.add_sub_cancel] at hbelow3
  have hll : l3 = l := by
    rw [hl] at hl3
    exact (List.cons.inj hl3).2.symm
  subst hll
  rw [hl] at hndn
  obtain ⟨hxl, hndl⟩ := List.nodup_cons.mp hndn
  have hlin : ∀ j, j ∈ l3 → j ∈ nodes := fun j h => by
    rw [hl]
    exact List.mem_cons_of_mem _ h
  have hroots3 : ∀ j oj r, World.get w3 j = some oj → oj.root_ = some r →
      r ∉ nodes ++ ox.aliases_ ∧ ∃ ro, World.get w3 r = some ro :=
    World.roots_kept hroots2 (fun j h => List.mem_append_right _ h) hdead3
      (fun j hj => World.root_of_shell (hshell3 j hj))
  -- the children
  obtain ⟨w3c, hfc, hdeadc, hcorec⟩ :=
    Object.clear_loop_total hdel (THash_keys o3.children_) w3 l3
      ⟨o3, ho3, rfl, hr3.trans hr2⟩ hbelow3 hndl hxl
      (fun m hm => by
        have hmx : m ≠ x := fun e => hxl (e ▸ hm)
        obtain ⟨om, hom, ha, hrc⟩ := hdesc m (hlin m hm) hmx
        have hnq : ox.parent_ ≠ some m := fun e => (hpar m e).1 (List.mem_append_left _ (hlin m hm))
        obtain ⟨om2, hom2, hwm⟩ := World.some_of_map (hwu2 m hmx hnq) hom
        obtain ⟨-, -, -, -, ha2, hrc2⟩ := Object.fields_without_url hwm
        obtain ⟨om3, hom3, hcm⟩ := World.some_of_map (hnodes3 m (hlin m hm)) hom2
        obtain ⟨-, -, -, -, -, ha3, hrc3⟩ := Object.core_fields hcm
        exact ⟨om3, hom3, (ha3.trans ha2).trans ha, by rw [hrc3, hrc2]; exact hrc⟩)
      (fun j oj r hj hr =>
        ⟨fun h => (hroots3 j oj r hj hr).1 (List.mem_append_left _ (hlin r h)),
          (hroots3 j oj r hj hr).2⟩)
  -- children_.clear() and the deallocation
  obtain ⟨oc, hoc, -⟩ := World.some_of_map (hcorec x hxl) ho3
  obtain ⟨w4, hu4, hg4⟩ := World.update_spec (fun o => { o with children_ := [] }) hoc
  have hx4 : World.get w4 x = some { oc with children_ := [] } := by
    rw [hg4 x, if_pos rfl]
  have hget5 : ∀ j, World.get (w4.free x) j = if j = x then none else World.get w3c j := by
    intro j
    unfold World.free
    rw [World.get_set w4 x j none (World.get_lt hx4)]
    by_cases e : j = x
    · rw [if_pos e, if_pos e]
    · rw [if_neg e, if_neg e, hg4 j, if_neg e]
  have h4 : Object.clear_with (Object.delete_ next (n + 1)) w3 x = some w4 := by
    unfold Object.clear_with
    simp only [ho3]
    split
    · rename_i heq
      exact Option.noConfusion (hfc.symm.trans heq)
    · rename_i u heq
      have hu : u = w3c := (Option.some.inj (hfc.symm.trans heq)).symm
      subst hu
      exact hu4
  refine ⟨w4.free x, Object.delete_intro ho h1 h2 hf3 h4 (by rw [hx4]; rfl), ?_, ?_, ?_⟩
  · intro j hj
    rw [hget5 j]
    by_cases e : j = x
    · rw [if_pos e]
    · rw [if_neg e]
      rcases List.mem_append.mp hj with h | h
      · rw [hl] at h
        rcases List.mem_cons.mp h with h | h
        · exact absurd h e
        · exact hdeadc j h
      · refine World.none_of_map (hcorec j (fun hjl => hdisj j (hlin j hjl) h)) (hdead3 j h)
  · intro j hj
    have hjn : j ∉ nodes := fun h => hj (List.mem_append_left _ h)
    have hja : j ∉ ox.aliases_ := fun h => hj (List.mem_append_right _ h)
    have hjx : j ≠ x := fun e => hjn (e ▸ hxin)
    rw [hget5 j, if_neg hjx]
    exact (World.map_shell_of_core (hcorec j (fun h => hjn (hlin j h)))).trans
      ((hshell3 j hja).trans (hshell2 j hjn))
  · intro j hj hjq hjp
    have hjn : j ∉ nodes := fun h => hj (List.mem_append_left _ h)
    have hja : j ∉ ox.aliases_ := fun h => hj (List.mem_append_right _ h)
    have hjx : j ≠ x := fun e => hjn (e ▸ hxin)
    rw [hget5 j, if_neg hjx]
    refine (hcorec j (fun h => hjn (hlin j h))).trans
      ((hcore3 j hja ?_).trans (hcore2 j hjn hjq))
    intro a ha oa2 hoa2
    obtain ⟨oa, hoa, hca⟩ := World.some_of_map (halias2 a ha).symm hoa2
    obtain ⟨-, hp, -⟩ := Object.core_fields hca
    rw [← hp]
    exact hjp a ha oa hoa

/-- The destructor, with fuel for one level more than the depth of the tree, does on trees
what it is to do. -/
theorem Object.delete_deletes_trees (next : String → String) :
    ∀ n, Object.deletes_trees (Object.delete_ next (n + 1)) n := by
  intro n
  induction n with
  | zero =>
    intro w x ox nodes _ hsub
    simp [Object.subtree] at hsub
  | succ n ih =>
    intro w x ox nodes ho hsub hnd hal hdesc hroots hpar
    have hnil : nodes ++ ox.aliases_ = nodes := by rw [hal, List.append_nil]
    obtain ⟨w5, h5, hdead, hshell, hcore⟩ := Object.delete_step_total next n ih ho hsub
      (by rw [hnil]; exact hnd) (fun h => absurd hal h) hdesc
      (fun a ha => by rw [hal] at ha; exact absurd ha (List.not_mem_nil a))
      (by rw [hnil]; exact hroots) (by rw [hnil]; exact hpar)
    rw [hnil] at hdead hshell hcore
    refine ⟨w5, h5, hdead, hshell, fun j hj hjq => hcore j hj hjq ?_⟩
    intro a ha
    rw [hal] at ha
    exact absurd ha (List.not_mem_nil a)

theorem World.parent_outside_spec {w : World} {d : List ObjectId} {parent : Option ObjectId}
    (h : w.parent_outside d parent = true) :
    ∀ q, parent = some q → q ∉ d ∧ ∃ qo, w.get q = some qo := by
  intro q hq
  subst hq
  simp only [World.parent_outside, Bool.and_eq_true,
    decide_eq_true_eq] at h
  exact ⟨h.2, Option.isSome_iff_exists.mp h.1⟩

theorem World.roots_outside_spec {w : World} {d : List ObjectId}
    (h : w.roots_outside d = true) :
    ∀ j oj r, w.get j = some oj → oj.root_ = some r → r ∉ d ∧ ∃ ro, w.get r = some ro := by
  intro j oj r hj hr
  unfold World.roots_outside at h
  rw [List.all_eq_true] at h
  have := h (some oj) (World.mem_of_get hj)
  simp only [hr, Bool.and_eq_true,
    decide_eq_true_eq] at this
  exact ⟨this.2, Option.isSome_iff_exists.mp this.1⟩

/-- The check `destructible`, spelled out. -/
theorem Object.destructible_spec {fuel : Nat} {w : World} {x : ObjectId}
    (h : Object.destructible fuel w x = true) :
    ∃ ox nodes, w.get x = some ox ∧ Object.subtree fuel w x = some nodes ∧
      Object.doomed fuel w x = nodes ++ ox.aliases_ ∧
      (nodes ++ ox.aliases_).Nodup ∧
      (∀ m ∈ nodes, m ≠ x →
        ∃ om, w.get m = some om ∧ om.aliases_ = [] ∧ om.ref_count_ ≤ 1) ∧
      (∀ a ∈ ox.aliases_, ∃ oa, w.get a = some oa ∧ oa.children_ = [] ∧
        oa.aliases_ = [] ∧
        ∀ q, oa.parent_ = some q → q ∉ nodes ++ ox.aliases_ ∧ ∃ qo, w.get q = some qo) ∧
      (∀ j oj r, w.get j = some oj → oj.root_ = some r →
        r ∉ nodes ++ ox.aliases_ ∧ ∃ ro, w.get r = some ro) ∧
      (∀ q, ox.parent_ = some q → q ∉ nodes ++ ox.aliases_ ∧ ∃ qo, w.get q = some qo) := by
  unfold Object.destructible at h
  cases hox : w.get x with
  | none => simp [hox] at h
  | some ox =>
    cases hsub : Object.subtree fuel w x with
    | none => simp [hox, hsub] at h
    | some nodes =>
      simp only [hox, hsub, Bool.and_eq_true, decide_eq_true_eq, List.all_eq_true] at h
      obtain ⟨⟨⟨⟨hnd, hroots⟩, hpar⟩, hdesc⟩, hals⟩ := h
      obtain ⟨-, l, -, -, hl, -⟩ := Object.subtree_head hsub
      refine ⟨ox, nodes, rfl, rfl, by simp [Object.doomed, hox, hsub], hnd, ?_, ?_,
        World.roots_outside_spec hroots, World.parent_outside_spec hpar⟩
      · intro m hm hmx
        have hmt : m ∈ nodes.tail := by
          rw [hl] at hm ⊢
          rcases List.mem_cons.mp hm with e | e
          · exact absurd e hmx
          · exact e
        have := hdesc m hmt
        cases hom : w.get m with
        | none => simp [hom] at this
        | some om =>
          simp only [hom, Bool.and_eq_true, List.isEmpty_iff, decide_eq_true_eq] at this
          exact ⟨om, rfl, this.1, this.2⟩
      · intro a ha
        have := hals a ha
        cases hoa : w.get a with
        | none => simp [hoa] at this
        | some oa =>
          simp only [hoa, Bool.and_eq_true, List.isEmpty_iff] at this
          exact ⟨oa, rfl, this.1.1, this.1.2, World.parent_outside_spec this.2⟩

/-- The destructor returns on every object that passes the check `destructible`: the objects
of its tree and its aliases are deleted, every other object keeps all its fields but the
index, the table and the vector, and every other object that is not the parent of the object
or of one of its aliases keeps all its fields but the index. -/
theorem Object.delete_total (next : String → String) (fuel : Nat) {w : World}
    {x : ObjectId} {ox : Object} (ho : w.get x = some ox)
    (h : Object.destructible (fuel + 2) w x = true) :
    ∃ w5, Object.delete_ next (fuel + 3) w x = some w5 ∧
      (∀ j ∈ Object.doomed (fuel + 2) w x, World.get w5 j = none) ∧
      (∀ j, j ∉ Object.doomed (fuel + 2) w x →
        (World.get w5 j).map Object.shell = (w.get j).map Object.shell) ∧
      (∀ j, j ∉ Object.doomed (fuel + 2) w x → ox.parent_ ≠ some j →
        (∀ a ∈ ox.aliases_, ∀ oa, w.get a = some oa → oa.parent_ ≠ some j) →
        (World.get w5 j).map Object.core = (w.get j).map Object.core) := by
  obtain ⟨ox1, nodes, ho1, hsub, hdoomed, hnd, hdesc, hals, hroots, hpar⟩ :=
    Object.destructible_spec h
  rw [ho] at ho1
  cases ho1
  rw [hdoomed]
  exact Object.delete_step_total next (fuel + 1) (Object.delete_deletes_trees next (fuel + 1))
    ho hsub hnd (fun _ => Nat.succ_ne_zero fuel) hdesc hals hroots hpar

/-! ## The index of the root during a destruction -/

theorem entries_set_mem_of_ne {α : Type} (key : String) (val : α) (e : String × α) :
    ∀ (entries : List (String × α)), e ∈ entries_set entries key val → e.2 ≠ val →
      e ∈ entries := by
  intro entries
  induction entries with
  | nil =>
    intro h hne
    simp only [entries_set, List.mem_singleton] at h
    exact absurd (by rw [h]) hne
  | cons hd tl ih =>
    intro h hne
    obtain ⟨k, v⟩ := hd
    unfold entries_set at h
    by_cases hk : k = key
    · rw [if_pos hk] at h
      rcases List.mem_cons.mp h with e1 | e1
      · exact absurd (by rw [e1]) hne
      · exact List.mem_cons_of_mem _ e1
    · rw [if_neg hk] at h
      rcases List.mem_cons.mp h with e1 | e1
      · rw [e1]
        exact List.mem_cons_self _ _
      · exact List.mem_cons_of_mem _ (ih e1 hne)

theorem Object.leaves_of_off {w : World} {x r : ObjectId} (h : Object.off_index w x r) :
    Object.leaves_index w x r :=
  ⟨h.1, Or.inr h.2⟩

/-- A write that keeps a null `parent_` and adds no entry for `x` to an index keeps `x` out of
the index of `r`; if it also keeps the root of `x`, it keeps `x` leaving that index. -/
theorem World.update_index {w w1 : World} {id x r : ObjectId} {f : Object → Object}
    (h : w.update id f = some w1)
    (hp : ∀ o, o.parent_ = none → (f o).parent_ = none)
    (ho : ∀ o, ∀ e ∈ (f o).objects_, e.2 = x → e ∈ o.objects_) :
    (Object.off_index w x r → Object.off_index w1 x r) ∧
    ((id = x → ∀ o, (f o).root_ = o.root_) →
      Object.leaves_index w x r → Object.leaves_index w1 x r) := by
  obtain ⟨o0, ho0, hg⟩ := World.update_some h
  have hpar : (∀ o, w.get x = some o → o.parent_ = none) →
      ∀ o, World.get w1 x = some o → o.parent_ = none := by
    intro hpw o hx
    rw [hg x] at hx
    by_cases e : x = id
    · rw [if_pos e] at hx
      cases hx
      exact hp o0 (hpw o0 (by rw [e]; exact ho0))
    · rw [if_neg e] at hx
      exact hpw o hx
  have hoff : (∀ ro, w.get r = some ro → ∀ e ∈ ro.objects_, e.2 ≠ x) →
      ∀ ro, World.get w1 r = some ro → ∀ e ∈ ro.objects_, e.2 ≠ x := by
    intro hw ro hr e he hex
    rw [hg r] at hr
    by_cases er : r = id
    · rw [if_pos er] at hr
      cases hr
      exact hw o0 (by rw [er]; exact ho0) e (ho o0 e he hex) hex
    · rw [if_neg er] at hr
      exact hw ro hr e he hex
  refine ⟨fun ⟨h1, h2⟩ => ⟨hpar h1, hoff h2⟩, fun hroot ⟨h1, h2⟩ => ⟨hpar h1, ?_⟩⟩
  rcases h2 with ⟨o, hx, hr⟩ | h2
  · left
    by_cases e : x = id
    · rw [e, ho0] at hx
      cases hx
      exact ⟨f o0, by rw [hg x, if_pos e], by rw [hroot e.symm o0]; exact hr⟩
    · exact ⟨o, by rw [hg x, if_neg e]; exact hx, hr⟩
  · exact Or.inr (hoff h2)

theorem Root_unregister_object_index {w w1 : World} {r0 m x r : ObjectId}
    (h : Root_unregister_object w r0 m = some w1) :
    (Object.off_index w x r → Object.off_index w1 x r) ∧
    (Object.leaves_index w x r → Object.leaves_index w1 x r) ∧
    (m = x → r0 = r → Object.leaves_index w x r → Object.off_index w1 x r) := by
  unfold Root_unregister_object at h
  obtain ⟨h1, h2⟩ := World.update_index (x := x) (r := r) h (fun _ e => e)
    (fun o e he _ => (List.mem_filter.mp he).1)
  refine ⟨h1, h2 (fun _ _ => rfl), ?_⟩
  intro hm hr hl
  subst hm hr
  refine ⟨(h2 (fun _ _ => rfl) hl).1, ?_⟩
  obtain ⟨o0, ho0, hg⟩ := World.update_some h
  intro ro hro e he
  rw [hg r0, if_pos rfl] at hro
  cases hro
  have := (List.mem_filter.mp he).2
  simpa using this

theorem Root_register_object_index {w w1 : World} {r0 m x r : ObjectId}
    (h : Root_register_object w r0 m = some w1) (hm : m ≠ x) :
    (Object.off_index w x r → Object.off_index w1 x r) ∧
    (Object.leaves_index w x r → Object.leaves_index w1 x r) := by
  unfold Root_register_object at h
  cases hom : w.get m with
  | none => simp [hom] at h
  | some om =>
    simp only [hom] at h
    obtain ⟨h1, h2⟩ := World.update_index (x := x) (r := r) h (fun _ e => e)
      (fun o e he hex => entries_set_mem_of_ne _ _ e _ he (by rw [hex]; exact fun e => hm e.symm))
    exact ⟨h1, h2 (fun _ _ => rfl)⟩

theorem Object.set_root_index_tail {w wa w1 : World} {m x r : ObjectId}
    {root : Option ObjectId}
    (htail : (match World.update wa m fun o => { o with root_ := root } with
      | none => none
      | some w2 =>
        match root with
        | some r0 => Root_register_object w2 r0 m
        | none => some w2) = some w1)
    (hm : m = x → root = none)
    (a1 : Object.off_index w x r → Object.off_index wa x r)
    (a2 : Object.leaves_index w x r → Object.leaves_index wa x r)
    (a3 : m = x → Object.leaves_index w x r → Object.off_index wa x r) :
    (Object.off_index w x r → Object.off_index w1 x r) ∧
    (Object.leaves_index w x r → Object.leaves_index w1 x r) ∧
    (m = x → Object.leaves_index w x r → Object.off_index w1 x r) := by
  cases hb : World.update wa m fun o => { o with root_ := root } with
  | none => simp [hb] at htail
  | some wb =>
    simp only [hb] at htail
    obtain ⟨b1, b2⟩ := World.update_index (x := x) (r := r) hb (fun _ e => e)
      (fun _ _ he _ => he)
    have hbl : Object.leaves_index w x r → Object.leaves_index wb x r := by
      intro hl
      by_cases e : m = x
      · exact Object.leaves_of_off (b1 (a3 e hl))
      · exact b2 (fun e2 => absurd e2 e) (a2 hl)
    have hc : (Object.off_index wb x r → Object.off_index w1 x r) ∧
        (Object.leaves_index wb x r → Object.leaves_index w1 x r) := by
      cases root with
      | none =>
        simp only [Option.some.injEq] at htail
        subst htail
        exact ⟨fun e => e, fun e => e⟩
      | some r1 =>
        simp only at htail
        have hmx : m ≠ x := fun e => by
          have := hm e
          cases this
        exact Root_register_object_index htail hmx
    exact ⟨fun e => hc.1 (b1 (a1 e)), fun e => hc.2 (hbl e),
      fun e hl => hc.1 (b1 (a3 e hl))⟩

/-- `set_root` keeps `x` out of an index that does not hold it, unless it is told to enter
`x` there; `set_root(NULL)` on `x` takes it out of the index of its root. -/
theorem Object.set_root_index {w w1 : World} {m x r : ObjectId} {root : Option ObjectId}
    (h : Object.set_root w m root = some w1) (hm : m = x → root = none) :
    (Object.off_index w x r → Object.off_index w1 x r) ∧
    (Object.leaves_index w x r → Object.leaves_index w1 x r) ∧
    (m = x → Object.leaves_index w x r → Object.off_index w1 x r) := by
  unfold Object.set_root at h
  cases hom : w.get m with
  | none => simp [hom] at h
  | some om =>
    simp only [hom] at h
    cases hr0 : om.root_ with
    | none =>
      simp only [hr0] at h
      refine Object.set_root_index_tail h hm (fun e => e) (fun e => e) ?_
      intro hmx hl
      subst hmx
      refine ⟨hl.1, ?_⟩
      rcases hl.2 with ⟨o, hx, hr⟩ | h2
      · rw [hom] at hx
        cases hx
        rw [hr0] at hr
        cases hr
      · exact h2
    | some r0 =>
      simp only [hr0] at h
      cases hwa : Root_unregister_object w r0 m with
      | none => simp [hwa] at h
      | some wa =>
        simp only [hwa] at h
        obtain ⟨h1, h2, h3⟩ := Root_unregister_object_index (x := x) (r := r) hwa
        refine Object.set_root_index_tail h hm h1 h2 ?_
        intro hmx hl
        by_cases e : r0 = r
        · exact h3 hmx e hl
        · subst hmx
          refine ⟨(h2 hl).1, ?_⟩
          rcases hl.2 with ⟨o, hx, hr⟩ | h4
          · rw [hom] at hx
            cases hx
            rw [hr0] at hr
            exact absurd (Option.some.inj hr) e
          · exact (h1 ⟨hl.1, h4⟩).2

/-- The part of `moved` on the object itself keeps `x` out of an index that does not hold it,
and keeps `x` leaving the index of its root: an object without parent is entered in no
index. -/
theorem Object.moved_self_index {w w1 : World} {m x r : ObjectId}
    (h : Object.moved_self w m = some w1) :
    (Object.off_index w x r → Object.off_index w1 x r) ∧
    (Object.leaves_index w x r → Object.leaves_index w1 x r) := by
  unfold Object.moved_self at h
  cases hom : w.get m with
  | none => simp [hom] at h
  | some om =>
    simp only [hom] at h
    cases hpar : om.parent_ with
    | some parent =>
      simp only [hpar] at h
      cases hp : w.get parent with
      | none => simp [hp] at h
      | some p =>
        simp only [hp] at h
        cases ha : World.update w m fun o => { o with url_ := p.url_ ++ "/" ++ o.name_ } with
        | none => simp [ha] at h
        | some wa =>
          simp only [ha] at h
          cases hp1 : World.get wa parent with
          | none => simp [hp1] at h
          | some p1 =>
            simp only [hp1] at h
            cases hb : Object.set_root wa m p1.root_ with
            | none => simp [hb] at h
            | some wb =>
              simp only [hb] at h
              cases hp2 : World.get wb parent with
              | none => simp [hp2] at h
              | some p2 =>
                simp only [hp2] at h
                unfold Object.set_context at h
                have hmx : (∀ o, w.get x = some o → o.parent_ = none) → m ≠ x := by
                  intro hx e
                  subst e
                  have := hx om hom
                  rw [hpar] at this
                  cases this
                obtain ⟨a1, a2⟩ := World.update_index (x := x) (r := r) ha (fun _ e => e)
                  (fun _ _ he _ => he)
                obtain ⟨c1, c2⟩ := World.update_index (x := x) (r := r) h (fun _ e => e)
                  (fun _ _ he _ => he)
                constructor
                · intro hoff
                  exact c1 ((Object.set_root_index hb
                    (fun e => absurd e (hmx hoff.1))).1 (a1 hoff))
                · intro hl
                  exact c2 (fun _ _ => rfl) ((Object.set_root_index hb
                    (fun e => absurd e (hmx hl.1))).2.1 (a2 (fun _ _ => rfl) hl))
    | none =>
      simp only [hpar] at h
      by_cases hroot : om.root_ = some m
      · rw [if_pos hroot] at h
        obtain ⟨a1, a2⟩ := World.update_index (x := x) (r := r) h (fun _ e => e)
          (fun _ _ he _ => he)
        exact ⟨a1, a2 (fun _ _ => rfl)⟩
      · rw [if_neg hroot] at h
        cases ha : World.update w m fun o => { o with url_ := o.name_ } with
        | none => simp [ha] at h
        | some wa =>
          simp only [ha] at h
          obtain ⟨a1, a2⟩ := World.update_index (x := x) (r := r) ha (fun _ e => e)
            (fun _ _ he _ => he)
          obtain ⟨b1, b2, -⟩ := Object.set_root_index (x := x) (r := r) h (fun _ => rfl)
          exact ⟨fun e => b1 (a1 e), fun e => b2 (a2 (fun _ _ => rfl) e)⟩

/-- `moved` keeps `x` out of an index that does not hold it, and keeps `x` leaving the index
of its root. -/
theorem Object.moved_index {x r : ObjectId} :
    ∀ (fuel : Nat) (w w1 : World) (m : ObjectId), Object.moved fuel w m = some w1 →
      (Object.off_index w x r → Object.off_index w1 x r) ∧
      (Object.leaves_index w x r → Object.leaves_index w1 x r) := by
  intro fuel
  induction fuel with
  | zero =>
    intro w w1 m h
    simp [Object.moved] at h
  | succ n ih =>
    intro w w1 m h
    unfold Object.moved at h
    cases h3 : Object.moved_self w m with
    | none => simp [h3] at h
    | some w3 =>
      simp only [h3] at h
      cases ho3 : World.get w3 m with
      | none => simp [ho3] at h
      | some o3 =>
        simp only [ho3] at h
        have loop : ∀ (keys : List String) (wi wk : World),
            keys.foldlM
              (fun wi key =>
                match o3.children_.lookup key with
                | some child => Object.moved n wi child
                | none => some wi) wi = some wk →
            (Object.off_index wi x r → Object.off_index wk x r) ∧
            (Object.leaves_index wi x r → Object.leaves_index wk x r) := by
          intro keys
          induction keys with
          | nil =>
            intro wi wk hf
            simp only [List.foldlM_nil, pure, Option.some.injEq] at hf
            rw [hf]
            exact ⟨fun e => e, fun e => e⟩
          | cons key rest ihk =>
            intro wi wk hf
            simp only [List.foldlM_cons, bind, Option.bind_eq_some] at hf
            obtain ⟨wj, hstep, hrest⟩ := hf
            obtain ⟨r1, r2⟩ := ihk wj wk hrest
            cases hl : o3.children_.lookup key with
            | none =>
              simp only [hl, Option.some.injEq] at hstep
              subst hstep
              exact ⟨r1, r2⟩
            | some child =>
              simp only [hl] at hstep
              obtain ⟨s1, s2⟩ := ih wi wj child hstep
              exact ⟨fun e => r1 (s1 e), fun e => r2 (s2 e)⟩
        obtain ⟨m1, m2⟩ := Object.moved_self_index (x := x) (r := r) h3
        obtain ⟨l1, l2⟩ := loop _ _ _ h
        exact ⟨fun e => l1 (m1 e), fun e => l2 (m2 e)⟩

theorem Object.unregister_child_index {w w1 : World} {q c x r : ObjectId}
    (h : Object.unregister_child w q c = some w1) :
    (Object.off_index w x r → Object.off_index w1 x r) ∧
    (Object.leaves_index w x r → Object.leaves_index w1 x r) := by
  unfold Object.unregister_child at h
  cases ha : World.update w q fun o =>
      { o with children_ := THash_remove_element o.children_ c } with
  | none => simp [ha] at h
  | some wa =>
    simp only [ha] at h
    obtain ⟨a1, a2⟩ := World.update_index (x := x) (r := r) ha (fun _ e => e)
      (fun _ _ he _ => he)
    obtain ⟨b1, b2⟩ := World.update_index (x := x) (r := r) h (fun _ e => e)
      (fun _ _ he _ => he)
    exact ⟨fun e => b1 (a1 e), fun e => b2 (fun _ _ => rfl) (a2 (fun _ _ => rfl) e)⟩

/-- After `set_parent(NULL)` and `set_root(NULL)` the index of the root that the object had
does not hold the object. -/
theorem Object.detach_index {next : String → String} {fuel : Nat} {w w1 w2 : World}
    {x r : ObjectId} {o : Object} (ho : w.get x = some o) (hr : o.root_ = some r)
    (h1 : Object.set_parent next fuel w x none = some w1)
    (h2 : Object.set_root w1 x none = some w2) :
    Object.off_index w2 x r := by
  obtain ⟨oo, wa, wb, wc, hoo, hwa, hwb, hwc, hmoved⟩ := Object.set_parent_some h1
  rw [ho] at hoo
  cases hoo
  have hwcb : wc = wb := by
    rcases hwc with ⟨-, e⟩ | ⟨p, e, -⟩
    · exact e
    · cases e
  subst hwcb
  obtain ⟨oa, hoa, hgb⟩ := World.update_some hwb
  have hra : oa.root_ = some r := by
    rcases hwa with ⟨-, e⟩ | ⟨q, -, hun⟩
    · subst e
      rw [ho] at hoa
      cases hoa
      exact hr
    · obtain ⟨p, hp, hga⟩ := Object.unregister_child_some hun
      rw [hga x] at hoa
      by_cases e : x = q
      · rw [if_pos e] at hoa
        cases hoa
        rw [← e, ho] at hp
        cases hp
        exact hr
      · rw [if_neg e, ho] at hoa
        cases hoa
        exact hr
  have hxb : World.get wc x = some { oa with parent_ := none } := by
    rw [hgb x, if_pos rfl]
  have hlb : Object.leaves_index wc x r := by
    refine ⟨?_, Or.inl ⟨_, hxb, hra⟩⟩
    intro o1 ho1
    rw [hxb] at ho1
    cases ho1
    rfl
  exact (Object.set_root_index h2 (fun _ => rfl)).2.2 rfl
    ((Object.moved_index fuel wc w1 x hmoved).2 hlb)

/-- `set_parent(NULL)` keeps `x` out of an index that does not hold it. -/
theorem Object.set_parent_index {next : String → String} {fuel : Nat} {w w1 : World}
    {m x r : ObjectId} (h1 : Object.set_parent next fuel w m none = some w1) :
    Object.off_index w x r → Object.off_index w1 x r := by
  intro hoff
  obtain ⟨oo, wa, wb, wc, hoo, hwa, hwb, hwc, hmoved⟩ := Object.set_parent_some h1
  have hwcb : wc = wb := by
    rcases hwc with ⟨-, e⟩ | ⟨p, e, -⟩
    · exact e
    · cases e
  subst hwcb
  have ha : Object.off_index wa x r := by
    rcases hwa with ⟨-, e⟩ | ⟨q, -, hun⟩
    · rw [e]
      exact hoff
    · exact (Object.unregister_child_index hun).1 hoff
  have hb : Object.off_index wc x r :=
    (World.update_index hwb (fun _ _ => rfl) (fun _ _ he _ => he)).1 ha
  exact (Object.moved_index fuel wc w1 m hmoved).1 hb

/-- The loop of the destructor over the aliases keeps `x` out of an index that does not hold
it, when the deletion of an alias does. -/
theorem Object.alias_loop_index {del : World → ObjectId → Option World} {x r : ObjectId}
    (hdel : ∀ w a w1, del w a = some w1 → Object.off_index w x r → Object.off_index w1 x r) :
    ∀ (aliases : List ObjectId) (wi w3 : World),
      aliases.foldlM (fun wi a => (Alias_unlink_original wi a).bind fun wj => del wj a) wi
        = some w3 →
      Object.off_index wi x r → Object.off_index w3 x r := by
  intro aliases
  induction aliases with
  | nil =>
    intro wi w3 hf hoff
    simp only [List.foldlM_nil, pure, Option.some.injEq] at hf
    rw [← hf]
    exact hoff
  | cons a rest ih =>
    intro wi w3 hf hoff
    simp only [List.foldlM_cons, bind, Option.bind_eq_some] at hf
    obtain ⟨wk, ⟨wj, hun, hd⟩, hrest⟩ := hf
    have h1 : Object.off_index wj x r :=
      (World.update_index hun (fun _ e => e) (fun _ _ he _ => he)).1 hoff
    exact ih wk w3 hrest (hdel wj a wk hd h1)

/-- `Object::clear` keeps `x` out of an index that does not hold it, when the deletion of a
child does. -/
theorem Object.clear_with_index {del : World → ObjectId → Option World} {x r : ObjectId}
    (hdel : ∀ w c w1, del w c = some w1 → Object.off_index w x r → Object.off_index w1 x r)
    {w w4 : World} {self : ObjectId} (h : Object.clear_with del w self = some w4) :
    Object.off_index w x r → Object.off_index w4 x r := by
  unfold Object.clear_with at h
  cases ho : w.get self with
  | none => simp [ho] at h
  | some o =>
    simp only [ho] at h
    have loop : ∀ (keys : List String) (wi w3 : World),
        keys.foldlM
          (fun wi key =>
            match World.get wi self with
            | none => none
            | some oi =>
              match oi.children_.lookup key with
              | none => some wi
              | some child =>
                match World.update wi child fun c => { c with parent_ := none } with
                | none => none
                | some w1 =>
                  match (match oi.root_ with
                    | some r => Root_unregister_object w1 r child
                    | none => some w1) with
                  | none => none
                  | some w2 => Object.release del w2 child) wi = some w3 →
        Object.off_index wi x r → Object.off_index w3 x r := by
      intro keys
      induction keys with
      | nil =>
        intro wi w3 hf hoff
        simp only [List.foldlM_nil, pure, Option.some.injEq] at hf
        rw [← hf]
        exact hoff
      | cons key rest ihk =>
        intro wi w3 hf hoff
        simp only [List.foldlM_cons, bind, Option.bind_eq_some] at hf
        obtain ⟨wj, hstep, hrest⟩ := hf
        refine ihk wj w3 hrest ?_
        cases hoi : World.get wi self with
        | none => simp [hoi] at hstep
        | some oi =>
          simp only [hoi] at hstep
          cases hl : oi.children_.lookup key with
          | none =>
            simp only [hl, Option.some.injEq] at hstep
            rw [← hstep]
            exact hoff
          | some child =>
            simp only [hl] at hstep
            cases hu : World.update wi child fun c => { c with parent_ := none } with
            | none => simp [hu] at hstep
            | some wa =>
              simp only [hu] at hstep
              have p1 : Object.off_index wa x r :=
                (World.update_index hu (fun _ _ => rfl) (fun _ _ he _ => he)).1 hoff
              have hstep2 : ∃ wb, Object.off_index wb x r ∧
                  Object.release del wb child = some wj := by
                cases hr : oi.root_ with
                | none =>
                  simp only [hr] at hstep
                  exact ⟨wa, p1, hstep⟩
                | some r0 =>
                  simp only [hr] at hstep
                  cases hru : Root_unregister_object wa r0 child with
                  | none => simp [hru] at hstep
                  | some wb =>
                    simp only [hru] at hstep
                    exact ⟨wb, (Root_unregister_object_index hru).1 p1, hstep⟩
              obtain ⟨wb, p2, hrel⟩ := hstep2
              unfold Object.release at hrel
              cases hc : World.get wb child with
              | none => simp [hc] at hrel
              | some oc =>
                simp only [hc] at hrel
                split_ifs at hrel with hcount
                · exact hdel _ _ _ hrel p2
                · exact (World.update_index hrel (fun _ e => e) (fun _ _ he _ => he)).1 p2
    split at h
    · cases h
    · rename_i w3 hf
      intro hoff
      exact (World.update_index h (fun _ e => e) (fun _ _ he _ => he)).1
        (loop _ _ _ hf hoff)

theorem World.free_index {w : World} {self x r : ObjectId} {o : Object}
    (ho : w.get self = some o) :
    Object.off_index w x r → Object.off_index (w.free self) x r := by
  obtain ⟨-, -, hget⟩ := World.prunes_free ho
  have hdead : World.get (w.free self) self = none := (World.prunes_free ho).2.1
  intro hoff
  constructor
  · intro o1 ho1
    by_cases e : x = self
    · rw [e, hdead] at ho1
      cases ho1
    · rw [hget x e] at ho1
      exact hoff.1 o1 ho1
  · intro ro hro
    by_cases e : r = self
    · rw [e, hdead] at hro
      cases hro
    · rw [hget r e] at hro
      exact hoff.2 ro hro

/-- The destruction of an object keeps `x` out of an index that does not hold it. -/
theorem Object.delete_index (next : String → String) {x r : ObjectId} :
    ∀ (fuel : Nat) (w : World) (self : ObjectId) (w5 : World),
      Object.delete_ next fuel w self = some w5 →
      Object.off_index w x r → Object.off_index w5 x r := by
  intro fuel
  induction fuel with
  | zero =>
    intro w self w5 h
    simp [Object.delete_] at h
  | succ n ih =>
    intro w self w5 h hoff
    obtain ⟨o, w1, w2, w3, w4, ho, h1, h2, h3, h4, h5, e⟩ := Object.delete_some h
    obtain ⟨o4, ho4⟩ := Option.isSome_iff_exists.mp h5
    subst e
    have p1 := Object.set_parent_index (x := x) (r := r) h1 hoff
    have p2 := (Object.set_root_index (x := x) (r := r) h2 (fun _ => rfl)).1 p1
    have p3 := Object.alias_loop_index ih o.aliases_ w2 w3 h3 p2
    have p4 := Object.clear_with_index ih h4 p3
    exact World.free_index ho4 p4

/-- C33 (amended): the destructor returns on every object that passes the check
`Object.destructible`: the top of a tree of live objects linked by `children_` and `parent_`,
whose objects below the top have no aliases and are held by their parent alone, whose aliases
are live objects without children and aliases, where the parent of the object and the parents
of its aliases are alive and outside the tree and the aliases, like every `root_` of the
store.  It then deletes the objects of the tree and the aliases (`Object.doomed`); every other
object keeps all its fields but the index, the table and the vector, and every other object
that is not the parent of the object or of one of its aliases keeps all its fields but the
index: a child of the former parent that is not deleted is unchanged.  Whenever the
destructor returns, its stages are, in this order: `set_parent(NULL)` and `set_root(NULL)`,
after which no object has been deleted, the object has no parent and no root, is out of the
table and (once) out of the vector of its former parent, whose other entries are as before,
like the tables and vectors of all other objects, and no entry of the index of its former
root points to it; then, for each Alias of the list `aliases_`, `unlink_original` followed by
its deletion, after which the aliases are deleted and the object is still there; then `clear`,
which releases the children, and the deallocation.  Afterwards the object is deleted, the
index of its former root still has no entry for it, and the table and the vector of the
former parent, like those of every object that is left, hold what they held before, in the
same order, except entries of objects that have been deleted: the object itself, and the
objects deleted with it. -/
theorem destruction_detaches_first (next : String → String) (fuel : Nat) (w : World)
    (self : ObjectId) (o : Object) (ho : w.get self = some o) :
    (Object.destructible (fuel + 2) w self = true →
      ∃ w5, Object.delete_ next (fuel + 3) w self = some w5 ∧
        (∀ j ∈ Object.doomed (fuel + 2) w self, World.get w5 j = none) ∧
        (∀ j, j ∉ Object.doomed (fuel + 2) w self →
          (World.get w5 j).map Object.shell = (w.get j).map Object.shell) ∧
        (∀ j, j ∉ Object.doomed (fuel + 2) w self → o.parent_ ≠ some j →
          (∀ a ∈ o.aliases_, ∀ oa, w.get a = some oa → oa.parent_ ≠ some j) →
          (World.get w5 j).map Object.core = (w.get j).map Object.core)) ∧
    ∀ n w5, Object.delete_ next (n + 1) w self = some w5 →
      ∃ w1 w2 w3 w4,
        Object.set_parent next n w self none = some w1 ∧
        Object.set_root w1 self none = some w2 ∧
        (∀ j, (World.get w2 j).isSome = (w.get j).isSome) ∧
        (∃ o2, World.get w2 self = some o2 ∧ o2.parent_ = none ∧ o2.root_ = none ∧
          o2.aliases_ = o.aliases_ ∧ o2.children_.Sublist o.children_) ∧
        (∀ q qo, o.parent_ = some q → w.get q = some qo →
          ∃ qo2, World.get w2 q = some qo2 ∧
            qo2.children_ = THash_remove_element qo.children_ self ∧
            qo2.children_vector_ = qo.children_vector_.erase self) ∧
        (∀ r ro2, o.root_ = some r → World.get w2 r = some ro2 →
          ∀ e ∈ ro2.objects_, e.2 ≠ self) ∧
        (∀ j, o.parent_ ≠ some j →
          (World.get w2 j).map Object.kids = (w.get j).map Object.kids) ∧
        o.aliases_.foldlM
          (fun wi a =>
            (Alias_unlink_original wi a).bind fun wj => Object.delete_ next n wj a)
          w2 = some w3 ∧
        (∀ a ∈ o.aliases_, World.get w3 a = none) ∧ (World.get w3 self).isSome = true ∧
        Object.clear_with (Object.delete_ next n) w3 self = some w4 ∧
        w5 = w4.free self ∧
        World.get w5 self = none ∧ (∀ a ∈ o.aliases_, World.get w5 a = none) ∧
        World.prunes [] w w5 ∧
        (∀ r ro5, o.root_ = some r → World.get w5 r = some ro5 →
          ∀ e ∈ ro5.objects_, e.2 ≠ self) ∧
        ∀ q qo q5, o.parent_ = some q → w.get q = some qo → World.get w5 q = some q5 →
          q5.name_ = qo.name_ ∧ q5.children_.Sublist qo.children_ ∧
          q5.children_vector_.Sublist qo.children_vector_ ∧
          (∀ e ∈ qo.children_, (World.get w5 e.2).isSome = true → e ∈ q5.children_) ∧
          (∀ c ∈ qo.children_vector_, (World.get w5 c).isSome = true →
            c ∈ q5.children_vector_) := by
  refine ⟨fun hd => Object.delete_total next fuel ho hd, ?_⟩
  intro n w5 h
  obtain ⟨o0, w1, w2, w3, w4, ho0, h1, h2, h3, h4, h4s, e⟩ := Object.delete_some h
  rw [ho] at ho0
  cases ho0
  obtain ⟨-, halive, hself2, hpar2, hothers⟩ := Object.detach_spec ho h1 h2
  obtain ⟨-, hdead⟩ :=
    Object.delete_aliases_prunes (Object.delete_prunes next n) o.aliases_ w2 w3 h3
  obtain ⟨pall, hgone⟩ := Object.delete_prunes next (n + 1) w self w5 h
  obtain ⟨o4, ho4⟩ := Option.isSome_iff_exists.mp h4s
  have hdead5 : ∀ a ∈ o.aliases_, World.get w5 a = none := by
    intro a ha
    obtain ⟨p4, -⟩ :=
      Object.clear_with_prunes (fun w c w1 hd => (Object.delete_prunes next n w c w1 hd).1) h4
    obtain ⟨p5, -, -⟩ := World.prunes_free ho4
    rw [e]
    exact World.prunes_dead p5 (World.prunes_dead p4 (hdead a ha))
  have hindex2 : ∀ r ro2, o.root_ = some r → World.get w2 r = some ro2 →
      ∀ e ∈ ro2.objects_, e.2 ≠ self :=
    fun r ro2 hr hro2 => (Object.detach_index ho hr h1 h2).2 ro2 hro2
  have hindex5 : ∀ r ro5, o.root_ = some r → World.get w5 r = some ro5 →
      ∀ e ∈ ro5.objects_, e.2 ≠ self := by
    intro r ro5 hr hro5
    have p2 := Object.detach_index ho hr h1 h2
    have p3 := Object.alias_loop_index (Object.delete_index next n) o.aliases_ w2 w3 h3 p2
    have p4 := Object.clear_with_index (Object.delete_index next n) h4 p3
    have p5 := World.free_index ho4 p4
    rw [e] at hro5
    exact p5.2 ro5 hro5
  refine ⟨w1, w2, w3, w4, h1, h2, halive, hself2, hpar2, hindex2, hothers, h3, hdead,
    Object.clear_with_alive h4, h4, e, hgone, hdead5, pall, hindex5, ?_⟩
  intro q qo q5 _ hqo hq5
  obtain ⟨qo1, hqo1, r⟩ := pall q q5 hq5
  rw [hqo] at hqo1
  cases hqo1
  rcases r with hd | ⟨hn, hs, hv, hm, hc⟩
  · cases hd
  · refine ⟨hn, hs, hv, ?_, ?_⟩
    · intro e he halv
      by_contra hne
      rcases hm e he hne with h6 | h6
      · cases h6
      · rw [h6] at halv
        cases halv
    · intro c hc1 halv
      by_contra hne
      rcases hc c hc1 hne with h6 | h6
      · cases h6
      · rw [h6] at halv
        cases halv

/-- C33 (amended), on the root "q" with the children "x", "y" and "z", where "y" is an Alias
of "x" and "x" has the child "c": the destruction of "x" returns; "x", "y" and "c" are
deleted, the index of "q" has no entry for "x" any more, "z" is unchanged and is still in the
table and in the vector of "q". -/
theorem destruction_detaches_first_witness :
    ∃ w5 q5,
      Object.delete_ (fun s => s ++ "1") 4
        [some { Object.new "q" with
                  root_ := some 0, url_ := "",
                  children_ := [("x", 1), ("y", 3), ("z", 2)], children_vector_ := [1, 3, 2],
                  objects_ := [("", 0), ("/x", 1), ("/z", 2), ("/y", 3), ("/x/c", 4)] },
         some { Object.new "x" with
                  parent_ := some 0, root_ := some 0, url_ := "/x", aliases_ := [3],
                  children_ := [("c", 4)], children_vector_ := [4] },
         some { Object.new "z" with parent_ := some 0, root_ := some 0, url_ := "/z" },
         some { Object.new "y" with
                  parent_ := some 0, root_ := some 0, url_ := "/y", original_ := some 1 },
         some { Object.new "c" with parent_ := some 1, root_ := some 0, url_ := "/x/c" }] 1
        = some w5 ∧
      World.get w5 1 = none ∧ World.get w5 3 = none ∧ World.get w5 4 = none ∧
      World.get w5 0 = some q5 ∧ (∀ e ∈ q5.objects_, e.2 ≠ 1) ∧
      ("z", 2) ∈ q5.children_ ∧ 2 ∈ q5.children_vector_ ∧
      (World.get w5 2).map Object.core
        = some (Object.core
            { Object.new "z" with parent_ := some 0, root_ := some 0, url_ := "/z" }) := by
  obtain ⟨htotal, hstages⟩ := destruction_detaches_first (fun s => s ++ "1") 1
    [some { Object.new "q" with
              root_ := some 0, url_ := "",
              children_ := [("x", 1), ("y", 3), ("z", 2)], children_vector_ := [1, 3, 2],
              objects_ := [("", 0), ("/x", 1), ("/z", 2), ("/y", 3), ("/x/c", 4)] },
     some { Object.new "x" with
              parent_ := some 0, root_ := some 0, url_ := "/x", aliases_ := [3],
              children_ := [("c", 4)], children_vector_ := [4] },
     some { Object.new "z" with parent_ := some 0, root_ := some 0, url_ := "/z" },
     some { Object.new "y" with
              parent_ := some 0, root_ := some 0, url_ := "/y", original_ := some 1 },
     some { Object.new "c" with parent_ := some 1, root_ := some 0, url_ := "/x/c" }] 1 _ rfl
  obtain ⟨w5, h5, hdead, hshell, hcore⟩ := htotal (by decide)
  have hin : ∀ j, j ∈ Object.doomed 3
      [some { Object.new "q" with
                root_ := some 0, url_ := "",
                children_ := [("x", 1), ("y", 3), ("z", 2)], children_vector_ := [1, 3, 2],
                objects_ := [("", 0), ("/x", 1), ("/z", 2), ("/y", 3), ("/x/c", 4)] },
       some { Object.new "x" with
                parent_ := some 0, root_ := some 0, url_ := "/x", aliases_ := [3],
                children_ := [("c", 4)], children_vector_ := [4] },
       some { Object.new "z" with parent_ := some 0, root_ := some 0, url_ := "/z" },
       some { Object.new "y" with
                parent_ := some 0, root_ := some 0, url_ := "/y", original_ := some 1 },
       some { Object.new "c" with parent_ := some 1, root_ := some 0, url_ := "/x/c" }] 1
      ↔ j ∈ [1, 4, 3] := by
    intro j
    have hd : Object.doomed 3
      [some { Object.new "q" with
                root_ := some 0, url_ := "",
                children_ := [("x", 1), ("y", 3), ("z", 2)], children_vector_ := [1, 3, 2],
                objects_ := [("", 0), ("/x", 1), ("/z", 2), ("/y", 3), ("/x/c", 4)] },
       some { Object.new "x" with
                parent_ := some 0, root_ := some 0, url_ := "/x", aliases_ := [3],
                children_ := [("c", 4)], children_vector_ := [4] },
       some { Object.new "z" with parent_ := some 0, root_ := some 0, url_ := "/z" },
       some { Object.new "y" with
                parent_ := some 0, root_ := some 0, url_ := "/y", original_ := some 1 },
       some { Object.new "c" with parent_ := some 1, root_ := some 0, url_ := "/x/c" }] 1
        = [1, 4, 3] := by decide
    rw [hd]
  obtain ⟨q5, hq5, -⟩ := World.some_of_map
    (hshell 0 (fun h => absurd ((hin 0).mp h) (by decide))) rfl
  have hz := hcore 2 (fun h => absurd ((hin 2).mp h) (by decide)) (by decide)
    (fun a ha oa hoa => by
      have ha3 : a = 3 := by simpa using ha
      subst ha3
      have : oa.parent_ = some 0 := by
        have := congrArg (Option.map Object.parent_) hoa
        simpa [World.get, Object.new] using this.symm
      rw [this]
      decide)
  obtain ⟨w1, w2, w3, w4, -, -, -, -, -, -, -, -, -, -, -, -, -, -, -, hindex, hq⟩ :=
    hstages 3 w5 h5
  obtain ⟨z5, hz5, -⟩ := World.some_of_map hz rfl
  obtain ⟨-, -, -, hm, hv⟩ := hq 0 _ q5 rfl rfl hq5
  exact ⟨w5, q5, h5, hdead 1 ((hin 1).mpr (by decide)), hdead 3 ((hin 3).mpr (by decide)),
    hdead 4 ((hin 4).mpr (by decide)), hq5, hindex 0 q5 rfl hq5,
    hm ("z", 2) (by decide) (by rw [hz5]; rfl), hv 2 (by decide) (by rw [hz5]; rfl), hz⟩

end Oscit
